import Mathlib

/-!
# Malloclab block manager: a shallow embedding

The three allocators of `src/malloclab` (`mm-explicit.c`, `mm-implicit.c`,
`mm-segregate.c`) are embedded as pure functions on an explicit machine state.

* Memory is a total map from byte addresses to bytes.  `GET`/`PUT` read and
  write one 4-byte little-endian word, as `*(size_t *)(p)` does on the 32-bit
  target the allocators are written for (headers are 4 bytes, `WSIZE = 4`).
* `size_t` and pointer arithmetic wrap modulo `2^32` (`add32`, `sub32`, `mul32`).
* `NULL` is the address `0`.
* The loops of `find_fit` take a fuel argument; the API functions supply the
  current break address, which bounds the length of every well-formed free list.
-/

namespace Malloclab

/-! ## Machine words -/

/-- The number of values of a 32-bit word. -/
def W32 : Nat := 4294967296

/-- Addition of two `size_t`/pointer values, wrapping at 32 bits. -/
def add32 (a b : Nat) : Nat := (a + b) % W32

/-- Subtraction of two `size_t`/pointer values, wrapping at 32 bits. -/
def sub32 (a b : Nat) : Nat := (a + (W32 - b % W32)) % W32

/-- Multiplication of two `size_t` values, wrapping at 32 bits. -/
def mul32 (a b : Nat) : Nat := (a * b) % W32

/-! ## Constants and macros shared by the three sources -/

/-- Word size in bytes: `#define WSIZE 4`. -/
def WSIZE : Nat := 4

/-- Double word size in bytes: `#define DSIZE 8`. -/
def DSIZE : Nat := 8

/-- Initial heap size in bytes: `#define CHUNKSIZE (1<<12)`. -/
def CHUNKSIZE : Nat := 4096

/-- Byte-addressed memory. -/
abbrev Mem := Nat → Nat

/-- The macro `GET(p)`: read the 4-byte word at address `p`. -/
def GET (m : Mem) (p : Nat) : Nat :=
  m p % 256 + 256 * (m (p + 1) % 256) + 65536 * (m (p + 2) % 256)
    + 16777216 * (m (p + 3) % 256)

/-- The macro `PUT(p, val)`: write the 4-byte word `val` at address `p`. -/
def PUT (m : Mem) (p v : Nat) : Mem := fun a =>
  if a = p then v % 256
  else if a = p + 1 then v / 256 % 256
  else if a = p + 2 then v / 65536 % 256
  else if a = p + 3 then v / 16777216 % 256
  else m a

/-- The macro `PACK(size, alloc)`: `(size) | (alloc)`. -/
def PACK (size alloc : Nat) : Nat := size ||| alloc

/-- The macro `GET_SIZE(p)`: `GET(p) & ~0x7`, the mask being `0xFFFFFFF8`. -/
def GET_SIZE (m : Mem) (p : Nat) : Nat := GET m p &&& 4294967288

/-- The macro `GET_ALLOC(p)`: `GET(p) & 0x1`. -/
def GET_ALLOC (m : Mem) (p : Nat) : Nat := GET m p &&& 1

/-- The macro `HDRP(bp)`: `(char *)(bp) - WSIZE`. -/
def HDRP (bp : Nat) : Nat := sub32 bp WSIZE

/-- The macro `FTRP(bp)`: `(char *)(bp) + GET_SIZE(HDRP(bp)) - DSIZE`. -/
def FTRP (m : Mem) (bp : Nat) : Nat := sub32 (add32 bp (GET_SIZE m (HDRP bp))) DSIZE

/-- The macro `NEXT_BLKP(bp)`: `(char *)(bp) + GET_SIZE((char *)(bp) - WSIZE)`. -/
def NEXT_BLKP (m : Mem) (bp : Nat) : Nat := add32 bp (GET_SIZE m (sub32 bp WSIZE))

/-- The macro `PREV_BLKP(bp)`: `(char *)(bp) - GET_SIZE((char *)(bp) - DSIZE)`. -/
def PREV_BLKP (m : Mem) (bp : Nat) : Nat := sub32 bp (GET_SIZE m (sub32 bp DSIZE))

/-- The macro `NEXT(bp)` (`GET_NEXT(bp)` in the segregated source), read:
`*(void **)((char *)(bp) + WSIZE)`. -/
def NEXT (m : Mem) (bp : Nat) : Nat := GET m (add32 bp WSIZE)

/-- The macro `PREV(bp)` (`GET_PREV(bp)` in the segregated source), read:
`*(void **)(bp)`. -/
def PREV (m : Mem) (bp : Nat) : Nat := GET m bp

/-- The assignment `NEXT(bp) = v`. -/
def SET_NEXT (m : Mem) (bp v : Nat) : Mem := PUT m (add32 bp WSIZE) v

/-- The assignment `PREV(bp) = v`. -/
def SET_PREV (m : Mem) (bp v : Nat) : Mem := PUT m bp v

/-- The libc `memmove(dst, src, n)`: an overlap-safe copy of `n` bytes. -/
def memmove (m : Mem) (dst src n : Nat) : Mem := fun a =>
  if dst ≤ a ∧ a < dst + n then m (src + (a - dst)) else m a

/-- The macro `MAX(x, y)`. -/
def MAX (x y : Nat) : Nat := if x > y then x else y

/-- The macro `MIN(x, y)`. -/
def MIN (x y : Nat) : Nat := if x < y then x else y

/-- The size adjustment of `mm_malloc` and `mm_realloc`:
`if (size <= DSIZE) asize = 2*DSIZE; else asize = DSIZE * ((size + 2*DSIZE - 1) / DSIZE);`
(`ALIGN(size)` with `DDSIZE = 16` in the segregated source), in `size_t` arithmetic. -/
def adjust (size : Nat) : Nat :=
  if size ≤ DSIZE then 2 * DSIZE
  else mul32 DSIZE (sub32 (add32 size (2 * DSIZE)) 1 / DSIZE)

/-- The machine state: the memory, the two variables `mem_brk`, `mem_max_addr` of the heap
provider, and the allocator's globals `heap_listp` and `rover`.  (`mm-segregate.c` leaves
`NEXT_FIT` undefined, so it declares no rover; its functions never touch that field.) -/
structure State where
  mem : Mem
  mem_brk : Nat
  mem_max_addr : Nat
  heap_listp : Nat
  rover : Nat

/-- Modelled from the spec: the heap provider's `extend(n_bytes) → base_address | FAILURE`
(`mem_sbrk` of `memlib.c`, which is not among the sources).  The region is contiguous and
extensions append at the current break; the provider refuses when the new break would pass
its limit `mem_max_addr`.  `none` is the failure value `(void *)-1`. -/
def mem_sbrk (s : State) (incr : Nat) : Option (State × Nat) :=
  if s.mem_brk + incr > s.mem_max_addr then none
  else some ({ s with mem_brk := s.mem_brk + incr }, s.mem_brk)

/-! ## The explicit-list allocator (`mm-explicit.c`) -/

namespace Explicit

/-- The last two statements of `escape_list`, with the rover update before them. -/
def escape_splice (s : State) (bp : Nat) : State :=
  let s1 : State := if s.rover = bp then { s with rover := NEXT s.mem bp } else s
  let m1 := SET_NEXT s1.mem (PREV s1.mem bp) (NEXT s1.mem bp)
  let m2 := SET_PREV m1 (NEXT m1 bp) (PREV m1 bp)
  { s1 with mem := m2 }

/-- The function `escape_list(bp)`: unlink `bp` from the circular free list. -/
def escape_list (s : State) (bp : Nat) : State :=
  if bp = s.heap_listp then
    if bp = NEXT s.mem bp then { s with rover := 0, heap_listp := 0 }
    else escape_splice { s with heap_listp := NEXT s.mem bp } bp
  else escape_splice s bp

/-- The function `insert_list(bp)`: link `bp` in as the new head of the circular free list. -/
def insert_list (s : State) (bp : Nat) : State :=
  if s.heap_listp = 0 then
    let m1 := SET_NEXT s.mem bp bp
    let m2 := SET_PREV m1 bp bp
    { s with mem := m2, rover := bp, heap_listp := bp }
  else
    let m1 := SET_NEXT s.mem bp s.heap_listp
    let m2 := SET_PREV m1 bp (PREV m1 s.heap_listp)
    let m3 := SET_PREV m2 (NEXT m2 bp) bp
    let m4 := SET_NEXT m3 (PREV m3 bp) bp
    { s with mem := m4, heap_listp := bp }

/-- The `do … while` loop of `find_fit` (next fit).  The result is `none` when the fuel runs
out, `some (some bp)` on a hit at `bp`, and `some none` when the loop came back to `oldrover`
without a hit. -/
def find_fit_loop (m : Mem) (asize oldrover : Nat) : Nat → Nat → Option (Option Nat)
  | 0, _ => none
  | fuel + 1, currover =>
    let cur := NEXT m currover
    if asize ≤ GET_SIZE m (HDRP cur) then some (some cur)
    else if oldrover = cur then some none
    else find_fit_loop m asize oldrover fuel cur

/-- The function `find_fit(asize)` under `NEXT_FIT`: the new state (the rover moves) and the
block found, `0` for `NULL`. -/
def find_fit (fuel : Nat) (s : State) (asize : Nat) : Option (State × Nat) :=
  if s.rover = 0 then some (s, 0)
  else
    let oldrover := PREV s.mem s.rover
    match find_fit_loop s.mem asize oldrover fuel oldrover with
    | none => none
    | some (some bp) => some ({ s with rover := bp }, bp)
    | some none => some ({ s with rover := oldrover }, 0)

/-- The function `coalesce(bp)`: boundary-tag coalescing; returns the state and the pointer to
the coalesced block. -/
def coalesce (s : State) (bp : Nat) : State × Nat :=
  let prev_alloc := GET_ALLOC s.mem (FTRP s.mem (PREV_BLKP s.mem bp))
  let next_alloc := GET_ALLOC s.mem (HDRP (NEXT_BLKP s.mem bp))
  let size := GET_SIZE s.mem (HDRP bp)
  if prev_alloc ≠ 0 ∧ next_alloc ≠ 0 then
    (insert_list s bp, bp)
  else
    let r : State × Nat :=
      if prev_alloc ≠ 0 ∧ ¬ next_alloc ≠ 0 then
        let s1 := escape_list s (NEXT_BLKP s.mem bp)
        let size := add32 size (GET_SIZE s1.mem (HDRP (NEXT_BLKP s1.mem bp)))
        let m1 := PUT s1.mem (HDRP bp) (PACK size 0)
        let m2 := PUT m1 (FTRP m1 bp) (PACK size 0)
        ({ s1 with mem := m2 }, bp)
      else if ¬ prev_alloc ≠ 0 ∧ next_alloc ≠ 0 then
        let s1 := escape_list s (PREV_BLKP s.mem bp)
        let size := add32 size (GET_SIZE s1.mem (HDRP (PREV_BLKP s1.mem bp)))
        let m1 := PUT s1.mem (FTRP s1.mem bp) (PACK size 0)
        let m2 := PUT m1 (HDRP (PREV_BLKP m1 bp)) (PACK size 0)
        ({ s1 with mem := m2 }, PREV_BLKP m2 bp)
      else
        let s1 := escape_list s (NEXT_BLKP s.mem bp)
        let s2 := escape_list s1 (PREV_BLKP s1.mem bp)
        let size := add32 size (add32 (GET_SIZE s2.mem (HDRP (PREV_BLKP s2.mem bp)))
                      (GET_SIZE s2.mem (FTRP s2.mem (NEXT_BLKP s2.mem bp))))
        let m1 := PUT s2.mem (HDRP (PREV_BLKP s2.mem bp)) (PACK size 0)
        let m2 := PUT m1 (FTRP m1 (NEXT_BLKP m1 bp)) (PACK size 0)
        ({ s2 with mem := m2 }, PREV_BLKP m2 bp)
    let s3 := r.1
    let bp := r.2
    let s4 : State :=
      if s3.rover > bp ∧ s3.rover < NEXT_BLKP s3.mem bp then { s3 with rover := bp } else s3
    (insert_list s4 bp, bp)

/-- The function `extend_heap(words)`: `none` is the `NULL` result (the provider refused). -/
def extend_heap (s : State) (words : Nat) : Option (State × Nat) :=
  let size := if words % 2 ≠ 0 then mul32 (add32 words 1) WSIZE else mul32 words WSIZE
  match mem_sbrk s size with
  | none => none
  | some (s1, bp) =>
    let m1 := PUT s1.mem (HDRP bp) (PACK size 0)
    let m2 := PUT m1 (FTRP m1 bp) (PACK size 0)
    let m3 := PUT m2 (HDRP (NEXT_BLKP m2 bp)) (PACK 0 1)
    some (coalesce { s1 with mem := m3 } bp)

/-- The function `place(bp, asize)`. -/
def place (s : State) (bp asize : Nat) : State :=
  let s1 := escape_list s bp
  let csize := GET_SIZE s1.mem (HDRP bp)
  let remainer := sub32 csize asize
  if remainer ≤ 2 * DSIZE then
    let m1 := PUT s1.mem (HDRP bp) (PACK csize 1)
    let m2 := PUT m1 (FTRP m1 bp) (PACK csize 1)
    { s1 with mem := m2 }
  else if asize ≥ 100 then
    let m1 := PUT s1.mem (HDRP bp) (PACK remainer 0)
    let m2 := PUT m1 (FTRP m1 bp) (PACK remainer 0)
    let m3 := PUT m2 (HDRP (NEXT_BLKP m2 bp)) (PACK asize 1)
    let m4 := PUT m3 (FTRP m3 (NEXT_BLKP m3 bp)) (PACK asize 1)
    insert_list { s1 with mem := m4 } bp
  else
    let m1 := PUT s1.mem (HDRP bp) (PACK asize 1)
    let m2 := PUT m1 (FTRP m1 bp) (PACK asize 1)
    let m3 := PUT m2 (HDRP (NEXT_BLKP m2 bp)) (PACK remainer 0)
    let m4 := PUT m3 (FTRP m3 (NEXT_BLKP m3 bp)) (PACK remainer 0)
    insert_list { s1 with mem := m4 } (NEXT_BLKP m4 bp)

/-- The tail shared by both exits of `mm_malloc`: `place(bp, asize)` and the step to the
next block when `bp` is still free. -/
def place_and_select (s : State) (bp asize : Nat) : State × Nat :=
  let s1 := place s bp asize
  if GET_ALLOC s1.mem (HDRP bp) ≠ 1 then (s1, NEXT_BLKP s1.mem bp) else (s1, bp)

/-- The function `mm_malloc(size)`: the new state and the returned pointer (`0` for `NULL`);
`none` only when the search loop ran out of fuel. -/
def mm_malloc (s : State) (size : Nat) : Option (State × Nat) :=
  if size = 0 then some (s, 0)
  else
    let asize := adjust size
    match find_fit s.mem_brk s asize with
    | none => none
    | some (s1, bp) =>
      if bp ≠ 0 then some (place_and_select s1 bp asize)
      else
        let extendsize := MAX asize CHUNKSIZE
        match extend_heap s1 (extendsize / WSIZE) with
        | none => some (s1, 0)
        | some (s2, bp) => some (place_and_select s2 bp asize)

/-- The function `mm_free(bp)`. -/
def mm_free (s : State) (bp : Nat) : State :=
  let size := GET_SIZE s.mem (HDRP bp)
  let m1 := PUT s.mem (HDRP bp) (PACK size 0)
  let m2 := PUT m1 (FTRP m1 bp) (PACK size 0)
  (coalesce { s with mem := m2 } bp).1

/-- The function `mm_init()`, started on a provider whose break is the first base address;
`none` is the result `-1`. -/
def mm_init (s : State) : Option State :=
  match mem_sbrk s (DSIZE * 4) with
  | none => none
  | some (s1, p) =>
    let m1 := PUT s1.mem p 0
    let m2 := PUT m1 (add32 p WSIZE) (PACK DSIZE 1)
    let m3 := PUT m2 (add32 p DSIZE) (PACK DSIZE 1)
    let m4 := PUT m3 (add32 p (DSIZE + WSIZE)) (PACK (DSIZE * 2) 0)
    let m5 := PUT m4 (add32 p (DSIZE * 2)) (add32 p (DSIZE * 2))
    let m6 := PUT m5 (add32 p (DSIZE * 2 + WSIZE)) (add32 p (DSIZE * 2))
    let m7 := PUT m6 (add32 p (DSIZE * 2 + DSIZE)) (PACK (DSIZE * 2) 0)
    let m8 := PUT m7 (add32 p (DSIZE * 2 + DSIZE + WSIZE)) (PACK 0 1)
    let s2 : State := { s1 with mem := m8, heap_listp := add32 p (DSIZE * 2),
                                rover := add32 p (DSIZE * 2) }
    match extend_heap s2 (CHUNKSIZE / WSIZE) with
    | none => none
    | some (s3, _) => some s3

/-- The last part of `mm_realloc`: `mm_malloc(size)`, `memmove`, `mm_free(ptr)`.  Here `size`
is the adjusted size, as in the source. -/
def realloc_fallback (s : State) (ptr size csize : Nat) : Option (State × Nat) :=
  match mm_malloc s size with
  | none => none
  | some (s1, new_ptr) =>
    if new_ptr = 0 then some (s1, 0)
    else
      let m1 := memmove s1.mem new_ptr ptr (sub32 (MIN size csize) DSIZE)
      some (mm_free { s1 with mem := m1 } ptr, new_ptr)

/-- The function `mm_realloc(ptr, size)` of `mm-explicit.c`: the new state and the returned
pointer (`0` for `NULL`); `none` only when a search loop ran out of fuel. -/
def mm_realloc (s0 : State) (ptr size0 : Nat) : Option (State × Nat) :=
  if ptr = 0 then mm_malloc s0 size0
  else
    let s : State := if size0 = 0 then mm_free s0 ptr else s0
    let csize := GET_SIZE s.mem (HDRP ptr)
    let size := adjust size0
    if size = csize then some (s, ptr)
    else
      let prev_alloc := GET_ALLOC s.mem (HDRP (PREV_BLKP s.mem ptr))
      let next_alloc := GET_ALLOC s.mem (HDRP (NEXT_BLKP s.mem ptr))
      let next_size := GET_SIZE s.mem (HDRP (NEXT_BLKP s.mem ptr))
      let prev_size := GET_SIZE s.mem (HDRP (PREV_BLKP s.mem ptr))
      let new_cur := sub32 size csize
      let cur_new := sub32 csize size
      if prev_alloc ≠ 0 ∧ next_alloc ≠ 0 then
        if size < csize ∧ cur_new ≥ 4 * WSIZE then
          let m1 := PUT s.mem (HDRP ptr) (PACK size 1)
          let m2 := PUT m1 (FTRP m1 ptr) (PACK size 1)
          let m3 := PUT m2 (HDRP (NEXT_BLKP m2 ptr)) (PACK cur_new 0)
          let m4 := PUT m3 (FTRP m3 (NEXT_BLKP m3 ptr)) (GET m3 (HDRP (NEXT_BLKP m3 ptr)))
          some (insert_list { s with mem := m4 } (NEXT_BLKP m4 ptr), ptr)
        else realloc_fallback s ptr size csize
      else if prev_alloc ≠ 0 ∧ ¬ next_alloc ≠ 0 then
        if size < csize then
          let m1 := PUT s.mem (HDRP ptr) (PACK size 1)
          let m2 := PUT m1 (FTRP m1 ptr) (PACK size 1)
          let m3 := PUT m2 (HDRP (NEXT_BLKP m2 ptr)) (PACK cur_new 0)
          let m4 := PUT m3 (FTRP m3 (NEXT_BLKP m3 ptr)) (GET m3 (HDRP (NEXT_BLKP m3 ptr)))
          some ((coalesce { s with mem := m4 } (NEXT_BLKP m4 ptr)).1, ptr)
        else if sub32 next_size new_cur ≥ 4 * WSIZE then
          let s1 := escape_list s (NEXT_BLKP s.mem ptr)
          let m1 := PUT s1.mem (HDRP ptr) (PACK size 1)
          let m2 := PUT m1 (FTRP m1 ptr) (PACK size 1)
          let m3 := PUT m2 (HDRP (NEXT_BLKP m2 ptr)) (PACK (sub32 next_size new_cur) 0)
          let m4 := PUT m3 (FTRP m3 (NEXT_BLKP m3 ptr)) (GET m3 (HDRP (NEXT_BLKP m3 ptr)))
          some (insert_list { s1 with mem := m4 } (NEXT_BLKP m4 ptr), ptr)
        else realloc_fallback s ptr size csize
      else if ¬ prev_alloc ≠ 0 ∧ next_alloc ≠ 0 then
        if size < csize then
          let m1 := PUT s.mem (HDRP ptr) (PACK cur_new 0)
          let m2 := memmove m1 (NEXT_BLKP m1 ptr) ptr (sub32 size DSIZE)
          let m3 := PUT m2 (FTRP m2 ptr) (GET m2 (HDRP ptr))
          let m4 := PUT m3 (HDRP (NEXT_BLKP m3 ptr)) (PACK size 1)
          let m5 := PUT m4 (FTRP m4 (NEXT_BLKP m4 ptr)) (PACK size 1)
          let ptr1 := NEXT_BLKP m5 ptr
          some ((coalesce { s with mem := m5 } (PREV_BLKP m5 ptr1)).1, ptr1)
        else if sub32 prev_size new_cur ≥ 4 * WSIZE then
          let s1 := escape_list s (PREV_BLKP s.mem ptr)
          let m1 := PUT s1.mem (HDRP (PREV_BLKP s1.mem ptr)) (PACK (sub32 prev_size new_cur) 0)
          let m2 := PUT m1 (FTRP m1 (PREV_BLKP m1 ptr)) (GET m1 (HDRP (PREV_BLKP m1 ptr)))
          let new_ptr := NEXT_BLKP m2 (PREV_BLKP m2 ptr)
          let m3 := memmove m2 new_ptr ptr (sub32 csize DSIZE)
          let m4 := PUT m3 (HDRP new_ptr) (PACK size 1)
          let m5 := PUT m4 (FTRP m4 new_ptr) (PACK size 1)
          some (insert_list { s1 with mem := m5 } (PREV_BLKP m5 new_ptr), new_ptr)
        else realloc_fallback s ptr size csize
      else
        if sub32 (add32 prev_size next_size) new_cur ≥ 4 * WSIZE then
          let pnmn := sub32 (add32 prev_size next_size) new_cur
          let s1 := escape_list s (PREV_BLKP s.mem ptr)
          let s2 := escape_list s1 (NEXT_BLKP s1.mem ptr)
          if size ≥ 100 then
            let m1 := PUT s2.mem (HDRP (PREV_BLKP s2.mem ptr)) (PACK pnmn 0)
            let new_ptr := NEXT_BLKP m1 (PREV_BLKP m1 ptr)
            let m2 := memmove m1 new_ptr ptr (sub32 size DSIZE)
            let m3 := PUT m2 (sub32 new_ptr DSIZE) (PACK pnmn 0)
            let m4 := PUT m3 (HDRP new_ptr) (PACK size 1)
            let m5 := PUT m4 (FTRP m4 new_ptr) (PACK size 1)
            some (insert_list { s2 with mem := m5 } (PREV_BLKP m5 new_ptr), new_ptr)
          else
            let new_ptr := PREV_BLKP s2.mem ptr
            let m1 := PUT s2.mem (HDRP new_ptr) (PACK size 1)
            let m2 := memmove m1 new_ptr ptr (sub32 size DSIZE)
            let m3 := PUT m2 (FTRP m2 new_ptr) (PACK size 1)
            let m4 := PUT m3 (HDRP (NEXT_BLKP m3 new_ptr)) (PACK pnmn 0)
            let m5 := PUT m4 (FTRP m4 (NEXT_BLKP m4 new_ptr)) (PACK pnmn 0)
            some (insert_list { s2 with mem := m5 } (NEXT_BLKP m5 new_ptr), new_ptr)
        else realloc_fallback s ptr size csize

end Explicit

/-! ## The segregated-fits allocator (`mm-segregate.c`) -/

namespace Segregate

/-- Doubled double word size: `#define DDSIZE 16`. -/
def DDSIZE : Nat := 16

/-- Upper bound of size class 0: `#define RANK0 (WSIZE<<3)`. -/
def RANK0 : Nat := WSIZE <<< 3

/-- Upper bound of size class 1: `#define RANK1 (WSIZE<<4)`. -/
def RANK1 : Nat := WSIZE <<< 4

/-- Upper bound of size class 2: `#define RANK2 (RANK0 | RANK1)`. -/
def RANK2 : Nat := RANK0 ||| RANK1

/-- Upper bound of size class 3: `#define RANK3 (WSIZE<<5)`. -/
def RANK3 : Nat := WSIZE <<< 5

/-- Upper bound of size class 4: `#define RANK4 (WSIZE<<6)`. -/
def RANK4 : Nat := WSIZE <<< 6

/-- Upper bound of size class 5: `#define RANK5 (WSIZE<<7)`. -/
def RANK5 : Nat := WSIZE <<< 7

/-- Upper bound of size class 6: `#define RANK6 (WSIZE<<8)`. -/
def RANK6 : Nat := WSIZE <<< 8

/-- Upper bound of size class 7: `#define RANK7 (WSIZE<<9)`. -/
def RANK7 : Nat := WSIZE <<< 9

/-- Upper bound of size class 8: `#define RANK8 (WSIZE<<10)`. -/
def RANK8 : Nat := WSIZE <<< 10

/-- Number of size classes: `#define RANKSIZE 10`. -/
def RANKSIZE : Nat := 10

/-- The address of the root word of a size class: the lvalue of the macro `GET_RANK(rank)`,
`(char *)(heap_listp) + (WSIZE*rank)`. -/
def RANKP (s : State) (rank : Nat) : Nat := add32 s.heap_listp (mul32 WSIZE rank)

/-- The macro `GET_RANK(rank)`, read. -/
def GET_RANK (s : State) (rank : Nat) : Nat := GET s.mem (RANKP s rank)

/-- The function `getRank(size)`. -/
def getRank (size : Nat) : Nat :=
  if size ≤ RANK0 then 0
  else if size ≤ RANK1 then 1
  else if size ≤ RANK2 then 2
  else if size ≤ RANK3 then 3
  else if size ≤ RANK4 then 4
  else if size ≤ RANK5 then 5
  else if size ≤ RANK6 then 6
  else if size ≤ RANK7 then 7
  else if size ≤ RANK8 then 8
  else 9

/-- The function `insert(bp)`: push `bp` on the list of its size class. -/
def insert (s : State) (bp : Nat) : State :=
  let rank := getRank (GET_SIZE s.mem (HDRP bp))
  let s1 : State := { s with mem := SET_NEXT s.mem bp (GET_RANK s rank) }
  let s2 : State :=
    if GET_RANK s1 rank ≠ 0 then { s1 with mem := SET_PREV s1.mem (GET_RANK s1 rank) bp }
    else s1
  { s2 with mem := PUT s2.mem (RANKP s2 rank) bp }

/-- The function `escape(bp)`: unlink `bp` from the list of its size class. -/
def escape (s : State) (bp : Nat) : State :=
  let rank := getRank (GET_SIZE s.mem (HDRP bp))
  if bp = GET_RANK s rank then
    { s with mem := PUT s.mem (RANKP s rank) (NEXT s.mem (GET_RANK s rank)) }
  else
    let m1 := SET_NEXT s.mem (PREV s.mem bp) (NEXT s.mem bp)
    if NEXT m1 bp ≠ 0 then { s with mem := SET_PREV m1 (NEXT m1 bp) (PREV m1 bp) }
    else { s with mem := m1 }

/-- The inner `for` loop of `find_fit` (first fit) over one list.  The result is `none` when
the fuel runs out, `some bp` on a hit and `some 0` at the end of the list. -/
def find_in_list (m : Mem) (asize : Nat) : Nat → Nat → Option Nat
  | 0, _ => none
  | fuel + 1, bp =>
    if bp = 0 then some 0
    else if asize ≤ GET_SIZE m (HDRP bp) then some bp
    else find_in_list m asize fuel (NEXT m bp)

/-- The outer `while (rank < RANKSIZE)` loop of `find_fit`; `n` counts the classes left. -/
def find_from_rank (fuel : Nat) (s : State) (asize : Nat) : Nat → Nat → Option Nat
  | 0, _ => some 0
  | n + 1, rank =>
    match find_in_list s.mem asize fuel (GET_RANK s rank) with
    | none => none
    | some bp => if bp ≠ 0 then some bp else find_from_rank fuel s asize n (rank + 1)

/-- The function `find_fit(asize)` (first fit, `NEXT_FIT` undefined): the block found, `0` for
`NULL`; `none` only when the fuel ran out. -/
def find_fit (fuel : Nat) (s : State) (asize : Nat) : Option Nat :=
  find_from_rank fuel s asize (RANKSIZE - getRank asize) (getRank asize)

/-- The function `coalesce(bp)` of `mm-segregate.c`. -/
def coalesce (s : State) (bp : Nat) : State × Nat :=
  let prev_alloc := GET_ALLOC s.mem (FTRP s.mem (PREV_BLKP s.mem bp))
  let next_alloc := GET_ALLOC s.mem (HDRP (NEXT_BLKP s.mem bp))
  let size := GET_SIZE s.mem (HDRP bp)
  let r : State × Nat :=
    if prev_alloc ≠ 0 ∧ next_alloc ≠ 0 then (s, bp)
    else if prev_alloc ≠ 0 ∧ ¬ next_alloc ≠ 0 then
      let s1 := escape s (NEXT_BLKP s.mem bp)
      let size := add32 size (GET_SIZE s1.mem (HDRP (NEXT_BLKP s1.mem bp)))
      let m1 := PUT s1.mem (HDRP bp) (PACK size 0)
      let m2 := PUT m1 (FTRP m1 bp) (PACK size 0)
      ({ s1 with mem := m2 }, bp)
    else if ¬ prev_alloc ≠ 0 ∧ next_alloc ≠ 0 then
      let s1 := escape s (PREV_BLKP s.mem bp)
      let size := add32 size (GET_SIZE s1.mem (HDRP (PREV_BLKP s1.mem bp)))
      let m1 := PUT s1.mem (FTRP s1.mem bp) (PACK size 0)
      let m2 := PUT m1 (HDRP (PREV_BLKP m1 bp)) (PACK size 0)
      ({ s1 with mem := m2 }, PREV_BLKP m2 bp)
    else
      let s1 := escape s (NEXT_BLKP s.mem bp)
      let s2 := escape s1 (PREV_BLKP s1.mem bp)
      let size := add32 size (add32 (GET_SIZE s2.mem (HDRP (PREV_BLKP s2.mem bp)))
                    (GET_SIZE s2.mem (FTRP s2.mem (NEXT_BLKP s2.mem bp))))
      let m1 := PUT s2.mem (HDRP (PREV_BLKP s2.mem bp)) (PACK size 0)
      let m2 := PUT m1 (FTRP m1 (NEXT_BLKP m1 bp)) (PACK size 0)
      ({ s2 with mem := m2 }, PREV_BLKP m2 bp)
  (insert r.1 r.2, r.2)

/-- The function `extend_heap(words)`: `none` is the `NULL` result (the provider refused). -/
def extend_heap (s : State) (words : Nat) : Option (State × Nat) :=
  let size := if words % 2 ≠ 0 then mul32 (add32 words 1) WSIZE else mul32 words WSIZE
  match mem_sbrk s size with
  | none => none
  | some (s1, bp) =>
    let m1 := PUT s1.mem (HDRP bp) (PACK size 0)
    let m2 := PUT m1 (FTRP m1 bp) (PACK size 0)
    let m3 := PUT m2 (HDRP (NEXT_BLKP m2 bp)) (PACK 0 1)
    some (coalesce { s1 with mem := m3 } bp)

/-- The function `place(bp, asize)` of `mm-segregate.c`; the cut-off for tail placement is
`(WSIZE<<4)|(WSIZE<<2)`. -/
def place (s : State) (bp asize : Nat) : State :=
  let s1 := escape s bp
  let csize := GET_SIZE s1.mem (HDRP bp)
  let remainder := sub32 csize asize
  if remainder ≤ DDSIZE then
    let m1 := PUT s1.mem (HDRP bp) (PACK csize 1)
    let m2 := PUT m1 (FTRP m1 bp) (PACK csize 1)
    { s1 with mem := m2 }
  else if asize ≥ ((WSIZE <<< 4) ||| (WSIZE <<< 2)) then
    let m1 := PUT s1.mem (HDRP bp) (PACK remainder 0)
    let m2 := PUT m1 (FTRP m1 bp) (PACK remainder 0)
    let m3 := PUT m2 (HDRP (NEXT_BLKP m2 bp)) (PACK asize 1)
    let m4 := PUT m3 (FTRP m3 (NEXT_BLKP m3 bp)) (PACK asize 1)
    insert { s1 with mem := m4 } bp
  else
    let m1 := PUT s1.mem (HDRP bp) (PACK asize 1)
    let m2 := PUT m1 (FTRP m1 bp) (PACK asize 1)
    let m3 := PUT m2 (HDRP (NEXT_BLKP m2 bp)) (PACK remainder 0)
    let m4 := PUT m3 (FTRP m3 (NEXT_BLKP m3 bp)) (PACK remainder 0)
    insert { s1 with mem := m4 } (NEXT_BLKP m4 bp)

/-- The tail shared by both exits of `mm_malloc`: `place(bp, asize)` and the step to the
next block when `bp` is still free. -/
def place_and_select (s : State) (bp asize : Nat) : State × Nat :=
  let s1 := place s bp asize
  if GET_ALLOC s1.mem (HDRP bp) = 0 then (s1, NEXT_BLKP s1.mem bp) else (s1, bp)

/-- The function `mm_malloc(size)` of `mm-segregate.c` (it has no test for `size == 0`): the
new state and the returned pointer (`0` for `NULL`); `none` only when a search loop ran out of
fuel. -/
def mm_malloc (s : State) (size : Nat) : Option (State × Nat) :=
  let asize := adjust size
  match find_fit s.mem_brk s asize with
  | none => none
  | some bp =>
    if bp ≠ 0 then some (place_and_select s bp asize)
    else
      let extendsize := MAX asize CHUNKSIZE
      match extend_heap s (extendsize / WSIZE) with
      | none => some (s, 0)
      | some (s2, bp) => some (place_and_select s2 bp asize)

/-- The function `mm_free(bp)`. -/
def mm_free (s : State) (bp : Nat) : State :=
  let size := GET_SIZE s.mem (HDRP bp)
  let m1 := PUT s.mem (HDRP bp) (PACK size 0)
  let m2 := PUT m1 (FTRP m1 bp) (PACK size 0)
  (coalesce { s with mem := m2 } bp).1

/-- The loop of `mm_init` that clears the ten root words: `PUT(heap_listp+(i*WSIZE), NULL)`
for `i = 2, …, RANKSIZE + 1`; `n` counts the words left. -/
def init_roots (m : Mem) (p : Nat) : Nat → Nat → Mem
  | 0, _ => m
  | n + 1, i => init_roots (PUT m (add32 p (mul32 i WSIZE)) 0) p n (i + 1)

/-- The function `mm_init()`, started on a provider whose break is the first base address;
`none` is the result `-1`. -/
def mm_init (s : State) : Option State :=
  match mem_sbrk s ((RANKSIZE + 4) * WSIZE) with
  | none => none
  | some (s1, p) =>
    let m1 := PUT s1.mem p 0
    let m2 := PUT m1 (add32 p (1 * WSIZE)) (PACK ((RANKSIZE + 2) * WSIZE) 1)
    let m3 := init_roots m2 p RANKSIZE 2
    let m4 := PUT m3 (add32 p ((RANKSIZE + 2) * WSIZE)) (PACK ((RANKSIZE + 2) * WSIZE) 1)
    let m5 := PUT m4 (add32 p ((RANKSIZE + 3) * WSIZE)) (PACK 0 1)
    let s2 : State := { s1 with mem := m5, heap_listp := add32 p DSIZE }
    match extend_heap s2 (CHUNKSIZE / WSIZE) with
    | none => none
    | some (s3, _) => some s3

/-- The last part of `mm_realloc`: `mm_malloc(size)`, `memmove`, `mm_free(ptr)`.  Here `size`
is the adjusted size, as in the source. -/
def realloc_fallback (s : State) (ptr size csize : Nat) : Option (State × Nat) :=
  match mm_malloc s size with
  | none => none
  | some (s1, new_ptr) =>
    if new_ptr = 0 then some (s1, 0)
    else
      let m1 := memmove s1.mem new_ptr ptr (sub32 (MIN size csize) DSIZE)
      some (mm_free { s1 with mem := m1 } ptr, new_ptr)

/-- The function `mm_realloc(ptr, size)` of `mm-segregate.c`: the new state and the returned
pointer (`0` for `NULL`); `none` only when a search loop ran out of fuel. -/
def mm_realloc (s0 : State) (ptr size0 : Nat) : Option (State × Nat) :=
  if ptr = 0 then mm_malloc s0 size0
  else
    let s : State := if size0 = 0 then mm_free s0 ptr else s0
    let csize := GET_SIZE s.mem (HDRP ptr)
    let size := adjust size0
    if size = csize then some (s, ptr)
    else
      let prev_alloc := GET_ALLOC s.mem (HDRP (PREV_BLKP s.mem ptr))
      let next_alloc := GET_ALLOC s.mem (HDRP (NEXT_BLKP s.mem ptr))
      let next_size := GET_SIZE s.mem (HDRP (NEXT_BLKP s.mem ptr))
      let prev_size := GET_SIZE s.mem (HDRP (PREV_BLKP s.mem ptr))
      let new_cur := sub32 size csize
      let cur_new := sub32 csize size
      if prev_alloc ≠ 0 ∧ next_alloc ≠ 0 then
        if size < csize ∧ cur_new ≥ DDSIZE then
          let m1 := PUT s.mem (HDRP ptr) (PACK size 1)
          let m2 := PUT m1 (FTRP m1 ptr) (PACK size 1)
          let m3 := PUT m2 (HDRP (NEXT_BLKP m2 ptr)) (PACK cur_new 0)
          let m4 := PUT m3 (FTRP m3 (NEXT_BLKP m3 ptr)) (GET m3 (HDRP (NEXT_BLKP m3 ptr)))
          some (insert { s with mem := m4 } (NEXT_BLKP m4 ptr), ptr)
        else realloc_fallback s ptr size csize
      else if prev_alloc ≠ 0 ∧ ¬ next_alloc ≠ 0 then
        if size < csize then
          let m1 := PUT s.mem (HDRP ptr) (PACK size 1)
          let m2 := PUT m1 (FTRP m1 ptr) (PACK size 1)
          let m3 := PUT m2 (HDRP (NEXT_BLKP m2 ptr)) (PACK cur_new 0)
          let m4 := PUT m3 (FTRP m3 (NEXT_BLKP m3 ptr)) (GET m3 (HDRP (NEXT_BLKP m3 ptr)))
          some ((coalesce { s with mem := m4 } (NEXT_BLKP m4 ptr)).1, ptr)
        else if sub32 next_size new_cur ≥ DDSIZE then
          let s1 := escape s (NEXT_BLKP s.mem ptr)
          let m1 := PUT s1.mem (HDRP ptr) (PACK size 1)
          let m2 := PUT m1 (FTRP m1 ptr) (PACK size 1)
          let m3 := PUT m2 (HDRP (NEXT_BLKP m2 ptr)) (PACK (sub32 next_size new_cur) 0)
          let m4 := PUT m3 (FTRP m3 (NEXT_BLKP m3 ptr)) (GET m3 (HDRP (NEXT_BLKP m3 ptr)))
          some (insert { s1 with mem := m4 } (NEXT_BLKP m4 ptr), ptr)
        else realloc_fallback s ptr size csize
      else if ¬ prev_alloc ≠ 0 ∧ next_alloc ≠ 0 then
        if size < csize then
          let m1 := PUT s.mem (HDRP ptr) (PACK cur_new 0)
          let m2 := memmove m1 (NEXT_BLKP m1 ptr) ptr (sub32 size DSIZE)
          let m3 := PUT m2 (FTRP m2 ptr) (GET m2 (HDRP ptr))
          let m4 := PUT m3 (HDRP (NEXT_BLKP m3 ptr)) (PACK size 1)
          let m5 := PUT m4 (FTRP m4 (NEXT_BLKP m4 ptr)) (PACK size 1)
          let ptr1 := NEXT_BLKP m5 ptr
          some ((coalesce { s with mem := m5 } (PREV_BLKP m5 ptr1)).1, ptr1)
        else if sub32 prev_size new_cur ≥ DDSIZE then
          let s1 := escape s (PREV_BLKP s.mem ptr)
          let m1 := PUT s1.mem (HDRP (PREV_BLKP s1.mem ptr)) (PACK (sub32 prev_size new_cur) 0)
          let m2 := PUT m1 (FTRP m1 (PREV_BLKP m1 ptr)) (GET m1 (HDRP (PREV_BLKP m1 ptr)))
          let new_ptr := NEXT_BLKP m2 (PREV_BLKP m2 ptr)
          let m3 := memmove m2 new_ptr ptr (sub32 csize DSIZE)
          let m4 := PUT m3 (HDRP new_ptr) (PACK size 1)
          let m5 := PUT m4 (FTRP m4 new_ptr) (PACK size 1)
          some (insert { s1 with mem := m5 } (PREV_BLKP m5 new_ptr), new_ptr)
        else realloc_fallback s ptr size csize
      else
        if sub32 (add32 prev_size next_size) new_cur ≥ DDSIZE then
          let pnmn := sub32 (add32 prev_size next_size) new_cur
          let s1 := escape s (PREV_BLKP s.mem ptr)
          let s2 := escape s1 (NEXT_BLKP s1.mem ptr)
          if size ≥ 100 then
            let m1 := PUT s2.mem (HDRP (PREV_BLKP s2.mem ptr)) (PACK pnmn 0)
            let new_ptr := NEXT_BLKP m1 (PREV_BLKP m1 ptr)
            let m2 := memmove m1 new_ptr ptr (sub32 size DSIZE)
            let m3 := PUT m2 (sub32 new_ptr DSIZE) (PACK pnmn 0)
            let m4 := PUT m3 (HDRP new_ptr) (PACK size 1)
            let m5 := PUT m4 (FTRP m4 new_ptr) (PACK size 1)
            some (insert { s2 with mem := m5 } (PREV_BLKP m5 new_ptr), new_ptr)
          else
            let new_ptr := PREV_BLKP s2.mem ptr
            let m1 := PUT s2.mem (HDRP new_ptr) (PACK size 1)
            let m2 := memmove m1 new_ptr ptr (sub32 size DSIZE)
            let m3 := PUT m2 (FTRP m2 new_ptr) (PACK size 1)
            let m4 := PUT m3 (HDRP (NEXT_BLKP m3 new_ptr)) (PACK pnmn 0)
            let m5 := PUT m4 (FTRP m4 (NEXT_BLKP m4 new_ptr)) (PACK pnmn 0)
            some (insert { s2 with mem := m5 } (NEXT_BLKP m5 new_ptr), new_ptr)
        else realloc_fallback s ptr size csize

end Segregate

/-! ## Specification predicates -/

/-- The specification of the size adjustment at one request size: the adjusted size is 16 for
requests of at most 8 bytes, and otherwise it is the smallest multiple of 8 that is at least
`size + 8`. -/
def AdjustSpec (size : Nat) : Prop :=
  (size ≤ 8 → adjust size = 16) ∧
  (8 < size → adjust size % 8 = 0 ∧ size + 8 ≤ adjust size ∧
    ∀ k, k % 8 = 0 → size + 8 ≤ k → adjust size ≤ k)

/-! ## The implicit-style allocator (`mm-implicit.c`)

`mm-implicit.c` has the same text as `mm-explicit.c` (the same macros, `mm_init`, `mm_malloc`,
`mm_free`, `mm_checkheap` and helper routines, with `NEXT_FIT` defined) except for the body of
`mm_realloc`; its functions other than `mm_realloc` are therefore the ones of `Explicit`. -/

namespace Implicit

/-- The function `mm_realloc(ptr, size)` of `mm-implicit.c`.  The variable `remainder` is a
`size_t`, so the test `remainder < 0` is a comparison of an unsigned word with zero. -/
def mm_realloc (s0 : State) (ptr size0 : Nat) : Option (State × Nat) :=
  if ptr = 0 then Explicit.mm_malloc s0 size0
  else
    let s : State := if size0 = 0 then Explicit.mm_free s0 ptr else s0
    let csize := GET_SIZE s.mem (HDRP ptr)
    let tempsize := size0
    let size := adjust size0
    let remainder := sub32 csize size
    if remainder = 0 then some (s, ptr)
    else
      let fallback : Option (State × Nat) :=
        match Explicit.mm_malloc s tempsize with
        | none => none
        | some (s1, new_ptr) =>
          if new_ptr = 0 then some (s1, 0)
          else
            let oldsize := sub32 (GET_SIZE s1.mem (HDRP ptr)) DSIZE
            let m1 := memmove s1.mem new_ptr ptr (MIN tempsize oldsize)
            some (Explicit.mm_free { s1 with mem := m1 } ptr, new_ptr)
      if remainder < 0 ∧ GET_ALLOC s.mem (HDRP (NEXT_BLKP s.mem ptr)) = 0 then
        let next_block := NEXT_BLKP s.mem ptr
        let nsize := GET_SIZE s.mem (HDRP next_block)
        let diffsize := sub32 size csize
        if nsize ≥ add32 diffsize (2 * DSIZE) then
          let m1 := PUT s.mem (HDRP ptr) (PACK size 1)
          let m2 := PUT m1 (FTRP m1 ptr) (PACK size 1)
          let new_next_block := NEXT_BLKP m2 ptr
          let m3 := PUT m2 (HDRP new_next_block) (PACK (sub32 nsize diffsize) 0)
          let m4 := PUT m3 (FTRP m3 new_next_block) (PACK (sub32 nsize diffsize) 0)
          let s1 : State :=
            if s.heap_listp = next_block then { s with heap_listp := new_next_block } else s
          let s2 : State :=
            if s1.rover = next_block then { s1 with rover := new_next_block } else s1
          let m5 := SET_PREV m4 new_next_block (PREV m4 next_block)
          let m6 := SET_NEXT m5 new_next_block (NEXT m5 next_block)
          let m7 := SET_NEXT m6 (PREV m6 next_block) new_next_block
          let m8 := SET_PREV m7 (NEXT m7 next_block) new_next_block
          some ({ s2 with mem := m8 }, ptr)
        else fallback
      else fallback

end Implicit

/-! ## The consistency checkers (`mm_checkheap`) -/

/-- The diagnostic messages of `mm_checkheap` and `checkblock` (the listing printed under
`verbose` is not a diagnostic and is left out): `Bad prologue header`, `Error: %p is not
doubleword aligned`, `Error: header does not match footer`, the orphan report of the
segregated checker (a free block that is in no bucket list), and `Bad epilogue header`. -/
inductive Diag where
  | badPrologue : Diag
  | notAligned : Nat → Diag
  | tagMismatch : Nat → Diag
  | orphan : Nat → Diag
  | badEpilogue : Diag
  deriving DecidableEq, Repr

/-- The function `checkblock(bp)`: the messages it prints. -/
def checkblock (m : Mem) (bp : Nat) : List Diag :=
  (if bp % 8 ≠ 0 then [Diag.notAligned bp] else []) ++
  (if GET m (HDRP bp) ≠ GET m (FTRP m bp) then [Diag.tagMismatch bp] else [])

/-- The last test of `mm_checkheap`, on the block pointer at which the walk stopped. -/
def check_epilogue (m : Mem) (bp : Nat) : List Diag :=
  if GET_SIZE m (HDRP bp) ≠ 0 ∨ GET_ALLOC m (HDRP bp) = 0 then [Diag.badEpilogue] else []

namespace Explicit

/-- The walk of `mm_checkheap`: `for (bp = heap_listp; GET_SIZE(HDRP(bp)) > 0;
bp = NEXT_BLKP(bp)) checkblock(bp);`.  The result is the list of block pointers visited with
the messages printed, and the pointer at which the loop stopped; `none` when the fuel ran
out. -/
def check_walk (m : Mem) : Nat → Nat → Option (List Nat × List Diag × Nat)
  | 0, _ => none
  | fuel + 1, bp =>
    if GET_SIZE m (HDRP bp) > 0 then
      match check_walk m fuel (NEXT_BLKP m bp) with
      | none => none
      | some (vis, ds, e) => some (bp :: vis, checkblock m bp ++ ds, e)
    else some ([], [], bp)

/-- The function `mm_checkheap` of `mm-explicit.c` (and `mm-implicit.c`): the block pointers
its walk visits and the diagnostic messages it prints.  It writes nothing. -/
def mm_checkheap (s : State) : Option (List Nat × List Diag) :=
  let d1 : List Diag :=
    if GET_SIZE s.mem (HDRP s.heap_listp) ≠ DSIZE ∨ GET_ALLOC s.mem (HDRP s.heap_listp) = 0
    then [Diag.badPrologue] else []
  let d2 := checkblock s.mem s.heap_listp
  match check_walk s.mem s.mem_brk s.heap_listp with
  | none => none
  | some (vis, ds, e) => some (vis, d1 ++ d2 ++ ds ++ check_epilogue s.mem e)

end Explicit

namespace Segregate

/-- The inner loop of `toggleMarkFreeBlock` over one bucket list:
`for (bp = GET_RANK(rank); bp != NULL; bp = GET_NEXT(bp)) PUT(HDRP(bp), GET(HDRP(bp)) ^ 4);`.
`none` when the fuel ran out. -/
def toggle_list : Mem → Nat → Nat → Option Mem
  | _, 0, _ => none
  | m, fuel + 1, bp =>
    if bp = 0 then some m
    else
      let m1 := PUT m (HDRP bp) (GET m (HDRP bp) ^^^ 4)
      toggle_list m1 fuel (NEXT m1 bp)

/-- The outer loop of `toggleMarkFreeBlock`; `n` counts the classes left. -/
def toggle_ranks (fuel : Nat) : State → Nat → Nat → Option State
  | s, 0, _ => some s
  | s, n + 1, rank =>
    match toggle_list s.mem fuel (GET_RANK s rank) with
    | none => none
    | some m1 => toggle_ranks fuel { s with mem := m1 } n (rank + 1)

/-- The function `toggleMarkFreeBlock()`. -/
def toggleMarkFreeBlock (s : State) : Option State :=
  toggle_ranks s.mem_brk s RANKSIZE 0

/-- The walk of `mm_checkheap` in `mm-segregate.c`, with the orphan test before `checkblock`. -/
def check_walk (m : Mem) : Nat → Nat → Option (List Nat × List Diag × Nat)
  | 0, _ => none
  | fuel + 1, bp =>
    if GET_SIZE m (HDRP bp) > 0 then
      let d1 : List Diag :=
        if GET_ALLOC m (HDRP bp) = 0 ∧ GET m (HDRP bp) &&& 4 = 0 then [Diag.orphan bp] else []
      match check_walk m fuel (NEXT_BLKP m bp) with
      | none => none
      | some (vis, ds, e) => some (bp :: vis, d1 ++ checkblock m bp ++ ds, e)
    else some ([], [], bp)

/-- The function `mm_checkheap` of `mm-segregate.c`: the state it leaves, the block pointers
its walk visits and the diagnostic messages it prints. -/
def mm_checkheap (s : State) : Option (State × List Nat × List Diag) :=
  let d1 : List Diag :=
    if GET_SIZE s.mem (HDRP s.heap_listp) ≠ (RANKSIZE + 2) * WSIZE ∨
        GET_ALLOC s.mem (HDRP s.heap_listp) = 0
    then [Diag.badPrologue] else []
  let d2 := checkblock s.mem s.heap_listp
  match toggleMarkFreeBlock s with
  | none => none
  | some s1 =>
    match check_walk s1.mem s1.mem_brk s1.heap_listp with
    | none => none
    | some (vis, ds, e) =>
      match toggleMarkFreeBlock s1 with
      | none => none
      | some s2 => some (s2, vis, d1 ++ d2 ++ ds ++ check_epilogue s2.mem e)

end Segregate

/-! ## Concrete runs -/

/-- A provider with all memory bytes zero, first base address `lo` and limit `max`, before
`mm_init`. -/
def zeroState (lo max : Nat) : State :=
  { mem := fun _ => 0, mem_brk := lo, mem_max_addr := max, heap_listp := 0, rover := 0 }

/-- The caller stores the bytes `bs` at the address `p`, inside a payload it owns. -/
def user_write (s : State) (p : Nat) (bs : List Nat) : State :=
  { s with mem := fun a => if p ≤ a ∧ a < p + bs.length then bs.getD (a - p) 0 else s.mem a }

/-- The four bytes of a 32-bit word, lowest first. -/
def word_bytes (v : Nat) : List Nat :=
  [v % 256, v / 256 % 256, v / 65536 % 256, v / 16777216 % 256]

/-- The `n` bytes stored at the address `p`. -/
def read_bytes (s : State) (p n : Nat) : List Nat := (List.range n).map (fun i => s.mem (p + i))

/-- A direct check of the heap map: walk from the block pointer `bp` by `bp + size` up to the
break `brk`, requiring of every block a size of at least 16, status bits 0 or 1, a footer
word equal to the header word, and at the end the epilogue header `PACK(0, 1)` in the last
word before the break.  The result lists the blocks met (pointer, size, allocated bit), and is
`none` when a requirement fails or the fuel runs out. -/
def heap_walk (m : Mem) (brk : Nat) : Nat → Nat → Option (List (Nat × Nat × Nat))
  | 0, _ => none
  | fuel + 1, bp =>
    if bp = brk then (if GET m (bp - 4) = 1 then some [] else none)
    else if bp > brk then none
    else
      let h := GET m (bp - 4)
      let sz := GET_SIZE m (bp - 4)
      if sz < 16 ∨ h % 8 > 1 ∨ bp + sz > brk then none
      else if GET m (bp + sz - 8) ≠ h then none
      else (heap_walk m brk fuel (bp + sz)).map (fun l => (bp, sz, h % 2) :: l)

/-- The members of a circular list, met by following `NEXT` from `x` until `root` comes up
again; `none` when the fuel runs out. -/
def cycle_members (m : Mem) (root : Nat) : Nat → Nat → Option (List Nat)
  | 0, _ => none
  | fuel + 1, x =>
    if NEXT m x = root then some [x] else (cycle_members m root fuel (NEXT m x)).map (x :: ·)

/-- The members of a null-terminated list, met by following `NEXT` from `x`; `none` when the
fuel runs out. -/
def list_members (m : Mem) : Nat → Nat → Option (List Nat)
  | 0, _ => none
  | fuel + 1, x => if x = 0 then some [] else (list_members m fuel (NEXT m x)).map (x :: ·)

namespace Explicit

/-- The run `mm_init; a = mm_malloc(8); b = mm_malloc(8); c = mm_malloc(64); mm_free(b);
q = mm_realloc(a, 40)` on a zeroed provider at base 4096: the states before and after the
last call, and `a`, `b`, `c`, `q`. -/
def run_grow_right : Option (State × State × Nat × Nat × Nat × Nat) := do
  let s ← mm_init (zeroState 4096 1048576)
  let (s, a) ← mm_malloc s 8
  let (s, b) ← mm_malloc s 8
  let (s, c) ← mm_malloc s 64
  let s := mm_free s b
  let (s1, q) ← mm_realloc s a 40
  pure (s, s1, a, b, c, q)

/-- The run of `run_grow_right`, after which the caller stores four words in its live
payload `c` (at `c + 20`, `c + 40`, `c + 44`, `c + 48`) and calls `r = mm_malloc(8)`: the
pointers `c` and `r`. -/
def run_misaligned : Option (Nat × Nat) := do
  let (_, s, _, _, c, _) ← run_grow_right
  let s := user_write s (c + 20) (word_bytes (c + 44))
  let s := user_write s (c + 40) (word_bytes 16 ++ word_bytes (c + 16) ++ word_bytes (c + 44))
  let (_, r) ← mm_malloc s 8
  pure (c, r)

/-- The run `mm_init; x = mm_malloc(128); w = mm_malloc(3960); mm_free(x); p = mm_malloc(100);`
the caller stores 100 bytes of value 65 at `p`; `q = mm_realloc(p, 136)`: the final state and
`p`, `q`. -/
def run_grow_left : Option (State × Nat × Nat) := do
  let s ← mm_init (zeroState 4096 1048576)
  let (s, x) ← mm_malloc s 128
  let (s, _) ← mm_malloc s 3960
  let s := mm_free s x
  let (s, p) ← mm_malloc s 100
  let s := user_write s p (List.replicate 100 65)
  let (s, q) ← mm_realloc s p 136
  pure (s, p, q)

/-- The run `mm_init; p = mm_malloc(8); q = mm_realloc(p, 0)` next to the run
`mm_init; p = mm_malloc(8); mm_free(p)`: the state after `mm_realloc`, the state after
`mm_free`, and `p`, `q`. -/
def run_realloc_zero : Option (State × State × Nat × Nat) := do
  let s ← mm_init (zeroState 4096 1048576)
  let (s, p) ← mm_malloc s 8
  let (s1, q) ← mm_realloc s p 0
  pure (s1, mm_free s p, p, q)

/-- The run `mm_init; a = mm_malloc(8); b = mm_malloc(8); mm_free(a); r = mm_malloc(5000)` on
a provider whose limit is reached by `mm_init`: the states before and after the last call and
`r`. -/
def run_refused : Option (State × State × Nat) := do
  let s ← mm_init (zeroState 4096 8224)
  let (s, a) ← mm_malloc s 8
  let (s, _) ← mm_malloc s 8
  let s := mm_free s a
  let (s1, r) ← mm_malloc s 5000
  pure (s, s1, r)

/-- The run `mm_init; p = mm_malloc(24); mm_checkheap`: the state checked, `p`, the block
pointers visited by the checker's walk and the messages printed. -/
def run_checkheap : Option (State × Nat × List Nat × List Diag) := do
  let s ← mm_init (zeroState 4096 1048576)
  let (s, p) ← mm_malloc s 24
  let (vis, ds) ← mm_checkheap s
  pure (s, p, vis, ds)

/-- The state after `mm_init; mm_malloc(8)` on a zeroed provider at base 4096 (the initial
state itself if a call fails). -/
def demo_state : State :=
  match mm_init (zeroState 4096 1048576) with
  | none => zeroState 4096 1048576
  | some s =>
    match mm_malloc s 8 with
    | none => s
    | some (s1, _) => s1

end Explicit

namespace Segregate

/-- The run `mm_init; a = mm_malloc(8); b = mm_malloc(8); c = mm_malloc(64); mm_free(b);
q = mm_realloc(a, 40)` on a zeroed provider at base 4096: the states before and after the
last call, and `a`, `b`, `c`, `q`. -/
def run_grow_right : Option (State × State × Nat × Nat × Nat × Nat) := do
  let s ← mm_init (zeroState 4096 1048576)
  let (s, a) ← mm_malloc s 8
  let (s, b) ← mm_malloc s 8
  let (s, c) ← mm_malloc s 64
  let s := mm_free s b
  let (s1, q) ← mm_realloc s a 40
  pure (s, s1, a, b, c, q)

/-- The run `mm_init; x = mm_malloc(128); w = mm_malloc(3944); mm_free(x); p = mm_malloc(100);`
the caller stores 100 bytes of value 65 at `p`; `q = mm_realloc(p, 136)`: the final state and
`p`, `q`. -/
def run_grow_left : Option (State × Nat × Nat) := do
  let s ← mm_init (zeroState 4096 1048576)
  let (s, x) ← mm_malloc s 128
  let (s, _) ← mm_malloc s 3944
  let s := mm_free s x
  let (s, p) ← mm_malloc s 100
  let s := user_write s p (List.replicate 100 65)
  let (s, q) ← mm_realloc s p 136
  pure (s, p, q)

/-- The run `mm_init; p = mm_malloc(0)`: the states before and after the call and `p`. -/
def run_malloc_zero : Option (State × State × Nat) := do
  let s ← mm_init (zeroState 4096 1048576)
  let (s1, p) ← mm_malloc s 0
  pure (s, s1, p)

/-- The run `mm_init; p = mm_malloc(24); mm_checkheap`: the state checked, the state left by
the checker, `p`, the block pointers visited by the checker's walk and the messages
printed. -/
def run_checkheap : Option (State × State × Nat × List Nat × List Diag) := do
  let s ← mm_init (zeroState 4096 1048576)
  let (s, p) ← mm_malloc s 24
  let (s1, vis, ds) ← mm_checkheap s
  pure (s, s1, p, vis, ds)

/-- The state after `mm_init; mm_malloc(8)` on a zeroed provider at base 4096 (the initial
state itself if a call fails). -/
def demo_state : State :=
  match mm_init (zeroState 4096 1048576) with
  | none => zeroState 4096 1048576
  | some s =>
    match mm_malloc s 8 with
    | none => s
    | some (s1, _) => s1

end Segregate

/-- The number of bytes `extend_heap(words)` asks of the provider:
`(words % 2) ? (words+1) * WSIZE : words * WSIZE`. -/
def ext_bytes (words : Nat) : Nat :=
  if words % 2 ≠ 0 then mul32 (add32 words 1) WSIZE else mul32 words WSIZE

/-- In `mm_malloc` of `mm-explicit.c` with adjusted size `asize`, the search misses and the
provider refuses the extension that is then requested. -/
def Explicit.refused (s : State) (asize : Nat) : Bool :=
  match Explicit.find_fit s.mem_brk s asize with
  | some (s1, bp) =>
    decide (bp = 0) && (mem_sbrk s1 (ext_bytes (MAX asize CHUNKSIZE / WSIZE))).isNone
  | none => false

/-- In `mm_malloc` of `mm-segregate.c` with adjusted size `asize`, the search misses and the
provider refuses the extension that is then requested. -/
def Segregate.refused (s : State) (asize : Nat) : Bool :=
  match Segregate.find_fit s.mem_brk s asize with
  | some bp => decide (bp = 0) && (mem_sbrk s (ext_bytes (MAX asize CHUNKSIZE / WSIZE))).isNone
  | none => false

/-- The state before the last call of `Explicit.run_refused`: `mm_init; a = mm_malloc(8);
b = mm_malloc(8); mm_free(a)` on a provider whose limit is reached by `mm_init` (the initial
state itself if a call fails). -/
def Explicit.full_state : State :=
  match Explicit.run_refused with
  | some (s, _, _) => s
  | none => zeroState 4096 8224

/-- The state after `mm_init` of `mm-segregate.c` on a provider whose limit is reached by
`mm_init` (the initial state itself if the call fails). -/
def Segregate.full_state : State :=
  match Segregate.mm_init (zeroState 4096 8248) with
  | some s => s
  | none => zeroState 4096 8248

/-- The word `r` is the head of a null-terminated list with the members `l`, linked by the
`NEXT` words. -/
def IsList (m : Mem) : Nat → List Nat → Prop
  | r, [] => r = 0
  | r, x :: xs => r = x ∧ x ≠ 0 ∧ IsList m (NEXT m x) xs

/-- One step of `toggleMarkFreeBlock`: `PUT(HDRP(bp), GET(HDRP(bp)) ^ 4)`. -/
def Segregate.toggle_mark (m : Mem) (x : Nat) : Mem := PUT m (HDRP x) (GET m (HDRP x) ^^^ 4)

/-- The members of the bucket lists `L k`, `L (k+1)`, …, `L (k+n-1)`, in the order in which
`toggleMarkFreeBlock` meets them. -/
def bucket_members (L : Nat → List Nat) : Nat → Nat → List Nat
  | _, 0 => []
  | k, n + 1 => L k ++ bucket_members L (k + 1) n

/-- The bucket lists of `Segregate.demo_state`: the free block 4168 of 4080 bytes is in
list 8. -/
def Segregate.demo_buckets (k : Nat) : List Nat := if k = 8 then [4168] else []

/-- The upper bounds of the size classes 0 to 8: `RANK0`, …, `RANK8`. -/
def Segregate.rank_bounds : List Nat :=
  [Segregate.RANK0, Segregate.RANK1, Segregate.RANK2, Segregate.RANK3, Segregate.RANK4,
   Segregate.RANK5, Segregate.RANK6, Segregate.RANK7, Segregate.RANK8]

namespace Explicit

/-- The run `mm_init; p = mm_malloc(24); mm_free(p)` on a zeroed provider at base 4096: the
states after `mm_malloc` and after `mm_free`, and `p`. -/
def run_alloc_free : Option (State × State × Nat) := do
  let s ← mm_init (zeroState 4096 1048576)
  let (s1, p) ← mm_malloc s 24
  pure (s1, mm_free s1 p, p)

/-- The run `mm_init; a = mm_malloc(16); b = mm_malloc(16); c = mm_malloc(16); mm_free(b);
mm_free(a)`: the states after the first and after the second `mm_free`, and `a`, `b`, `c`. -/
def run_merge : Option (State × State × Nat × Nat × Nat) := do
  let s ← mm_init (zeroState 4096 1048576)
  let (s, a) ← mm_malloc s 16
  let (s, b) ← mm_malloc s 16
  let (s, c) ← mm_malloc s 16
  let s1 := mm_free s b
  pure (s1, mm_free s1 a, a, b, c)

/-- The run `mm_init; a = mm_malloc(2000); b = mm_malloc(2000); mm_free(a);
c = mm_malloc(1500)`: the state before `mm_free(a)`, the final state, and `a`, `b`, `c`. -/
def run_reuse : Option (State × State × Nat × Nat × Nat) := do
  let s ← mm_init (zeroState 4096 1048576)
  let (s, a) ← mm_malloc s 2000
  let (s, b) ← mm_malloc s 2000
  let (s2, c) ← mm_malloc (mm_free s a) 1500
  pure (s, s2, a, b, c)

/-- The run `mm_init; p = mm_malloc(100);` the caller stores 100 bytes of value 65 at `p`;
`q = mm_realloc(p, 200)`: the states before and after `mm_realloc`, and `p`, `q`. -/
def run_realloc_grow : Option (State × State × Nat × Nat) := do
  let s ← mm_init (zeroState 4096 1048576)
  let (s, p) ← mm_malloc s 100
  let s := user_write s p (List.replicate 100 65)
  let (s2, q) ← mm_realloc s p 200
  pure (s, s2, p, q)

/-- The run `mm_init; p = mm_malloc(4096); mm_free(p); q = mm_malloc(4096)`: the state after
the first `mm_malloc`, the final state, and `p`, `q`. -/
def run_refill : Option (State × State × Nat × Nat) := do
  let s ← mm_init (zeroState 4096 1048576)
  let (s1, p) ← mm_malloc s 4096
  let (s3, q) ← mm_malloc (mm_free s1 p) 4096
  pure (s1, s3, p, q)

end Explicit

namespace Segregate

/-- The run `mm_init; p = mm_malloc(24); mm_free(p)` on a zeroed provider at base 4096: the
states after `mm_malloc` and after `mm_free`, and `p`. -/
def run_alloc_free : Option (State × State × Nat) := do
  let s ← mm_init (zeroState 4096 1048576)
  let (s1, p) ← mm_malloc s 24
  pure (s1, mm_free s1 p, p)

/-- The run `mm_init; a = mm_malloc(16); b = mm_malloc(16); c = mm_malloc(16); mm_free(b);
mm_free(a)`: the states after the first and after the second `mm_free`, and `a`, `b`, `c`. -/
def run_merge : Option (State × State × Nat × Nat × Nat) := do
  let s ← mm_init (zeroState 4096 1048576)
  let (s, a) ← mm_malloc s 16
  let (s, b) ← mm_malloc s 16
  let (s, c) ← mm_malloc s 16
  let s1 := mm_free s b
  pure (s1, mm_free s1 a, a, b, c)

/-- The run `mm_init; a = mm_malloc(2000); b = mm_malloc(2000); mm_free(a);
c = mm_malloc(1500)`: the state before `mm_free(a)`, the final state, and `a`, `b`, `c`. -/
def run_reuse : Option (State × State × Nat × Nat × Nat) := do
  let s ← mm_init (zeroState 4096 1048576)
  let (s, a) ← mm_malloc s 2000
  let (s, b) ← mm_malloc s 2000
  let (s2, c) ← mm_malloc (mm_free s a) 1500
  pure (s, s2, a, b, c)

/-- The run `mm_init; p = mm_malloc(100);` the caller stores 100 bytes of value 65 at `p`;
`q = mm_realloc(p, 200)`: the states before and after `mm_realloc`, and `p`, `q`. -/
def run_realloc_grow : Option (State × State × Nat × Nat) := do
  let s ← mm_init (zeroState 4096 1048576)
  let (s, p) ← mm_malloc s 100
  let s := user_write s p (List.replicate 100 65)
  let (s2, q) ← mm_realloc s p 200
  pure (s, s2, p, q)

/-- The run `mm_init; p = mm_malloc(4096); mm_free(p); q = mm_malloc(4096)`: the state after
the first `mm_malloc`, the final state, and `p`, `q`. -/
def run_refill : Option (State × State × Nat × Nat) := do
  let s ← mm_init (zeroState 4096 1048576)
  let (s1, p) ← mm_malloc s 4096
  let (s3, q) ← mm_malloc (mm_free s1 p) 4096
  pure (s1, s3, p, q)

/-- The run `mm_init; p = mm_malloc(size)`: the final state and `p`. -/
def run_first_malloc (size : Nat) : Option (State × Nat) := do
  let s ← mm_init (zeroState 4096 1048576)
  mm_malloc s size

end Segregate

/-- The `n` bytes at the address `p` are the same in the states `s1` and `s2`. -/
def same_bytes (s1 s2 : State) (p n : Nat) : Bool :=
  (List.range n).all fun i => s2.mem (p + i) == s1.mem (p + i)

/-- The circular doubly-linked list continues from the member `x` through the members `l` and
closes at `first`: each `NEXT` word points to the following member, each `PREV` word to the
preceding one, and the last member is linked with `first`. -/
def RingFrom (m : Mem) (first : Nat) : Nat → List Nat → Prop
  | x, [] => NEXT m x = first ∧ PREV m first = x
  | x, y :: l => NEXT m x = y ∧ PREV m y = x ∧ RingFrom m first y l

/-- A well-formed circular doubly-linked free list with the members `l`, in `NEXT` order:
no member is null, no member occurs twice, and the links close the ring. -/
def Ring (m : Mem) : List Nat → Prop
  | [] => True
  | x :: l => (x :: l).Nodup ∧ (∀ y, y ∈ x :: l → y ≠ 0) ∧ RingFrom m x x l

/-- The result `find_fit(asize)` is to give on a free list whose members, in `NEXT` order from
the rover, are `l`: the first member of size at least `asize`, which becomes the rover, or
`NULL` with the rover on the last member. -/
def Explicit.find_fit_result (s : State) (asize : Nat) (l : List Nat) : State × Nat :=
  match l.find? (fun x => decide (asize ≤ GET_SIZE s.mem (HDRP x))) with
  | some bp => ({ s with rover := bp }, bp)
  | none => ({ s with rover := PREV s.mem s.rover }, 0)

/-- The memory after the word writes `ws` (address, value), done in order. -/
def apply_writes (m : Mem) (ws : List (Nat × Nat)) : Mem :=
  ws.foldl (fun m w => PUT m w.1 w.2) m

/-! ## The shape shared by the allocators

`coalesce`, `extend_heap`, `place` and `mm_free` have the same text in `mm-explicit.c`
(and `mm-implicit.c`) and in `mm-segregate.c`, up to the names of the two free-index
routines, the rover test of `coalesce` and the cut-off of `place`.  The definitions below
are that common text with these parts as parameters; the embedded functions are shown to be
instances of it. -/

namespace Generic

/-- The parts in which the variants differ: the insertion and removal routines of the free
index, the rover test at the end of `coalesce`, and the cut-off of `place`. -/
structure Index where
  ins : State → Nat → State
  esc : State → Nat → State
  snap : State → Nat → State
  cut : Nat

/-- The common text of `coalesce`. -/
def coalesce (X : Index) (s : State) (bp : Nat) : State × Nat :=
  let prev_alloc := GET_ALLOC s.mem (FTRP s.mem (PREV_BLKP s.mem bp))
  let next_alloc := GET_ALLOC s.mem (HDRP (NEXT_BLKP s.mem bp))
  let size := GET_SIZE s.mem (HDRP bp)
  if prev_alloc ≠ 0 ∧ next_alloc ≠ 0 then
    (X.ins s bp, bp)
  else
    let r : State × Nat :=
      if prev_alloc ≠ 0 ∧ ¬ next_alloc ≠ 0 then
        let s1 := X.esc s (NEXT_BLKP s.mem bp)
        let size := add32 size (GET_SIZE s1.mem (HDRP (NEXT_BLKP s1.mem bp)))
        let m1 := PUT s1.mem (HDRP bp) (PACK size 0)
        let m2 := PUT m1 (FTRP m1 bp) (PACK size 0)
        ({ s1 with mem := m2 }, bp)
      else if ¬ prev_alloc ≠ 0 ∧ next_alloc ≠ 0 then
        let s1 := X.esc s (PREV_BLKP s.mem bp)
        let size := add32 size (GET_SIZE s1.mem (HDRP (PREV_BLKP s1.mem bp)))
        let m1 := PUT s1.mem (FTRP s1.mem bp) (PACK size 0)
        let m2 := PUT m1 (HDRP (PREV_BLKP m1 bp)) (PACK size 0)
        ({ s1 with mem := m2 }, PREV_BLKP m2 bp)
      else
        let s1 := X.esc s (NEXT_BLKP s.mem bp)
        let s2 := X.esc s1 (PREV_BLKP s1.mem bp)
        let size := add32 size (add32 (GET_SIZE s2.mem (HDRP (PREV_BLKP s2.mem bp)))
                      (GET_SIZE s2.mem (FTRP s2.mem (NEXT_BLKP s2.mem bp))))
        let m1 := PUT s2.mem (HDRP (PREV_BLKP s2.mem bp)) (PACK size 0)
        let m2 := PUT m1 (FTRP m1 (NEXT_BLKP m1 bp)) (PACK size 0)
        ({ s2 with mem := m2 }, PREV_BLKP m2 bp)
    (X.ins (X.snap r.1 r.2) r.2, r.2)

/-- The common text of `extend_heap`. -/
def extend_heap (X : Index) (s : State) (words : Nat) : Option (State × Nat) :=
  let size := if words % 2 ≠ 0 then mul32 (add32 words 1) WSIZE else mul32 words WSIZE
  match mem_sbrk s size with
  | none => none
  | some (s1, bp) =>
    let m1 := PUT s1.mem (HDRP bp) (PACK size 0)
    let m2 := PUT m1 (FTRP m1 bp) (PACK size 0)
    let m3 := PUT m2 (HDRP (NEXT_BLKP m2 bp)) (PACK 0 1)
    some (coalesce X { s1 with mem := m3 } bp)

/-- The common text of `place`. -/
def place (X : Index) (s : State) (bp asize : Nat) : State :=
  let s1 := X.esc s bp
  let csize := GET_SIZE s1.mem (HDRP bp)
  let remainder := sub32 csize asize
  if remainder ≤ 2 * DSIZE then
    let m1 := PUT s1.mem (HDRP bp) (PACK csize 1)
    let m2 := PUT m1 (FTRP m1 bp) (PACK csize 1)
    { s1 with mem := m2 }
  else if asize ≥ X.cut then
    let m1 := PUT s1.mem (HDRP bp) (PACK remainder 0)
    let m2 := PUT m1 (FTRP m1 bp) (PACK remainder 0)
    let m3 := PUT m2 (HDRP (NEXT_BLKP m2 bp)) (PACK asize 1)
    let m4 := PUT m3 (FTRP m3 (NEXT_BLKP m3 bp)) (PACK asize 1)
    X.ins { s1 with mem := m4 } bp
  else
    let m1 := PUT s1.mem (HDRP bp) (PACK asize 1)
    let m2 := PUT m1 (FTRP m1 bp) (PACK asize 1)
    let m3 := PUT m2 (HDRP (NEXT_BLKP m2 bp)) (PACK remainder 0)
    let m4 := PUT m3 (FTRP m3 (NEXT_BLKP m3 bp)) (PACK remainder 0)
    X.ins { s1 with mem := m4 } (NEXT_BLKP m4 bp)

/-- The common text of `mm_free`. -/
def mm_free (X : Index) (s : State) (bp : Nat) : State :=
  let size := GET_SIZE s.mem (HDRP bp)
  let m1 := PUT s.mem (HDRP bp) (PACK size 0)
  let m2 := PUT m1 (FTRP m1 bp) (PACK size 0)
  (coalesce X { s with mem := m2 } bp).1

end Generic

/-- The rover test at the end of `coalesce` in `mm-explicit.c`:
`if ((rover > (char *)bp) && (rover < NEXT_BLKP(bp))) rover = bp;`. -/
def Explicit.snap (s : State) (bp : Nat) : State :=
  if s.rover > bp ∧ s.rover < NEXT_BLKP s.mem bp then { s with rover := bp } else s

/-- The explicit-list allocator as an instance of the common shape. -/
def Explicit.index : Generic.Index :=
  { ins := Explicit.insert_list, esc := Explicit.escape_list, snap := Explicit.snap, cut := 100 }

/-- The segregated allocator as an instance of the common shape: there is no rover test. -/
def Segregate.index : Generic.Index :=
  { ins := Segregate.insert, esc := Segregate.escape, snap := fun s _ => s,
    cut := (WSIZE <<< 4) ||| (WSIZE <<< 2) }

/-! ## The heap map -/

/-- A block of the heap map: its payload address, its size in bytes and its allocated bit. -/
abbrev Blk := Nat × Nat × Nat

/-- The blocks `bs` lie one after the other from the payload address `p` to the payload
address `e`; every block has a size that is a multiple of 8 and at least 8, and an allocated
bit. -/
def Lay : Nat → List Blk → Nat → Prop
  | p, [], e => p = e
  | p, b :: bs, e => b.1 = p ∧ 8 ≤ b.2.1 ∧ b.2.1 % 8 = 0 ∧ b.2.2 ≤ 1 ∧ Lay (p + b.2.1) bs e

/-- The header and the footer word of the block `b` both hold `size | alloc`. -/
def Tag (m : Mem) (b : Blk) : Prop :=
  GET m (b.1 - 4) = b.2.1 + b.2.2 ∧ GET m (b.1 + b.2.1 - 8) = b.2.1 + b.2.2

/-- No two adjacent blocks are both free. -/
def NoAdj (bs : List Blk) : Prop := List.Chain' (fun x y : Blk => ¬ (x.2.2 = 0 ∧ y.2.2 = 0)) bs

/-- The free blocks of a heap map: payload address and size. -/
def Frees (bs : List Blk) : Set (Nat × Nat) := fun f => (f.1, f.2, 0) ∈ bs

/-- The memory `m1` differs from `m` at most at the addresses in `A`. -/
def Frame (A : Nat → Prop) (m m1 : Mem) : Prop := ∀ a, ¬ A a → m1 a = m a

/-- The bytes a free index owns: the root area `[r0, r1)` and the two link words of every
member. -/
def Own (r0 r1 : Nat) (F : Set (Nat × Nat)) (a : Nat) : Prop :=
  (r0 ≤ a ∧ a < r1) ∨ ∃ f, f ∈ F ∧ f.1 ≤ a ∧ a < f.1 + 8

/-- The members of a free set lie above the root area and inside the 32-bit address space,
and the link words of two different members do not overlap. -/
def SepF (r1 : Nat) (F : Set (Nat × Nat)) : Prop :=
  ∀ f, f ∈ F → (4 ≤ f.1 ∧ r1 ≤ f.1 ∧ f.1 + 8 ≤ 4294967296) ∧
    ∀ g, g ∈ F → f = g ∨ f.1 + 8 ≤ g.1 ∨ g.1 + 8 ≤ f.1

/-- What the shared code needs of a free index `X` with representation invariant `I`: the
invariant depends on the owned bytes (and on `heap_listp` and the rover) only, removal and
insertion update the represented set and write owned bytes only, and the rover test does
nothing when no member lies strictly inside the block. -/
structure IndexSpec (X : Generic.Index) (I : State → Set (Nat × Nat) → Prop)
    (r0 r1 : Nat) : Prop where
  frame : ∀ (s s1 : State) (F : Set (Nat × Nat)), I s F → SepF r1 F →
    s1.heap_listp = s.heap_listp → s1.rover = s.rover →
    (∀ a, Own r0 r1 F a → s1.mem a = s.mem a) → I s1 F
  esc : ∀ (s : State) (F : Set (Nat × Nat)) (x sz : Nat), I s F → SepF r1 F → (x, sz) ∈ F →
    GET_SIZE s.mem (HDRP x) = sz →
    I (X.esc s x) (F \ {(x, sz)}) ∧ Frame (Own r0 r1 F) s.mem (X.esc s x).mem ∧
      (X.esc s x).mem_brk = s.mem_brk ∧ (X.esc s x).mem_max_addr = s.mem_max_addr
  ins : ∀ (s : State) (F : Set (Nat × Nat)) (x sz : Nat), I s F → SepF r1 (insert (x, sz) F) →
    (∀ sz1, (x, sz1) ∉ F) → GET_SIZE s.mem (HDRP x) = sz →
    I (X.ins s x) (insert (x, sz) F) ∧
      Frame (Own r0 r1 (insert (x, sz) F)) s.mem (X.ins s x).mem ∧
      (X.ins s x).mem_brk = s.mem_brk ∧ (X.ins s x).mem_max_addr = s.mem_max_addr
  snap : ∀ (s : State) (F : Set (Nat × Nat)) (bp : Nat), I s F →
    (∀ f, f ∈ F → ¬ (bp < f.1 ∧ f.1 < NEXT_BLKP s.mem bp)) → X.snap s bp = s

/-- The heap of state `s`, with first base address `lo` and a prologue of `P` bytes, is a
well-formed heap map with the user blocks `bs`: prologue, blocks of at least 16 bytes with
matching boundary tags, no two adjacent free blocks, the epilogue header in the last word
before the break, and a free index that represents exactly the free blocks. -/
structure Inv (I : State → Set (Nat × Nat) → Prop) (P lo : Nat) (s : State)
    (bs : List Blk) : Prop where
  lay : Lay (lo + 8) ((lo + 8, P, 1) :: bs) s.mem_brk
  tags : ∀ b, b ∈ (lo + 8, P, 1) :: bs → Tag s.mem b
  epi : GET s.mem (s.mem_brk - 4) = 1
  min16 : ∀ b, b ∈ bs → 16 ≤ b.2.1
  noadj : NoAdj bs
  idx : I s (Frees bs)
  brk_le : s.mem_brk ≤ s.mem_max_addr
  max_lt : s.mem_max_addr < 4294967296

/-- The heap of state `s` during an operation: as `Inv` for the heap map `L ++ mid ++ R`,
except that the blocks `mid` are not in the free index (which represents the free blocks of
`L` and `R`) and may be free next to free blocks. -/
structure Part (I : State → Set (Nat × Nat) → Prop) (P lo : Nat) (s : State)
    (L mid R : List Blk) : Prop where
  lay : Lay (lo + 8) ((lo + 8, P, 1) :: (L ++ (mid ++ R))) s.mem_brk
  tags : ∀ b, b ∈ (lo + 8, P, 1) :: (L ++ (mid ++ R)) → Tag s.mem b
  epi : GET s.mem (s.mem_brk - 4) = 1
  min16 : ∀ b, b ∈ L ++ (mid ++ R) → 16 ≤ b.2.1
  noadjL : NoAdj L
  noadjR : NoAdj R
  idx : I s (Frees (L ++ R))
  brk_le : s.mem_brk ≤ s.mem_max_addr
  max_lt : s.mem_max_addr < 4294967296

/-- The state before `coalesce(x)`: the block `x` between `pre` and `post` is tagged free, is
not in the free index, and may have free neighbours. -/
def PreCo (I : State → Set (Nat × Nat) → Prop) (P lo : Nat) (s : State)
    (pre : List Blk) (x : Blk) (post : List Blk) : Prop :=
  Part I P lo s pre [x] post ∧ x.2.2 = 0

/-! ## The free index of each variant -/

/-- The free index of the explicit variant represents the free set `F`: the members of the
circular list are the free blocks, `heap_listp` and the rover are members, and both are null
when there is no free block. -/
def Explicit.Idx (s : State) (F : Set (Nat × Nat)) : Prop :=
  ∃ l : List Nat, Ring s.mem l ∧ (∀ x, x ∈ l ↔ ∃ sz, (x, sz) ∈ F) ∧
    (l = [] → s.heap_listp = 0 ∧ s.rover = 0) ∧
    (l ≠ [] → s.heap_listp ∈ l ∧ s.rover ∈ l)

/-- A null-terminated doubly-linked list continues from the member `x` through the members
`l`: each `NEXT` word points to the following member, whose `PREV` word points back, and
the last `NEXT` word is null. -/
def DList (m : Mem) : Nat → List Nat → Prop
  | x, [] => NEXT m x = 0
  | x, y :: l => NEXT m x = y ∧ y ≠ 0 ∧ PREV m y = x ∧ DList m y l

/-- A bucket list with the root value `r` and the members `l`. -/
def SList (m : Mem) (r : Nat) : List Nat → Prop
  | [] => r = 0
  | x :: l => r = x ∧ x ≠ 0 ∧ DList m x l

/-- The free index of the segregated variant represents the free set `F`: `heap_listp` is the
prologue payload `lo + 8`, which holds the ten roots, and the list of class `k` holds, once
each, the free blocks whose size has rank `k`. -/
def Segregate.Idx (lo : Nat) (s : State) (F : Set (Nat × Nat)) : Prop :=
  s.heap_listp = lo + 8 ∧
  ∃ L : Nat → List Nat, ∀ k, k < 10 →
    (L k).Nodup ∧ SList s.mem (Segregate.GET_RANK s k) (L k) ∧
    ∀ x, x ∈ L k ↔ ∃ sz, (x, sz) ∈ F ∧ Segregate.getRank sz = k

/-- The bytes `escape` and `insert` may write for the class `k`: its root word and the link
words of its members. -/
def OwnK (lo k : Nat) (l : List Nat) (a : Nat) : Prop :=
  (lo + 8 + 4 * k ≤ a ∧ a < lo + 8 + 4 * k + 4) ∨ ∃ z, z ∈ l ∧ z ≤ a ∧ a < z + 8

/-- The block `x` merged with the block before it when that block is free: the blocks that
remain before, and the merged block. -/
def merge_left (pre : List Blk) (x : Blk) : List Blk × Blk :=
  match pre.getLast? with
  | some w => if w.2.2 = 0 then (pre.dropLast, (w.1, w.2.1 + x.2.1, 0)) else (pre, x)
  | none => (pre, x)

/-- The block `y` merged with the block after it when that block is free: the merged block,
and the blocks that remain after. -/
def merge_right (y : Blk) (post : List Blk) : Blk × List Blk :=
  match post with
  | n :: post1 => if n.2.2 = 0 then ((y.1, y.2.1 + n.2.1, 0), post1) else (y, post)
  | [] => (y, post)

/-- The heap map after `coalesce(x)`: the block `x` merged with its free immediate
neighbours; the blocks before, the merged block, the blocks after. -/
def coalesce_map (pre : List Blk) (x : Blk) (post : List Blk) : List Blk × Blk × List Blk :=
  ((merge_left pre x).1, merge_right (merge_left pre x).2 post)

/-- The blocks `place(bp, asize)` makes of the free block `x`, with the cut-off `cut` for
tail placement. -/
def place_map (cut : Nat) (x : Blk) (asize : Nat) : List Blk :=
  if x.2.1 - asize ≤ 16 then [(x.1, x.2.1, 1)]
  else if asize ≥ cut then [(x.1, x.2.1 - asize, 0), (x.1 + (x.2.1 - asize), asize, 1)]
  else [(x.1, asize, 1), (x.1 + asize, x.2.1 - asize, 0)]

/-- The first three statements of `mm_free(bp)`, which are the same in the three sources: the
state in which `mm_free` calls `coalesce(bp)`. -/
def free_tagged (s : State) (bp : Nat) : State :=
  let size := GET_SIZE s.mem (HDRP bp)
  let m1 := PUT s.mem (HDRP bp) (PACK size 0)
  let m2 := PUT m1 (FTRP m1 bp) (PACK size 0)
  { s with mem := m2 }

/-- The state in which `mm_free(a)` calls `coalesce(a)` after `mm_init; a = mm_malloc(16)` on a
zeroed provider at base 4096 (the initial state itself if a call fails). -/
def Explicit.tagged_state : State :=
  match Explicit.mm_init (zeroState 4096 1048576) with
  | none => zeroState 4096 1048576
  | some s =>
    match Explicit.mm_malloc s 16 with
    | none => s
    | some (s1, a) => free_tagged s1 a

/-- The state in which `mm_free(p)` calls `coalesce(p)` after `mm_init; p = mm_malloc(100)` on
a zeroed provider at base 4096 (the initial state itself if a call fails). -/
def Segregate.tagged_state : State :=
  match Segregate.mm_init (zeroState 4096 1048576) with
  | none => zeroState 4096 1048576
  | some s =>
    match Segregate.mm_malloc s 100 with
    | none => s
    | some (s1, p) => free_tagged s1 p

/-- The bucket lists of `Segregate.tagged_state`: the free block 4152 of 3984 bytes is in
list 8. -/
def Segregate.tagged_buckets (k : Nat) : List Nat := if k = 8 then [4152] else []

namespace Explicit

/-- The run `mm_init; a = mm_malloc(24); b = mm_malloc(24); c = mm_malloc(64); mm_free(b);
q = mm_realloc(a, 100)` on a zeroed provider at base 4096: the states before and after the
last call, and `a`, `c`, `q`. -/
def run_guard : Option (State × State × Nat × Nat × Nat) := do
  let s ← mm_init (zeroState 4096 1048576)
  let (s, a) ← mm_malloc s 24
  let (s, b) ← mm_malloc s 24
  let (s, c) ← mm_malloc s 64
  let s := mm_free s b
  let (s1, q) ← mm_realloc s a 100
  pure (s, s1, a, c, q)

end Explicit

namespace Segregate

/-- The run `mm_init; a = mm_malloc(24); b = mm_malloc(24); c = mm_malloc(64); mm_free(b);
q = mm_realloc(a, 100)` on a zeroed provider at base 4096: the states before and after the
last call, and `a`, `c`, `q`. -/
def run_guard : Option (State × State × Nat × Nat × Nat) := do
  let s ← mm_init (zeroState 4096 1048576)
  let (s, a) ← mm_malloc s 24
  let (s, b) ← mm_malloc s 24
  let (s, c) ← mm_malloc s 64
  let s := mm_free s b
  let (s1, q) ← mm_realloc s a 100
  pure (s, s1, a, c, q)

end Segregate

/-- The run `mm_init; p = mm_malloc(8); q = mm_realloc(p, 24)` of `mm-implicit.c` on a zeroed
provider at base 4096: the states before and after the last call, and `p`, `q`. -/
def Implicit.run_grow : Option (State × State × Nat × Nat) := do
  let s ← Explicit.mm_init (zeroState 4096 1048576)
  let (s, p) ← Explicit.mm_malloc s 8
  let (s1, q) ← Implicit.mm_realloc s p 24
  pure (s, s1, p, q)

namespace Explicit

/-- The run `mm_init; a = mm_malloc(24); b = mm_malloc(8); q = mm_realloc(a, 40)` next to the
call `r = mm_malloc(40)` from the same state, on a zeroed provider at base 4096: the state
after `mm_realloc`, the state after `mm_malloc`, and `a`, `q`, `r`. -/
def run_fallback : Option (State × State × Nat × Nat × Nat) := do
  let s ← mm_init (zeroState 4096 1048576)
  let (s, a) ← mm_malloc s 24
  let (s, _) ← mm_malloc s 8
  let (s1, q) ← mm_realloc s a 40
  let (s2, r) ← mm_malloc s 40
  pure (s1, s2, a, q, r)

end Explicit

namespace Segregate

/-- The run `mm_init; a = mm_malloc(24); b = mm_malloc(8); q = mm_realloc(a, 40)` next to the
call `r = mm_malloc(40)` from the same state, on a zeroed provider at base 4096: the state
after `mm_realloc`, the state after `mm_malloc`, and `a`, `q`, `r`. -/
def run_fallback : Option (State × State × Nat × Nat × Nat) := do
  let s ← mm_init (zeroState 4096 1048576)
  let (s, a) ← mm_malloc s 24
  let (s, _) ← mm_malloc s 8
  let (s1, q) ← mm_realloc s a 40
  let (s2, r) ← mm_malloc s 40
  pure (s1, s2, a, q, r)

end Segregate

/-- The first member of the list `l` whose block holds at least `asize` bytes, `0` when there
is none. -/
def first_fit (m : Mem) (asize : Nat) (l : List Nat) : Nat :=
  (l.find? (fun x => decide (asize ≤ GET_SIZE m (HDRP x)))).getD 0

/-- The state after `mm_init` of `mm-explicit.c` on a zeroed provider at base 4096 (the
initial state itself if the call fails). -/
def Explicit.fresh_state : State :=
  match Explicit.mm_init (zeroState 4096 1048576) with
  | some s => s
  | none => zeroState 4096 1048576

/-- The state after `mm_init` of `mm-segregate.c` on a zeroed provider at base 4096 (the
initial state itself if the call fails). -/
def Segregate.fresh_state : State :=
  match Segregate.mm_init (zeroState 4096 1048576) with
  | some s => s
  | none => zeroState 4096 1048576

/-- The bucket lists of `Segregate.fresh_state`: the free block 4152 of 4096 bytes is in
list 8. -/
def Segregate.fresh_buckets (k : Nat) : List Nat := if k = 8 then [4152] else []

/-- The heap map after `extend_heap`: the new free block of `n` bytes at the old break `brk`,
merged with the last block of `bs` when that block is free. -/
def extend_map (bs : List Blk) (brk n : Nat) : List Blk :=
  (coalesce_map bs (brk, n, 0) []).1 ++
    (coalesce_map bs (brk, n, 0) []).2.1 :: (coalesce_map bs (brk, n, 0) []).2.2

/-- The state of `Segregate.demo_state` after the footer word at 4160 of the allocated block
4152 has been cleared (a caller overran its payload): the header and the footer of that
block differ. -/
def Segregate.torn_state : State :=
  { Segregate.demo_state with mem := PUT Segregate.demo_state.mem 4160 0 }

/-- The state of `Segregate.demo_state` after root 0 has been pointed at the address 5000 and
the link word of 5000 at the address 5008, both inside the payload of the free block 4168:
bucket list 0 holds two members 8 bytes apart, and the header word of the second is the
link word of the first. -/
def Segregate.crowded_state : State :=
  { Segregate.demo_state with
    mem := apply_writes Segregate.demo_state.mem [(4104, 5000), (5004, 5008)] }

/-- The bucket lists of `Segregate.crowded_state`. -/
def Segregate.crowded_buckets (k : Nat) : List Nat :=
  if k = 0 then [5000, 5008] else if k = 8 then [4168] else []

/-! # Theorems -/

/-! ## Words and memory -/

theorem and_one_eq (x : Nat) : x &&& 1 = x % 2 := Nat.and_one_is_mod x

theorem and_mask_eq (x : Nat) (h : x < 4294967296) : x &&& 4294967288 = x - x % 8 := by
  apply Nat.eq_of_testBit_eq
  intro i
  rw [Nat.testBit_and]
  have h1 : (4294967288 : Nat) = (2 ^ 29 - 1) <<< 3 := by decide
  have h2 : x - x % 8 = (x >>> 3) <<< 3 := by
    rw [Nat.shiftLeft_eq, Nat.shiftRight_eq_div_pow]; omega
  rw [h1, h2, Nat.testBit_shiftLeft, Nat.testBit_shiftLeft, Nat.testBit_shiftRight,
    Nat.testBit_two_pow_sub_one]
  by_cases h3 : 3 ≤ i
  · simp only [h3, ge_iff_le, decide_True, Bool.true_and]
    have : 3 + (i - 3) = i := by omega
    rw [this]
    by_cases h4 : i - 3 < 29
    · simp [h4]
    · have : x < 2 ^ i := by
        have : (2:Nat) ^ 32 ≤ 2 ^ i := Nat.pow_le_pow_right (by decide) (by omega)
        omega
      simp [h4, Nat.testBit_lt_two_pow this]
  · simp [h3]

theorem PACK_eq (sz a : Nat) (h8 : sz % 8 = 0) (ha : a ≤ 1) : PACK sz a = sz + a := by
  unfold PACK
  have := Nat.mul_add_lt_is_or (i := 3) (b := a) (by omega) (sz / 8)
  have e : 2 ^ 3 * (sz / 8) = sz := by omega
  rw [e] at this
  exact this.symm

theorem GET_lt (m : Mem) (p : Nat) : GET m p < 4294967296 := by
  unfold GET; omega

theorem GET_PUT_same (m : Mem) (p v : Nat) (h : v < 4294967296) : GET (PUT m p v) p = v := by
  simp [GET, PUT]; omega

theorem PUT_other (m : Mem) (p v b : Nat) (h : b < p ∨ p + 4 ≤ b) : PUT m p v b = m b := by
  unfold PUT
  rw [if_neg (by omega), if_neg (by omega), if_neg (by omega), if_neg (by omega)]

theorem GET_congr (m m1 : Mem) (q : Nat) (h : ∀ b, q ≤ b → b < q + 4 → m1 b = m b) :
    GET m1 q = GET m q := by
  unfold GET
  rw [h q (by omega) (by omega), h (q + 1) (by omega) (by omega),
    h (q + 2) (by omega) (by omega), h (q + 3) (by omega) (by omega)]

theorem GET_PUT_other (m : Mem) (p q v : Nat) (h : q + 4 ≤ p ∨ p + 4 ≤ q) :
    GET (PUT m p v) q = GET m q :=
  GET_congr _ _ _ (fun b h1 h2 => PUT_other m p v b (by omega))

/-! ## C3: the size adjustment -/

theorem adjust_eq (size : Nat) (h1 : 8 < size) (h2 : size ≤ 4294967280) :
    adjust size = (size + 15) / 8 * 8 := by
  unfold adjust mul32 sub32 add32 W32 DSIZE
  rw [if_neg (by omega)]
  omega

/-- C3 (as amended): for every request size up to `2^32 - 16`, the adjusted block size of
`mm_malloc` and `mm_realloc` is 16 when `size ≤ 8` and otherwise the smallest multiple of 8
that is at least `size + 8`; in particular it is at least `size + 8` for every such
`size > 8`. -/
theorem adjust_spec (size : Nat) (h : size ≤ 4294967280) : AdjustSpec size := by
  constructor
  · intro h8
    unfold adjust DSIZE
    rw [if_pos h8]
  · intro h8
    rw [adjust_eq size h8 h]
    refine ⟨by omega, by omega, ?_⟩
    intro k hk1 hk2
    omega

/-- Witness of `adjust_spec` at the request size 100. -/
theorem adjust_spec_witness : AdjustSpec 100 := adjust_spec 100 (by decide)

/-- C3 (as stated) fails at the 32-bit request size `2^32 - 1`: the sum `size + 15` wraps and
the adjusted size is 8, which is below `size + 8`. -/
theorem adjust_spec_fails_at_max : adjust 4294967295 = 8 ∧ ¬ AdjustSpec 4294967295 := by
  have e : adjust 4294967295 = 8 := by decide
  refine ⟨e, ?_⟩
  intro h
  have := (h.2 (by decide)).2.1
  rw [e] at this
  omega

/-! ## The provider and `mm_init` (C17) -/

theorem mem_sbrk_none_iff (s : State) (n : Nat) :
    mem_sbrk s n = none ↔ s.mem_brk + n > s.mem_max_addr := by
  unfold mem_sbrk
  by_cases h : s.mem_brk + n > s.mem_max_addr
  · simp [h]
  · simp [h]

theorem mem_sbrk_some (s : State) (n : Nat) (h : ¬ s.mem_brk + n > s.mem_max_addr) :
    mem_sbrk s n = some ({ s with mem_brk := s.mem_brk + n }, s.mem_brk) := by
  unfold mem_sbrk
  rw [if_neg h]

theorem explicit_extend_heap_none_iff (s : State) (w : Nat) :
    Explicit.extend_heap s w = none ↔ mem_sbrk s (ext_bytes w) = none := by
  unfold Explicit.extend_heap ext_bytes
  dsimp only
  generalize (if w % 2 ≠ 0 then mul32 (add32 w 1) WSIZE else mul32 w WSIZE) = n
  cases h : mem_sbrk s n with
  | none => simp
  | some r => simp

theorem segregate_extend_heap_none_iff (s : State) (w : Nat) :
    Segregate.extend_heap s w = none ↔ mem_sbrk s (ext_bytes w) = none := by
  unfold Segregate.extend_heap ext_bytes
  dsimp only
  generalize (if w % 2 ≠ 0 then mul32 (add32 w 1) WSIZE else mul32 w WSIZE) = n
  cases h : mem_sbrk s n with
  | none => simp
  | some r => simp

theorem ext_bytes_chunk : ext_bytes (CHUNKSIZE / WSIZE) = 4096 := by decide

theorem explicit_mm_init_none_iff (s : State) :
    Explicit.mm_init s = none ↔
      mem_sbrk s 32 = none ∨ mem_sbrk { s with mem_brk := s.mem_brk + 32 } 4096 = none := by
  unfold Explicit.mm_init
  have e32 : DSIZE * 4 = 32 := by decide
  rw [e32]
  by_cases h : s.mem_brk + 32 > s.mem_max_addr
  · have h1 := (mem_sbrk_none_iff s 32).2 h
    rw [h1]
    simp
  · rw [mem_sbrk_some s 32 h]
    have hB : mem_sbrk { s with mem_brk := s.mem_brk + 32 } 4096 = none ↔
        s.mem_brk + 32 + 4096 > s.mem_max_addr := mem_sbrk_none_iff _ _
    rw [hB]
    dsimp only
    split
    · rename_i h2
      rw [explicit_extend_heap_none_iff, ext_bytes_chunk, mem_sbrk_none_iff] at h2
      simp only [true_iff]
      right
      exact h2
    · rename_i h2
      simp only [reduceCtorEq, false_iff, not_or, not_false_eq_true, true_and]
      intro h3
      have h5 : ¬ mem_sbrk _ (ext_bytes (CHUNKSIZE / WSIZE)) = none := fun hc => by
        have h4 := (explicit_extend_heap_none_iff _ _).2 hc
        rw [h4] at h2
        cases h2
      rw [ext_bytes_chunk, mem_sbrk_none_iff] at h5
      exact h5 h3

theorem segregate_mm_init_none_iff (s : State) :
    Segregate.mm_init s = none ↔
      mem_sbrk s 56 = none ∨ mem_sbrk { s with mem_brk := s.mem_brk + 56 } 4096 = none := by
  unfold Segregate.mm_init
  have e56 : (Segregate.RANKSIZE + 4) * WSIZE = 56 := by decide
  rw [e56]
  by_cases h : s.mem_brk + 56 > s.mem_max_addr
  · have h1 := (mem_sbrk_none_iff s 56).2 h
    rw [h1]
    simp
  · rw [mem_sbrk_some s 56 h]
    have hB : mem_sbrk { s with mem_brk := s.mem_brk + 56 } 4096 = none ↔
        s.mem_brk + 56 + 4096 > s.mem_max_addr := mem_sbrk_none_iff _ _
    rw [hB]
    dsimp only
    split
    · rename_i h2
      rw [segregate_extend_heap_none_iff, ext_bytes_chunk, mem_sbrk_none_iff] at h2
      simp only [true_iff]
      right
      exact h2
    · rename_i h2
      simp only [reduceCtorEq, false_iff, not_or, not_false_eq_true, true_and]
      intro h3
      have h5 : ¬ mem_sbrk _ (ext_bytes (CHUNKSIZE / WSIZE)) = none := fun hc => by
        have h4 := (segregate_extend_heap_none_iff _ _).2 hc
        rw [h4] at h2
        cases h2
      rw [ext_bytes_chunk, mem_sbrk_none_iff] at h5
      exact h5 h3

/-- C17: in the explicit and the segregated variant, `mm_init` returns -1 (`none`) if and only
if the provider refuses the first request (32 bytes, respectively 56 bytes) or refuses the
4096-byte extension that follows it; otherwise it returns 0 (a state). -/
theorem mm_init_fails_iff (s : State) :
    (Explicit.mm_init s = none ↔
      mem_sbrk s 32 = none ∨ mem_sbrk { s with mem_brk := s.mem_brk + 32 } 4096 = none) ∧
    (Segregate.mm_init s = none ↔
      mem_sbrk s 56 = none ∨ mem_sbrk { s with mem_brk := s.mem_brk + 56 } 4096 = none) :=
  ⟨explicit_mm_init_none_iff s, segregate_mm_init_none_iff s⟩

/-! ## `mm_realloc` with a null pointer or an unchanged size (C13, C14) -/

/-- C13: in each variant, `mm_realloc(NULL, size)` returns the same pointer and leaves the
same state as `mm_malloc(size)` run from the same state (the functions other than
`mm_realloc` of `mm-implicit.c` are those of `mm-explicit.c`). -/
theorem realloc_null_is_malloc (s : State) (size : Nat) :
    Explicit.mm_realloc s 0 size = Explicit.mm_malloc s size ∧
    Implicit.mm_realloc s 0 size = Explicit.mm_malloc s size ∧
    Segregate.mm_realloc s 0 size = Segregate.mm_malloc s size := by
  refine ⟨?_, ?_, ?_⟩
  · unfold Explicit.mm_realloc
    rw [if_pos rfl]
  · unfold Implicit.mm_realloc
    rw [if_pos rfl]
  · unfold Segregate.mm_realloc
    rw [if_pos rfl]

theorem sub32_self (a : Nat) : sub32 a a = 0 := by
  unfold sub32 W32; omega

theorem GET_SIZE_lt32 (m : Mem) (p : Nat) : GET_SIZE m p < 4294967296 := by
  unfold GET_SIZE
  rw [and_mask_eq _ (GET_lt m p)]
  have := GET_lt m p
  omega

/-- C14: in each variant, for a non-null pointer and a size of at least 1 whose adjusted size
equals the block size read from the header of `ptr`, `mm_realloc(ptr, size)` returns `ptr` and
leaves the whole state (every heap word, the free-list roots, the rover) unchanged; hence
applying it again gives the same result. -/
theorem realloc_same_size (s : State) (ptr size : Nat) (hp : ptr ≠ 0) (hs : 1 ≤ size)
    (h : adjust size = GET_SIZE s.mem (HDRP ptr)) :
    Explicit.mm_realloc s ptr size = some (s, ptr) ∧
    Implicit.mm_realloc s ptr size = some (s, ptr) ∧
    Segregate.mm_realloc s ptr size = some (s, ptr) := by
  have hs0 : ¬ size = 0 := by omega
  refine ⟨?_, ?_, ?_⟩
  · unfold Explicit.mm_realloc
    rw [if_neg hp, if_neg hs0]
    dsimp only
    rw [if_pos h]
  · unfold Implicit.mm_realloc
    rw [if_neg hp, if_neg hs0]
    dsimp only
    rw [← h, sub32_self, if_pos rfl]
  · unfold Segregate.mm_realloc
    rw [if_neg hp, if_neg hs0]
    dsimp only
    rw [if_pos h]

set_option maxHeartbeats 4000000 in
/-- Witness of `realloc_same_size`: after `mm_init; p = mm_malloc(8)` of the explicit variant
the block at 4112 has size 16, the adjusted size of a request of 8 bytes. -/
theorem realloc_same_size_witness :
    Explicit.mm_realloc Explicit.demo_state 4112 8 = some (Explicit.demo_state, 4112) ∧
    Implicit.mm_realloc Explicit.demo_state 4112 8 = some (Explicit.demo_state, 4112) ∧
    Segregate.mm_realloc Explicit.demo_state 4112 8 = some (Explicit.demo_state, 4112) :=
  realloc_same_size Explicit.demo_state 4112 8 (by decide) (by decide) (by decide)

/-! ## Runs on which `mm_realloc` breaks the heap (C1, C4, C10, C11, C12) -/

set_option maxHeartbeats 4000000 in
/-- C1, evaluated at the failing input `mm_init; a = mm_malloc(8); b = mm_malloc(8);
c = mm_malloc(64); mm_free(b); q = mm_realloc(a, 40)`: in the explicit variant `a = 4112`,
`c = 4144` and `q = a`, and in the segregated variant `a = 4152`, `c = 4184` and `q = a`; the
word at `c + 8`, inside the live payload `c`, is 0 before the last call and 49 after it, and
the 40 bytes returned at `q` reach beyond `c`. -/
theorem realloc_grow_overwrites_live_payload :
    (Explicit.run_grow_right.map fun r =>
      (r.2.2.1, r.2.2.2.2.1, r.2.2.2.2.2, GET r.1.mem (r.2.2.2.2.1 + 8),
        GET r.2.1.mem (r.2.2.2.2.1 + 8), decide (r.2.2.2.2.1 < r.2.2.2.2.2 + 40)))
      = some (4112, 4144, 4112, 0, 49, true) ∧
    (Segregate.run_grow_right.map fun r =>
      (r.2.2.1, r.2.2.2.2.1, r.2.2.2.2.2, GET r.1.mem (r.2.2.2.2.1 + 8),
        GET r.2.1.mem (r.2.2.2.2.1 + 8), decide (r.2.2.2.2.1 < r.2.2.2.2.2 + 40)))
      = some (4152, 4184, 4152, 0, 49, true) := by
  constructor <;> decide!

set_option maxHeartbeats 4000000 in
/-- C4, evaluated at the failing input: after the run of C1 in the explicit variant the free
list has a node at `c + 16`, inside the live payload `c = 4144`; the caller stores four words
in that payload and the next `mm_malloc(8)` returns `c + 44 = 4188`, which is not a multiple
of 8. -/
theorem malloc_returns_misaligned_pointer :
    Explicit.run_misaligned = some (4144, 4188) ∧ 4188 % 8 = 4 := by
  constructor <;> decide!

set_option maxHeartbeats 4000000 in
/-- C10, evaluated at the failing input of C1: before `q = mm_realloc(a, 40)` the heap map is
well formed (blocks of 16, 16, 72 and 4008 bytes, respectively 3992 bytes, with equal header
and footer, no two adjacent free blocks, ending at the epilogue) and the free blocks are
exactly the members of the free index; after the call the walk of the heap map fails. -/
theorem realloc_grow_breaks_heap_map :
    ((Explicit.run_grow_right.map fun r => heap_walk r.1.mem r.1.mem_brk 100 4112)
        = some (some [(4112, 16, 1), (4128, 16, 0), (4144, 72, 1), (4216, 4008, 0)]) ∧
      (Explicit.run_grow_right.map fun r =>
          cycle_members r.1.mem r.1.heap_listp 100 r.1.heap_listp) = some (some [4128, 4216]) ∧
      (Explicit.run_grow_right.map fun r => heap_walk r.2.1.mem r.2.1.mem_brk 100 4112)
        = some none) ∧
    ((Segregate.run_grow_right.map fun r => heap_walk r.1.mem r.1.mem_brk 100 4152)
        = some (some [(4152, 16, 1), (4168, 16, 0), (4184, 72, 1), (4256, 3992, 0)]) ∧
      (Segregate.run_grow_right.map fun r =>
          (List.range 10).map (fun k => list_members r.1.mem 100 (Segregate.GET_RANK r.1 k)))
        = some [some [4168], some [], some [], some [], some [], some [], some [], some [],
            some [4256], some []] ∧
      (Segregate.run_grow_right.map fun r => heap_walk r.2.1.mem r.2.1.mem_brk 100 4152)
        = some none) := by
  refine ⟨⟨?_, ?_, ?_⟩, ⟨?_, ?_, ?_⟩⟩ <;> decide!

set_option maxHeartbeats 4000000 in
/-- C11, evaluated at the failing input `mm_init; x = mm_malloc(128); w = mm_malloc(3960)`
(`3944` in the segregated variant)`; mm_free(x); p = mm_malloc(100);` the caller stores 100
bytes of value 65 at `p`; `q = mm_realloc(p, 136)`: the call returns a non-null `q`, and the
first 16 bytes at `q` are not all 65 (bytes 8 to 15 in the explicit variant and bytes 12 to 15
in the segregated variant hold link words of the free index). -/
theorem realloc_grow_left_loses_bytes :
    (Explicit.run_grow_left.map fun r => (r.2.1, r.2.2, read_bytes r.1 r.2.2 16))
      = some (8112, 8080, [65, 65, 65, 65, 65, 65, 65, 65, 152, 31, 0, 0, 152, 31, 0, 0]) ∧
    (Segregate.run_grow_left.map fun r => (r.2.1, r.2.2, read_bytes r.1 r.2.2 16))
      = some (8136, 8104, [65, 65, 65, 65, 65, 65, 65, 65, 65, 65, 65, 65, 0, 0, 0, 0]) := by
  constructor <;> decide!

set_option maxHeartbeats 4000000 in
/-- C12, evaluated at the failing input `mm_init; p = mm_malloc(8); q = mm_realloc(p, 0)` in
the explicit variant: the call returns `q = p = 4112`, not `NULL`, and leaves the block of `p`
allocated with size 16 before a free block of 4096 bytes, whereas `mm_free(p)` from the same
state leaves one free block of 4112 bytes. -/
theorem realloc_zero_is_not_free :
    (Explicit.run_realloc_zero.map fun r => (r.2.2.1, r.2.2.2)) = some (4112, 4112) ∧
    (Explicit.run_realloc_zero.map fun r => heap_walk r.1.mem r.1.mem_brk 100 4112)
      = some (some [(4112, 16, 1), (4128, 4096, 0)]) ∧
    (Explicit.run_realloc_zero.map fun r => heap_walk r.2.1.mem r.2.1.mem_brk 100 4112)
      = some (some [(4112, 4112, 0)]) := by
  refine ⟨?_, ?_, ?_⟩ <;> decide!

/-! ## `mm_malloc(0)` (C15) -/

theorem explicit_mm_malloc_zero (s : State) : Explicit.mm_malloc s 0 = some (s, 0) := by
  unfold Explicit.mm_malloc
  rw [if_pos rfl]

set_option maxHeartbeats 4000000 in
/-- C15, evaluated: `mm_malloc(0)` of `mm-explicit.c` (which is also the one of
`mm-implicit.c`) returns `NULL` and leaves the state unchanged, but `mm_malloc(0)` of
`mm-segregate.c`, which has no test for a zero size, returns the non-null pointer 4152 after
`mm_init` and splits the free block of 4096 bytes into an allocated block of 16 bytes and a
free block of 4080 bytes. -/
theorem malloc_zero_segregated_allocates :
    (∀ s : State, Explicit.mm_malloc s 0 = some (s, 0)) ∧
    (Segregate.run_malloc_zero.map fun r => r.2.2) = some 4152 ∧
    (Segregate.run_malloc_zero.map fun r => heap_walk r.1.mem r.1.mem_brk 100 4152)
      = some (some [(4152, 4096, 0)]) ∧
    (Segregate.run_malloc_zero.map fun r => heap_walk r.2.1.mem r.2.1.mem_brk 100 4152)
      = some (some [(4152, 16, 1), (4168, 4080, 0)]) := by
  refine ⟨explicit_mm_malloc_zero, ?_, ?_, ?_⟩ <;> decide!

/-! ## The checkers on a consistent heap (C18, C19) -/

set_option maxHeartbeats 4000000 in
/-- C18, evaluated at `mm_init; p = mm_malloc(24); mm_checkheap` in the explicit variant: the
first block after the prologue is `p = 4112`, but `heap_listp` is the free-list root 4144, so
the checker prints `Bad prologue header` and its walk visits the block 4144 only. -/
theorem explicit_checkheap_reports_bad_prologue :
    (Explicit.run_checkheap.map fun r => (r.2.1, r.1.heap_listp, r.2.2.1, r.2.2.2))
      = some (4112, 4144, [4144], [Diag.badPrologue]) := by
  decide!

set_option maxHeartbeats 4000000 in
/-- C19, evaluated at `mm_init; p = mm_malloc(24); mm_checkheap` in the segregated variant:
the walk visits the prologue 4104, the block `p = 4152` and the free block 4184, whose header
carries the mark bit while its footer does not, so the checker prints `Error: header does not
match footer` for it. -/
theorem segregated_checkheap_reports_tag_mismatch :
    (Segregate.run_checkheap.map fun r => (r.2.2.1, r.2.2.2.1, r.2.2.2.2))
      = some (4152, [4104, 4152, 4184], [Diag.tagMismatch 4184]) := by
  decide!

/-! ## A refused extension (C16) -/

theorem explicit_find_fit_frame {fuel : Nat} {s s1 : State} {asize bp : Nat}
    (h : Explicit.find_fit fuel s asize = some (s1, bp)) : s1 = { s with rover := s1.rover } := by
  unfold Explicit.find_fit at h
  split at h
  · injection h with h
    injection h with h1 h2
    subst h1
    rfl
  · dsimp only at h
    split at h
    · cases h
    · injection h with h
      injection h with h1 h2
      subst h1
      rfl
    · injection h with h
      injection h with h1 h2
      subst h1
      rfl

theorem explicit_mm_malloc_refused (s : State) (size : Nat) (hs : 1 ≤ size)
    (h : Explicit.refused s (adjust size) = true) :
    ∃ s1, Explicit.mm_malloc s size = some (s1, 0) ∧ s1 = { s with rover := s1.rover } := by
  unfold Explicit.refused at h
  unfold Explicit.mm_malloc
  rw [if_neg (by omega)]
  dsimp only
  cases hf : Explicit.find_fit s.mem_brk s (adjust size) with
  | none => rw [hf] at h; cases h
  | some r =>
    obtain ⟨s1, bp⟩ := r
    rw [hf] at h
    simp only [Bool.and_eq_true, decide_eq_true_eq, Option.isNone_iff_eq_none] at h
    obtain ⟨hbp, hsb⟩ := h
    subst hbp
    refine ⟨s1, ?_, explicit_find_fit_frame hf⟩
    simp only [ne_eq, not_true_eq_false, if_false]
    rw [(explicit_extend_heap_none_iff _ _).2 hsb]

theorem segregate_mm_malloc_refused (s : State) (size : Nat)
    (h : Segregate.refused s (adjust size) = true) :
    Segregate.mm_malloc s size = some (s, 0) := by
  unfold Segregate.refused at h
  unfold Segregate.mm_malloc
  dsimp only
  cases hf : Segregate.find_fit s.mem_brk s (adjust size) with
  | none => rw [hf] at h; cases h
  | some bp =>
    rw [hf] at h
    simp only [Bool.and_eq_true, decide_eq_true_eq, Option.isNone_iff_eq_none] at h
    obtain ⟨hbp, hsb⟩ := h
    subst hbp
    simp only [ne_eq, not_true_eq_false, if_false]
    rw [(segregate_extend_heap_none_iff _ _).2 hsb]

/-- C16 (as amended): when the search of `mm_malloc(size)`, `size ≥ 1`, misses and the provider
refuses the extension, the call returns `NULL`; in the segregated variant the state is
unchanged, and in the explicit variant every field of the state except the rover is unchanged
(every heap word, the break, the free-list root).  The same holds for the last part of
`mm_realloc` (`mm_malloc`, copy, `mm_free`), which calls `mm_malloc` with the adjusted size
`asize`. -/
theorem malloc_refused_returns_null (s : State) (size ptr csize : Nat) (hs : 1 ≤ size) :
    (Explicit.refused s (adjust size) = true →
      (∃ s1, Explicit.mm_malloc s size = some (s1, 0) ∧ s1 = { s with rover := s1.rover }) ∧
      (∃ s1, Explicit.realloc_fallback s ptr size csize = some (s1, 0) ∧
        s1 = { s with rover := s1.rover })) ∧
    (Segregate.refused s (adjust size) = true →
      Segregate.mm_malloc s size = some (s, 0) ∧
      Segregate.realloc_fallback s ptr size csize = some (s, 0)) := by
  constructor
  · intro h
    obtain ⟨s1, h1, h2⟩ := explicit_mm_malloc_refused s size hs h
    refine ⟨⟨s1, h1, h2⟩, s1, ?_, h2⟩
    unfold Explicit.realloc_fallback
    rw [h1]
    simp
  · intro h
    have h1 := segregate_mm_malloc_refused s size h
    refine ⟨h1, ?_⟩
    unfold Segregate.realloc_fallback
    rw [h1]
    simp

set_option maxHeartbeats 4000000 in
/-- Witness of `malloc_refused_returns_null`: a request of 5000 bytes on heaps whose provider
is at its limit, in the explicit variant after `mm_init; a = mm_malloc(8); b = mm_malloc(8);
mm_free(a)` and in the segregated variant after `mm_init`. -/
theorem malloc_refused_returns_null_witness :
    ((∃ s1, Explicit.mm_malloc Explicit.full_state 5000 = some (s1, 0) ∧
        s1 = { Explicit.full_state with rover := s1.rover }) ∧
      (∃ s1, Explicit.realloc_fallback Explicit.full_state 4128 5000 16 = some (s1, 0) ∧
        s1 = { Explicit.full_state with rover := s1.rover })) ∧
    (Segregate.mm_malloc Segregate.full_state 5000 = some (Segregate.full_state, 0) ∧
      Segregate.realloc_fallback Segregate.full_state 4152 5000 16
        = some (Segregate.full_state, 0)) :=
  ⟨(malloc_refused_returns_null Explicit.full_state 5000 4128 16 (by decide)).1 (by decide!),
   (malloc_refused_returns_null Segregate.full_state 5000 4152 16 (by decide)).2 (by decide!)⟩

set_option maxHeartbeats 4000000 in
/-- C16 (as stated) fails in the explicit variant at `mm_init; a = mm_malloc(8);
b = mm_malloc(8); mm_free(a); r = mm_malloc(5000)` on a provider at its limit: the search
misses, the provider refuses, the call returns `NULL`, and the rover, which was 4144 before
the call, is 4112 after it. -/
theorem malloc_refused_moves_rover :
    (Explicit.run_refused.map fun r =>
      (Explicit.refused r.1 (adjust 5000), r.2.2, r.1.rover, r.2.1.rover))
      = some (true, 0, 4144, 4112) := by
  decide!

/-! ## The two mark passes of the segregated checker (C20) -/

theorem IsList_of_list_members {m : Mem} {fuel r : Nat} {l : List Nat}
    (h : list_members m fuel r = some l) : IsList m r l := by
  induction fuel generalizing r l with
  | zero => simp [list_members] at h
  | succ f ih =>
    unfold list_members at h
    by_cases hr : r = 0
    · rw [if_pos hr] at h
      injection h with h
      subst h
      exact hr
    · rw [if_neg hr] at h
      cases hn : list_members m f (NEXT m r) with
      | none => rw [hn] at h; simp at h
      | some l1 =>
        rw [hn] at h
        simp only [Option.map_some'] at h
        injection h with h
        subst h
        exact ⟨rfl, hr, ih hn⟩

theorem IsList_congr {m m1 : Mem} {r : Nat} {l : List Nat} (h : IsList m r l)
    (hn : ∀ x ∈ l, NEXT m1 x = NEXT m x) : IsList m1 r l := by
  induction l generalizing r with
  | nil => exact h
  | cons x xs ih =>
    obtain ⟨h1, h2, h3⟩ := h
    refine ⟨h1, h2, ?_⟩
    rw [hn x (List.mem_cons_self _ _)]
    exact ih h3 (fun y hy => hn y (List.mem_cons_of_mem _ hy))

theorem HDRP_sub {x : Nat} (h1 : 4 ≤ x) (h2 : x < 4294967296) : HDRP x = x - 4 := by
  unfold HDRP WSIZE sub32 W32; omega

theorem toggle_mark_other (m : Mem) (x b : Nat) (h1 : 4 ≤ x) (h2 : x < 4294967296)
    (hb : b < x - 4 ∨ x ≤ b) : Segregate.toggle_mark m x b = m b := by
  unfold Segregate.toggle_mark
  rw [HDRP_sub h1 h2]
  exact PUT_other _ _ _ _ (by omega)

theorem xor4_lt (v : Nat) (h : v < 4294967296) : v ^^^ 4 < 4294967296 :=
  Nat.xor_lt_two_pow (n := 32) h (by decide)

theorem toggle_mark_hdr (m : Mem) (x : Nat) (h1 : 4 ≤ x) (h2 : x < 4294967296) :
    GET (Segregate.toggle_mark m x) (x - 4) = GET m (x - 4) ^^^ 4 := by
  unfold Segregate.toggle_mark
  rw [HDRP_sub h1 h2]
  exact GET_PUT_same _ _ _ (xor4_lt _ (GET_lt _ _))

theorem toggle_mark_byte_lt (m : Mem) (x b : Nat) (h1 : 4 ≤ x) (h2 : x < 4294967296)
    (hb : x - 4 ≤ b ∧ b < x) : Segregate.toggle_mark m x b < 256 := by
  unfold Segregate.toggle_mark
  rw [HDRP_sub h1 h2]
  unfold PUT
  split
  · omega
  · split
    · omega
    · split
      · omega
      · split
        · omega
        · omega

/-- The bytes outside the header words of the members are not written by the toggles. -/
theorem toggles_other (l : List Nat) (m : Mem) (b : Nat)
    (hl : ∀ x ∈ l, 4 ≤ x ∧ x < 4294967296) (hb : ∀ x ∈ l, b < x - 4 ∨ x ≤ b) :
    l.foldl Segregate.toggle_mark m b = m b := by
  induction l generalizing m with
  | nil => rfl
  | cons y ys ih =>
    simp only [List.foldl_cons]
    rw [ih _ (fun x hx => hl x (List.mem_cons_of_mem _ hx))
      (fun x hx => hb x (List.mem_cons_of_mem _ hx))]
    exact toggle_mark_other m y b (hl y (List.mem_cons_self _ _)).1
      (hl y (List.mem_cons_self _ _)).2 (hb y (List.mem_cons_self _ _))

theorem toggles_GET_other (l : List Nat) (m : Mem) (q : Nat)
    (hl : ∀ x ∈ l, 4 ≤ x ∧ x < 4294967296) (hq : ∀ x ∈ l, q + 4 ≤ x - 4 ∨ x ≤ q) :
    GET (l.foldl Segregate.toggle_mark m) q = GET m q :=
  GET_congr _ _ _ (fun b h1 h2 => toggles_other l m b hl (fun x hx => by
    have := hq x hx
    omega))

/-- Every member's header word is toggled exactly once by one pass, and holds bytes. -/
theorem toggles_hdr (l : List Nat) (m : Mem) (hl : ∀ x ∈ l, 4 ≤ x ∧ x < 4294967296)
    (hnd : l.Nodup) (hsep : ∀ x ∈ l, ∀ y ∈ l, x ≠ y → x + 16 ≤ y ∨ y + 16 ≤ x) :
    ∀ x ∈ l, GET (l.foldl Segregate.toggle_mark m) (x - 4) = GET m (x - 4) ^^^ 4 ∧
      ∀ b, x - 4 ≤ b → b < x → l.foldl Segregate.toggle_mark m b < 256 := by
  induction l generalizing m with
  | nil => intro x hx; cases hx
  | cons y ys ih =>
    intro x hx
    have hys : ∀ z ∈ ys, 4 ≤ z ∧ z < 4294967296 := fun z hz => by
      have := hl z (List.mem_cons_of_mem _ hz); omega
    have hy := hl y (List.mem_cons_self _ _)
    simp only [List.foldl_cons]
    rcases List.mem_cons.1 hx with hxy | hxs
    · subst hxy
      have hnot : ∀ z ∈ ys, x ≠ z := fun z hz hxz => by
        subst hxz
        exact (List.nodup_cons.1 hnd).1 hz
      have hsp : ∀ z ∈ ys, x + 16 ≤ z ∨ z + 16 ≤ x := fun z hz =>
        hsep x (List.mem_cons_self _ _) z (List.mem_cons_of_mem _ hz) (hnot z hz)
      constructor
      · rw [toggles_GET_other ys _ _ hys (fun z hz => by have := hsp z hz; omega)]
        exact toggle_mark_hdr m x (by omega) hy.2
      · intro b hb1 hb2
        rw [toggles_other ys _ b hys (fun z hz => by have := hsp z hz; omega)]
        exact toggle_mark_byte_lt m x b (by omega) hy.2 ⟨hb1, hb2⟩
    · have hne : x ≠ y := fun hxy => by
        subst hxy
        exact (List.nodup_cons.1 hnd).1 hxs
      have hsp := hsep x hx y (List.mem_cons_self _ _) hne
      have h := ih (Segregate.toggle_mark m y)
        (fun z hz => hl z (List.mem_cons_of_mem _ hz)) (List.nodup_cons.1 hnd).2
        (fun a ha b hb => hsep a (List.mem_cons_of_mem _ ha) b (List.mem_cons_of_mem _ hb))
        x hxs
      refine ⟨?_, h.2⟩
      have hg : GET (Segregate.toggle_mark m y) (x - 4) = GET m (x - 4) :=
        GET_congr _ _ _ (fun b h1 h2 => toggle_mark_other m y b (by omega) hy.2 (by omega))
      rw [h.1, hg]

theorem byte_eq_of_GET_eq {m m2 : Mem} {p : Nat} (h : GET m2 p = GET m p)
    (hb : ∀ b, p ≤ b → b < p + 4 → m2 b < 256) :
    ∀ b, p ≤ b → b < p + 4 → m2 b % 256 = m b % 256 := by
  intro b h1 h2
  unfold GET at h
  have b0 := hb p (by omega) (by omega)
  have b1 := hb (p + 1) (by omega) (by omega)
  have b2 := hb (p + 2) (by omega) (by omega)
  have b3 := hb (p + 3) (by omega) (by omega)
  have hc : b = p ∨ b = p + 1 ∨ b = p + 2 ∨ b = p + 3 := by omega
  rcases hc with hc | hc | hc | hc <;> subst hc <;> omega

theorem xor4_xor4 (v : Nat) : v ^^^ 4 ^^^ 4 = v := by
  rw [Nat.xor_assoc, Nat.xor_self, Nat.xor_zero]

/-- Two passes over the same members restore every byte (up to its value as a byte). -/
theorem toggles_twice (l : List Nat) (m : Mem) (hl : ∀ x ∈ l, 4 ≤ x ∧ x < 4294967296)
    (hnd : l.Nodup) (hsep : ∀ x ∈ l, ∀ y ∈ l, x ≠ y → x + 16 ≤ y ∨ y + 16 ≤ x) (b : Nat) :
    l.foldl Segregate.toggle_mark (l.foldl Segregate.toggle_mark m) b = m b ∨
    l.foldl Segregate.toggle_mark (l.foldl Segregate.toggle_mark m) b = m b % 256 := by
  have hl4 : ∀ x ∈ l, 4 ≤ x ∧ x < 4294967296 := fun z hz => by
    have := hl z hz; omega
  by_cases hb : ∀ x ∈ l, b < x - 4 ∨ x ≤ b
  · left
    rw [toggles_other l _ b hl4 hb, toggles_other l _ b hl4 hb]
  · right
    simp only [not_forall] at hb
    obtain ⟨x, hx, hbx⟩ := hb
    have h1 := toggles_hdr l m hl hnd hsep x hx
    have h2 := toggles_hdr l (l.foldl Segregate.toggle_mark m) hl hnd hsep x hx
    have hg : GET (l.foldl Segregate.toggle_mark (l.foldl Segregate.toggle_mark m)) (x - 4)
        = GET m (x - 4) := by
      rw [h2.1, h1.1, xor4_xor4]
    have hx16 := hl x hx
    have h3 := byte_eq_of_GET_eq hg (fun c hc1 hc2 => h2.2 c hc1 (by omega)) b
      (by omega) (by omega)
    have h4 := h2.2 b (by omega) (by omega)
    omega

theorem GET_eq_of_bytes {m m2 : Mem} (h : ∀ b, m2 b % 256 = m b % 256) (q : Nat) :
    GET m2 q = GET m q := by
  unfold GET
  rw [h q, h (q + 1), h (q + 2), h (q + 3)]

theorem NEXT_add {m : Mem} {x : Nat} (h : x + 4 < 4294967296) : NEXT m x = GET m (x + 4) := by
  unfold NEXT add32 WSIZE W32
  congr 1
  omega

/-- One run of the inner loop of `toggleMarkFreeBlock` toggles the members of the list. -/
theorem toggle_list_spec (l : List Nat) (m : Mem) (r fuel : Nat) (h : IsList m r l)
    (hl : ∀ x ∈ l, 4 ≤ x ∧ x + 8 < 4294967296)
    (hsep : ∀ x ∈ l, ∀ y ∈ l, x ≠ y → x + 16 ≤ y ∨ y + 16 ≤ x) (hf : l.length < fuel) :
    Segregate.toggle_list m fuel r = some (l.foldl Segregate.toggle_mark m) := by
  induction l generalizing m r fuel with
  | nil =>
    cases fuel with
    | zero => simp at hf
    | succ f =>
      have h0 : r = 0 := h
      unfold Segregate.toggle_list
      rw [if_pos h0]
      rfl
  | cons x xs ih =>
    obtain ⟨h1, h2, h3⟩ := h
    cases fuel with
    | zero => simp at hf
    | succ f =>
      subst h1
      unfold Segregate.toggle_list
      rw [if_neg h2]
      have hx := hl r (List.mem_cons_self _ _)
      have hnext : ∀ y, y ∈ r :: xs → NEXT (Segregate.toggle_mark m r) y = NEXT m y := by
        intro y hy
        have hy1 := hl y hy
        rw [NEXT_add (by omega), NEXT_add (by omega)]
        apply GET_congr
        intro b hb1 hb2
        apply toggle_mark_other m r b (by omega) (by omega)
        by_cases hry : r = y
        · subst hry; omega
        · have := hsep r (List.mem_cons_self _ _) y hy hry
          omega
      show Segregate.toggle_list (Segregate.toggle_mark m r) f
          (NEXT (Segregate.toggle_mark m r) r) = _
      rw [hnext r (List.mem_cons_self _ _)]
      simp only [List.foldl_cons]
      apply ih
      · exact IsList_congr h3 (fun y hy => hnext y (List.mem_cons_of_mem _ hy))
      · exact fun y hy => hl y (List.mem_cons_of_mem _ hy)
      · exact fun a ha b hb => hsep a (List.mem_cons_of_mem _ ha) b (List.mem_cons_of_mem _ hb)
      · simp only [List.length_cons] at hf
        omega

theorem RANKP_eq (s : State) (k : Nat) (hk : k < 10) (hp : s.heap_listp + 40 < 4294967296) :
    Segregate.RANKP s k = s.heap_listp + 4 * k := by
  unfold Segregate.RANKP add32 mul32 WSIZE W32
  omega

theorem foldl_toggle_state (l : List Nat) (s : State) :
    ({ s with mem := l.foldl Segregate.toggle_mark s.mem } : State).mem
      = l.foldl Segregate.toggle_mark s.mem := rfl

/-- One run of the outer loop of `toggleMarkFreeBlock` toggles the members of the lists
`k`, …, `k + n - 1` in order. -/
theorem toggle_ranks_spec (fuel : Nat) (L : Nat → List Nat) (n k : Nat) (s : State)
    (hkn : k + n ≤ 10) (hp : s.heap_listp + 40 < 4294967296)
    (hlist : ∀ j, k ≤ j → j < k + n → IsList s.mem (Segregate.GET_RANK s j) (L j))
    (hl : ∀ x ∈ bucket_members L k n, 4 ≤ x ∧ x + 8 < 4294967296)
    (hsep : ∀ x ∈ bucket_members L k n, ∀ y ∈ bucket_members L k n,
      x ≠ y → x + 16 ≤ y ∨ y + 16 ≤ x)
    (hroot : ∀ x ∈ bucket_members L k n, x ≤ s.heap_listp ∨ s.heap_listp + 44 ≤ x)
    (hf : ∀ j, k ≤ j → j < k + n → (L j).length < fuel) :
    Segregate.toggle_ranks fuel s n k
      = some { s with mem := (bucket_members L k n).foldl Segregate.toggle_mark s.mem } := by
  induction n generalizing k s with
  | zero => rfl
  | succ n ih =>
    have hsub1 : ∀ x, x ∈ L k → x ∈ bucket_members L k (n + 1) := fun x hx => by
      unfold bucket_members
      exact List.mem_append_left _ hx
    have hsub2 : ∀ x, x ∈ bucket_members L (k + 1) n → x ∈ bucket_members L k (n + 1) :=
      fun x hx => by
        unfold bucket_members
        exact List.mem_append_right _ hx
    have h1 := toggle_list_spec (L k) s.mem (Segregate.GET_RANK s k) fuel
      (hlist k (le_refl _) (by omega)) (fun x hx => hl x (hsub1 x hx))
      (fun x hx y hy => hsep x (hsub1 x hx) y (hsub1 y hy)) (hf k (le_refl _) (by omega))
    unfold Segregate.toggle_ranks
    rw [h1]
    dsimp only
    have h2 := ih (k + 1) { s with mem := (L k).foldl Segregate.toggle_mark s.mem }
      (by omega) hp
      (fun j hj1 hj2 => by
        have hr : Segregate.GET_RANK
            { s with mem := (L k).foldl Segregate.toggle_mark s.mem } j
            = Segregate.GET_RANK s j := by
          show GET ((L k).foldl Segregate.toggle_mark s.mem) (Segregate.RANKP s j)
            = GET s.mem (Segregate.RANKP s j)
          rw [RANKP_eq s j (by omega) hp]
          exact toggles_GET_other (L k) s.mem _
            (fun x hx => by have := hl x (hsub1 x hx); omega)
            (fun x hx => by
              have := hroot x (hsub1 x hx)
              have := hl x (hsub1 x hx)
              omega)
        rw [hr]
        apply IsList_congr (hlist j (by omega) (by omega))
        intro y hy
        have hy1 : y ∈ bucket_members L k (n + 1) := by
          apply hsub2
          clear ih h1 hr
          have : ∀ (n k : Nat), k ≤ j → j < k + n → y ∈ bucket_members L k n := by
            intro n
            induction n with
            | zero => intro k a b; omega
            | succ n ih2 =>
              intro k a b
              unfold bucket_members
              by_cases hjk : j = k
              · subst hjk
                exact List.mem_append_left _ hy
              · exact List.mem_append_right _ (ih2 (k + 1) (by omega) (by omega))
          exact this n (k + 1) hj1 (by omega)
        have hyb := hl y hy1
        rw [NEXT_add (by omega), NEXT_add (by omega)]
        exact toggles_GET_other (L k) s.mem _
          (fun x hx => by have := hl x (hsub1 x hx); omega)
          (fun x hx => by
            have hxb := hl x (hsub1 x hx)
            by_cases hxy : x = y
            · subst hxy; omega
            · have := hsep x (hsub1 x hx) y hy1 hxy
              omega))
      (fun x hx => hl x (hsub2 x hx))
      (fun x hx y hy => hsep x (hsub2 x hx) y (hsub2 y hy))
      (fun x hx => hroot x (hsub2 x hx))
      (fun j hj1 hj2 => hf j (by omega) (by omega))
    rw [h2]
    have hm : (bucket_members L (k + 1) n).foldl Segregate.toggle_mark
        ((L k).foldl Segregate.toggle_mark s.mem)
        = (bucket_members L k (n + 1)).foldl Segregate.toggle_mark s.mem := by
      show _ = (L k ++ bucket_members L (k + 1) n).foldl Segregate.toggle_mark s.mem
      rw [List.foldl_append]
    exact congrArg (fun m1 => some ({ s with mem := m1 } : State)) hm

theorem GET_SIZE_xor4 (v : Nat) : (v ^^^ 4) &&& 4294967288 = v &&& 4294967288 := by
  rw [Nat.and_xor_distrib_right]
  have h : 4 &&& 4294967288 = 0 := by decide
  rw [h, Nat.xor_zero]

/-- The blocks met by `heap_walk` lie between the start and the break, 16 bytes or more
apart, and none starts inside the first block. -/
theorem heap_walk_blocks (m : Mem) (brk : Nat) : ∀ (fuel bp : Nat) (bs : List (Nat × Nat × Nat)),
    heap_walk m brk fuel bp = some bs →
    bp + 16 * bs.length ≤ brk ∧
    (∀ x ∈ bs.map Prod.fst, x + 16 ≤ brk ∧ (x = bp ∨ bp + GET_SIZE m (bp - 4) ≤ x)) ∧
    (bs.map Prod.fst).Pairwise (fun a b => a + 16 ≤ b) ∧
    (GET_SIZE m (bp - 4) ≠ 0 → bp + GET_SIZE m (bp - 4) ≤ brk) := by
  intro fuel
  induction fuel with
  | zero => intro bp bs h; simp [heap_walk] at h
  | succ f ih =>
    intro bp bs h
    unfold heap_walk at h
    by_cases h1 : bp = brk
    · rw [if_pos h1] at h
      split at h
      · rename_i h5
        injection h with h
        subst h
        simp only [List.length_nil, List.map_nil, List.not_mem_nil, List.Pairwise.nil]
        refine ⟨by omega, fun x hx => hx.elim, trivial, fun h6 => ?_⟩
        exfalso
        apply h6
        unfold GET_SIZE
        rw [h5]
        decide
      · cases h
    · rw [if_neg h1] at h
      by_cases h2 : bp > brk
      · rw [if_pos h2] at h; cases h
      · rw [if_neg h2] at h
        dsimp only at h
        by_cases h3 : GET_SIZE m (bp - 4) < 16 ∨ GET m (bp - 4) % 8 > 1 ∨
            bp + GET_SIZE m (bp - 4) > brk
        · rw [if_pos h3] at h; cases h
        · rw [if_neg h3] at h
          by_cases h4 : GET m (bp + GET_SIZE m (bp - 4) - 8) ≠ GET m (bp - 4)
          · rw [if_pos h4] at h; cases h
          · rw [if_neg h4] at h
            cases hn : heap_walk m brk f (bp + GET_SIZE m (bp - 4)) with
            | none => rw [hn] at h; cases h
            | some l =>
              rw [hn] at h
              simp only [Option.map_some'] at h
              injection h with h
              subst h
              obtain ⟨i1, i2, i3, _⟩ := ih _ _ hn
              simp only [not_or, not_lt] at h3
              refine ⟨?_, ?_, ?_, fun _ => by omega⟩
              · simp only [List.length_cons]
                omega
              · intro x hx
                simp only [List.map_cons, List.mem_cons] at hx
                rcases hx with hx | hx
                · subst hx
                  omega
                · have := i2 x hx
                  omega
              · simp only [List.map_cons, List.pairwise_cons]
                refine ⟨fun x hx => ?_, i3⟩
                have := i2 x hx
                omega

theorem sub32_eq {a b : Nat} (h1 : b ≤ a) (h2 : a < 4294967296) : sub32 a b = a - b := by
  unfold sub32 W32
  have : b % 4294967296 = b := Nat.mod_eq_of_lt (by omega)
  omega

/-- The walk of the segregated checker returns on every memory that has the block sizes of
a well-formed block sequence. -/
theorem segregate_check_walk_returns (m m1 : Mem) (brk : Nat) (hbrk : brk < 4294967296) :
    ∀ (fuel bp : Nat) (bs : List (Nat × Nat × Nat)), heap_walk m brk fuel bp = some bs →
    4 ≤ bp →
    (∀ x, x ∈ bs.map Prod.fst ∨ x = brk → GET_SIZE m1 (x - 4) = GET_SIZE m (x - 4)) →
    ∀ f2, bs.length < f2 → ∃ r, Segregate.check_walk m1 f2 bp = some r := by
  intro fuel
  induction fuel with
  | zero => intro bp bs h; simp [heap_walk] at h
  | succ f ih =>
    intro bp bs h hbp hsz f2 hf2
    cases f2 with
    | zero => omega
    | succ g =>
      unfold heap_walk at h
      unfold Segregate.check_walk
      by_cases h1 : bp = brk
      · rw [if_pos h1] at h
        split at h
        · rename_i h5
          have h6 := hsz bp (Or.inr h1)
          have h7 : GET_SIZE m (bp - 4) = 0 := by
            unfold GET_SIZE
            rw [h5]
            decide
          have h8 : HDRP bp = bp - 4 := HDRP_sub hbp (by omega)
          rw [h8, h6, h7, if_neg (by omega)]
          exact ⟨_, rfl⟩
        · cases h
      · rw [if_neg h1] at h
        by_cases h2 : bp > brk
        · rw [if_pos h2] at h; cases h
        · rw [if_neg h2] at h
          dsimp only at h
          by_cases h3 : GET_SIZE m (bp - 4) < 16 ∨ GET m (bp - 4) % 8 > 1 ∨
              bp + GET_SIZE m (bp - 4) > brk
          · rw [if_pos h3] at h; cases h
          · rw [if_neg h3] at h
            by_cases h4 : GET m (bp + GET_SIZE m (bp - 4) - 8) ≠ GET m (bp - 4)
            · rw [if_pos h4] at h; cases h
            · rw [if_neg h4] at h
              cases hn : heap_walk m brk f (bp + GET_SIZE m (bp - 4)) with
              | none => rw [hn] at h; cases h
              | some l =>
                rw [hn] at h
                simp only [Option.map_some'] at h
                injection h with h
                subst h
                simp only [not_or, not_lt] at h3
                have h6 := hsz bp (Or.inl (by simp))
                have h8 : HDRP bp = bp - 4 := HDRP_sub hbp (by omega)
                have h9 : NEXT_BLKP m1 bp = bp + GET_SIZE m (bp - 4) := by
                  unfold NEXT_BLKP WSIZE
                  rw [sub32_eq hbp (by omega), h6]
                  unfold add32 W32
                  exact Nat.mod_eq_of_lt (by omega)
                rw [h8, h6, if_pos (by omega), h9]
                obtain ⟨r, hr⟩ := ih _ l hn (by omega)
                  (fun x hx => hsz x (by
                    rcases hx with hx | hx
                    · left
                      simp only [List.map_cons, List.mem_cons]
                      exact Or.inr hx
                    · exact Or.inr hx))
                  g (by simp only [List.length_cons] at hf2; omega)
                rw [hr]
                exact ⟨_, rfl⟩

theorem bucket_sublist (L : Nat → List Nat) (j : Nat) : ∀ (n k : Nat), k ≤ j → j < k + n →
    (L j).Sublist (bucket_members L k n) := by
  intro n
  induction n with
  | zero => intro k a b; omega
  | succ n ih =>
    intro k a b
    unfold bucket_members
    by_cases hjk : j = k
    · subst hjk
      exact List.sublist_append_left _ _
    · exact (ih (k + 1) (by omega) (by omega)).trans (List.sublist_append_right _ _)

theorem nodup_length_lt (l : List Nat) (N : Nat) (hN : 0 < N) (hnd : l.Nodup)
    (h : ∀ x ∈ l, 0 < x ∧ x < N) : l.length < N := by
  have h0 : (0 :: l).Nodup := List.nodup_cons.2 ⟨fun h0 => by have := h 0 h0; omega, hnd⟩
  have hs : (0 :: l) ⊆ List.range N := by
    intro x hx
    rcases List.mem_cons.1 hx with hx | hx
    · subst hx
      exact List.mem_range.2 hN
    · exact List.mem_range.2 (h x hx).2
  have := (List.subperm_of_subset h0 hs).length_le
  simp only [List.length_cons, List.length_range] at this
  omega

theorem pairwise_apart (l : List Nat) (h : l.Pairwise (fun a b => a + 16 ≤ b)) :
    ∀ x ∈ l, ∀ y ∈ l, x ≠ y → x + 16 ≤ y ∨ y + 16 ≤ x :=
  List.Pairwise.forall (fun _ _ hab => hab.symm)
    (h.imp (fun hab => Or.inl hab))

/-- Toggling the marks of blocks leaves a bucket list of blocks in place. -/
theorem toggles_keep_list (T l : List Nat) (s : State) (j : Nat) (hj : j < 10)
    (hp : s.heap_listp + 40 < 4294967296)
    (hT : ∀ x ∈ T, 4 ≤ x ∧ x + 8 < 4294967296)
    (hl : ∀ y ∈ l, y + 8 < 4294967296)
    (hsep : ∀ x ∈ T, ∀ y ∈ l, x ≠ y → x + 16 ≤ y ∨ y + 16 ≤ x)
    (hroot : ∀ x ∈ T, x ≤ s.heap_listp ∨ s.heap_listp + 44 ≤ x)
    (h : IsList s.mem (Segregate.GET_RANK s j) l) :
    IsList (T.foldl Segregate.toggle_mark s.mem)
      (Segregate.GET_RANK { s with mem := T.foldl Segregate.toggle_mark s.mem } j) l := by
  have hr : Segregate.GET_RANK { s with mem := T.foldl Segregate.toggle_mark s.mem } j
      = Segregate.GET_RANK s j := by
    show GET (T.foldl Segregate.toggle_mark s.mem) (Segregate.RANKP s j)
      = GET s.mem (Segregate.RANKP s j)
    rw [RANKP_eq s j hj hp]
    exact toggles_GET_other T s.mem _ (fun x hx => by have := hT x hx; omega)
      (fun x hx => by
        have := hroot x hx
        have := hT x hx
        omega)
  rw [hr]
  apply IsList_congr h
  intro y hy
  have hyb := hl y hy
  rw [NEXT_add (by omega), NEXT_add (by omega)]
  exact toggles_GET_other T s.mem _ (fun x hx => by have := hT x hx; omega)
    (fun x hx => by
      have hxb := hT x hx
      by_cases hxy : x = y
      · subst hxy; omega
      · have := hsep x hx y hy hxy
        omega)

theorem GET_SIZE_mod8 (m : Mem) (p : Nat) : GET_SIZE m p % 8 = 0 := by
  unfold GET_SIZE
  rw [and_mask_eq _ (GET_lt m p)]
  omega

/-- The walk of the segregated checker visits the same blocks on two memories whose header
words at the block pointers congruent to `c` modulo 8 hold the same sizes. -/
theorem check_walk_same_sizes (m m1 : Mem) (c : Nat)
    (hsz : ∀ bp, bp % 8 = c → bp < 4294967296 →
      GET_SIZE m1 (HDRP bp) = GET_SIZE m (HDRP bp)) :
    ∀ (fuel bp : Nat) (r : List Nat × List Diag × Nat), bp % 8 = c → bp < 4294967296 →
      Segregate.check_walk m fuel bp = some r →
      ∃ ds, Segregate.check_walk m1 fuel bp = some (r.1, ds, r.2.2) := by
  intro fuel
  induction fuel with
  | zero => intro bp r _ _ h; simp [Segregate.check_walk] at h
  | succ f ih =>
    intro bp r h8 hlt h
    unfold Segregate.check_walk at h ⊢
    rw [hsz bp h8 hlt]
    by_cases h0 : GET_SIZE m (HDRP bp) > 0
    · rw [if_pos h0] at h ⊢
      have hn : NEXT_BLKP m1 bp = NEXT_BLKP m bp := by
        show add32 bp (GET_SIZE m1 (HDRP bp)) = add32 bp (GET_SIZE m (HDRP bp))
        rw [hsz bp h8 hlt]
      have hn8 : NEXT_BLKP m bp % 8 = c ∧ NEXT_BLKP m bp < 4294967296 := by
        have := GET_SIZE_mod8 m (HDRP bp)
        show add32 bp (GET_SIZE m (HDRP bp)) % 8 = c ∧
          add32 bp (GET_SIZE m (HDRP bp)) < 4294967296
        unfold add32 W32
        omega
      dsimp only at h ⊢
      rw [hn]
      cases hc : Segregate.check_walk m f (NEXT_BLKP m bp) with
      | none => rw [hc] at h; cases h
      | some r1 =>
        rw [hc] at h
        obtain ⟨ds, hds⟩ := ih _ r1 hn8.1 hn8.2 hc
        rw [hds]
        obtain ⟨vis, d, e⟩ := r1
        dsimp only at h ⊢
        cases h
        exact ⟨_, rfl⟩
    · rw [if_neg h0] at h ⊢
      cases h
      exact ⟨_, rfl⟩

/-- The walk of the segregated checker ends on every well-formed block sequence. -/
theorem wellformed_check_walk_returns (s : State) (bs : List (Nat × Nat × Nat))
    (hbrk : s.mem_brk < 4294967296) (hp : 4 ≤ s.heap_listp)
    (hw : heap_walk s.mem s.mem_brk s.mem_brk s.heap_listp = some bs) :
    ∃ r, Segregate.check_walk s.mem s.mem_brk s.heap_listp = some r := by
  have h1 := (heap_walk_blocks _ _ _ _ _ hw).1
  exact segregate_check_walk_returns s.mem s.mem s.mem_brk hbrk _ _ _ hw hp (fun _ _ => rfl)
    s.mem_brk (by omega)

/-- The blocks met by `heap_walk` are aligned like the block pointer it starts from. -/
theorem heap_walk_aligned (m : Mem) (brk : Nat) : ∀ (fuel bp : Nat)
    (bs : List (Nat × Nat × Nat)), heap_walk m brk fuel bp = some bs →
    ∀ x ∈ bs.map Prod.fst, x % 8 = bp % 8 := by
  intro fuel
  induction fuel with
  | zero => intro bp bs h; simp [heap_walk] at h
  | succ f ih =>
    intro bp bs h
    unfold heap_walk at h
    by_cases h1 : bp = brk
    · rw [if_pos h1] at h
      split at h
      · cases h
        intro x hx
        cases hx
      · cases h
    · rw [if_neg h1] at h
      by_cases h2 : bp > brk
      · rw [if_pos h2] at h; cases h
      · rw [if_neg h2] at h
        dsimp only at h
        by_cases h3 : GET_SIZE m (bp - 4) < 16 ∨ GET m (bp - 4) % 8 > 1 ∨
            bp + GET_SIZE m (bp - 4) > brk
        · rw [if_pos h3] at h; cases h
        · rw [if_neg h3] at h
          by_cases h4 : GET m (bp + GET_SIZE m (bp - 4) - 8) ≠ GET m (bp - 4)
          · rw [if_pos h4] at h; cases h
          · rw [if_neg h4] at h
            cases hn : heap_walk m brk f (bp + GET_SIZE m (bp - 4)) with
            | none => rw [hn] at h; cases h
            | some l =>
              rw [hn] at h
              cases h
              intro x hx
              simp only [List.map_cons, List.mem_cons] at hx
              rcases hx with hx | hx
              · rw [hx]
              · have := ih _ _ hn x hx
                have := GET_SIZE_mod8 m (bp - 4)
                omega

/-- On a well-formed block sequence from the 48-byte prologue to the epilogue, bucket
members that are blocks of the sequence are aligned like `heap_listp`, lie at the prologue
or past it with their link words inside the heap, and are at least 16 bytes apart. -/
theorem wellformed_members_apart (s : State) (bs : List (Nat × Nat × Nat))
    (M : List Nat) (hbrk : s.mem_brk < 4294967296) (hp : 4 ≤ s.heap_listp)
    (hpro : GET_SIZE s.mem (HDRP s.heap_listp) = 48)
    (hw : heap_walk s.mem s.mem_brk s.mem_brk s.heap_listp = some bs)
    (hmem : ∀ x ∈ M, x ∈ bs.map Prod.fst) :
    s.heap_listp + 48 ≤ s.mem_brk ∧
    (∀ x ∈ M, x % 8 = s.heap_listp % 8 ∧ (x = s.heap_listp ∨ s.heap_listp + 48 ≤ x) ∧
      x + 8 ≤ s.mem_brk) ∧
    (∀ x ∈ M, ∀ y ∈ M, x ≠ y → x + 16 ≤ y ∨ y + 16 ≤ x) := by
  obtain ⟨_, w2, w3, w4⟩ := heap_walk_blocks _ _ _ _ _ hw
  have hal := heap_walk_aligned _ _ _ _ _ hw
  have hpro4 : GET_SIZE s.mem (s.heap_listp - 4) = 48 := by
    rw [← HDRP_sub hp (by omega)]
    exact hpro
  have hsepB := pairwise_apart _ w3
  refine ⟨?_, fun x hx => ?_, fun x hx y hy => hsepB x (hmem x hx) y (hmem y hy)⟩
  · have := w4 (by omega)
    omega
  · have := w2 x (hmem x hx)
    have := hal x (hmem x hx)
    omega

/-- Claim C20, amended: in the segregated variant, on every heap whose ten bucket lists are
null-terminated (`list_members` returns them) and contain no block twice, whose list members
are block pointers aligned like `heap_listp`, at the prologue or past it, with their link
words inside the heap, no two members less than 16 bytes (one minimum block) apart, and on
which the block walk of the checker ends, `mm_checkheap` returns, visits the blocks of that
walk, and leaves every heap word and every global as it was: the two `toggleMarkFreeBlock`
passes cancel.  When the memory holds bytes, the state after the call equals the state
before it.  The footers and the status bits of the blocks are not constrained. -/
theorem segregated_checkheap_restores_state (s : State) (L : Nat → List Nat)
    (w : List Nat × List Diag × Nat)
    (hbrk : s.mem_brk < 4294967296) (hp : 4 ≤ s.heap_listp)
    (hpl : s.heap_listp + 48 ≤ s.mem_brk)
    (hl : ∀ k, k < 10 → list_members s.mem s.mem_brk (Segregate.GET_RANK s k) = some (L k))
    (hnd : (bucket_members L 0 10).Nodup)
    (hin : ∀ x ∈ bucket_members L 0 10, x % 8 = s.heap_listp % 8 ∧
      (x = s.heap_listp ∨ s.heap_listp + 48 ≤ x) ∧ x + 8 ≤ s.mem_brk)
    (hsep : ∀ x ∈ bucket_members L 0 10, ∀ y ∈ bucket_members L 0 10,
      x ≠ y → x + 16 ≤ y ∨ y + 16 ≤ x)
    (hwalk : Segregate.check_walk s.mem s.mem_brk s.heap_listp = some w) :
    ∃ r, Segregate.mm_checkheap s = some r ∧ r.2.1 = w.1 ∧
      (∀ q, GET r.1.mem q = GET s.mem q) ∧
      r.1.mem_brk = s.mem_brk ∧ r.1.mem_max_addr = s.mem_max_addr ∧
      r.1.heap_listp = s.heap_listp ∧ r.1.rover = s.rover ∧
      ((∀ b, s.mem b < 256) → r.1 = s) := by
  have hM : ∀ x ∈ bucket_members L 0 10, 4 ≤ x ∧ x + 8 < 4294967296 := fun x hx => by
    have := hin x hx
    omega
  have hM2 : ∀ x ∈ bucket_members L 0 10, 4 ≤ x ∧ x < 4294967296 := fun x hx => by
    have := hM x hx
    omega
  have hroot : ∀ x ∈ bucket_members L 0 10, x ≤ s.heap_listp ∨ s.heap_listp + 44 ≤ x :=
    fun x hx => by
      have := hin x hx
      omega
  have hp40 : s.heap_listp + 40 < 4294967296 := by omega
  have hlist : ∀ j, j < 10 → IsList s.mem (Segregate.GET_RANK s j) (L j) :=
    fun j hj => IsList_of_list_members (hl j hj)
  have hsubl : ∀ j, j < 10 → (L j).Sublist (bucket_members L 0 10) :=
    fun j hj => bucket_sublist L j 10 0 (by omega) (by omega)
  have hfuel : ∀ j, 0 ≤ j → j < 0 + 10 → (L j).length < s.mem_brk := fun j _ hj =>
    nodup_length_lt _ _ (by omega) (hnd.sublist (hsubl j (by omega)))
      (fun x hx => by
        have := hin x ((hsubl j (by omega)).subset hx)
        omega)
  have e1 := toggle_ranks_spec s.mem_brk L 10 0 s (by omega) hp40
    (fun j _ hj => hlist j (by omega)) hM hsep hroot hfuel
  have e2 := toggle_ranks_spec s.mem_brk L 10 0
    { s with mem := (bucket_members L 0 10).foldl Segregate.toggle_mark s.mem } (by omega) hp40
    (fun j _ hj => toggles_keep_list _ _ s j (by omega) hp40 hM
      (fun y hy => (hM y ((hsubl j (by omega)).subset hy)).2)
      (fun x hx y hy => hsep x hx y ((hsubl j (by omega)).subset hy))
      hroot (hlist j (by omega)))
    hM hsep hroot hfuel
  have hsz : ∀ bp, bp % 8 = s.heap_listp % 8 → bp < 4294967296 →
      GET_SIZE ((bucket_members L 0 10).foldl Segregate.toggle_mark s.mem) (HDRP bp)
        = GET_SIZE s.mem (HDRP bp) := by
    intro bp h8 hlt
    by_cases hxM : bp ∈ bucket_members L 0 10
    · rw [HDRP_sub (hM2 bp hxM).1 hlt]
      unfold GET_SIZE
      rw [(toggles_hdr _ s.mem hM2 hnd hsep bp hxM).1, GET_SIZE_xor4]
    · unfold GET_SIZE
      rw [toggles_GET_other _ s.mem _ hM2 (fun z hz => by
        have hz1 := hin z hz
        have hne : z ≠ bp := fun hzx => hxM (hzx ▸ hz)
        unfold HDRP sub32 WSIZE W32
        omega)]
  obtain ⟨ds, hr⟩ := check_walk_same_sizes s.mem
    ((bucket_members L 0 10).foldl Segregate.toggle_mark s.mem) (s.heap_listp % 8) hsz
    s.mem_brk s.heap_listp w rfl (by omega) hwalk
  have hbytes := toggles_twice (bucket_members L 0 10) s.mem hM2 hnd hsep
  have hc : ∃ d, Segregate.mm_checkheap s = some
      ((⟨(bucket_members L 0 10).foldl Segregate.toggle_mark
          ((bucket_members L 0 10).foldl Segregate.toggle_mark s.mem),
        s.mem_brk, s.mem_max_addr, s.heap_listp, s.rover⟩ : State), w.1, d) := by
    have hR : Segregate.RANKSIZE = 10 := rfl
    unfold Segregate.mm_checkheap Segregate.toggleMarkFreeBlock
    rw [hR]
    dsimp only
    rw [e1]
    dsimp only
    rw [hr]
    dsimp only
    rw [e2]
    exact ⟨_, rfl⟩
  obtain ⟨d, hd⟩ := hc
  refine ⟨_, hd, rfl, ?_⟩
  dsimp only
  refine ⟨fun q => GET_eq_of_bytes (fun b => ?_) q, rfl, rfl, rfl, rfl, fun hb => ?_⟩
  · rcases hbytes b with h | h
    · rw [h]
    · rw [h, Nat.mod_mod]
  · cases s with
    | mk mem brk mx hlp rv =>
      dsimp only at hbytes hb ⊢
      congr 1
      funext b
      rcases hbytes b with h | h
      · exact h
      · rw [h]
        exact Nat.mod_eq_of_lt (hb b)

set_option maxHeartbeats 4000000 in
/-- Witness of `segregated_checkheap_restores_state`: the heap after `mm_init; mm_malloc(8)` at
base 4096 with the footer of the allocated block 4152 cleared, which is not a well-formed
block sequence; the free block 4168 is in bucket list 8. -/
theorem segregated_checkheap_restores_state_witness :
    heap_walk Segregate.torn_state.mem Segregate.torn_state.mem_brk
        Segregate.torn_state.mem_brk Segregate.torn_state.heap_listp = none ∧
    bucket_members Segregate.demo_buckets 0 10 = [4168] ∧
    ∃ r, Segregate.mm_checkheap Segregate.torn_state = some r ∧
      r.2.1 = [4104, 4152, 4168] ∧
      (∀ q, GET r.1.mem q = GET Segregate.torn_state.mem q) ∧
      r.1.mem_brk = Segregate.torn_state.mem_brk ∧
      r.1.mem_max_addr = Segregate.torn_state.mem_max_addr ∧
      r.1.heap_listp = Segregate.torn_state.heap_listp ∧
      r.1.rover = Segregate.torn_state.rover ∧
      ((∀ b, Segregate.torn_state.mem b < 256) → r.1 = Segregate.torn_state) :=
  ⟨by decide!, by decide!,
   segregated_checkheap_restores_state Segregate.torn_state Segregate.demo_buckets
    ([4104, 4152, 4168], [Diag.tagMismatch 4152, Diag.orphan 4168], 8248)
    (by decide!) (by decide!) (by decide!) (by decide!) (by decide!) (by decide!) (by decide!)
    (by decide!)⟩

set_option maxHeartbeats 4000000 in
/-- Claim C20 as stated fails: in `Segregate.crowded_state` the ten bucket lists are
null-terminated and hold the three addresses 5000, 5008 and 4168, none twice, and the blocks
from the prologue to the epilogue are well formed, yet after `mm_checkheap` the word at 5004
holds 5012 instead of 5008 and the word at 5008 holds 4 instead of 0.  The first pass toggles
the header word of the member 5008, which is the link word of the member 5000, so the second
pass follows another list. -/
theorem segregated_checkheap_breaks_crowded_list :
    (∀ k, k < 10 → list_members Segregate.crowded_state.mem Segregate.crowded_state.mem_brk
      (Segregate.GET_RANK Segregate.crowded_state k) = some (Segregate.crowded_buckets k)) ∧
    bucket_members Segregate.crowded_buckets 0 10 = [5000, 5008, 4168] ∧
    (bucket_members Segregate.crowded_buckets 0 10).Nodup ∧
    heap_walk Segregate.crowded_state.mem Segregate.crowded_state.mem_brk
        Segregate.crowded_state.mem_brk Segregate.crowded_state.heap_listp
      = some [(4104, 48, 1), (4152, 16, 1), (4168, 4080, 0)] ∧
    GET Segregate.crowded_state.mem 5004 = 5008 ∧ GET Segregate.crowded_state.mem 5008 = 0 ∧
    (Segregate.mm_checkheap Segregate.crowded_state).map
      (fun r => (GET r.1.mem 5004, GET r.1.mem 5008)) = some (5012, 4) :=
  ⟨by decide!, by decide!, by decide!, by decide!, by decide!, by decide!, by decide!⟩

/-! ## The size classes of the segregated variant (C21) -/

theorem rank_bounds_eq :
    Segregate.rank_bounds = [32, 64, 96, 128, 256, 512, 1024, 2048, 4096] := by decide

theorem getRank_eq (size : Nat) : Segregate.getRank size =
    if size ≤ 32 then 0 else if size ≤ 64 then 1 else if size ≤ 96 then 2
    else if size ≤ 128 then 3 else if size ≤ 256 then 4 else if size ≤ 512 then 5
    else if size ≤ 1024 then 6 else if size ≤ 2048 then 7 else if size ≤ 4096 then 8
    else 9 := by
  have h0 : Segregate.RANK0 = 32 := by decide
  have h1 : Segregate.RANK1 = 64 := by decide
  have h2 : Segregate.RANK2 = 96 := by decide
  have h3 : Segregate.RANK3 = 128 := by decide
  have h4 : Segregate.RANK4 = 256 := by decide
  have h5 : Segregate.RANK5 = 512 := by decide
  have h6 : Segregate.RANK6 = 1024 := by decide
  have h7 : Segregate.RANK7 = 2048 := by decide
  have h8 : Segregate.RANK8 = 4096 := by decide
  unfold Segregate.getRank
  rw [h0, h1, h2, h3, h4, h5, h6, h7, h8]

theorem getRank_class (size : Nat) :
    (size ≤ 32 ∧ Segregate.getRank size = 0) ∨
    (32 < size ∧ size ≤ 64 ∧ Segregate.getRank size = 1) ∨
    (64 < size ∧ size ≤ 96 ∧ Segregate.getRank size = 2) ∨
    (96 < size ∧ size ≤ 128 ∧ Segregate.getRank size = 3) ∨
    (128 < size ∧ size ≤ 256 ∧ Segregate.getRank size = 4) ∨
    (256 < size ∧ size ≤ 512 ∧ Segregate.getRank size = 5) ∨
    (512 < size ∧ size ≤ 1024 ∧ Segregate.getRank size = 6) ∨
    (1024 < size ∧ size ≤ 2048 ∧ Segregate.getRank size = 7) ∨
    (2048 < size ∧ size ≤ 4096 ∧ Segregate.getRank size = 8) ∨
    (4096 < size ∧ Segregate.getRank size = 9) := by
  rw [getRank_eq]
  split_ifs <;> omega

/-- Claim C21: the class bounds are 32, 64, 96, 128, 256, 512, 1024, 2048, 4096; for every
size, `getRank size` is 9 when the size exceeds 4096 and otherwise is the smallest class whose
bound is at least the size; `getRank` is monotone; and for each bound `B` of class `k`,
`getRank B = getRank (B - 1) = k` and `getRank (B + 1) = k + 1`. -/
theorem getRank_spec :
    Segregate.rank_bounds = [32, 64, 96, 128, 256, 512, 1024, 2048, 4096] ∧
    (∀ size, (4096 < size → Segregate.getRank size = 9) ∧
      (size ≤ 4096 → Segregate.getRank size < 9 ∧
        size ≤ Segregate.rank_bounds.getD (Segregate.getRank size) 0 ∧
        ∀ k, k < Segregate.getRank size → Segregate.rank_bounds.getD k 0 < size)) ∧
    (∀ a b, a ≤ b → Segregate.getRank a ≤ Segregate.getRank b) ∧
    (∀ k, k < 9 →
      Segregate.getRank (Segregate.rank_bounds.getD k 0) = k ∧
      Segregate.getRank (Segregate.rank_bounds.getD k 0 - 1) = k ∧
      Segregate.getRank (Segregate.rank_bounds.getD k 0 + 1) = k + 1) := by
  refine ⟨rank_bounds_eq, ?_, ?_, ?_⟩
  · intro size
    rw [rank_bounds_eq]
    constructor
    · intro h
      have := getRank_class size
      omega
    · intro h
      have hc := getRank_class size
      have h9 : Segregate.getRank size < 9 := by omega
      refine ⟨h9, ?_, ?_⟩
      · generalize Segregate.getRank size = r at hc h9
        interval_cases r <;> first | (change size ≤ 32; omega) | (change size ≤ 64; omega) | (change size ≤ 96; omega) | (change size ≤ 128; omega) | (change size ≤ 256; omega) | (change size ≤ 512; omega) | (change size ≤ 1024; omega) | (change size ≤ 2048; omega) | (change size ≤ 4096; omega)
      · intro k hk
        generalize Segregate.getRank size = r at hc h9 hk
        interval_cases r <;> interval_cases k <;> first | (change 32 < size; omega) | (change 64 < size; omega) | (change 96 < size; omega) | (change 128 < size; omega) | (change 256 < size; omega) | (change 512 < size; omega) | (change 1024 < size; omega) | (change 2048 < size; omega)
  · intro a b hab
    have ha := getRank_class a
    have hb := getRank_class b
    omega
  · intro k hk
    rw [rank_bounds_eq]
    interval_cases k <;> decide

/-! ## The end-to-end scenarios (C22 to C26) and the cut-off of `place` (C29) -/

set_option maxHeartbeats 4000000 in
/-- C22 (as stated) fails in the explicit variant: after `mm_init; p = mm_malloc(24);
mm_free(p)` the heap between prologue and epilogue is one free block of 4112 bytes, not of
4096 bytes. -/
theorem explicit_free_restores_4112 :
    (Explicit.run_alloc_free.map fun r => heap_walk r.2.1.mem r.2.1.mem_brk 100 4112)
      = some (some [(4112, 4112, 0)]) ∧
    (Explicit.run_alloc_free.map fun r => heap_walk r.2.1.mem r.2.1.mem_brk 100 4112)
      ≠ some (some [(4112, 4096, 0)]) := by
  constructor <;> decide!

set_option maxHeartbeats 4000000 in
/-- C22 (as amended): after `mm_init; p = mm_malloc(24)` the block of `p` has size 32, and
after the following `mm_free(p)` the heap between prologue and epilogue is exactly one block,
which is free; its size is 4112 bytes in the explicit variant and 4096 bytes in the segregated
variant. -/
theorem alloc_free_restores_single_block :
    ((Explicit.run_alloc_free.map fun r =>
        (r.2.2, heap_walk r.1.mem r.1.mem_brk 100 4112))
        = some (4112, some [(4112, 32, 1), (4144, 4080, 0)]) ∧
      (Explicit.run_alloc_free.map fun r => heap_walk r.2.1.mem r.2.1.mem_brk 100 4112)
        = some (some [(4112, 4112, 0)])) ∧
    ((Segregate.run_alloc_free.map fun r =>
        (r.2.2, heap_walk r.1.mem r.1.mem_brk 100 4152))
        = some (4152, some [(4152, 32, 1), (4184, 4064, 0)]) ∧
      (Segregate.run_alloc_free.map fun r => heap_walk r.2.1.mem r.2.1.mem_brk 100 4152)
        = some (some [(4152, 4096, 0)])) := by
  refine ⟨⟨?_, ?_⟩, ⟨?_, ?_⟩⟩ <;> decide!

set_option maxHeartbeats 4000000 in
/-- C23 (as stated) fails in both variants: after `mm_init; a = mm_malloc(16);
b = mm_malloc(16); c = mm_malloc(16); mm_free(b); mm_free(a)` the free block before `c` has
48 bytes, not 32: each request of 16 bytes makes a block of 24 bytes. -/
theorem merged_block_is_not_32 :
    (Explicit.run_merge.map fun r => heap_walk r.2.1.mem r.2.1.mem_brk 100 4112)
      = some (some [(4112, 48, 0), (4160, 24, 1), (4184, 4040, 0)]) ∧
    (Segregate.run_merge.map fun r => heap_walk r.2.1.mem r.2.1.mem_brk 100 4152)
      = some (some [(4152, 48, 0), (4200, 24, 1), (4224, 4024, 0)]) ∧
    adjust 16 = 24 := by
  refine ⟨?_, ?_, ?_⟩ <;> decide!

set_option maxHeartbeats 4000000 in
/-- C23 (as amended): after `mm_init; a = mm_malloc(16); b = mm_malloc(16); c = mm_malloc(16);
mm_free(b); mm_free(a)`, the blocks of `a` and `b` (24 bytes each, both still separate after
the first `mm_free`) have been merged by the second `mm_free` into a single free block at `a`;
exactly one free block lies between the prologue and `c`, and its size is 48 bytes. -/
theorem second_free_merges_a_and_b :
    ((Explicit.run_merge.map fun r =>
        (r.2.2, heap_walk r.1.mem r.1.mem_brk 100 4112))
        = some ((4112, 4136, 4160),
            some [(4112, 24, 1), (4136, 24, 0), (4160, 24, 1), (4184, 4040, 0)]) ∧
      (Explicit.run_merge.map fun r => heap_walk r.2.1.mem r.2.1.mem_brk 100 4112)
        = some (some [(4112, 48, 0), (4160, 24, 1), (4184, 4040, 0)])) ∧
    ((Segregate.run_merge.map fun r =>
        (r.2.2, heap_walk r.1.mem r.1.mem_brk 100 4152))
        = some ((4152, 4176, 4200),
            some [(4152, 24, 1), (4176, 24, 0), (4200, 24, 1), (4224, 4024, 0)]) ∧
      (Segregate.run_merge.map fun r => heap_walk r.2.1.mem r.2.1.mem_brk 100 4152)
        = some (some [(4152, 48, 0), (4200, 24, 1), (4224, 4024, 0)])) := by
  refine ⟨⟨?_, ?_⟩, ⟨?_, ?_⟩⟩ <;> decide!

theorem same_bytes_iff (s1 s2 : State) (p n : Nat) :
    same_bytes s1 s2 p n = true ↔ ∀ i, i < n → s2.mem (p + i) = s1.mem (p + i) := by
  unfold same_bytes
  simp [List.all_eq_true]

theorem apply_writes_other (ws : List (Nat × Nat)) (m : Mem) (a : Nat)
    (h : ∀ w, w ∈ ws → a < w.1 ∨ w.1 + 4 ≤ a) : apply_writes m ws a = m a := by
  unfold apply_writes
  induction ws generalizing m with
  | nil => rfl
  | cons w ws ih =>
    simp only [List.foldl_cons]
    rw [ih _ (fun x hx => h x (List.mem_cons_of_mem _ hx))]
    exact PUT_other m w.1 w.2 a (h w (List.mem_cons_self _ _))

/-- When the memory of the second state is the memory of the first after word writes that all
lie outside `[p, p + n)`, the `n` bytes at `p` are the same in both states. -/
theorem map_same_bytes_of_writes {α : Type} (o : Option α) (f g : α → State)
    (ws : List (Nat × Nat)) (p n : Nat)
    (hw : (o.map fun r => (g r).mem) = (o.map fun r => apply_writes (f r).mem ws))
    (hs : o.isSome = true) (hout : ∀ w, w ∈ ws → w.1 + 4 ≤ p ∨ p + n ≤ w.1) :
    (o.map fun r => same_bytes (f r) (g r) p n) = some true := by
  cases o with
  | none => cases hs
  | some r =>
    simp only [Option.map_some', Option.some.injEq] at hw ⊢
    rw [same_bytes_iff]
    intro i hi
    rw [hw]
    exact apply_writes_other ws _ _ (fun w hw1 => by
      have := hout w hw1
      omega)

/-- The word writes of `mm_free(a); c = mm_malloc(1500)` in the run `Explicit.run_reuse`. -/
theorem explicit_reuse_writes :
    (Explicit.run_reuse.map fun r => r.2.1.mem) =
    (Explicit.run_reuse.map fun r => apply_writes r.1.mem
      [(6212, 2008), (8216, 2008), (6220, 4112), (6216, 4112), (4112, 6216), (4116, 6216),
       (4116, 4112), (4112, 4112), (6212, 496), (6704, 496), (6708, 1513), (8216, 1513),
       (6220, 4112), (6216, 4112), (4112, 6216), (4116, 6216)]) := rfl

theorem map_same_bytes_two {α : Type} (o : Option α) (f g : α → State) (p n : Nat)
    (h0 : (o.map fun r => same_bytes (f r) (g r) p n) = some true)
    (h1 : (o.map fun r => same_bytes (f r) (g r) (p + n) n) = some true) :
    (o.map fun r => same_bytes (f r) (g r) p (2 * n)) = some true := by
  cases o with
  | none => cases h0
  | some r =>
    simp only [Option.map_some', Option.some.injEq] at h0 h1 ⊢
    rw [same_bytes_iff] at h0 h1 ⊢
    intro i hi
    by_cases c0 : i < n
    · exact h0 i c0
    · have := h1 (i - n) (by omega)
      rwa [show p + n + (i - n) = p + i by omega] at this

set_option maxHeartbeats 4000000 in
theorem segregate_reuse_keeps_b_0 :
    (Segregate.run_reuse.map fun r => same_bytes r.1 r.2.1 4228 1004) = some true := by
  decide!

set_option maxHeartbeats 4000000 in
theorem segregate_reuse_keeps_b_1 :
    (Segregate.run_reuse.map fun r => same_bytes r.1 r.2.1 (4228 + 1004) 1004) = some true := by
  decide!

set_option maxHeartbeats 4000000 in
/-- Claim C24: after `mm_init; a = mm_malloc(2000); b = mm_malloc(2000); mm_free(a);
c = mm_malloc(1500)`, in both variants, the block of `c` (1512 bytes, ending where the block
of `a` ended) lies inside the 2008 bytes the block of `a` occupied, no two adjacent blocks of
the heap are free, and the 2008 bytes of the block of `b` (header, payload, footer) are the
same as before `mm_free(a)`. -/
theorem freed_region_is_reused :
    ((Explicit.run_reuse.map fun r =>
        (r.2.2, heap_walk r.1.mem r.1.mem_brk 100 4112))
        = some ((6216, 4208, 6712),
            some [(4112, 96, 0), (4208, 2008, 1), (6216, 2008, 1)]) ∧
      (Explicit.run_reuse.map fun r => heap_walk r.2.1.mem r.2.1.mem_brk 100 4112)
        = some (some [(4112, 96, 0), (4208, 2008, 1), (6216, 496, 0), (6712, 1512, 1)]) ∧
      (Explicit.run_reuse.map fun r => same_bytes r.1 r.2.1 4204 2008) = some true) ∧
    ((Segregate.run_reuse.map fun r =>
        (r.2.2, heap_walk r.1.mem r.1.mem_brk 100 4152))
        = some ((6240, 4232, 6736),
            some [(4152, 80, 0), (4232, 2008, 1), (6240, 2008, 1)]) ∧
      (Segregate.run_reuse.map fun r => heap_walk r.2.1.mem r.2.1.mem_brk 100 4152)
        = some (some [(4152, 80, 0), (4232, 2008, 1), (6240, 496, 0), (6736, 1512, 1)]) ∧
      (Segregate.run_reuse.map fun r => same_bytes r.1 r.2.1 4228 2008) = some true) := by
  refine ⟨⟨?_, ?_, ?_⟩, ⟨?_, ?_, ?_⟩⟩
  · decide!
  · decide!
  · exact map_same_bytes_of_writes Explicit.run_reuse (fun r => r.1) (fun r => r.2.1) _
      4204 2008 explicit_reuse_writes (by decide!) (by decide)
  · decide!
  · decide!
  · exact map_same_bytes_two Segregate.run_reuse (fun r => r.1) (fun r => r.2.1) 4228 1004
      segregate_reuse_keeps_b_0 segregate_reuse_keeps_b_1

set_option maxHeartbeats 4000000 in
/-- C25 (as stated) fails in both variants: after `mm_init; p = mm_malloc(100)`, 100 bytes
stored at `p`, and `q = mm_realloc(p, 200)`, the result is `q = p - 96`, not `p`. -/
theorem realloc_grow_moves_left :
    (Explicit.run_realloc_grow.map fun r => r.2.2) = some (8112, 8016) ∧
    (Segregate.run_realloc_grow.map fun r => r.2.2) = some (8136, 8040) := by
  constructor <;> decide!

set_option maxHeartbeats 4000000 in
/-- C25 (as amended): after `mm_init; p = mm_malloc(100)` the block of `p` (112 bytes) is the
last block of the heap and the free block lies before it; `q = mm_realloc(p, 200)` grows the
block to 208 bytes downwards into that free block, so `q = p - 96`, and the first 100 bytes at
`q` are the 100 bytes the caller stored at `p`. -/
theorem realloc_grows_into_left_neighbour :
    ((Explicit.run_realloc_grow.map fun r =>
        (r.2.2, heap_walk r.1.mem r.1.mem_brk 100 4112))
        = some ((8112, 8016), some [(4112, 4000, 0), (8112, 112, 1)]) ∧
      (Explicit.run_realloc_grow.map fun r =>
        (heap_walk r.2.1.mem r.2.1.mem_brk 100 4112, read_bytes r.2.1 8016 100))
        = some (some [(4112, 3904, 0), (8016, 208, 1)], List.replicate 100 65)) ∧
    ((Segregate.run_realloc_grow.map fun r =>
        (r.2.2, heap_walk r.1.mem r.1.mem_brk 100 4152))
        = some ((8136, 8040), some [(4152, 3984, 0), (8136, 112, 1)]) ∧
      (Segregate.run_realloc_grow.map fun r =>
        (heap_walk r.2.1.mem r.2.1.mem_brk 100 4152, read_bytes r.2.1 8040 100))
        = some (some [(4152, 3888, 0), (8040, 208, 1)], List.replicate 100 65)) := by
  refine ⟨⟨?_, ?_⟩, ⟨?_, ?_⟩⟩ <;> decide!

set_option maxHeartbeats 4000000 in
/-- Claim C26: after `mm_init; p = mm_malloc(4096); mm_free(p)`, the call
`q = mm_malloc(4096)` is served from the freed region, in both variants: the break (and with it
the heap size) after the call is the one right after `p` was allocated, and `q = p` with a
block of the same size. -/
theorem freed_chunk_is_reused :
    ((Explicit.run_refill.map fun r =>
        (r.2.2, r.1.mem_brk, heap_walk r.1.mem r.1.mem_brk 100 4112))
        = some ((4112, 4112), 8224, some [(4112, 4112, 1)]) ∧
      (Explicit.run_refill.map fun r =>
        (r.2.1.mem_brk, heap_walk r.2.1.mem r.2.1.mem_brk 100 4112))
        = some (8224, some [(4112, 4112, 1)])) ∧
    ((Segregate.run_refill.map fun r =>
        (r.2.2, r.1.mem_brk, heap_walk r.1.mem r.1.mem_brk 100 4152))
        = some ((8248, 8248), 12352, some [(4152, 4096, 0), (8248, 4104, 1)]) ∧
      (Segregate.run_refill.map fun r =>
        (r.2.1.mem_brk, heap_walk r.2.1.mem r.2.1.mem_brk 100 4152))
        = some (12352, some [(4152, 4096, 0), (8248, 4104, 1)])) := by
  refine ⟨⟨?_, ?_⟩, ⟨?_, ?_⟩⟩ <;> decide!

set_option maxHeartbeats 4000000 in
/-- C29, evaluated at the failing input `mm_init; p = mm_malloc(72)` in the segregated
variant: the adjusted size is 80, below 100, the remainder 4016 is above 16, and the allocated
block is put at the tail of the split block (`p = 8168`, after a free block of 4016 bytes at
4152).  A request of 64 bytes (adjusted size 72) is put at the head. -/
theorem segregated_place_tail_cutoff_is_80 :
    adjust 72 = 80 ∧
    ((Segregate.run_first_malloc 72).map fun r =>
        (r.2, heap_walk r.1.mem r.1.mem_brk 100 4152))
      = some (8168, some [(4152, 4016, 0), (8168, 80, 1)]) ∧
    adjust 64 = 72 ∧
    ((Segregate.run_first_malloc 64).map fun r =>
        (r.2, heap_walk r.1.mem r.1.mem_brk 100 4152))
      = some (4152, some [(4152, 72, 1), (4224, 4024, 0)]) := by
  refine ⟨?_, ?_, ?_, ?_⟩ <;> decide!

/-! ## The next-fit search of the explicit variant (C30) -/

theorem RingFrom_last (m : Mem) (first : Nat) : ∀ (l : List Nat) (x : Nat),
    RingFrom m first x l → PREV m first ∈ x :: l ∧ NEXT m (PREV m first) = first := by
  intro l
  induction l with
  | nil =>
    intro x h
    obtain ⟨h1, h2⟩ := h
    rw [h2]
    exact ⟨List.mem_cons_self _ _, h1⟩
  | cons y l ih =>
    intro x h
    obtain ⟨_, _, h3⟩ := h
    obtain ⟨i1, i2⟩ := ih y h3
    exact ⟨List.mem_cons_of_mem _ i1, i2⟩

/-- The loop of `find_fit`, entered with `NEXT(currover)` at the member `y`, examines `y` and
the members `l` after it in order, each once, and stops at the first fit or at the last
member. -/
theorem find_fit_loop_spec (m : Mem) (asize first : Nat) : ∀ (l : List Nat) (y cur fuel : Nat),
    RingFrom m first y l → (y :: l).Nodup → NEXT m cur = y → l.length + 1 ≤ fuel →
    Explicit.find_fit_loop m asize (PREV m first) fuel cur
      = some ((y :: l).find? (fun x => decide (asize ≤ GET_SIZE m (HDRP x)))) := by
  intro l
  induction l with
  | nil =>
    intro y cur fuel h hnd hcur hf
    obtain ⟨f, rfl⟩ : ∃ f, fuel = f + 1 := ⟨fuel - 1, by omega⟩
    obtain ⟨h1, h2⟩ := h
    unfold Explicit.find_fit_loop
    dsimp only
    rw [hcur]
    by_cases hp : asize ≤ GET_SIZE m (HDRP y)
    · rw [if_pos hp]
      simp [List.find?, hp]
    · rw [if_neg hp, if_pos h2]
      simp [List.find?, hp]
  | cons z l ih =>
    intro y cur fuel h hnd hcur hf
    obtain ⟨f, rfl⟩ : ∃ f, fuel = f + 1 := ⟨fuel - 1, by simp at hf; omega⟩
    obtain ⟨h1, h2, h3⟩ := h
    unfold Explicit.find_fit_loop
    dsimp only
    rw [hcur]
    by_cases hp : asize ≤ GET_SIZE m (HDRP y)
    · rw [if_pos hp]
      simp [List.find?, hp]
    · have hne : ¬ PREV m first = y := by
        intro hc
        have := (RingFrom_last m first l z h3).1
        rw [hc] at this
        exact (List.nodup_cons.1 hnd).1 this
      rw [if_neg hp, if_neg hne]
      rw [ih z y f h3 (List.nodup_cons.1 hnd).2 h1 (by simp at hf; omega)]
      have hy : (y :: z :: l).find? (fun x => decide (asize ≤ GET_SIZE m (HDRP x)))
          = (z :: l).find? (fun x => decide (asize ≤ GET_SIZE m (HDRP x))) :=
        List.find?_cons_of_neg _ (by simpa using hp)
      rw [hy]

/-- Claim C30, explicit variant: on an empty free list (null rover) `find_fit(asize)` returns
`NULL` at once and leaves the state as it is; on a well-formed circular free list whose
members in `NEXT` order from the rover are `l`, with any fuel of at least one step per member
(so each member is examined at most once), it returns the first member of `l` whose size is
at least `asize` and makes it the rover, and it returns `NULL` when no member is that large;
in every case the memory is left as it was. -/
theorem explicit_find_fit_spec (s : State) (asize fuel : Nat) (l : List Nat) :
    (s.rover = 0 → Explicit.find_fit fuel s asize = some (s, 0)) ∧
    (Ring s.mem (s.rover :: l) → l.length + 1 ≤ fuel →
      Explicit.find_fit fuel s asize = some (Explicit.find_fit_result s asize (s.rover :: l)) ∧
      (Explicit.find_fit_result s asize (s.rover :: l)).1.mem = s.mem ∧
      ((Explicit.find_fit_result s asize (s.rover :: l)).2 = 0 ↔
        ∀ x, x ∈ s.rover :: l → GET_SIZE s.mem (HDRP x) < asize)) := by
  constructor
  · intro h
    unfold Explicit.find_fit
    rw [if_pos h]
  · intro hring hf
    obtain ⟨hnd, hnz, hr⟩ := hring
    have hr0 : s.rover ≠ 0 := hnz _ (List.mem_cons_self _ _)
    have hlast := (RingFrom_last s.mem s.rover l s.rover hr).2
    have hloop := find_fit_loop_spec s.mem asize s.rover l s.rover (PREV s.mem s.rover) fuel
      hr hnd hlast hf
    refine ⟨?_, ?_, ?_⟩
    · unfold Explicit.find_fit Explicit.find_fit_result
      rw [if_neg hr0]
      dsimp only
      rw [hloop]
      cases (s.rover :: l).find? (fun x => decide (asize ≤ GET_SIZE s.mem (HDRP x))) <;> rfl
    · unfold Explicit.find_fit_result
      cases (s.rover :: l).find? (fun x => decide (asize ≤ GET_SIZE s.mem (HDRP x))) <;> rfl
    · unfold Explicit.find_fit_result
      cases hfind : (s.rover :: l).find? (fun x => decide (asize ≤ GET_SIZE s.mem (HDRP x))) with
      | none =>
        simp only [true_iff]
        intro x hx
        have := List.find?_eq_none.1 hfind x hx
        simpa using this
      | some bp =>
        have hmem := List.mem_of_find?_eq_some hfind
        have hsz := List.find?_some hfind
        simp only
        constructor
        · intro h0
          exact absurd h0 (hnz bp hmem)
        · intro hall
          have := hall bp hmem
          simp at hsz
          omega

set_option maxHeartbeats 4000000 in
/-- Witness of `explicit_find_fit_spec`: the heap after `mm_init; a = mm_malloc(8);
b = mm_malloc(8); mm_free(a)`, whose free list from the rover is 4144 (4080 bytes), 4112
(16 bytes); a search for 24 bytes returns the rover 4144. -/
theorem explicit_find_fit_spec_witness :
    Explicit.full_state.rover = 4144 ∧
    Ring Explicit.full_state.mem [4144, 4112] ∧
    (Explicit.find_fit 2 Explicit.full_state 24).map (fun r => (r.1.rover, r.2))
      = some (4144, 4144) ∧
    Explicit.find_fit 2 Explicit.full_state 24
      = some (Explicit.find_fit_result Explicit.full_state 24
          (Explicit.full_state.rover :: [4112])) :=
  have hr : Explicit.full_state.rover = 4144 := by decide!
  have hring : Ring Explicit.full_state.mem [4144, 4112] :=
    ⟨by decide, by decide, by decide!, by decide!, by decide!, by decide!⟩
  ⟨hr, hring, by decide!,
    ((explicit_find_fit_spec Explicit.full_state 24 2 [4112]).2 (hr ▸ hring) (by decide)).1⟩

/-! ## The heap invariant: words, frames and layouts -/

/-! ## Words, tags and frames -/

theorem add32_eq {a b : Nat} (h : a + b < 4294967296) : add32 a b = a + b := by
  unfold add32 W32
  exact Nat.mod_eq_of_lt h

theorem GET_SIZE_of_tag {m : Mem} {p sz al : Nat} (h : GET m p = sz + al) (h8 : sz % 8 = 0)
    (ha : al ≤ 1) : GET_SIZE m p = sz := by
  unfold GET_SIZE
  rw [and_mask_eq _ (GET_lt m p), h]
  omega

theorem GET_ALLOC_of_tag {m : Mem} {p sz al : Nat} (h : GET m p = sz + al) (h8 : sz % 8 = 0)
    (ha : al ≤ 1) : GET_ALLOC m p = al := by
  unfold GET_ALLOC
  rw [and_one_eq, h]
  omega

theorem PREV_eq (m : Mem) (x : Nat) : PREV m x = GET m x := rfl

theorem SET_PREV_eq (m : Mem) (x v : Nat) : SET_PREV m x v = PUT m x v := rfl

theorem SET_NEXT_eq (m : Mem) {x : Nat} (v : Nat) (h : x + 4 < 4294967296) :
    SET_NEXT m x v = PUT m (x + 4) v := by
  unfold SET_NEXT
  rw [show add32 x WSIZE = x + 4 from add32_eq h]

theorem Frame_refl (A : Nat → Prop) (m : Mem) : Frame A m m := fun _ _ => rfl

theorem Frame_trans {A : Nat → Prop} {m m1 m2 : Mem} (h1 : Frame A m m1) (h2 : Frame A m1 m2) :
    Frame A m m2 := fun a ha => (h2 a ha).trans (h1 a ha)

theorem Frame_mono {A B : Nat → Prop} {m m1 : Mem} (h : Frame A m m1) (hAB : ∀ a, A a → B a) :
    Frame B m m1 := fun a ha => h a (fun h1 => ha (hAB a h1))

theorem Frame_PUT {A : Nat → Prop} (m : Mem) (p v : Nat)
    (h : ∀ a, p ≤ a → a < p + 4 → A a) : Frame A m (PUT m p v) := by
  intro a ha
  apply PUT_other
  by_contra hc
  exact ha (h a (by omega) (by omega))

theorem Frame_GET {A : Nat → Prop} {m m1 : Mem} (h : Frame A m m1) (q : Nat)
    (hq : ∀ a, q ≤ a → a < q + 4 → ¬ A a) : GET m1 q = GET m q :=
  GET_congr _ _ _ (fun b h1 h2 => h b (hq b h1 h2))

/-! ## The layout of the heap map -/

theorem Lay_append (bs1 bs2 : List Blk) (p e : Nat) :
    Lay p (bs1 ++ bs2) e ↔ ∃ q, Lay p bs1 q ∧ Lay q bs2 e := by
  induction bs1 generalizing p with
  | nil =>
    constructor
    · intro h
      exact ⟨p, rfl, h⟩
    · rintro ⟨q, h1, h2⟩
      have : p = q := h1
      subst this
      exact h2
  | cons b bs ih =>
    constructor
    · rintro ⟨h1, h2, h3, h4, h5⟩
      obtain ⟨q, h6, h7⟩ := (ih _).1 h5
      exact ⟨q, ⟨h1, h2, h3, h4, h6⟩, h7⟩
    · rintro ⟨q, ⟨h1, h2, h3, h4, h6⟩, h7⟩
      exact ⟨h1, h2, h3, h4, (ih _).2 ⟨q, h6, h7⟩⟩

theorem Lay_le (bs : List Blk) (p e : Nat) (h : Lay p bs e) : p ≤ e := by
  induction bs generalizing p with
  | nil =>
    have : p = e := h
    omega
  | cons b bs ih =>
    obtain ⟨_, _, _, _, h5⟩ := h
    have := ih _ h5
    omega

/-- Every block of a layout lies inside it. -/
theorem Lay_mem (bs : List Blk) (p e : Nat) (h : Lay p bs e) :
    ∀ b, b ∈ bs → p ≤ b.1 ∧ b.1 + b.2.1 ≤ e ∧ 8 ≤ b.2.1 ∧ b.2.1 % 8 = 0 ∧ b.2.2 ≤ 1 := by
  induction bs generalizing p with
  | nil => intro b hb; cases hb
  | cons c bs ih =>
    obtain ⟨h1, h2, h3, h4, h5⟩ := h
    intro b hb
    rcases List.mem_cons.1 hb with hb | hb
    · subst hb
      have := Lay_le _ _ _ h5
      exact ⟨by omega, by omega, h2, h3, h4⟩
    · have := ih _ h5 b hb
      omega

/-- Two blocks of a layout are the same block or do not overlap. -/
theorem Lay_disjoint (bs : List Blk) (p e : Nat) (h : Lay p bs e) :
    ∀ b, b ∈ bs → ∀ c, c ∈ bs → b = c ∨ b.1 + b.2.1 ≤ c.1 ∨ c.1 + c.2.1 ≤ b.1 := by
  induction bs generalizing p with
  | nil => intro b hb; cases hb
  | cons d bs ih =>
    obtain ⟨h1, h2, h3, h4, h5⟩ := h
    intro b hb c hc
    rcases List.mem_cons.1 hb with hb1 | hb1
    · rcases List.mem_cons.1 hc with hc1 | hc1
      · left; rw [hb1, hc1]
      · have := Lay_mem _ _ _ h5 c hc1
        right; left; rw [hb1]; omega
    · rcases List.mem_cons.1 hc with hc1 | hc1
      · have := Lay_mem _ _ _ h5 b hb1
        right; right; rw [hc1]; omega
      · exact ih _ h5 b hb1 c hc1

theorem Frees_append (bs1 bs2 : List Blk) (f : Nat × Nat) :
    f ∈ Frees (bs1 ++ bs2) ↔ f ∈ Frees bs1 ∨ f ∈ Frees bs2 := by
  show (f.1, f.2, 0) ∈ bs1 ++ bs2 ↔ (f.1, f.2, 0) ∈ bs1 ∨ (f.1, f.2, 0) ∈ bs2
  exact List.mem_append

theorem Frees_cons (b : Blk) (bs : List Blk) (f : Nat × Nat) :
    f ∈ Frees (b :: bs) ↔ (f.1, f.2, 0) = b ∨ f ∈ Frees bs := by
  show (f.1, f.2, 0) ∈ b :: bs ↔ (f.1, f.2, 0) = b ∨ (f.1, f.2, 0) ∈ bs
  exact List.mem_cons

theorem mem_Frees (bs : List Blk) (f : Nat × Nat) : f ∈ Frees bs ↔ (f.1, f.2, 0) ∈ bs :=
  Iff.rfl

/-! ## Link words -/

theorem NEXT_PUT_next {m : Mem} {x y v : Nat}
    (hy : y + 8 ≤ 4294967296) (hxy : x + 8 ≤ y ∨ y + 8 ≤ x) :
    NEXT (PUT m (x + 4) v) y = NEXT m y := by
  rw [NEXT_add (by omega), NEXT_add (by omega)]
  exact GET_PUT_other _ _ _ _ (by omega)

theorem NEXT_PUT_next_same {m : Mem} {x v : Nat} (hx : x + 8 ≤ 4294967296)
    (hv : v < 4294967296) : NEXT (PUT m (x + 4) v) x = v := by
  rw [NEXT_add (by omega)]
  exact GET_PUT_same _ _ _ hv

theorem PREV_PUT_next {m : Mem} {x y v : Nat} (hxy : x = y ∨ x + 8 ≤ y ∨ y + 8 ≤ x) :
    PREV (PUT m (x + 4) v) y = PREV m y :=
  GET_PUT_other _ _ _ _ (by omega)

theorem NEXT_PUT_prev {m : Mem} {x y v : Nat} (hy : y + 8 ≤ 4294967296)
    (hxy : x = y ∨ x + 8 ≤ y ∨ y + 8 ≤ x) : NEXT (PUT m x v) y = NEXT m y := by
  rw [NEXT_add (by omega), NEXT_add (by omega)]
  exact GET_PUT_other _ _ _ _ (by omega)

theorem PREV_PUT_prev {m : Mem} {x y v : Nat} (hxy : x + 8 ≤ y ∨ y + 8 ≤ x) :
    PREV (PUT m x v) y = PREV m y :=
  GET_PUT_other _ _ _ _ (by omega)

theorem PREV_PUT_prev_same {m : Mem} {x v : Nat} (hv : v < 4294967296) :
    PREV (PUT m x v) x = v :=
  GET_PUT_same _ _ _ hv

/-! ## Circular lists -/

theorem getLastD_cons (x y : Nat) (t : List Nat) : (y :: t).getLastD x = t.getLastD y := by
  cases t <;> simp [List.getLastD]

theorem getLastD_mem (x : Nat) (t : List Nat) : t.getLastD x ∈ x :: t := by
  induction t generalizing x with
  | nil => simp [List.getLastD]
  | cons y t ih =>
    rw [getLastD_cons]
    exact List.mem_cons_of_mem _ (ih y)

/-- The closing links of a ring: the last member points to `first` and back. -/
theorem RingFrom_close (m : Mem) (first : Nat) : ∀ (l : List Nat) (x : Nat),
    RingFrom m first x l → NEXT m (l.getLastD x) = first ∧ PREV m first = l.getLastD x := by
  intro l
  induction l with
  | nil => intro x h; exact h
  | cons y t ih =>
    intro x h
    rw [getLastD_cons]
    exact ih y h.2.2

/-- A ring stays a ring, closed at `g`, in a memory that keeps the inner links and links the
last member with `g`. -/
theorem RingFrom_reclose (m m1 : Mem) (first g : Nat) : ∀ (l : List Nat) (x : Nat),
    RingFrom m first x l → (x :: l).Nodup →
    (∀ z, z ∈ x :: l → z ≠ l.getLastD x → NEXT m1 z = NEXT m z) →
    (∀ z, z ∈ l → PREV m1 z = PREV m z) →
    NEXT m1 (l.getLastD x) = g → PREV m1 g = l.getLastD x → RingFrom m1 g x l := by
  intro l
  induction l with
  | nil =>
    intro x _ _ _ _ h1 h2
    exact ⟨h1, h2⟩
  | cons y t ih =>
    intro x h hnd hN hP h1 h2
    obtain ⟨a1, a2, a3⟩ := h
    rw [getLastD_cons] at h1 h2 hN
    have hx : x ≠ t.getLastD y := by
      intro hc
      have := getLastD_mem y t
      rw [← hc] at this
      exact (List.nodup_cons.1 hnd).1 this
    refine ⟨?_, ?_, ?_⟩
    · rw [hN x (List.mem_cons_self _ _) hx]
      exact a1
    · rw [hP y (List.mem_cons_self _ _)]
      exact a2
    · exact ih y a3 (List.nodup_cons.1 hnd).2
        (fun z hz hne => hN z (List.mem_cons_of_mem _ hz) hne)
        (fun z hz => hP z (List.mem_cons_of_mem _ hz)) h1 h2

theorem Ring_congr (m m1 : Mem) (l : List Nat) (h : Ring m l)
    (hN : ∀ z, z ∈ l → NEXT m1 z = NEXT m z) (hP : ∀ z, z ∈ l → PREV m1 z = PREV m z) :
    Ring m1 l := by
  cases l with
  | nil => trivial
  | cons x t =>
    obtain ⟨h1, h2, h3⟩ := h
    have hc := RingFrom_close m x t x h3
    refine ⟨h1, h2, RingFrom_reclose m m1 x x t x h3 h1 (fun z hz _ => hN z hz)
      (fun z hz => hP z (List.mem_cons_of_mem _ hz)) ?_ ?_⟩
    · rw [hN _ (getLastD_mem x t)]
      exact hc.1
    · rw [hP _ (List.mem_cons_self _ _)]
      exact hc.2

theorem RingFrom_snoc (m : Mem) (first g : Nat) : ∀ (t : List Nat) (a : Nat),
    RingFrom m first a t → NEXT m first = g → PREV m g = first →
    RingFrom m g a (t ++ [first]) := by
  intro t
  induction t with
  | nil =>
    intro a h h1 h2
    exact ⟨h.1, h.2, h1, h2⟩
  | cons b t ih =>
    intro a h h1 h2
    exact ⟨h.1, h.2.1, ih b h.2.2 h1 h2⟩

/-- A ring read from its second member. -/
theorem Ring_rotate1 (m : Mem) (x y : Nat) (t : List Nat) (h : Ring m (x :: y :: t)) :
    Ring m (y :: (t ++ [x])) := by
  obtain ⟨h1, h2, h3⟩ := h
  refine ⟨?_, ?_, ?_⟩
  · have : (y :: (t ++ [x])).Perm (x :: y :: t) := by
      have : ([x] ++ (y :: t)).Perm ((y :: t) ++ [x]) := List.perm_append_comm
      simpa using this.symm
    exact this.nodup_iff.2 h1
  · intro z hz
    apply h2
    simp only [List.mem_cons, List.mem_append, List.mem_singleton] at hz ⊢
    tauto
  · exact RingFrom_snoc m x y t y h3.2.2 h3.1 h3.2.1

/-- A ring can be read from any of its members. -/
theorem Ring_rotate (m : Mem) : ∀ (pre : List Nat) (y : Nat) (post : List Nat),
    Ring m (pre ++ y :: post) → Ring m (y :: (post ++ pre)) := by
  intro pre
  induction pre with
  | nil =>
    intro y post h
    simpa using h
  | cons a pre ih =>
    intro y post h
    have h1 : Ring m (pre ++ y :: (post ++ [a])) := by
      cases pre with
      | nil =>
        have := Ring_rotate1 m a y post h
        simpa using this
      | cons b pre =>
        have := Ring_rotate1 m a b (pre ++ y :: post) h
        simpa using this
    have := ih y (post ++ [a]) h1
    simpa using this

theorem Ring_rotate_to (m : Mem) (l : List Nat) (y : Nat) (h : Ring m l) (hy : y ∈ l) :
    ∃ t, Ring m (y :: t) ∧ ∀ z, z ∈ y :: t ↔ z ∈ l := by
  obtain ⟨pre, post, rfl⟩ := List.append_of_mem hy
  refine ⟨post ++ pre, Ring_rotate m pre y post h, ?_⟩
  intro z
  simp only [List.mem_cons, List.mem_append]
  tauto

/-! ## The free index of the explicit variant -/

/-- The members of a list that represents a free set are apart and inside the address
space. -/
theorem SepF_members {r1 : Nat} {F : Set (Nat × Nat)} (hS : SepF r1 F) {l : List Nat}
    (hM : ∀ x, x ∈ l → ∃ sz, (x, sz) ∈ F) :
    (∀ z, z ∈ l → 4 ≤ z ∧ z + 8 ≤ 4294967296) ∧
    (∀ z, z ∈ l → ∀ w, w ∈ l → z = w ∨ z + 8 ≤ w ∨ w + 8 ≤ z) := by
  constructor
  · intro z hz
    obtain ⟨sz, h⟩ := hM z hz
    have := (hS _ h).1
    exact ⟨this.1, this.2.2⟩
  · intro z hz w hw
    obtain ⟨sz, h⟩ := hM z hz
    obtain ⟨sw, h1⟩ := hM w hw
    rcases (hS _ h).2 _ h1 with h2 | h2
    · left
      exact congrArg Prod.fst h2
    · right
      exact h2

/-- The splice of `escape_list`, on a ring read from the removed member `x`. -/
theorem explicit_splice (s : State) (x y : Nat) (t : List Nat) (hR : Ring s.mem (x :: y :: t))
    (hB : ∀ z, z ∈ x :: y :: t → 4 ≤ z ∧ z + 8 ≤ 4294967296)
    (hS : ∀ z, z ∈ x :: y :: t → ∀ w, w ∈ x :: y :: t → z = w ∨ z + 8 ≤ w ∨ w + 8 ≤ z) :
    Ring (Explicit.escape_splice s x).mem (y :: t) ∧
    (Explicit.escape_splice s x).mem
      = PUT (PUT s.mem (t.getLastD y + 4) y) y (t.getLastD y) ∧
    (Explicit.escape_splice s x).heap_listp = s.heap_listp ∧
    (Explicit.escape_splice s x).rover = (if s.rover = x then y else s.rover) ∧
    (Explicit.escape_splice s x).mem_brk = s.mem_brk ∧
    (Explicit.escape_splice s x).mem_max_addr = s.mem_max_addr := by
  obtain ⟨hnd, hnz, a1, a2, a3⟩ := hR
  obtain ⟨c1, c2⟩ := RingFrom_close s.mem x t y a3
  have hlm : t.getLastD y ∈ y :: t := getLastD_mem y t
  have hxnot : x ∉ y :: t := (List.nodup_cons.1 hnd).1
  have hxl : x ≠ t.getLastD y := fun hc => hxnot (hc ▸ hlm)
  have hxy : x ≠ y := fun hc => hxnot (hc ▸ List.mem_cons_self _ _)
  have bx := hB x (List.mem_cons_self _ _)
  have by1 := hB y (List.mem_cons_of_mem _ (List.mem_cons_self _ _))
  have bl := hB _ (List.mem_cons_of_mem _ hlm)
  have sxl := hS x (List.mem_cons_self _ _) _ (List.mem_cons_of_mem _ hlm)
  have sxy := hS x (List.mem_cons_self _ _) y (List.mem_cons_of_mem _ (List.mem_cons_self _ _))
  have hmem : (Explicit.escape_splice s x).mem
      = PUT (PUT s.mem (t.getLastD y + 4) y) y (t.getLastD y) := by
    have e1 : SET_NEXT s.mem (PREV s.mem x) (NEXT s.mem x)
        = PUT s.mem (t.getLastD y + 4) y := by
      rw [c2, a1]
      exact SET_NEXT_eq _ _ (by omega)
    have e2 : NEXT (PUT s.mem (t.getLastD y + 4) y) x = y := by
      rw [NEXT_PUT_next (by omega) (by omega)]
      exact a1
    have e3 : PREV (PUT s.mem (t.getLastD y + 4) y) x = t.getLastD y := by
      rw [PREV_PUT_next (by omega)]
      exact c2
    unfold Explicit.escape_splice
    by_cases hr : s.rover = x
    · simp only [if_pos hr]
      rw [e1, e2, e3]
      rfl
    · simp only [if_neg hr]
      rw [e1, e2, e3]
      rfl
  refine ⟨?_, hmem, ?_, ?_, ?_, ?_⟩
  · rw [hmem]
    refine ⟨(List.nodup_cons.1 hnd).2, fun z hz => hnz z (List.mem_cons_of_mem _ hz), ?_⟩
    apply RingFrom_reclose s.mem _ x y t y a3 (List.nodup_cons.1 hnd).2
    · intro z hz hne
      have bz := hB z (List.mem_cons_of_mem _ hz)
      have s1 := hS z (List.mem_cons_of_mem _ hz) _ (List.mem_cons_of_mem _ hlm)
      have s2 := hS y (List.mem_cons_of_mem _ (List.mem_cons_self _ _)) z
        (List.mem_cons_of_mem _ hz)
      rw [NEXT_PUT_prev (by omega) s2, NEXT_PUT_next (by omega) (by omega)]
    · intro z hz
      have hzy : z ≠ y := fun hc => (List.nodup_cons.1 (List.nodup_cons.1 hnd).2).1 (hc ▸ hz)
      have s1 := hS _ (List.mem_cons_of_mem _ hlm) z
        (List.mem_cons_of_mem _ (List.mem_cons_of_mem _ hz))
      have s2 := hS y (List.mem_cons_of_mem _ (List.mem_cons_self _ _)) z
        (List.mem_cons_of_mem _ (List.mem_cons_of_mem _ hz))
      rw [PREV_PUT_prev (by omega), PREV_PUT_next s1]
    · have s2 := hS y (List.mem_cons_of_mem _ (List.mem_cons_self _ _)) _
        (List.mem_cons_of_mem _ hlm)
      rw [NEXT_PUT_prev (by omega) s2]
      exact NEXT_PUT_next_same (by omega) (by omega)
    · exact PREV_PUT_prev_same (by omega)
  · unfold Explicit.escape_splice
    by_cases hr : s.rover = x
    · simp only [if_pos hr]
    · simp only [if_neg hr]
  · unfold Explicit.escape_splice
    by_cases hr : s.rover = x
    · simp only [if_pos hr]
      exact a1
    · simp only [if_neg hr]
  · unfold Explicit.escape_splice
    by_cases hr : s.rover = x
    · simp only [if_pos hr]
    · simp only [if_neg hr]
  · unfold Explicit.escape_splice
    by_cases hr : s.rover = x
    · simp only [if_pos hr]
    · simp only [if_neg hr]

theorem Own_member {r0 r1 : Nat} {F : Set (Nat × Nat)} {x sz a : Nat} (h : (x, sz) ∈ F)
    (h1 : x ≤ a) (h2 : a < x + 8) : Own r0 r1 F a :=
  Or.inr ⟨(x, sz), h, h1, h2⟩

/-- Removal from the explicit free index. -/
theorem explicit_esc_spec (r0 r1 : Nat) (s : State) (F : Set (Nat × Nat)) (x sz : Nat)
    (hI : Explicit.Idx s F) (hS : SepF r1 F) (hx : (x, sz) ∈ F) :
    Explicit.Idx (Explicit.escape_list s x) (F \ {(x, sz)}) ∧
    Frame (Own r0 r1 F) s.mem (Explicit.escape_list s x).mem ∧
    (Explicit.escape_list s x).mem_brk = s.mem_brk ∧
    (Explicit.escape_list s x).mem_max_addr = s.mem_max_addr := by
  obtain ⟨l, hR, hM, hE, hN⟩ := hI
  have hxl : x ∈ l := (hM x).2 ⟨sz, hx⟩
  obtain ⟨t, hRt, hMt⟩ := Ring_rotate_to s.mem l x hR hxl
  have hne : l ≠ [] := List.ne_nil_of_mem hxl
  obtain ⟨hh, hr⟩ := hN hne
  have hMF : ∀ z, z ∈ x :: t → ∃ sz1, (z, sz1) ∈ F := fun z hz => (hM z).1 ((hMt z).1 hz)
  obtain ⟨hB, hSp⟩ := SepF_members hS hMF
  -- the members left are the free blocks other than `x`
  have hmem : ∀ z, z ∈ t ↔ ∃ sz1, (z, sz1) ∈ F \ {(x, sz)} := by
    intro z
    constructor
    · intro hz
      obtain ⟨sz1, h1⟩ := hMF z (List.mem_cons_of_mem _ hz)
      refine ⟨sz1, h1, ?_⟩
      intro hc
      have hzx : z = x := congrArg Prod.fst hc
      have hnd : (x :: t).Nodup := by
        cases t with
        | nil => cases hz
        | cons y t => exact hRt.1
      exact (List.nodup_cons.1 hnd).1 (hzx ▸ hz)
    · rintro ⟨sz1, h1, h2⟩
      have hz : z ∈ x :: t := (hMt z).2 ((hM z).2 ⟨sz1, h1⟩)
      rcases List.mem_cons.1 hz with h3 | h3
      · exfalso
        apply h2
        subst h3
        rcases (hS _ h1).2 _ hx with h4 | h4
        · exact h4
        · simp only at h4
          omega
      · exact h3
  cases t with
  | nil =>
    have hhx : s.heap_listp = x := by
      have := (hMt s.heap_listp).2 hh
      simpa using this
    obtain ⟨_, _, b1, b2⟩ := hRt
    have e : Explicit.escape_list s x = { s with rover := 0, heap_listp := 0 } := by
      unfold Explicit.escape_list
      rw [if_pos hhx.symm, if_pos b1.symm]
    rw [e]
    refine ⟨⟨[], trivial, hmem, fun _ => ⟨rfl, rfl⟩, fun h => absurd rfl h⟩, Frame_refl _ _,
      rfl, rfl⟩
  | cons y t =>
    have hxy : x ≠ NEXT s.mem x := by
      obtain ⟨hnd, _, a1, _⟩ := hRt
      rw [a1]
      intro hc
      exact (List.nodup_cons.1 hnd).1 (hc ▸ List.mem_cons_self _ _)
    have hnx : NEXT s.mem x = y := hRt.2.2.1
    -- the state handed to the splice
    have key : ∀ s0 : State, s0.mem = s.mem → s0.rover = s.rover → s0.heap_listp ∈ y :: t →
        s0.mem_brk = s.mem_brk → s0.mem_max_addr = s.mem_max_addr →
        Explicit.Idx (Explicit.escape_splice s0 x) (F \ {(x, sz)}) ∧
        Frame (Own r0 r1 F) s.mem (Explicit.escape_splice s0 x).mem ∧
        (Explicit.escape_splice s0 x).mem_brk = s.mem_brk ∧
        (Explicit.escape_splice s0 x).mem_max_addr = s.mem_max_addr := by
      intro s0 e1 e2 e3 e4 e5
      obtain ⟨q1, q2, q3, q4, q5, q6⟩ := explicit_splice s0 x y t (e1 ▸ hRt) hB hSp
      refine ⟨⟨y :: t, q1, hmem, fun h => (by cases h), fun _ => ⟨?_, ?_⟩⟩, ?_, ?_, ?_⟩
      · rw [q3]
        exact e3
      · rw [q4, e2]
        by_cases hrx : s.rover = x
        · rw [if_pos hrx]
          exact List.mem_cons_self _ _
        · rw [if_neg hrx]
          have := (hMt s.rover).2 hr
          rcases List.mem_cons.1 this with h | h
          · exact absurd h hrx
          · exact h
      · rw [q2, e1]
        have hlm : t.getLastD y ∈ y :: t := getLastD_mem y t
        obtain ⟨sl, hl⟩ := hMF _ (List.mem_cons_of_mem _ hlm)
        obtain ⟨sy, hy⟩ := hMF y (List.mem_cons_of_mem _ (List.mem_cons_self _ _))
        exact Frame_trans
          (Frame_PUT _ _ _ (fun a h1 h2 => Own_member hl (by omega) (by omega)))
          (Frame_PUT _ _ _ (fun a h1 h2 => Own_member hy (by omega) (by omega)))
      · rw [q5, e4]
      · rw [q6, e5]
    unfold Explicit.escape_list
    by_cases hc : x = s.heap_listp
    · rw [if_pos hc, if_neg hxy]
      exact key _ rfl rfl (by rw [hnx]; exact List.mem_cons_self _ _) rfl rfl
    · rw [if_neg hc]
      refine key s rfl rfl ?_ rfl rfl
      have := (hMt s.heap_listp).2 hh
      rcases List.mem_cons.1 this with h | h
      · exact absurd h.symm hc
      · exact h

/-- Insertion into the explicit free index. -/
theorem explicit_ins_spec (r0 r1 : Nat) (s : State) (F : Set (Nat × Nat)) (x sz : Nat)
    (hI : Explicit.Idx s F) (hS : SepF r1 (insert (x, sz) F)) (hx : ∀ sz1, (x, sz1) ∉ F) :
    Explicit.Idx (Explicit.insert_list s x) (insert (x, sz) F) ∧
    Frame (Own r0 r1 (insert (x, sz) F)) s.mem (Explicit.insert_list s x).mem ∧
    (Explicit.insert_list s x).mem_brk = s.mem_brk ∧
    (Explicit.insert_list s x).mem_max_addr = s.mem_max_addr := by
  obtain ⟨l, hR, hM, hE, hN⟩ := hI
  have hxl : x ∉ l := fun h => by
    obtain ⟨sz1, h1⟩ := (hM x).1 h
    exact hx sz1 h1
  have hxF : (x, sz) ∈ insert (x, sz) F := Set.mem_insert _ _
  have bx : 4 ≤ x ∧ r1 ≤ x ∧ x + 8 ≤ 4294967296 := (hS _ hxF).1
  have hmem : ∀ t : List Nat, (∀ z, z ∈ t ↔ z ∈ l) →
      ∀ z, z ∈ x :: t ↔ ∃ sz1, (z, sz1) ∈ insert (x, sz) F := by
    intro t ht z
    constructor
    · intro hz
      rcases List.mem_cons.1 hz with h | h
      · exact ⟨sz, h ▸ hxF⟩
      · obtain ⟨sz1, h1⟩ := (hM z).1 ((ht z).1 h)
        exact ⟨sz1, Set.mem_insert_of_mem _ h1⟩
    · rintro ⟨sz1, h1⟩
      rcases Set.mem_insert_iff.1 h1 with h | h
      · have : z = x := congrArg Prod.fst h
        rw [this]
        exact List.mem_cons_self _ _
      · exact List.mem_cons_of_mem _ ((ht z).2 ((hM z).2 ⟨sz1, h⟩))
  by_cases hl : l = []
  · obtain ⟨h0, _⟩ := hE hl
    subst hl
    have e : Explicit.insert_list s x
        = (⟨PUT (PUT s.mem (x + 4) x) x x, s.mem_brk, s.mem_max_addr, x, x⟩ : State) := by
      unfold Explicit.insert_list
      rw [if_pos h0]
      dsimp only
      rw [SET_NEXT_eq _ _ (by omega), SET_PREV_eq]
    rw [e]
    refine ⟨⟨[x], ⟨List.nodup_singleton _, ?_, ?_, ?_⟩, hmem [] (fun z => Iff.rfl),
      fun h => (by cases h), fun _ => ⟨List.mem_cons_self _ _, List.mem_cons_self _ _⟩⟩,
      ?_, rfl, rfl⟩
    · intro y hy
      have : y = x := by simpa using hy
      omega
    · show NEXT (PUT (PUT s.mem (x + 4) x) x x) x = x
      rw [NEXT_PUT_prev (by omega) (Or.inl rfl)]
      exact NEXT_PUT_next_same (by omega) (by omega)
    · exact PREV_PUT_prev_same (by omega)
    · exact Frame_trans
        (Frame_PUT _ _ _ (fun a h1 h2 => Own_member hxF (by omega) (by omega)))
        (Frame_PUT _ _ _ (fun a h1 h2 => Own_member hxF (by omega) (by omega)))
  · obtain ⟨hh, hr⟩ := hN hl
    obtain ⟨t, hRt, hMt⟩ := Ring_rotate_to s.mem l _ hR hh
    have hMF : ∀ z, z ∈ x :: s.heap_listp :: t → ∃ sz1, (z, sz1) ∈ insert (x, sz) F :=
      fun z hz => (hmem _ hMt z).1 hz
    obtain ⟨hB, hSp⟩ := SepF_members hS hMF
    obtain ⟨hnd, hnz, a3⟩ := hRt
    obtain ⟨c1, c2⟩ := RingFrom_close s.mem _ t _ a3
    have hh0 : ¬ s.heap_listp = 0 := hnz _ (List.mem_cons_self _ _)
    have hxn : x ∉ s.heap_listp :: t := fun h => hxl ((hMt x).1 h)
    have hlm : t.getLastD s.heap_listp ∈ s.heap_listp :: t := getLastD_mem _ t
    have mh : s.heap_listp ∈ x :: s.heap_listp :: t :=
      List.mem_cons_of_mem _ (List.mem_cons_self _ _)
    have ml : t.getLastD s.heap_listp ∈ x :: s.heap_listp :: t := List.mem_cons_of_mem _ hlm
    have bh := hB _ mh
    have bl := hB _ ml
    have hxh : x ≠ s.heap_listp := fun hc => hxn (hc ▸ List.mem_cons_self _ _)
    have hxla : x ≠ t.getLastD s.heap_listp := fun hc => hxn (hc ▸ hlm)
    have sxh := hSp x (List.mem_cons_self _ _) _ mh
    have sxl := hSp x (List.mem_cons_self _ _) _ ml
    have shl := hSp _ mh _ ml
    have e : Explicit.insert_list s x
        = (⟨PUT (PUT (PUT (PUT s.mem (x + 4) s.heap_listp) x
              (t.getLastD s.heap_listp)) s.heap_listp x) (t.getLastD s.heap_listp + 4) x,
            s.mem_brk, s.mem_max_addr, x, s.rover⟩ : State) := by
      have e1 : SET_NEXT s.mem x s.heap_listp = PUT s.mem (x + 4) s.heap_listp :=
        SET_NEXT_eq _ _ (by omega)
      have e2 : PREV (PUT s.mem (x + 4) s.heap_listp) s.heap_listp
          = t.getLastD s.heap_listp := by
        rw [PREV_PUT_next (by omega)]
        exact c2
      have e3 : NEXT (PUT (PUT s.mem (x + 4) s.heap_listp) x (t.getLastD s.heap_listp)) x
          = s.heap_listp := by
        rw [NEXT_PUT_prev (by omega) (Or.inl rfl)]
        exact NEXT_PUT_next_same (by omega) (by omega)
      have e4 : PREV (PUT (PUT (PUT s.mem (x + 4) s.heap_listp) x
          (t.getLastD s.heap_listp)) s.heap_listp x) x = t.getLastD s.heap_listp := by
        rw [PREV_PUT_prev (by omega)]
        exact PREV_PUT_prev_same (by omega)
      unfold Explicit.insert_list
      rw [if_neg hh0]
      dsimp only
      rw [e1, SET_PREV_eq, e2, SET_PREV_eq, e3, e4, SET_NEXT_eq _ _ (by omega)]
    rw [e]
    refine ⟨⟨x :: s.heap_listp :: t, ⟨List.nodup_cons.2 ⟨hxn, hnd⟩, ?_, ?_, ?_, ?_⟩,
      hmem _ hMt, fun h => (by cases h), fun _ => ⟨List.mem_cons_self _ _, ?_⟩⟩, ?_, rfl, rfl⟩
    · intro z hz
      have := hB z hz
      omega
    · show NEXT (PUT (PUT (PUT (PUT s.mem (x + 4) s.heap_listp) x
          (t.getLastD s.heap_listp)) s.heap_listp x) (t.getLastD s.heap_listp + 4) x) x
          = s.heap_listp
      rw [NEXT_PUT_next (by omega) (by omega), NEXT_PUT_prev (by omega) (by omega),
        NEXT_PUT_prev (by omega) (Or.inl rfl)]
      exact NEXT_PUT_next_same (by omega) (by omega)
    · show PREV (PUT (PUT (PUT (PUT s.mem (x + 4) s.heap_listp) x
          (t.getLastD s.heap_listp)) s.heap_listp x) (t.getLastD s.heap_listp + 4) x)
          s.heap_listp = x
      rw [PREV_PUT_next (by omega)]
      exact PREV_PUT_prev_same (by omega)
    · apply RingFrom_reclose s.mem _ s.heap_listp x t s.heap_listp a3 hnd
      · intro z hz hne
        have bz := hB z (List.mem_cons_of_mem _ hz)
        have hzx : z ≠ x := fun hc => hxn (hc ▸ hz)
        have s1 := hSp z (List.mem_cons_of_mem _ hz) _ ml
        have s2 := hSp z (List.mem_cons_of_mem _ hz) _ mh
        have s3 := hSp z (List.mem_cons_of_mem _ hz) x (List.mem_cons_self _ _)
        rw [NEXT_PUT_next (by omega) (by omega), NEXT_PUT_prev (by omega) (by omega),
          NEXT_PUT_prev (by omega) (by omega), NEXT_PUT_next (by omega) (by omega)]
      · intro z hz
        have hz1 : z ∈ s.heap_listp :: t := List.mem_cons_of_mem _ hz
        have hzx : z ≠ x := fun hc => hxn (hc ▸ hz1)
        have hzh : z ≠ s.heap_listp := fun hc => (List.nodup_cons.1 hnd).1 (hc ▸ hz)
        have s1 := hSp z (List.mem_cons_of_mem _ hz1) _ ml
        have s2 := hSp z (List.mem_cons_of_mem _ hz1) _ mh
        have s3 := hSp z (List.mem_cons_of_mem _ hz1) x (List.mem_cons_self _ _)
        rw [PREV_PUT_next (by omega), PREV_PUT_prev (by omega), PREV_PUT_prev (by omega),
          PREV_PUT_next (by omega)]
      · exact NEXT_PUT_next_same (by omega) (by omega)
      · rw [PREV_PUT_next (by omega), PREV_PUT_prev (by omega)]
        exact PREV_PUT_prev_same (by omega)
    · exact List.mem_cons_of_mem _ ((hMt s.rover).2 hr)
    · obtain ⟨sh, hsh⟩ := hMF _ mh
      obtain ⟨sl, hsl⟩ := hMF _ ml
      exact Frame_trans (Frame_trans (Frame_trans
        (Frame_PUT _ _ _ (fun a h1 h2 => Own_member hxF (by omega) (by omega)))
        (Frame_PUT _ _ _ (fun a h1 h2 => Own_member hxF (by omega) (by omega))))
        (Frame_PUT _ _ _ (fun a h1 h2 => Own_member hsh (by omega) (by omega))))
        (Frame_PUT _ _ _ (fun a h1 h2 => Own_member hsl (by omega) (by omega)))

/-- The explicit free index depends on the link words of its members only. -/
theorem explicit_frame_spec (r0 r1 : Nat) (s s1 : State) (F : Set (Nat × Nat))
    (hI : Explicit.Idx s F) (hS : SepF r1 F) (h1 : s1.heap_listp = s.heap_listp)
    (h2 : s1.rover = s.rover) (h3 : ∀ a, Own r0 r1 F a → s1.mem a = s.mem a) :
    Explicit.Idx s1 F := by
  obtain ⟨l, hR, hM, hE, hN⟩ := hI
  obtain ⟨hB, _⟩ := SepF_members hS (fun z hz => (hM z).1 hz)
  refine ⟨l, Ring_congr s.mem s1.mem l hR ?_ ?_, hM, ?_, ?_⟩
  · intro z hz
    obtain ⟨sz, h⟩ := (hM z).1 hz
    have := hB z hz
    rw [NEXT_add (by omega), NEXT_add (by omega)]
    exact GET_congr _ _ _ (fun b b1 b2 => h3 b (Own_member h (by omega) (by omega)))
  · intro z hz
    obtain ⟨sz, h⟩ := (hM z).1 hz
    exact GET_congr _ _ _ (fun b b1 b2 => h3 b (Own_member h (by omega) (by omega)))
  · rw [h1, h2]
    exact hE
  · rw [h1, h2]
    exact hN

/-- The rover test of `coalesce` does nothing when no member lies strictly inside the
block. -/
theorem explicit_snap_spec (s : State) (F : Set (Nat × Nat)) (bp : Nat) (hI : Explicit.Idx s F)
    (h : ∀ f, f ∈ F → ¬ (bp < f.1 ∧ f.1 < NEXT_BLKP s.mem bp)) : Explicit.snap s bp = s := by
  obtain ⟨l, hR, hM, hE, hN⟩ := hI
  unfold Explicit.snap
  by_cases hl : l = []
  · rw [if_neg]
    rw [(hE hl).2]
    omega
  · rw [if_neg]
    obtain ⟨sz, h1⟩ := (hM _).1 (hN hl).2
    have := h _ h1
    simpa using this

/-- The explicit free list meets the interface of the shared code. -/
theorem explicit_index_spec (r0 r1 : Nat) : IndexSpec Explicit.index Explicit.Idx r0 r1 where
  frame := fun s s1 F hI hS h1 h2 h3 => explicit_frame_spec r0 r1 s s1 F hI hS h1 h2 h3
  esc := fun s F x sz hI hS hx _ => explicit_esc_spec r0 r1 s F x sz hI hS hx
  ins := fun s F x sz hI hS hx _ => explicit_ins_spec r0 r1 s F x sz hI hS hx
  snap := fun s F bp hI h => explicit_snap_spec s F bp hI h

/-! ## Null-terminated lists -/

theorem DList_congr (m m1 : Mem) : ∀ (l : List Nat) (a : Nat), DList m a l →
    (∀ z, z ∈ a :: l → NEXT m1 z = NEXT m z) → (∀ z, z ∈ l → PREV m1 z = PREV m z) →
    DList m1 a l := by
  intro l
  induction l with
  | nil =>
    intro a h hN _
    show NEXT m1 a = 0
    rw [hN a (List.mem_cons_self _ _)]
    exact h
  | cons y t ih =>
    intro a h hN hP
    obtain ⟨h1, h2, h3, h4⟩ := h
    refine ⟨?_, h2, ?_, ?_⟩
    · rw [hN a (List.mem_cons_self _ _)]
      exact h1
    · rw [hP y (List.mem_cons_self _ _)]
      exact h3
    · exact ih y h4 (fun z hz => hN z (List.mem_cons_of_mem _ hz))
        (fun z hz => hP z (List.mem_cons_of_mem _ hz))

theorem SList_congr (m m1 : Mem) (r : Nat) (l : List Nat) (h : SList m r l)
    (hN : ∀ z, z ∈ l → NEXT m1 z = NEXT m z) (hP : ∀ z, z ∈ l → PREV m1 z = PREV m z) :
    SList m1 r l := by
  cases l with
  | nil => exact h
  | cons x t =>
    exact ⟨h.1, h.2.1, DList_congr m m1 t x h.2.2 hN
      (fun z hz => hP z (List.mem_cons_of_mem _ hz))⟩

theorem DList_nonzero (m : Mem) : ∀ (l : List Nat) (a : Nat), DList m a l →
    ∀ z, z ∈ l → z ≠ 0 := by
  intro l
  induction l with
  | nil => intro a _ z hz; cases hz
  | cons y t ih =>
    intro a h z hz
    rcases List.mem_cons.1 hz with h1 | h1
    · rw [h1]; exact h.2.1
    · exact ih y h.2.2.2 z h1

/-- The links around a member `x` of a list: its `PREV` word is the member before it and its
`NEXT` word the member after it (null at the end). -/
theorem DList_at (m : Mem) : ∀ (l1 : List Nat) (a x : Nat) (post : List Nat),
    DList m a (l1 ++ x :: post) →
    PREV m x = l1.getLastD a ∧ NEXT m (l1.getLastD a) = x ∧ NEXT m x = post.headD 0 ∧
    (∀ y, post.head? = some y → PREV m y = x) := by
  intro l1
  induction l1 with
  | nil =>
    intro a x post h
    obtain ⟨h1, h2, h3, h4⟩ := h
    refine ⟨h3, h1, ?_, ?_⟩
    · cases post with
      | nil => exact h4
      | cons y t => exact h4.1
    · intro y hy
      cases post with
      | nil => cases hy
      | cons y1 t =>
        simp only [List.head?_cons, Option.some.injEq] at hy
        rw [← hy]
        exact h4.2.2.1
  | cons b l1 ih =>
    intro a x post h
    rw [getLastD_cons]
    exact ih b x post h.2.2.2

/-- Unlinking the member `x`: a memory that links the member before `x` with the member
after it and keeps the other links holds the list without `x`. -/
theorem DList_remove (m m1 : Mem) : ∀ (l1 : List Nat) (a x : Nat) (post : List Nat),
    DList m a (l1 ++ x :: post) → (a :: (l1 ++ x :: post)).Nodup →
    (∀ z, z ∈ a :: (l1 ++ post) → z ≠ l1.getLastD a → NEXT m1 z = NEXT m z) →
    (∀ z, z ∈ l1 ++ post → post.head? ≠ some z → PREV m1 z = PREV m z) →
    NEXT m1 (l1.getLastD a) = post.headD 0 →
    (∀ y, post.head? = some y → PREV m1 y = l1.getLastD a) →
    DList m1 a (l1 ++ post) := by
  intro l1
  induction l1 with
  | nil =>
    intro a x post h hnd hN hP h1 h2
    obtain ⟨a1, a2, a3, a4⟩ := h
    simp only [List.nil_append, List.getLastD_nil] at *
    cases post with
    | nil => exact h1
    | cons y t =>
      obtain ⟨b1, b2, b3, b4⟩ := a4
      have hnd2 : (x :: y :: t).Nodup := (List.nodup_cons.1 hnd).2
      have hnd3 : (y :: t).Nodup := (List.nodup_cons.1 hnd2).2
      have hay : a ∉ y :: t := fun hc =>
        (List.nodup_cons.1 hnd).1 (List.mem_cons_of_mem _ hc)
      refine ⟨h1, b2, h2 y rfl, ?_⟩
      apply DList_congr m m1 t y b4
      · intro z hz
        apply hN z (List.mem_cons_of_mem _ hz)
        intro hc
        exact hay (hc ▸ hz)
      · intro z hz
        apply hP z (List.mem_cons_of_mem _ hz)
        simp only [List.head?_cons, Option.some.injEq, ne_eq]
        intro hc
        exact (List.nodup_cons.1 hnd3).1 (hc ▸ hz)
  | cons b l1 ih =>
    intro a x post h hnd hN hP h1 h2
    obtain ⟨a1, a2, a3, a4⟩ := h
    rw [getLastD_cons] at hN h1 h2
    have hnd2 : (b :: (l1 ++ x :: post)).Nodup := (List.nodup_cons.1 hnd).2
    have hlm : l1.getLastD b ∈ b :: l1 := getLastD_mem b l1
    have hal : a ≠ l1.getLastD b := by
      intro hc
      apply (List.nodup_cons.1 hnd).1
      rw [hc]
      rcases List.mem_cons.1 hlm with h3 | h3
      · rw [h3]; exact List.mem_cons_self _ _
      · exact List.mem_cons_of_mem _ (List.mem_append_left _ h3)
    have hbp : post.head? ≠ some b := by
      intro hc
      have hb : b ∈ post := List.mem_of_mem_head? hc
      have : b ∈ l1 ++ x :: post := List.mem_append_right _ (List.mem_cons_of_mem _ hb)
      exact (List.nodup_cons.1 hnd2).1 this
    refine ⟨?_, a2, ?_, ?_⟩
    · rw [hN a (List.mem_cons_self _ _) hal]
      exact a1
    · rw [hP b (List.mem_cons_self _ _) hbp]
      exact a3
    · exact ih b x post a4 hnd2 (fun z hz hne => hN z (List.mem_cons_of_mem _ hz) hne)
        (fun z hz hne => hP z (List.mem_cons_of_mem _ hz) hne) h1 h2

/-! ## The free index of the segregated variant -/

theorem getRank_lt (n : Nat) : Segregate.getRank n < 10 := by
  have := getRank_class n
  omega

theorem GET_RANK_eq (s : State) (lo k : Nat) (h : s.heap_listp = lo + 8) (hk : k < 10)
    (hlo : lo + 48 < 4294967296) : Segregate.GET_RANK s k = GET s.mem (lo + 8 + 4 * k) := by
  unfold Segregate.GET_RANK
  rw [RANKP_eq s k hk (by omega), h]

/-- The members of the bucket lists are apart, above the roots and inside the address
space; a block is in one list only. -/
theorem seg_members {lo : Nat} {F : Set (Nat × Nat)} (hS : SepF (lo + 48) F)
    (L : Nat → List Nat)
    (hL : ∀ k, k < 10 → ∀ x, x ∈ L k → ∃ sz, (x, sz) ∈ F ∧ Segregate.getRank sz = k) :
    (∀ j, j < 10 → ∀ z, z ∈ L j → 4 ≤ z ∧ lo + 48 ≤ z ∧ z + 8 ≤ 4294967296) ∧
    (∀ j, j < 10 → ∀ z, z ∈ L j → ∀ i, i < 10 → ∀ w, w ∈ L i →
      (z = w ∧ j = i) ∨ z + 8 ≤ w ∨ w + 8 ≤ z) := by
  constructor
  · intro j hj z hz
    obtain ⟨sz, h, _⟩ := hL j hj z hz
    exact (hS _ h).1
  · intro j hj z hz i hi w hw
    obtain ⟨sz, h, hr⟩ := hL j hj z hz
    obtain ⟨sw, h1, hr1⟩ := hL i hi w hw
    rcases (hS _ h).2 _ h1 with h2 | h2
    · left
      have e1 : z = w := congrArg Prod.fst h2
      have e2 : sz = sw := congrArg Prod.snd h2
      exact ⟨e1, by rw [← hr, ← hr1, e2]⟩
    · right
      exact h2

/-- A change of the root and the list of one class that writes owned bytes of that class only
gives a free index again. -/
theorem seg_assemble (lo : Nat) (hlo : lo + 48 < 4294967296) (s : State)
    (F G : Set (Nat × Nat)) (L : Nat → List Nat) (k : Nat) (hk : k < 10) (lk own : List Nat)
    (hh : s.heap_listp = lo + 8)
    (hL : ∀ j, j < 10 → (L j).Nodup ∧ SList s.mem (Segregate.GET_RANK s j) (L j) ∧
      ∀ x, x ∈ L j ↔ ∃ sz, (x, sz) ∈ F ∧ Segregate.getRank sz = j)
    (hB : ∀ j, j < 10 → ∀ z, z ∈ L j → 4 ≤ z ∧ lo + 48 ≤ z ∧ z + 8 ≤ 4294967296)
    (hown : ∀ z, z ∈ own → lo + 48 ≤ z ∧
      ∀ j, j < 10 → j ≠ k → ∀ w, w ∈ L j → z + 8 ≤ w ∨ w + 8 ≤ z)
    (hG : ∀ j, j < 10 → j ≠ k → ∀ x,
      (∃ sz, (x, sz) ∈ G ∧ Segregate.getRank sz = j) ↔
        ∃ sz, (x, sz) ∈ F ∧ Segregate.getRank sz = j)
    (hlk : lk.Nodup) (hGk : ∀ x, x ∈ lk ↔ ∃ sz, (x, sz) ∈ G ∧ Segregate.getRank sz = k)
    (m1 : Mem) (hF : Frame (OwnK lo k own) s.mem m1)
    (hS1 : SList m1 (GET m1 (lo + 8 + 4 * k)) lk) :
    Segregate.Idx lo (⟨m1, s.mem_brk, s.mem_max_addr, s.heap_listp, s.rover⟩ : State) G := by
  refine ⟨hh, fun j => if j = k then lk else L j, ?_⟩
  intro j hj
  by_cases hjk : j = k
  · subst hjk
    simp only [if_true]
    refine ⟨hlk, ?_, hGk⟩
    rw [GET_RANK_eq (⟨m1, s.mem_brk, s.mem_max_addr, s.heap_listp, s.rover⟩ : State) lo j hh
      hj hlo]
    exact hS1
  · simp only [if_neg hjk]
    obtain ⟨a1, a2, a3⟩ := hL j hj
    refine ⟨a1, ?_, fun x => (a3 x).trans (hG j hj hjk x).symm⟩
    rw [GET_RANK_eq (⟨m1, s.mem_brk, s.mem_max_addr, s.heap_listp, s.rover⟩ : State) lo j hh
      hj hlo]
    rw [GET_RANK_eq s lo j hh hj hlo] at a2
    have hroot : GET m1 (lo + 8 + 4 * j) = GET s.mem (lo + 8 + 4 * j) := by
      apply Frame_GET hF
      intro a h1 h2 hc
      rcases hc with hc | ⟨z, hz, hc⟩
      · omega
      · have := (hown z hz).1
        omega
    show SList m1 (GET m1 (lo + 8 + 4 * j)) (L j)
    rw [hroot]
    apply SList_congr s.mem m1 _ _ a2
    · intro w hw
      have bw := hB j hj w hw
      rw [NEXT_add (by omega), NEXT_add (by omega)]
      apply Frame_GET hF
      intro a h1 h2 hc
      rcases hc with hc | ⟨z, hz, hc⟩
      · omega
      · have := (hown z hz).2 j hj hjk w hw
        omega
    · intro w hw
      have bw := hB j hj w hw
      apply Frame_GET hF
      intro a h1 h2 hc
      rcases hc with hc | ⟨z, hz, hc⟩
      · omega
      · have := (hown z hz).2 j hj hjk w hw
        omega

theorem OwnK_Own (lo k : Nat) (hk : k < 10) (l : List Nat) (F : Set (Nat × Nat))
    (hl : ∀ z, z ∈ l → ∃ sz, (z, sz) ∈ F) (a : Nat) (h : OwnK lo k l a) :
    Own (lo + 8) (lo + 48) F a := by
  rcases h with h | ⟨z, hz, h⟩
  · left
    omega
  · obtain ⟨sz, h1⟩ := hl z hz
    exact Own_member h1 h.1 h.2

theorem NEXT_lt (m : Mem) (x : Nat) : NEXT m x < 4294967296 := by
  unfold NEXT
  exact GET_lt _ _

theorem NEXT_PUT_below {m : Mem} {p y v : Nat} (hy : y + 8 ≤ 4294967296) (h : p + 4 ≤ y) :
    NEXT (PUT m p v) y = NEXT m y := by
  rw [NEXT_add (by omega), NEXT_add (by omega)]
  exact GET_PUT_other _ _ _ _ (by omega)

theorem PREV_PUT_below {m : Mem} {p y v : Nat} (h : p + 4 ≤ y) :
    PREV (PUT m p v) y = PREV m y :=
  GET_PUT_other _ _ _ _ (by omega)

/-- Removal from the segregated free index. -/
theorem segregate_esc_spec (lo : Nat) (hlo : lo + 48 < 4294967296) (s : State)
    (F : Set (Nat × Nat)) (x sz : Nat) (hI : Segregate.Idx lo s F) (hS : SepF (lo + 48) F)
    (hx : (x, sz) ∈ F) (hsz : GET_SIZE s.mem (HDRP x) = sz) :
    Segregate.Idx lo (Segregate.escape s x) (F \ {(x, sz)}) ∧
    Frame (Own (lo + 8) (lo + 48) F) s.mem (Segregate.escape s x).mem ∧
    (Segregate.escape s x).mem_brk = s.mem_brk ∧
    (Segregate.escape s x).mem_max_addr = s.mem_max_addr := by
  obtain ⟨hh, L, hL⟩ := hI
  have hk : Segregate.getRank sz < 10 := getRank_lt sz
  obtain ⟨hB, hSp⟩ := seg_members hS L (fun k hk x hx => ((hL k hk).2.2 x).1 hx)
  obtain ⟨hnd, hsl, hmem⟩ := hL _ hk
  have hxk : x ∈ L (Segregate.getRank sz) := (hmem x).2 ⟨sz, hx, rfl⟩
  obtain ⟨pre, post, hsplit⟩ := List.append_of_mem hxk
  rw [hsplit] at hnd hsl
  have hsub : (pre ++ post).Sublist (pre ++ x :: post) :=
    List.Sublist.append (List.Sublist.refl _) (List.sublist_cons_self _ _)
  have hxn : x ∉ pre ++ post := by
    intro hc
    have h1 := List.nodup_append.1 hnd
    rcases List.mem_append.1 hc with h | h
    · exact h1.2.2 h (List.mem_cons_self _ _)
    · exact (List.nodup_cons.1 h1.2.1).1 h
  have hsubm : ∀ z, z ∈ pre ++ post → z ∈ L (Segregate.getRank sz) := fun z hz => by
    rw [hsplit]
    exact hsub.subset hz
  -- the common end of both cases
  have fin : ∀ m1 : Mem, Frame (OwnK lo (Segregate.getRank sz) (L (Segregate.getRank sz)))
      s.mem m1 → SList m1 (GET m1 (lo + 8 + 4 * Segregate.getRank sz)) (pre ++ post) →
      Segregate.Idx lo (⟨m1, s.mem_brk, s.mem_max_addr, s.heap_listp, s.rover⟩ : State)
        (F \ {(x, sz)}) ∧ Frame (Own (lo + 8) (lo + 48) F) s.mem m1 := by
    intro m1 hF hS1
    refine ⟨seg_assemble lo hlo s F _ L _ hk (pre ++ post) _ hh hL hB ?_ ?_
      (hnd.sublist hsub) ?_ m1 hF hS1, Frame_mono hF (OwnK_Own lo _ hk _ F
        (fun z hz => by
          obtain ⟨sz1, h1, _⟩ := (hmem z).1 hz
          exact ⟨sz1, h1⟩))⟩
    · intro z hz
      refine ⟨(hB _ hk z hz).2.1, fun j hj hjk w hw => ?_⟩
      rcases hSp _ hk z hz j hj w hw with h | h
      · exact absurd h.2.symm hjk
      · exact h
    · intro j hj hjk z
      constructor
      · rintro ⟨sz1, h1, h2⟩
        exact ⟨sz1, h1.1, h2⟩
      · rintro ⟨sz1, h1, h2⟩
        refine ⟨sz1, ⟨h1, ?_⟩, h2⟩
        intro hc
        have : sz1 = sz := congrArg Prod.snd hc
        rw [this] at h2
        exact hjk h2.symm
    · intro z
      constructor
      · intro hz
        obtain ⟨sz1, h1, h2⟩ := (hmem z).1 (hsubm z hz)
        refine ⟨sz1, ⟨h1, ?_⟩, h2⟩
        intro hc
        have : z = x := congrArg Prod.fst hc
        exact hxn (this ▸ hz)
      · rintro ⟨sz1, ⟨h1, h2⟩, h3⟩
        have hz : z ∈ pre ++ x :: post := hsplit ▸ (hmem z).2 ⟨sz1, h1, h3⟩
        rcases List.mem_append.1 hz with h | h
        · exact List.mem_append_left _ h
        · rcases List.mem_cons.1 h with h4 | h4
          · exfalso
            apply h2
            subst h4
            rcases (hS _ h1).2 _ hx with h5 | h5
            · exact h5
            · simp only at h5
              omega
          · exact List.mem_append_right _ h4
  have bx := hB _ hk x hxk
  have hrk : Segregate.GET_RANK s (Segregate.getRank sz)
      = GET s.mem (lo + 8 + 4 * Segregate.getRank sz) := GET_RANK_eq s lo _ hh hk hlo
  have hrp : Segregate.RANKP s (Segregate.getRank sz) = lo + 8 + 4 * Segregate.getRank sz := by
    rw [RANKP_eq s _ hk (by omega), hh]
  cases pre with
  | nil =>
    simp only [List.nil_append] at hnd hsl hsplit hxn hsubm fin
    obtain ⟨r1, r2, r3⟩ := hsl
    have e : Segregate.escape s x
        = (⟨PUT s.mem (lo + 8 + 4 * Segregate.getRank sz) (NEXT s.mem x), s.mem_brk,
            s.mem_max_addr, s.heap_listp, s.rover⟩ : State) := by
      unfold Segregate.escape
      dsimp only
      rw [hsz, if_pos r1.symm, hrp, r1]
    rw [e]
    have hF : Frame (OwnK lo (Segregate.getRank sz) (L (Segregate.getRank sz))) s.mem
        (PUT s.mem (lo + 8 + 4 * Segregate.getRank sz) (NEXT s.mem x)) :=
      Frame_PUT _ _ _ (fun a h1 h2 => Or.inl ⟨h1, h2⟩)
    have hS1 : SList (PUT s.mem (lo + 8 + 4 * Segregate.getRank sz) (NEXT s.mem x))
        (GET (PUT s.mem (lo + 8 + 4 * Segregate.getRank sz) (NEXT s.mem x))
          (lo + 8 + 4 * Segregate.getRank sz)) post := by
      rw [GET_PUT_same _ _ _ (NEXT_lt _ _)]
      cases post with
      | nil => exact r3
      | cons y t =>
        obtain ⟨b1, b2, b3, b4⟩ := r3
        refine ⟨b1, b2, ?_⟩
        apply DList_congr s.mem _ t y b4
        · intro z hz
          have bz := hB _ hk z (hsubm z hz)
          exact NEXT_PUT_below (by omega) (by omega)
        · intro z hz
          have bz := hB _ hk z (hsubm z (List.mem_cons_of_mem _ hz))
          exact PREV_PUT_below (by omega)
    exact ⟨(fin _ hF hS1).1, (fin _ hF hS1).2, rfl, rfl⟩
  | cons p0 pre =>
    obtain ⟨r1, r2, r3⟩ := hsl
    have r3' : DList s.mem p0 (pre ++ x :: post) := r3
    obtain ⟨d1, d2, d3, d4⟩ := DList_at s.mem pre p0 x post r3'
    have hxp : x ≠ p0 := by
      intro hc
      have := (List.nodup_cons.1 hnd).1
      apply this
      rw [← hc]
      exact List.mem_append_right _ (List.mem_cons_self _ _)
    have hwm : pre.getLastD p0 ∈ L (Segregate.getRank sz) := by
      rw [hsplit]
      rcases List.mem_cons.1 (getLastD_mem p0 pre) with h | h
      · rw [h]; exact List.mem_cons_self _ _
      · exact List.mem_cons_of_mem _ (List.mem_append_left _ h)
    have hxw : x ≠ pre.getLastD p0 := by
      intro hc
      apply hxn
      rcases List.mem_cons.1 (getLastD_mem p0 pre) with h | h
      · rw [hc, h]; exact List.mem_cons_self _ _
      · rw [hc]; exact List.mem_cons_of_mem _ (List.mem_append_left _ h)
    have bw := hB _ hk _ hwm
    have sxw := hSp _ hk x hxk _ hk _ hwm
    have e1 : SET_NEXT s.mem (PREV s.mem x) (NEXT s.mem x)
        = PUT s.mem (pre.getLastD p0 + 4) (post.headD 0) := by
      rw [d1, d3]
      exact SET_NEXT_eq _ _ (by omega)
    have e2 : NEXT (PUT s.mem (pre.getLastD p0 + 4) (post.headD 0)) x = post.headD 0 := by
      rw [NEXT_PUT_next (by omega) (by omega)]
      exact d3
    have e3 : PREV (PUT s.mem (pre.getLastD p0 + 4) (post.headD 0)) x = pre.getLastD p0 := by
      rw [PREV_PUT_next (by omega)]
      exact d1
    have hroot : ∀ m1 : Mem, Frame (OwnK lo (Segregate.getRank sz) (L (Segregate.getRank sz)))
        s.mem m1 → (∀ a, lo + 8 + 4 * Segregate.getRank sz ≤ a →
          a < lo + 8 + 4 * Segregate.getRank sz + 4 → m1 a = s.mem a) →
        GET m1 (lo + 8 + 4 * Segregate.getRank sz) = p0 := by
      intro m1 _ h2
      rw [GET_congr _ _ _ h2, ← hrk]
      exact r1
    cases post with
    | nil =>
      have e : Segregate.escape s x
          = (⟨PUT s.mem (pre.getLastD p0 + 4) 0, s.mem_brk,
              s.mem_max_addr, s.heap_listp, s.rover⟩ : State) := by
        unfold Segregate.escape
        dsimp only
        rw [hsz, if_neg (by rw [r1]; exact hxp), e1, e2]
        simp only [List.headD_nil, ne_eq, not_true_eq_false, if_false]
      rw [e]
      have hF : Frame (OwnK lo (Segregate.getRank sz) (L (Segregate.getRank sz))) s.mem
          (PUT s.mem (pre.getLastD p0 + 4) 0) :=
        Frame_PUT _ _ _ (fun a h1 h2 => Or.inr ⟨_, hwm, by omega, by omega⟩)
      have hS1 : SList (PUT s.mem (pre.getLastD p0 + 4) 0)
          (GET (PUT s.mem (pre.getLastD p0 + 4) 0) (lo + 8 + 4 * Segregate.getRank sz))
          ((p0 :: pre) ++ []) := by
        rw [hroot _ hF (fun a h1 h2 => PUT_other _ _ _ _ (by omega))]
        refine ⟨rfl, r2, ?_⟩
        apply DList_remove s.mem _ pre p0 x [] r3' hnd
        · intro z hz hne
          have hz1 : z ∈ L (Segregate.getRank sz) := hsubm z hz
          have bz := hB _ hk z hz1
          have := hSp _ hk z hz1 _ hk _ hwm
          rw [NEXT_PUT_next (by omega) (by omega)]
        · intro z hz _
          have hz1 : z ∈ L (Segregate.getRank sz) := hsubm z (List.mem_cons_of_mem _ hz)
          have := hSp _ hk _ hwm _ hk z hz1
          rw [PREV_PUT_next (by omega)]
        · exact NEXT_PUT_next_same (by omega) (by omega)
        · intro y hy
          cases hy
      exact ⟨(fin _ hF hS1).1, (fin _ hF hS1).2, rfl, rfl⟩
    | cons y t =>
      have hym : y ∈ L (Segregate.getRank sz) := by
        rw [hsplit]
        exact List.mem_append_right _ (List.mem_cons_of_mem _ (List.mem_cons_self _ _))
      have hy0 : y ≠ 0 := by
        apply DList_nonzero s.mem _ p0 r3' y
        exact List.mem_append_right _ (List.mem_cons_of_mem _ (List.mem_cons_self _ _))
      have by1 := hB _ hk y hym
      have swy := hSp _ hk _ hwm _ hk y hym
      have e : Segregate.escape s x
          = (⟨PUT (PUT s.mem (pre.getLastD p0 + 4) y) y (pre.getLastD p0), s.mem_brk,
              s.mem_max_addr, s.heap_listp, s.rover⟩ : State) := by
        unfold Segregate.escape
        dsimp only
        rw [hsz, if_neg (by rw [r1]; exact hxp), e1, e2, e3]
        simp only [List.headD_cons]
        rw [if_pos hy0, SET_PREV_eq]
      rw [e]
      have hF : Frame (OwnK lo (Segregate.getRank sz) (L (Segregate.getRank sz))) s.mem
          (PUT (PUT s.mem (pre.getLastD p0 + 4) y) y (pre.getLastD p0)) :=
        Frame_trans
          (Frame_PUT _ _ _ (fun a h1 h2 => Or.inr ⟨_, hwm, by omega, by omega⟩))
          (Frame_PUT _ _ _ (fun a h1 h2 => Or.inr ⟨_, hym, by omega, by omega⟩))
      have hS1 : SList (PUT (PUT s.mem (pre.getLastD p0 + 4) y) y (pre.getLastD p0))
          (GET (PUT (PUT s.mem (pre.getLastD p0 + 4) y) y (pre.getLastD p0))
            (lo + 8 + 4 * Segregate.getRank sz)) ((p0 :: pre) ++ y :: t) := by
        rw [hroot _ hF (fun a h1 h2 => by
          rw [PUT_other _ _ _ _ (by omega), PUT_other _ _ _ _ (by omega)])]
        refine ⟨rfl, r2, ?_⟩
        apply DList_remove s.mem _ pre p0 x (y :: t) r3' hnd
        · intro z hz hne
          have hz1 : z ∈ L (Segregate.getRank sz) := hsubm z hz
          have bz := hB _ hk z hz1
          have s1 := hSp _ hk z hz1 _ hk _ hwm
          have s2 := hSp _ hk z hz1 _ hk y hym
          rw [NEXT_PUT_prev (by omega) (by omega), NEXT_PUT_next (by omega) (by omega)]
        · intro z hz hne
          have hz1 : z ∈ L (Segregate.getRank sz) := hsubm z (List.mem_cons_of_mem _ hz)
          have s1 := hSp _ hk _ hwm _ hk z hz1
          have s2 := hSp _ hk z hz1 _ hk y hym
          have hzy : z ≠ y := fun hc => hne (by rw [hc]; rfl)
          rw [PREV_PUT_prev (by omega), PREV_PUT_next (by omega)]
        · rw [NEXT_PUT_prev (by omega) (by omega)]
          exact NEXT_PUT_next_same (by omega) (by omega)
        · intro y1 hy1
          simp only [List.head?_cons, Option.some.injEq] at hy1
          rw [← hy1]
          exact PREV_PUT_prev_same (by omega)
      exact ⟨(fin _ hF hS1).1, (fin _ hF hS1).2, rfl, rfl⟩

theorem GET_RANK_mk (m1 : Mem) (b mx hl rv lo k : Nat) (h : hl = lo + 8) (hk : k < 10)
    (hlo : lo + 48 < 4294967296) :
    Segregate.GET_RANK (⟨m1, b, mx, hl, rv⟩ : State) k = GET m1 (lo + 8 + 4 * k) :=
  GET_RANK_eq _ lo k h hk hlo

/-- Insertion into the segregated free index. -/
theorem segregate_ins_spec (lo : Nat) (hlo : lo + 48 < 4294967296) (s : State)
    (F : Set (Nat × Nat)) (x sz : Nat) (hI : Segregate.Idx lo s F)
    (hS : SepF (lo + 48) (insert (x, sz) F)) (hx : ∀ sz1, (x, sz1) ∉ F)
    (hsz : GET_SIZE s.mem (HDRP x) = sz) :
    Segregate.Idx lo (Segregate.insert s x) (insert (x, sz) F) ∧
    Frame (Own (lo + 8) (lo + 48) (insert (x, sz) F)) s.mem (Segregate.insert s x).mem ∧
    (Segregate.insert s x).mem_brk = s.mem_brk ∧
    (Segregate.insert s x).mem_max_addr = s.mem_max_addr := by
  obtain ⟨hh, L, hL⟩ := hI
  have hk : Segregate.getRank sz < 10 := getRank_lt sz
  have hSF : SepF (lo + 48) F := fun f hf =>
    ⟨(hS f (Set.mem_insert_of_mem _ hf)).1,
      fun g hg => (hS f (Set.mem_insert_of_mem _ hf)).2 g (Set.mem_insert_of_mem _ hg)⟩
  obtain ⟨hB, hSp⟩ := seg_members hSF L (fun k hk x hx => ((hL k hk).2.2 x).1 hx)
  obtain ⟨hnd, hsl, hmem⟩ := hL _ hk
  have hxF : (x, sz) ∈ insert (x, sz) F := Set.mem_insert _ _
  have bx : 4 ≤ x ∧ lo + 48 ≤ x ∧ x + 8 ≤ 4294967296 := (hS _ hxF).1
  have hxw : ∀ j, j < 10 → ∀ w, w ∈ L j → x + 8 ≤ w ∨ w + 8 ≤ x := by
    intro j hj w hw
    obtain ⟨sw, h1, _⟩ := ((hL j hj).2.2 w).1 hw
    rcases (hS _ hxF).2 _ (Set.mem_insert_of_mem _ h1) with h | h
    · exfalso
      have e1 : x = w := congrArg Prod.fst h
      exact hx sw (e1 ▸ h1)
    · exact h
  have hxk : x ∉ L (Segregate.getRank sz) := fun hc => by
    have := hxw _ hk x hc
    omega
  have hrk : Segregate.GET_RANK s (Segregate.getRank sz)
      = GET s.mem (lo + 8 + 4 * Segregate.getRank sz) := GET_RANK_eq s lo _ hh hk hlo
  have hrp : Segregate.RANKP s (Segregate.getRank sz) = lo + 8 + 4 * Segregate.getRank sz := by
    rw [RANKP_eq s _ hk (by omega), hh]
  rw [hrk] at hsl
  -- the common end of both cases
  have fin : ∀ m1 : Mem,
      Frame (OwnK lo (Segregate.getRank sz) (x :: L (Segregate.getRank sz))) s.mem m1 →
      SList m1 (GET m1 (lo + 8 + 4 * Segregate.getRank sz)) (x :: L (Segregate.getRank sz)) →
      Segregate.Idx lo (⟨m1, s.mem_brk, s.mem_max_addr, s.heap_listp, s.rover⟩ : State)
        (insert (x, sz) F) ∧ Frame (Own (lo + 8) (lo + 48) (insert (x, sz) F)) s.mem m1 := by
    intro m1 hF hS1
    refine ⟨seg_assemble lo hlo s F _ L _ hk _ _ hh hL hB ?_ ?_
      (List.nodup_cons.2 ⟨hxk, hnd⟩) ?_ m1 hF hS1, Frame_mono hF (OwnK_Own lo _ hk _ _
        (fun z hz => by
          rcases List.mem_cons.1 hz with h | h
          · exact ⟨sz, h ▸ hxF⟩
          · obtain ⟨sz1, h1, _⟩ := (hmem z).1 h
            exact ⟨sz1, Set.mem_insert_of_mem _ h1⟩))⟩
    · intro z hz
      rcases List.mem_cons.1 hz with h | h
      · rw [h]
        exact ⟨bx.2.1, fun j hj _ w hw => hxw j hj w hw⟩
      · refine ⟨(hB _ hk z h).2.1, fun j hj hjk w hw => ?_⟩
        rcases hSp _ hk z h j hj w hw with h1 | h1
        · exact absurd h1.2.symm hjk
        · exact h1
    · intro j hj hjk z
      constructor
      · rintro ⟨sz1, h1, h2⟩
        rcases Set.mem_insert_iff.1 h1 with h | h
        · exfalso
          have : sz1 = sz := congrArg Prod.snd h
          rw [this] at h2
          exact hjk h2.symm
        · exact ⟨sz1, h, h2⟩
      · rintro ⟨sz1, h1, h2⟩
        exact ⟨sz1, Set.mem_insert_of_mem _ h1, h2⟩
    · intro z
      constructor
      · intro hz
        rcases List.mem_cons.1 hz with h | h
        · exact ⟨sz, h ▸ hxF, rfl⟩
        · obtain ⟨sz1, h1, h2⟩ := (hmem z).1 h
          exact ⟨sz1, Set.mem_insert_of_mem _ h1, h2⟩
      · rintro ⟨sz1, h1, h2⟩
        rcases Set.mem_insert_iff.1 h1 with h | h
        · have : z = x := congrArg Prod.fst h
          rw [this]
          exact List.mem_cons_self _ _
        · exact List.mem_cons_of_mem _ ((hmem z).2 ⟨sz1, h, h2⟩)
  have e1 : SET_NEXT s.mem x (GET s.mem (lo + 8 + 4 * Segregate.getRank sz))
      = PUT s.mem (x + 4) (GET s.mem (lo + 8 + 4 * Segregate.getRank sz)) :=
    SET_NEXT_eq _ _ (by omega)
  have e2 : ∀ v, GET (PUT s.mem (x + 4) v) (lo + 8 + 4 * Segregate.getRank sz)
      = GET s.mem (lo + 8 + 4 * Segregate.getRank sz) :=
    fun v => GET_PUT_other _ _ _ _ (by omega)
  have hx0 : x ≠ 0 := by omega
  cases hLk : L (Segregate.getRank sz) with
  | nil =>
    rw [hLk] at hsl fin
    have r0 : GET s.mem (lo + 8 + 4 * Segregate.getRank sz) = 0 := hsl
    have e : Segregate.insert s x
        = (⟨PUT (PUT s.mem (x + 4) 0) (lo + 8 + 4 * Segregate.getRank sz) x, s.mem_brk,
            s.mem_max_addr, s.heap_listp, s.rover⟩ : State) := by
      unfold Segregate.insert
      dsimp only
      rw [hsz]
      have g1 : Segregate.GET_RANK s (Segregate.getRank sz) = 0 := by rw [hrk, r0]
      have g2 : Segregate.GET_RANK
          { s with mem := SET_NEXT s.mem x 0 } (Segregate.getRank sz) = 0 := by
        rw [GET_RANK_mk _ _ _ _ _ lo _ hh hk hlo, SET_NEXT_eq _ _ (by omega), e2,
          r0]
      rw [g1, g2]
      simp only [ne_eq, not_true_eq_false, if_false]
      rw [SET_NEXT_eq _ _ (by omega)]
      show (⟨PUT (PUT s.mem (x + 4) 0) (Segregate.RANKP s (Segregate.getRank sz)) x, _, _, _, _⟩
        : State) = _
      rw [hrp]
    rw [e]
    have hF : Frame (OwnK lo (Segregate.getRank sz) [x]) s.mem
        (PUT (PUT s.mem (x + 4) 0) (lo + 8 + 4 * Segregate.getRank sz) x) :=
      Frame_trans
        (Frame_PUT _ _ _ (fun a h1 h2 =>
          Or.inr ⟨x, List.mem_cons_self _ _, by omega, by omega⟩))
        (Frame_PUT _ _ _ (fun a h1 h2 => Or.inl ⟨h1, h2⟩))
    have hS1 : SList (PUT (PUT s.mem (x + 4) 0) (lo + 8 + 4 * Segregate.getRank sz) x)
        (GET (PUT (PUT s.mem (x + 4) 0) (lo + 8 + 4 * Segregate.getRank sz) x)
          (lo + 8 + 4 * Segregate.getRank sz)) [x] := by
      rw [GET_PUT_same _ _ _ (by omega)]
      refine ⟨rfl, hx0, ?_⟩
      show NEXT _ x = 0
      rw [NEXT_PUT_below (by omega) (by omega)]
      exact NEXT_PUT_next_same (by omega) (by omega)
    exact ⟨(fin _ hF hS1).1, (fin _ hF hS1).2, rfl, rfl⟩
  | cons y t =>
    rw [hLk] at hsl fin hnd
    obtain ⟨r1, r2, r3⟩ := hsl
    have hym : y ∈ L (Segregate.getRank sz) := by
      rw [hLk]
      exact List.mem_cons_self _ _
    have by1 := hB _ hk y hym
    have sxy := hxw _ hk y hym
    have e : Segregate.insert s x
        = (⟨PUT (PUT (PUT s.mem (x + 4) y) y x) (lo + 8 + 4 * Segregate.getRank sz) x,
            s.mem_brk, s.mem_max_addr, s.heap_listp, s.rover⟩ : State) := by
      unfold Segregate.insert
      dsimp only
      rw [hsz]
      have g1 : Segregate.GET_RANK s (Segregate.getRank sz) = y := by rw [hrk, r1]
      have g2 : Segregate.GET_RANK
          { s with mem := SET_NEXT s.mem x y } (Segregate.getRank sz) = y := by
        rw [GET_RANK_mk _ _ _ _ _ lo _ hh hk hlo, SET_NEXT_eq _ _ (by omega), e2,
          r1]
      rw [g1, g2]
      simp only [ne_eq, r2, not_false_eq_true, if_true]
      rw [SET_NEXT_eq _ _ (by omega), SET_PREV_eq]
      show (⟨PUT (PUT (PUT s.mem (x + 4) y) y x)
        (Segregate.RANKP s (Segregate.getRank sz)) x, _, _, _, _⟩ : State) = _
      rw [hrp]
    rw [e]
    have hF : Frame (OwnK lo (Segregate.getRank sz) (x :: y :: t)) s.mem
        (PUT (PUT (PUT s.mem (x + 4) y) y x) (lo + 8 + 4 * Segregate.getRank sz) x) :=
      Frame_trans (Frame_trans
        (Frame_PUT _ _ _ (fun a h1 h2 =>
          Or.inr ⟨x, List.mem_cons_self _ _, by omega, by omega⟩))
        (Frame_PUT _ _ _ (fun a h1 h2 =>
          Or.inr ⟨y, List.mem_cons_of_mem _ (List.mem_cons_self _ _), by omega, by omega⟩)))
        (Frame_PUT _ _ _ (fun a h1 h2 => Or.inl ⟨h1, h2⟩))
    have hS1 : SList
        (PUT (PUT (PUT s.mem (x + 4) y) y x) (lo + 8 + 4 * Segregate.getRank sz) x)
        (GET (PUT (PUT (PUT s.mem (x + 4) y) y x) (lo + 8 + 4 * Segregate.getRank sz) x)
          (lo + 8 + 4 * Segregate.getRank sz)) (x :: y :: t) := by
      rw [GET_PUT_same _ _ _ (by omega)]
      refine ⟨rfl, hx0, ?_, r2, ?_, ?_⟩
      · rw [NEXT_PUT_below (by omega) (by omega), NEXT_PUT_prev (by omega) (by omega)]
        exact NEXT_PUT_next_same (by omega) (by omega)
      · rw [PREV_PUT_below (by omega)]
        exact PREV_PUT_prev_same (by omega)
      · apply DList_congr s.mem _ t y r3
        · intro z hz
          have hz1 : z ∈ L (Segregate.getRank sz) := hLk ▸ hz
          have bz := hB _ hk z hz1
          have s1 := hxw _ hk z hz1
          have s2 := hSp _ hk y hym _ hk z hz1
          rw [NEXT_PUT_below (by omega) (by omega), NEXT_PUT_prev (by omega) (by omega),
            NEXT_PUT_next (by omega) (by omega)]
        · intro z hz
          have hz1 : z ∈ L (Segregate.getRank sz) := hLk ▸ List.mem_cons_of_mem _ hz
          have bz := hB _ hk z hz1
          have s1 := hxw _ hk z hz1
          have s2 := hSp _ hk y hym _ hk z hz1
          have hzy : y ≠ z := fun hc => (List.nodup_cons.1 hnd).1 (hc ▸ hz)
          rw [PREV_PUT_below (by omega), PREV_PUT_prev (by omega), PREV_PUT_next (by omega)]
    exact ⟨(fin _ hF hS1).1, (fin _ hF hS1).2, rfl, rfl⟩

/-- The segregated free index depends on the roots and the link words of its members
only. -/
theorem segregate_frame_spec (lo : Nat) (hlo : lo + 48 < 4294967296) (s s1 : State)
    (F : Set (Nat × Nat)) (hI : Segregate.Idx lo s F) (hS : SepF (lo + 48) F)
    (h1 : s1.heap_listp = s.heap_listp)
    (h3 : ∀ a, Own (lo + 8) (lo + 48) F a → s1.mem a = s.mem a) :
    Segregate.Idx lo s1 F := by
  obtain ⟨hh, L, hL⟩ := hI
  obtain ⟨hB, _⟩ := seg_members hS L (fun k hk x hx => ((hL k hk).2.2 x).1 hx)
  refine ⟨h1.trans hh, L, fun k hk => ?_⟩
  obtain ⟨a1, a2, a3⟩ := hL k hk
  refine ⟨a1, ?_, a3⟩
  rw [GET_RANK_eq s1 lo k (h1.trans hh) hk hlo]
  rw [GET_RANK_eq s lo k hh hk hlo] at a2
  have : GET s1.mem (lo + 8 + 4 * k) = GET s.mem (lo + 8 + 4 * k) :=
    GET_congr _ _ _ (fun b b1 b2 => h3 b (Or.inl (by omega)))
  rw [this]
  apply SList_congr s.mem s1.mem _ _ a2
  · intro z hz
    obtain ⟨sz, h, _⟩ := (a3 z).1 hz
    have := hB k hk z hz
    rw [NEXT_add (by omega), NEXT_add (by omega)]
    exact GET_congr _ _ _ (fun b b1 b2 => h3 b (Own_member h (by omega) (by omega)))
  · intro z hz
    obtain ⟨sz, h, _⟩ := (a3 z).1 hz
    exact GET_congr _ _ _ (fun b b1 b2 => h3 b (Own_member h (by omega) (by omega)))

/-- The segregated bucket lists meet the interface of the shared code. -/
theorem segregate_index_spec (lo : Nat) (hlo : lo + 48 < 4294967296) :
    IndexSpec Segregate.index (Segregate.Idx lo) (lo + 8) (lo + 48) where
  frame := fun s s1 F hI hS h1 _ h3 => segregate_frame_spec lo hlo s s1 F hI hS h1 h3
  esc := fun s F x sz hI hS hx hsz => segregate_esc_spec lo hlo s F x sz hI hS hx hsz
  ins := fun s F x sz hI hS hx hsz => segregate_ins_spec lo hlo s F x sz hI hS hx hsz
  snap := fun _ _ _ _ _ => rfl

/-! ## Reading the boundary tags of a block -/

theorem tag_hdr {m : Mem} {b : Blk} (h : Tag m b) (h8 : b.2.1 % 8 = 0) (ha : b.2.2 ≤ 1)
    (h4 : 4 ≤ b.1) (hlt : b.1 < 4294967296) :
    GET_SIZE m (HDRP b.1) = b.2.1 ∧ GET_ALLOC m (HDRP b.1) = b.2.2 := by
  rw [HDRP_sub h4 hlt]
  exact ⟨GET_SIZE_of_tag h.1 h8 ha, GET_ALLOC_of_tag h.1 h8 ha⟩

theorem tag_next {m : Mem} {b : Blk} (h : Tag m b) (h8 : b.2.1 % 8 = 0) (ha : b.2.2 ≤ 1)
    (h4 : 4 ≤ b.1) (hlt : b.1 + b.2.1 < 4294967296) : NEXT_BLKP m b.1 = b.1 + b.2.1 := by
  unfold NEXT_BLKP WSIZE
  rw [sub32_eq h4 (by omega), GET_SIZE_of_tag h.1 h8 ha]
  exact add32_eq hlt

theorem tag_ftr {m : Mem} {b : Blk} (h : Tag m b) (h8 : b.2.1 % 8 = 0) (ha : b.2.2 ≤ 1)
    (h4 : 4 ≤ b.1) (hs : 8 ≤ b.2.1) (hlt : b.1 + b.2.1 < 4294967296) :
    FTRP m b.1 = b.1 + b.2.1 - 8 := by
  unfold FTRP DSIZE
  rw [(tag_hdr h h8 ha h4 (by omega)).1, add32_eq hlt]
  exact sub32_eq (by omega) hlt

/-- From the block that follows `b`, `PREV_BLKP` leads back to `b`. -/
theorem tag_prev {m : Mem} {b : Blk} (h : Tag m b) (h8 : b.2.1 % 8 = 0) (ha : b.2.2 ≤ 1)
    (hs : 8 ≤ b.2.1) (hlt : b.1 + b.2.1 < 4294967296) :
    PREV_BLKP m (b.1 + b.2.1) = b.1 := by
  unfold PREV_BLKP DSIZE
  have e1 : sub32 (b.1 + b.2.1) 8 = b.1 + b.2.1 - 8 := sub32_eq (by omega) hlt
  have e2 : GET_SIZE m (b.1 + b.2.1 - 8) = b.2.1 := GET_SIZE_of_tag h.2 h8 ha
  rw [e1, e2, sub32_eq (by omega) hlt]
  omega

theorem Tag_congr {m m1 : Mem} {b : Blk} (h : Tag m b)
    (h1 : GET m1 (b.1 - 4) = GET m (b.1 - 4))
    (h2 : GET m1 (b.1 + b.2.1 - 8) = GET m (b.1 + b.2.1 - 8)) : Tag m1 b :=
  ⟨h1.trans h.1, h2.trans h.2⟩

/-! ## The free set of a heap map -/

/-- The free blocks of a heap map laid out after a prologue of `P` bytes are apart, above
the root area and inside the address space. -/
theorem SepF_of_Lay (lo P e : Nat) (bs : List Blk) (hP : 8 ≤ P)
    (hl : Lay (lo + 8) ((lo + 8, P, 1) :: bs) e) (he : e < 4294967296)
    (h16 : ∀ b, b ∈ bs → 16 ≤ b.2.1) : SepF (lo + P) (Frees bs) := by
  have hl2 : Lay (lo + 8 + P) bs e := hl.2.2.2.2
  intro f hf
  have hf1 : (f.1, f.2, 0) ∈ bs := hf
  have b1 := Lay_mem _ _ _ hl2 _ hf1
  have b2 := h16 _ hf1
  simp only at b1 b2
  refine ⟨by omega, ?_⟩
  intro g hg
  have hg1 : (g.1, g.2, 0) ∈ bs := hg
  have c2 := h16 _ hg1
  simp only at c2
  rcases Lay_disjoint _ _ _ hl2 _ hf1 _ hg1 with h | h
  · left
    obtain ⟨e1, e3⟩ := Prod.mk.inj h
    obtain ⟨e2, _⟩ := Prod.mk.inj e3
    exact Prod.ext e1 e2
  · right
    simp only at h
    omega

/-- The bytes owned by the free index are no header or footer byte of any block, and lie
before the epilogue header. -/
theorem Own_not_tag (lo P e : Nat) (bs : List Blk) (F : Set (Nat × Nat)) (hP : 8 ≤ P)
    (hl : Lay (lo + 8) ((lo + 8, P, 1) :: bs) e)
    (hF : ∀ f, f ∈ F → (f.1, f.2, 0) ∈ bs ∧ 16 ≤ f.2) (a : Nat)
    (ha : Own (lo + 8) (lo + P) F a) :
    a + 4 < e ∧ ∀ b, b ∈ (lo + 8, P, 1) :: bs →
      ¬ (b.1 - 4 ≤ a ∧ a < b.1) ∧ ¬ (b.1 + b.2.1 - 8 ≤ a ∧ a < b.1 + b.2.1 - 4) := by
  have hl2 : Lay (lo + 8 + P) bs e := hl.2.2.2.2
  have hle := Lay_le _ _ _ hl2
  rcases ha with ha | ⟨f, hf, ha⟩
  · refine ⟨by omega, ?_⟩
    intro b hb
    rcases List.mem_cons.1 hb with h | h
    · rw [h]
      simp only
      omega
    · have := Lay_mem _ _ _ hl2 b h
      omega
  · obtain ⟨hf1, hf2⟩ := hF f hf
    have bf := Lay_mem _ _ _ hl2 _ hf1
    simp only at bf
    refine ⟨by omega, ?_⟩
    intro b hb
    rcases List.mem_cons.1 hb with h | h
    · rw [h]
      simp only
      omega
    · have bb := Lay_mem _ _ _ hl2 b h
      rcases Lay_disjoint _ _ _ hl2 _ hf1 b h with h1 | h1
      · rw [← h1]
        simp only
        omega
      · simp only at h1
        omega

/-! ## Steps on a heap under operation -/

theorem Lay_unique (bs : List Blk) (p e e1 : Nat) (h : Lay p bs e) (h1 : Lay p bs e1) :
    e = e1 := by
  induction bs generalizing p with
  | nil =>
    have a : p = e := h
    have b : p = e1 := h1
    omega
  | cons b bs ih => exact ih _ h.2.2.2.2 h1.2.2.2.2

/-- The three parts of the heap map lie one after the other. -/
theorem Part_span {I : State → Set (Nat × Nat) → Prop} {P lo : Nat} {s : State}
    {L mid R : List Blk} (h : Part I P lo s L mid R) :
    ∃ q r, Lay (lo + 8) ((lo + 8, P, 1) :: L) q ∧ Lay q mid r ∧ Lay r R s.mem_brk ∧
      lo + 8 + P ≤ q ∧ q ≤ r ∧ r ≤ s.mem_brk ∧ 8 ≤ P ∧ P % 8 = 0 := by
  have h1 : Lay (lo + 8) (((lo + 8, P, 1) :: L) ++ (mid ++ R)) s.mem_brk := h.lay
  obtain ⟨q, a1, a2⟩ := (Lay_append _ _ _ _).1 h1
  obtain ⟨r, a3, a4⟩ := (Lay_append _ _ _ _).1 a2
  have c1 : Lay (lo + 8 + P) L q := a1.2.2.2.2
  exact ⟨q, r, a1, a3, a4, Lay_le _ _ _ c1, Lay_le _ _ _ a3, Lay_le _ _ _ a4, a1.2.1, a1.2.2.1⟩

theorem Part_SepF {I : State → Set (Nat × Nat) → Prop} {P lo : Nat} {s : State}
    {L mid R : List Blk} (h : Part I P lo s L mid R) :
    SepF (lo + P) (Frees (L ++ (mid ++ R))) :=
  SepF_of_Lay lo P _ _ h.lay.2.1 h.lay (by have := h.brk_le; have := h.max_lt; omega) h.min16

theorem SepF_mono {r1 : Nat} {F G : Set (Nat × Nat)} (h : SepF r1 G) (hFG : ∀ f, f ∈ F → f ∈ G) :
    SepF r1 F :=
  fun f hf => ⟨(h f (hFG f hf)).1, fun g hg => (h f (hFG f hf)).2 g (hFG g hg)⟩

/-- Writes of the free index keep the boundary tags and the epilogue header. -/
theorem Part_frame_tags {I : State → Set (Nat × Nat) → Prop} {P lo : Nat} {s : State}
    {L mid R : List Blk} (h : Part I P lo s L mid R) (F : Set (Nat × Nat))
    (hF : ∀ f, f ∈ F → f ∈ Frees (L ++ (mid ++ R))) (m1 : Mem)
    (hfr : Frame (Own (lo + 8) (lo + P) F) s.mem m1) :
    (∀ b, b ∈ (lo + 8, P, 1) :: (L ++ (mid ++ R)) → Tag m1 b) ∧
    GET m1 (s.mem_brk - 4) = 1 := by
  have own := Own_not_tag lo P _ _ F h.lay.2.1 h.lay
    (fun f hf => ⟨hF f hf, h.min16 _ (hF f hf)⟩)
  constructor
  · intro b hb
    apply Tag_congr (h.tags b hb)
    · apply Frame_GET hfr
      intro a h1 h2 hc
      have := ((own a hc).2 b hb).1
      have bb := Lay_mem _ _ _ h.lay b hb
      omega
    · apply Frame_GET hfr
      intro a h1 h2 hc
      have := ((own a hc).2 b hb).2
      have bb := Lay_mem _ _ _ h.lay b hb
      omega
  · rw [← h.epi]
    apply Frame_GET hfr
    intro a h1 h2 hc
    have := (own a hc).1
    omega

/-- The blocks before a block of a layout end at or before it, and the blocks after it
start at or after its end. -/
theorem Lay_split (A B : List Blk) (y : Blk) (p e : Nat) (h : Lay p (A ++ y :: B) e) :
    (∀ b, b ∈ A → p ≤ b.1 ∧ b.1 + b.2.1 ≤ y.1 ∧ 8 ≤ b.2.1) ∧
    (∀ b, b ∈ B → y.1 + y.2.1 ≤ b.1 ∧ b.1 + b.2.1 ≤ e ∧ 8 ≤ b.2.1) ∧
    p ≤ y.1 ∧ y.1 + y.2.1 ≤ e ∧ 8 ≤ y.2.1 ∧ Lay p A y.1 := by
  obtain ⟨q, h1, h2⟩ := (Lay_append _ _ _ _).1 h
  obtain ⟨e1, e2, _, _, e5⟩ := h2
  have hle := Lay_le _ _ _ h1
  have hle2 := Lay_le _ _ _ e5
  refine ⟨?_, ?_, by omega, by omega, e2, by rw [e1]; exact h1⟩
  · intro b hb
    have := Lay_mem _ _ _ h1 b hb
    omega
  · intro b hb
    have := Lay_mem _ _ _ e5 b hb
    omega

theorem NoAdj_cons {y : Blk} {R : List Blk} (hR : NoAdj R)
    (h : y.2.2 = 0 → ∀ n, n ∈ R.head? → n.2.2 ≠ 0) : NoAdj (y :: R) := by
  unfold NoAdj
  rw [List.chain'_cons']
  exact ⟨fun n hn hc => h hc.1 n hn hc.2, hR⟩

theorem NoAdj_tail {y : Blk} {R : List Blk} (h : NoAdj (y :: R)) : NoAdj R :=
  List.Chain'.tail h

theorem NoAdj_head {y : Blk} {R : List Blk} (h : NoAdj (y :: R)) (hy : y.2.2 = 0) :
    ∀ n, n ∈ R.head? → n.2.2 ≠ 0 := by
  unfold NoAdj at h
  rw [List.chain'_cons'] at h
  intro n hn hc
  exact h.1 n hn ⟨hy, hc⟩

theorem NoAdj_append {L R : List Blk} (hL : NoAdj L) (hR : NoAdj R)
    (h : ∀ w, w ∈ L.getLast? → ∀ n, n ∈ R.head? → ¬ (w.2.2 = 0 ∧ n.2.2 = 0)) :
    NoAdj (L ++ R) :=
  List.chain'_append.2 ⟨hL, hR, h⟩

theorem NoAdj_left {L R : List Blk} (h : NoAdj (L ++ R)) : NoAdj L :=
  (List.chain'_append.1 h).1

theorem NoAdj_last {L : List Blk} {w : Blk} (h : NoAdj (L ++ [w])) (hw : w.2.2 = 0) :
    ∀ v, v ∈ L.getLast? → v.2.2 ≠ 0 := by
  intro v hv hc
  exact (List.chain'_append.1 h).2.2 v hv w (by simp) ⟨hc, hw⟩

/-- The positions of the three parts of a heap under operation. -/
theorem Part_pos {I : State → Set (Nat × Nat) → Prop} {P lo : Nat} {s : State}
    {L mid R : List Blk} (h : Part I P lo s L mid R) :
    ∃ q r, Lay (lo + 8) ((lo + 8, P, 1) :: L) q ∧ Lay q mid r ∧ Lay r R s.mem_brk ∧
      lo + 8 + P ≤ q ∧ q ≤ r ∧ r ≤ s.mem_brk ∧ 8 ≤ P ∧ P % 8 = 0 ∧
      s.mem_brk < 4294967296 ∧
      (∀ b, b ∈ L → lo + 8 + P ≤ b.1 ∧ b.1 + b.2.1 ≤ q ∧ 16 ≤ b.2.1) ∧
      (∀ b, b ∈ mid → q ≤ b.1 ∧ b.1 + b.2.1 ≤ r ∧ 16 ≤ b.2.1) ∧
      (∀ b, b ∈ R → r ≤ b.1 ∧ b.1 + b.2.1 ≤ s.mem_brk ∧ 16 ≤ b.2.1) := by
  obtain ⟨q, r, a1, a2, a3, a4, a5, a6, a7, a8⟩ := Part_span h
  have c1 : Lay (lo + 8 + P) L q := a1.2.2.2.2
  have b1 := h.brk_le
  have b2 := h.max_lt
  refine ⟨q, r, a1, a2, a3, a4, a5, a6, a7, a8, by omega, ?_, ?_, ?_⟩
  · intro b hb
    have := Lay_mem _ _ _ c1 b hb
    have := h.min16 b (List.mem_append_left _ hb)
    omega
  · intro b hb
    have := Lay_mem _ _ _ a2 b hb
    have := h.min16 b (List.mem_append_right _ (List.mem_append_left _ hb))
    omega
  · intro b hb
    have := Lay_mem _ _ _ a3 b hb
    have := h.min16 b (List.mem_append_right _ (List.mem_append_right _ hb))
    omega

/-- Inserting the one free block under operation, whose neighbours are allocated, gives a
well-formed heap. -/
theorem Part_ins {X : Generic.Index} {I : State → Set (Nat × Nat) → Prop} {P lo : Nat}
    (hX : IndexSpec X I (lo + 8) (lo + P)) {s : State} {L R : List Blk} {y : Blk}
    (h : Part I P lo s L [y] R) (hy : y.2.2 = 0)
    (hl : ∀ w, w ∈ L.getLast? → w.2.2 ≠ 0) (hr : ∀ n, n ∈ R.head? → n.2.2 ≠ 0) :
    Inv I P lo (X.ins s y.1) (L ++ y :: R) ∧ (X.ins s y.1).mem_brk = s.mem_brk ∧
      (X.ins s y.1).mem_max_addr = s.mem_max_addr := by
  obtain ⟨q, r, a1, a2, a3, a4, a5, a6, a7, a8, a9, pL, pM, pR⟩ := Part_pos h
  have hyq : y.1 = q := a2.1
  have hyr : q + y.2.1 = r := a2.2.2.2.2
  have hy8 : y.2.1 % 8 = 0 := a2.2.2.1
  have hyt := h.tags y (List.mem_cons_of_mem _ (List.mem_append_right _ (List.mem_cons_self _ _)))
  have hsz : GET_SIZE s.mem (HDRP y.1) = y.2.1 :=
    (tag_hdr hyt hy8 (by omega) (by omega) (by omega)).1
  have hyeq : y = (y.1, y.2.1, 0) := by rw [← hy]
  have hset : insert (y.1, y.2.1) (Frees (L ++ R)) = Frees (L ++ y :: R) := by
    ext f
    rw [Set.mem_insert_iff, Frees_append, Frees_append, Frees_cons]
    constructor
    · rintro (h1 | h1 | h1)
      · right; left; rw [h1]; exact hyeq.symm
      · left; exact h1
      · right; right; exact h1
    · rintro (h1 | h1 | h1)
      · right; left; exact h1
      · left
        rw [hyeq] at h1
        obtain ⟨e1, e3⟩ := Prod.mk.inj h1
        obtain ⟨e2, _⟩ := Prod.mk.inj e3
        exact Prod.ext e1 e2
      · right; right; exact h1
  have hsep : SepF (lo + P) (Frees (L ++ y :: R)) := Part_SepF h
  have hnot : ∀ sz1, (y.1, sz1) ∉ Frees (L ++ R) := by
    intro sz1 hc
    rcases (Frees_append _ _ _).1 hc with h1 | h1
    · have := pL _ h1
      simp only at this
      omega
    · have := pR _ h1
      have := pM y (List.mem_cons_self _ _)
      simp only at *
      omega
  obtain ⟨i1, i2, i3, i4⟩ := hX.ins s (Frees (L ++ R)) y.1 y.2.1 h.idx (by rw [hset]; exact hsep)
    hnot hsz
  rw [hset] at i1 i2
  have ft := Part_frame_tags h (Frees (L ++ y :: R)) (fun f hf => hf) _ i2
  refine ⟨⟨?_, ft.1, ?_, h.min16, ?_, i1, ?_, ?_⟩, i3, i4⟩
  · rw [i3]; exact h.lay
  · rw [i3]; exact ft.2
  · apply NoAdj_append h.noadjL (NoAdj_cons h.noadjR (fun _ => hr))
    intro w hw n hn hc
    exact hl w hw hc.1
  · rw [i3, i4]; exact h.brk_le
  · rw [i4]; exact h.max_lt

/-- Removing the free block that follows the blocks under operation from the free index
moves it among them. -/
theorem Part_esc_right {X : Generic.Index} {I : State → Set (Nat × Nat) → Prop} {P lo : Nat}
    (hX : IndexSpec X I (lo + 8) (lo + P)) {s : State} {L mid R : List Blk} {n : Blk}
    (h : Part I P lo s L mid (n :: R)) (hn : n.2.2 = 0) :
    Part I P lo (X.esc s n.1) L (mid ++ [n]) R ∧ (X.esc s n.1).mem_brk = s.mem_brk ∧
      (X.esc s n.1).mem_max_addr = s.mem_max_addr := by
  obtain ⟨q, r, a1, a2, a3, a4, a5, a6, a7, a8, a9, pL, pM, pR⟩ := Part_pos h
  have hnr : n.1 = r := a3.1
  have hn8 : n.2.1 % 8 = 0 := a3.2.2.1
  have hn1 := pR n (List.mem_cons_self _ _)
  have hR1 : ∀ b, b ∈ R → n.1 + n.2.1 ≤ b.1 := fun b hb =>
    (Lay_mem _ _ _ a3.2.2.2.2 b hb).1 |> fun h1 => by rw [hnr]; exact h1
  have hnt := h.tags n (List.mem_cons_of_mem _ (List.mem_append_right _
    (List.mem_append_right _ (List.mem_cons_self _ _))))
  have hsz : GET_SIZE s.mem (HDRP n.1) = n.2.1 :=
    (tag_hdr hnt hn8 (by omega) (by omega) (by omega)).1
  have hneq : n = (n.1, n.2.1, 0) := by rw [← hn]
  have hmem : (n.1, n.2.1) ∈ Frees (L ++ n :: R) := by
    rw [Frees_append, Frees_cons]
    right; left; exact hneq.symm
  have hsub : ∀ f, f ∈ Frees (L ++ n :: R) → f ∈ Frees (L ++ (mid ++ n :: R)) := by
    intro f hf
    rw [Frees_append] at hf ⊢
    rcases hf with h1 | h1
    · left; exact h1
    · right; exact (Frees_append _ _ _).2 (Or.inr h1)
  have hsep : SepF (lo + P) (Frees (L ++ n :: R)) := SepF_mono (Part_SepF h) hsub
  have hset : Frees (L ++ n :: R) \ {(n.1, n.2.1)} = Frees (L ++ R) := by
    ext f
    rw [Set.mem_diff, Set.mem_singleton_iff, Frees_append, Frees_append, Frees_cons]
    constructor
    · rintro ⟨h1 | h1 | h1, h2⟩
      · left; exact h1
      · exfalso
        apply h2
        rw [hneq] at h1
        obtain ⟨e1, e3⟩ := Prod.mk.inj h1
        obtain ⟨e2, _⟩ := Prod.mk.inj e3
        exact Prod.ext e1 e2
      · right; exact h1
    · rintro (h1 | h1)
      · refine ⟨Or.inl h1, ?_⟩
        intro hc
        have := pL _ h1
        rw [hc] at this
        simp only at this
        omega
      · refine ⟨Or.inr (Or.inr h1), ?_⟩
        intro hc
        have := hR1 _ h1
        rw [hc] at this
        simp only at this
        omega
  obtain ⟨i1, i2, i3, i4⟩ := hX.esc s (Frees (L ++ n :: R)) n.1 n.2.1 h.idx hsep hmem hsz
  rw [hset] at i1
  have ft := Part_frame_tags h (Frees (L ++ n :: R)) hsub _ i2
  have hl : L ++ (mid ++ [n] ++ R) = L ++ (mid ++ n :: R) := by simp
  refine ⟨⟨?_, ?_, ?_, ?_, h.noadjL, NoAdj_tail h.noadjR, i1, ?_, ?_⟩, i3, i4⟩
  · rw [i3, hl]; exact h.lay
  · rw [hl]; exact ft.1
  · rw [i3]; exact ft.2
  · rw [hl]; exact h.min16
  · rw [i3, i4]; exact h.brk_le
  · rw [i4]; exact h.max_lt

/-- Removing the free block that precedes the blocks under operation from the free index
moves it among them. -/
theorem Part_esc_left {X : Generic.Index} {I : State → Set (Nat × Nat) → Prop} {P lo : Nat}
    (hX : IndexSpec X I (lo + 8) (lo + P)) {s : State} {L mid R : List Blk} {w : Blk}
    (h : Part I P lo s (L ++ [w]) mid R) (hw : w.2.2 = 0) :
    Part I P lo (X.esc s w.1) L (w :: mid) R ∧ (X.esc s w.1).mem_brk = s.mem_brk ∧
      (X.esc s w.1).mem_max_addr = s.mem_max_addr := by
  obtain ⟨q, r, a1, a2, a3, a4, a5, a6, a7, a8, a9, pL, pM, pR⟩ := Part_pos h
  have a1b : Lay (lo + 8) (((lo + 8, P, 1) :: L) ++ w :: []) q := a1
  obtain ⟨s1, _, s3, s4, s5, s6⟩ := Lay_split _ _ _ _ _ a1b
  have hw8 : w.2.1 % 8 = 0 := (Lay_mem _ _ _ a1 w (by simp)).2.2.2.1
  have hw1 := pL w (by simp)
  have hwt := h.tags w (by simp)
  have hsz : GET_SIZE s.mem (HDRP w.1) = w.2.1 :=
    (tag_hdr hwt hw8 (by omega) (by omega) (by omega)).1
  have hweq : w = (w.1, w.2.1, 0) := by rw [← hw]
  have hmem : (w.1, w.2.1) ∈ Frees (L ++ [w] ++ R) := by
    rw [Frees_append, Frees_append, Frees_cons]
    left; right; left; exact hweq.symm
  have hsub : ∀ f, f ∈ Frees (L ++ [w] ++ R) → f ∈ Frees (L ++ [w] ++ (mid ++ R)) := by
    intro f hf
    rw [Frees_append] at hf ⊢
    rcases hf with h1 | h1
    · left; exact h1
    · right; exact (Frees_append _ _ _).2 (Or.inr h1)
  have hsep : SepF (lo + P) (Frees (L ++ [w] ++ R)) := SepF_mono (Part_SepF h) hsub
  have hset : Frees (L ++ [w] ++ R) \ {(w.1, w.2.1)} = Frees (L ++ R) := by
    ext f
    rw [Set.mem_diff, Set.mem_singleton_iff, Frees_append, Frees_append, Frees_append,
      Frees_cons]
    constructor
    · rintro ⟨(h1 | h1 | h1) | h1, h2⟩
      · left; exact h1
      · exfalso
        apply h2
        rw [hweq] at h1
        obtain ⟨e1, e3⟩ := Prod.mk.inj h1
        obtain ⟨e2, _⟩ := Prod.mk.inj e3
        exact Prod.ext e1 e2
      · cases h1
      · right; exact h1
    · rintro (h1 | h1)
      · refine ⟨Or.inl (Or.inl h1), ?_⟩
        intro hc
        have := s1 _ (List.mem_cons_of_mem _ h1)
        rw [hc] at this
        simp only at this
        omega
      · refine ⟨Or.inr h1, ?_⟩
        intro hc
        have := pR _ h1
        rw [hc] at this
        simp only at this
        omega
  obtain ⟨i1, i2, i3, i4⟩ := hX.esc s (Frees (L ++ [w] ++ R)) w.1 w.2.1 h.idx hsep hmem hsz
  rw [hset] at i1
  have ft := Part_frame_tags h (Frees (L ++ [w] ++ R)) hsub _ i2
  have hl : L ++ (w :: mid ++ R) = L ++ [w] ++ (mid ++ R) := by simp
  refine ⟨⟨?_, ?_, ?_, ?_, NoAdj_left h.noadjL, h.noadjR, i1, ?_, ?_⟩, i3, i4⟩
  · rw [i3, hl]; exact h.lay
  · rw [hl]; exact ft.1
  · rw [i3]; exact ft.2
  · rw [hl]; exact h.min16
  · rw [i3, i4]; exact h.brk_le
  · rw [i4]; exact h.max_lt

/-- Rewriting the boundary tags of the blocks under operation, so that they become the
blocks `mid1` over the same bytes, keeps the rest of the heap. -/
theorem Part_retag {X : Generic.Index} {I : State → Set (Nat × Nat) → Prop} {P lo : Nat}
    (hX : IndexSpec X I (lo + 8) (lo + P)) {s : State} {L mid R : List Blk}
    (h : Part I P lo s L mid R) (mid1 : List Blk) (m1 : Mem) (q r : Nat)
    (hq : Lay (lo + 8) ((lo + 8, P, 1) :: L) q) (h0 : Lay q mid r) (hm : Lay q mid1 r)
    (hfr : Frame (fun a => q - 4 ≤ a ∧ a < r - 4) s.mem m1)
    (ht : ∀ b, b ∈ mid1 → Tag m1 b ∧ 16 ≤ b.2.1) :
    Part I P lo { s with mem := m1 } L mid1 R := by
  obtain ⟨q1, r1, a1, a2, a3, a4, a5, a6, a7, a8, a9, pL, pM, pR⟩ := Part_pos h
  have e1 : q1 = q := Lay_unique _ _ _ _ a1 hq
  subst e1
  have e2 : r1 = r := Lay_unique _ _ _ _ a2 h0
  subst e2
  have own : ∀ a, Own (lo + 8) (lo + P) (Frees (L ++ R)) a → ¬ (q1 - 4 ≤ a ∧ a < r1 - 4) := by
    intro a ha
    rcases ha with ha | ⟨f, hf, ha⟩
    · omega
    · rcases (Frees_append _ _ _).1 hf with h1 | h1
      · have := pL _ h1
        simp only at this
        omega
      · have := pR _ h1
        simp only at this
        omega
  have hsub : ∀ f, f ∈ Frees (L ++ R) → f ∈ Frees (L ++ (mid ++ R)) := by
    intro f hf
    rw [Frees_append] at hf ⊢
    rcases hf with h1 | h1
    · left; exact h1
    · right; exact (Frees_append _ _ _).2 (Or.inr h1)
  refine ⟨?_, ?_, ?_, ?_, h.noadjL, h.noadjR, ?_, h.brk_le, h.max_lt⟩
  · have : Lay (lo + 8) (((lo + 8, P, 1) :: L) ++ (mid1 ++ R)) s.mem_brk :=
      (Lay_append _ _ _ _).2 ⟨q1, a1, (Lay_append _ _ _ _).2 ⟨r1, hm, a3⟩⟩
    exact this
  · intro b hb
    rcases List.mem_cons.1 hb with h1 | h1
    · apply Tag_congr (h.tags b (by rw [h1]; exact List.mem_cons_self _ _))
      · apply Frame_GET hfr
        intro a c1 c2
        rw [h1] at c1 c2
        simp only at c1 c2
        omega
      · apply Frame_GET hfr
        intro a c1 c2
        rw [h1] at c1 c2
        simp only at c1 c2
        omega
    · rcases List.mem_append.1 h1 with h2 | h2
      · have := pL b h2
        apply Tag_congr (h.tags b (List.mem_cons_of_mem _ (List.mem_append_left _ h2)))
        · apply Frame_GET hfr
          intro a c1 c2
          omega
        · apply Frame_GET hfr
          intro a c1 c2
          omega
      · rcases List.mem_append.1 h2 with h3 | h3
        · exact (ht b h3).1
        · have := pR b h3
          apply Tag_congr (h.tags b (List.mem_cons_of_mem _
            (List.mem_append_right _ (List.mem_append_right _ h3))))
          · apply Frame_GET hfr
            intro a c1 c2
            omega
          · apply Frame_GET hfr
            intro a c1 c2
            omega
  · show GET m1 (s.mem_brk - 4) = 1
    rw [← h.epi]
    apply Frame_GET hfr
    intro a c1 c2
    omega
  · intro b hb
    rcases List.mem_append.1 hb with h2 | h2
    · exact h.min16 b (List.mem_append_left _ h2)
    · rcases List.mem_append.1 h2 with h3 | h3
      · exact (ht b h3).2
      · exact h.min16 b (List.mem_append_right _ (List.mem_append_right _ h3))
  · exact hX.frame s _ _ h.idx (SepF_mono (Part_SepF h) hsub) rfl rfl
      (fun a ha => hfr a (own a ha))

/-! ## The cases of `coalesce` -/

theorem coalesce_eq_AA (X : Generic.Index) (s : State) (bp : Nat)
    (h1 : GET_ALLOC s.mem (FTRP s.mem (PREV_BLKP s.mem bp)) ≠ 0)
    (h2 : GET_ALLOC s.mem (HDRP (NEXT_BLKP s.mem bp)) ≠ 0) :
    Generic.coalesce X s bp = (X.ins s bp, bp) := by
  unfold Generic.coalesce
  exact if_pos ⟨h1, h2⟩

theorem coalesce_eq_AF (X : Generic.Index) (s : State) (bp : Nat)
    (h1 : GET_ALLOC s.mem (FTRP s.mem (PREV_BLKP s.mem bp)) ≠ 0)
    (h2 : GET_ALLOC s.mem (HDRP (NEXT_BLKP s.mem bp)) = 0) :
    Generic.coalesce X s bp =
      (let s1 := X.esc s (NEXT_BLKP s.mem bp)
       let size := add32 (GET_SIZE s.mem (HDRP bp)) (GET_SIZE s1.mem (HDRP (NEXT_BLKP s1.mem bp)))
       let m1 := PUT s1.mem (HDRP bp) (PACK size 0)
       let m2 := PUT m1 (FTRP m1 bp) (PACK size 0)
       (X.ins (X.snap { s1 with mem := m2 } bp) bp, bp)) := by
  unfold Generic.coalesce
  dsimp only
  rw [if_neg (fun h => h.2 h2), if_pos ⟨h1, fun h => h h2⟩]

theorem coalesce_eq_FA (X : Generic.Index) (s : State) (bp : Nat)
    (h1 : GET_ALLOC s.mem (FTRP s.mem (PREV_BLKP s.mem bp)) = 0)
    (h2 : GET_ALLOC s.mem (HDRP (NEXT_BLKP s.mem bp)) ≠ 0) :
    Generic.coalesce X s bp =
      (let s1 := X.esc s (PREV_BLKP s.mem bp)
       let size := add32 (GET_SIZE s.mem (HDRP bp)) (GET_SIZE s1.mem (HDRP (PREV_BLKP s1.mem bp)))
       let m1 := PUT s1.mem (FTRP s1.mem bp) (PACK size 0)
       let m2 := PUT m1 (HDRP (PREV_BLKP m1 bp)) (PACK size 0)
       (X.ins (X.snap { s1 with mem := m2 } (PREV_BLKP m2 bp)) (PREV_BLKP m2 bp),
         PREV_BLKP m2 bp)) := by
  unfold Generic.coalesce
  dsimp only
  rw [if_neg (fun h => h.1 h1), if_neg (fun h => h.1 h1), if_pos ⟨fun h => h h1, h2⟩]

theorem coalesce_eq_FF (X : Generic.Index) (s : State) (bp : Nat)
    (h1 : GET_ALLOC s.mem (FTRP s.mem (PREV_BLKP s.mem bp)) = 0)
    (h2 : GET_ALLOC s.mem (HDRP (NEXT_BLKP s.mem bp)) = 0) :
    Generic.coalesce X s bp =
      (let s1 := X.esc s (NEXT_BLKP s.mem bp)
       let s2 := X.esc s1 (PREV_BLKP s1.mem bp)
       let size := add32 (GET_SIZE s.mem (HDRP bp))
         (add32 (GET_SIZE s2.mem (HDRP (PREV_BLKP s2.mem bp)))
           (GET_SIZE s2.mem (FTRP s2.mem (NEXT_BLKP s2.mem bp))))
       let m1 := PUT s2.mem (HDRP (PREV_BLKP s2.mem bp)) (PACK size 0)
       let m2 := PUT m1 (FTRP m1 (NEXT_BLKP m1 bp)) (PACK size 0)
       (X.ins (X.snap { s2 with mem := m2 } (PREV_BLKP m2 bp)) (PREV_BLKP m2 bp),
         PREV_BLKP m2 bp)) := by
  unfold Generic.coalesce
  dsimp only
  rw [if_neg (fun h => h.1 h1), if_neg (fun h => h.1 h1), if_neg (fun h => h.2 h2)]

/-- Case 2 of `coalesce` with the computed addresses and the computed size named. -/
theorem coalesce_eq_AF_at (X : Generic.Index) (s : State) (bp : Nat)
    (h1 : GET_ALLOC s.mem (FTRP s.mem (PREV_BLKP s.mem bp)) ≠ 0)
    (h2 : GET_ALLOC s.mem (HDRP (NEXT_BLKP s.mem bp)) = 0) {n1 v a b : Nat}
    (hn : NEXT_BLKP s.mem bp = n1)
    (hv : PACK (add32 (GET_SIZE s.mem (HDRP bp))
      (GET_SIZE (X.esc s n1).mem (HDRP (NEXT_BLKP (X.esc s n1).mem bp)))) 0 = v)
    (ha : HDRP bp = a) (hb : FTRP (PUT (X.esc s n1).mem a v) bp = b) :
    Generic.coalesce X s bp =
      (X.ins (X.snap { X.esc s n1 with mem := PUT (PUT (X.esc s n1).mem a v) b v } bp) bp,
        bp) := by
  subst hb ha hv hn
  exact coalesce_eq_AF X s bp h1 h2

/-- Case 3 of `coalesce` with the computed addresses and the computed size named. -/
theorem coalesce_eq_FA_at (X : Generic.Index) (s : State) (bp : Nat)
    (h1 : GET_ALLOC s.mem (FTRP s.mem (PREV_BLKP s.mem bp)) = 0)
    (h2 : GET_ALLOC s.mem (HDRP (NEXT_BLKP s.mem bp)) ≠ 0) {w1 v a b q : Nat}
    (hw : PREV_BLKP s.mem bp = w1)
    (hv : PACK (add32 (GET_SIZE s.mem (HDRP bp))
      (GET_SIZE (X.esc s w1).mem (HDRP (PREV_BLKP (X.esc s w1).mem bp)))) 0 = v)
    (ha : FTRP (X.esc s w1).mem bp = a)
    (hb : HDRP (PREV_BLKP (PUT (X.esc s w1).mem a v) bp) = b)
    (hq : PREV_BLKP (PUT (PUT (X.esc s w1).mem a v) b v) bp = q) :
    Generic.coalesce X s bp =
      (X.ins (X.snap { X.esc s w1 with mem := PUT (PUT (X.esc s w1).mem a v) b v } q) q,
        q) := by
  subst hq hb ha hv hw
  exact coalesce_eq_FA X s bp h1 h2

/-- Case 4 of `coalesce` with the computed addresses and the computed size named. -/
theorem coalesce_eq_FF_at (X : Generic.Index) (s : State) (bp : Nat)
    (h1 : GET_ALLOC s.mem (FTRP s.mem (PREV_BLKP s.mem bp)) = 0)
    (h2 : GET_ALLOC s.mem (HDRP (NEXT_BLKP s.mem bp)) = 0) {n1 w1 v a b q : Nat}
    (hn : NEXT_BLKP s.mem bp = n1) (hw : PREV_BLKP (X.esc s n1).mem bp = w1)
    (hv : PACK (add32 (GET_SIZE s.mem (HDRP bp))
      (add32 (GET_SIZE (X.esc (X.esc s n1) w1).mem
          (HDRP (PREV_BLKP (X.esc (X.esc s n1) w1).mem bp)))
        (GET_SIZE (X.esc (X.esc s n1) w1).mem (FTRP (X.esc (X.esc s n1) w1).mem
          (NEXT_BLKP (X.esc (X.esc s n1) w1).mem bp))))) 0 = v)
    (ha : HDRP (PREV_BLKP (X.esc (X.esc s n1) w1).mem bp) = a)
    (hb : FTRP (PUT (X.esc (X.esc s n1) w1).mem a v)
      (NEXT_BLKP (PUT (X.esc (X.esc s n1) w1).mem a v) bp) = b)
    (hq : PREV_BLKP (PUT (PUT (X.esc (X.esc s n1) w1).mem a v) b v) bp = q) :
    Generic.coalesce X s bp =
      (X.ins (X.snap { X.esc (X.esc s n1) w1 with
        mem := PUT (PUT (X.esc (X.esc s n1) w1).mem a v) b v } q) q, q) := by
  subst hq hb ha hv hw hn
  exact coalesce_eq_FF X s bp h1 h2

/-! ## Reading block geometry from raw boundary words -/

theorem size_of_word {m : Mem} {p sz al : Nat} (h : GET m p = sz + al) (h8 : sz % 8 = 0)
    (ha : al ≤ 1) : GET_SIZE m p = sz ∧ GET_ALLOC m p = al :=
  ⟨GET_SIZE_of_tag h h8 ha, GET_ALLOC_of_tag h h8 ha⟩

theorem next_of_hdr {m : Mem} {b sz al : Nat} (h : GET m (b - 4) = sz + al) (h8 : sz % 8 = 0)
    (ha : al ≤ 1) (h4 : 4 ≤ b) (hlt : b + sz < 4294967296) : NEXT_BLKP m b = b + sz := by
  unfold NEXT_BLKP WSIZE
  rw [sub32_eq h4 (by omega), GET_SIZE_of_tag h h8 ha]
  exact add32_eq hlt

theorem ftr_of_hdr {m : Mem} {b sz al : Nat} (h : GET m (b - 4) = sz + al) (h8 : sz % 8 = 0)
    (ha : al ≤ 1) (h4 : 4 ≤ b) (hs : 8 ≤ sz) (hlt : b + sz < 4294967296) :
    FTRP m b = b + sz - 8 := by
  unfold FTRP DSIZE
  rw [HDRP_sub h4 (by omega), GET_SIZE_of_tag h h8 ha, add32_eq hlt]
  exact sub32_eq (by omega) hlt

theorem prev_of_ftr {m : Mem} {b sz al : Nat} (h : GET m (b - 8) = sz + al) (h8 : sz % 8 = 0)
    (ha : al ≤ 1) (hs : 8 ≤ sz) (hle : sz ≤ b) (hlt : b < 4294967296) :
    PREV_BLKP m b = b - sz := by
  unfold PREV_BLKP DSIZE
  have e1 : sub32 b 8 = b - 8 := sub32_eq (by omega) hlt
  have e2 : GET_SIZE m (b - 8) = sz := GET_SIZE_of_tag h h8 ha
  rw [e1, e2]
  exact sub32_eq hle hlt

theorem two_puts (m : Mem) (a b v : Nat) (hv : v < 4294967296) (hab : a + 4 ≤ b ∨ b + 4 ≤ a) :
    GET (PUT (PUT m a v) b v) a = v ∧ GET (PUT (PUT m a v) b v) b = v ∧
    ∀ c, ¬ (a ≤ c ∧ c < a + 4) → ¬ (b ≤ c ∧ c < b + 4) → PUT (PUT m a v) b v c = m c := by
  refine ⟨?_, GET_PUT_same _ _ _ hv, ?_⟩
  · rw [GET_PUT_other _ b a v (by omega)]
    exact GET_PUT_same _ _ _ hv
  · intro c h1 h2
    rw [PUT_other _ _ _ _ (by omega), PUT_other _ _ _ _ (by omega)]

theorem Lay_mod (bs : List Blk) (p e : Nat) (h : Lay p bs e) : (e - p) % 8 = 0 ∧ p ≤ e := by
  induction bs generalizing p with
  | nil =>
    have : p = e := h
    omega
  | cons b bs ih =>
    obtain ⟨_, _, h3, _, h5⟩ := h
    have := ih _ h5
    omega

/-- The last block of a non-empty layout ends where the layout ends. -/
theorem Lay_last (bs : List Blk) (c : Blk) (p e : Nat) (h : Lay p (c :: bs) e) :
    bs.getLast?.getD c ∈ c :: bs ∧
      (bs.getLast?.getD c).1 + (bs.getLast?.getD c).2.1 = e := by
  induction bs generalizing c p with
  | nil =>
    obtain ⟨h1, _, _, _, h5⟩ := h
    have h6 : p + c.2.1 = e := h5
    refine ⟨List.mem_cons_self _ _, ?_⟩
    show c.1 + c.2.1 = e
    omega
  | cons d bs ih =>
    have e1 : (d :: bs).getLast?.getD c = bs.getLast?.getD d := by
      rw [List.getLast?_cons]
      rfl
    rw [e1]
    have := ih d _ h.2.2.2.2
    exact ⟨List.mem_cons_of_mem _ this.1, this.2⟩

/-- Every block of a heap under operation has matching tags and lies in the heap. -/
theorem Part_blk {I : State → Set (Nat × Nat) → Prop} {P lo : Nat} {s : State}
    {L mid R : List Blk} (h : Part I P lo s L mid R) (b : Blk)
    (hb : b ∈ (lo + 8, P, 1) :: (L ++ (mid ++ R))) :
    Tag s.mem b ∧ b.2.1 % 8 = 0 ∧ b.2.2 ≤ 1 ∧ lo + 8 ≤ b.1 ∧ 8 ≤ b.2.1 ∧
      b.1 + b.2.1 ≤ s.mem_brk ∧ s.mem_brk < 4294967296 := by
  have := Lay_mem _ _ _ h.lay b hb
  have b1 := h.brk_le
  have b2 := h.max_lt
  exact ⟨h.tags b hb, by omega, by omega, by omega, by omega, by omega, by omega⟩

/-- The block before the first block under operation, read by `coalesce` through its
footer. -/
theorem Part_prev {I : State → Set (Nat × Nat) → Prop} {P lo : Nat} {s : State}
    {L mid R : List Blk} {x : Blk} (h : Part I P lo s L (x :: mid) R) :
    PREV_BLKP s.mem x.1 = (L.getLast?.getD (lo + 8, P, 1)).1 ∧
    GET_ALLOC s.mem (FTRP s.mem (PREV_BLKP s.mem x.1)) = (L.getLast?.getD (lo + 8, P, 1)).2.2 ∧
    (L.getLast?.getD (lo + 8, P, 1)).1 + (L.getLast?.getD (lo + 8, P, 1)).2.1 = x.1 := by
  obtain ⟨q, r, a1, a2, a3, a4, a5, a6, a7, a8, a9, pL, pM, pR⟩ := Part_pos h
  obtain ⟨w1, w2⟩ := Lay_last _ _ _ _ a1
  generalize L.getLast?.getD (lo + 8, P, 1) = w at w1 w2
  have hxq : x.1 = q := a2.1
  have hw : w ∈ (lo + 8, P, 1) :: (L ++ (x :: mid ++ R)) := by
    rcases List.mem_cons.1 w1 with h1 | h1
    · rw [h1]; exact List.mem_cons_self _ _
    · exact List.mem_cons_of_mem _ (List.mem_append_left _ h1)
  obtain ⟨t, t8, ta, t4, ts, tb, _⟩ := Part_blk h w hw
  have e1 : PREV_BLKP s.mem x.1 = w.1 := by
    rw [← w2] at hxq
    rw [hxq]
    exact tag_prev t t8 ta ts (by omega)
  rw [e1, tag_ftr t t8 ta (by omega) ts (by omega)]
  exact ⟨rfl, GET_ALLOC_of_tag t.2 t8 ta, by omega⟩

/-- The block after the last block under operation, or the epilogue header, read by
`coalesce` through the header. -/
theorem Part_next {I : State → Set (Nat × Nat) → Prop} {P lo : Nat} {s : State}
    {L mid R : List Blk} {x : Blk} (h : Part I P lo s L (mid ++ [x]) R) :
    NEXT_BLKP s.mem x.1 = x.1 + x.2.1 ∧
    (R = [] → GET_ALLOC s.mem (HDRP (NEXT_BLKP s.mem x.1)) = 1) ∧
    (∀ n R1, R = n :: R1 → n.1 = x.1 + x.2.1 ∧
      GET_ALLOC s.mem (HDRP (NEXT_BLKP s.mem x.1)) = n.2.2) := by
  obtain ⟨q, r, a1, a2, a3, a4, a5, a6, a7, a8, a9, pL, pM, pR⟩ := Part_pos h
  obtain ⟨q1, c1, c2⟩ := (Lay_append _ _ _ _).1 a2
  have hx1 : x.1 = q1 := c2.1
  have hx2 : q1 + x.2.1 = r := c2.2.2.2.2
  obtain ⟨t, t8, ta, t4, ts, tb, _⟩ := Part_blk h x
    (List.mem_cons_of_mem _ (List.mem_append_right _ (List.mem_append_left _
      (List.mem_append_right _ (List.mem_cons_self _ _)))))
  have e1 : NEXT_BLKP s.mem x.1 = x.1 + x.2.1 := tag_next t t8 ta (by omega) (by omega)
  rw [e1]
  refine ⟨rfl, ?_, ?_⟩
  · intro hR
    rw [hR] at a3
    have : r = s.mem_brk := a3
    rw [HDRP_sub (by omega) (by omega), show x.1 + x.2.1 - 4 = s.mem_brk - 4 by omega]
    have hE : GET s.mem (s.mem_brk - 4) = 0 + 1 := h.epi
    exact GET_ALLOC_of_tag hE (by decide) (by decide)
  · intro n R1 hR
    rw [hR] at a3
    have hn : n.1 = r := a3.1
    obtain ⟨u, u8, ua, u4, us, ub, _⟩ := Part_blk h n
      (List.mem_cons_of_mem _ (List.mem_append_right _ (List.mem_append_right _
        (by rw [hR]; exact List.mem_cons_self _ _))))
    refine ⟨by omega, ?_⟩
    rw [show x.1 + x.2.1 = n.1 by omega]
    exact (tag_hdr u u8 ua (by omega) (by omega)).2

/-- Writing the size of the whole span under operation into its first header word and its
last footer word turns the span into one free block. -/
theorem Part_merge {X : Generic.Index} {I : State → Set (Nat × Nat) → Prop} {P lo : Nat}
    (hX : IndexSpec X I (lo + 8) (lo + P)) {s : State} {L mid R : List Blk}
    (h : Part I P lo s L mid R) (q r : Nat)
    (hq : Lay (lo + 8) ((lo + 8, P, 1) :: L) q) (h0 : Lay q mid r) (hne : mid ≠ [])
    (a b : Nat) (hab : (a = q - 4 ∧ b = r - 8) ∨ (a = r - 8 ∧ b = q - 4)) :
    Part I P lo { s with mem := PUT (PUT s.mem a (PACK (r - q) 0)) b (PACK (r - q) 0) }
      L [(q, r - q, 0)] R := by
  obtain ⟨q1, r1, a1, a2, a3, a4, a5, a6, a7, a8, a9, pL, pM, pR⟩ := Part_pos h
  have e1 : q1 = q := Lay_unique _ _ _ _ a1 hq
  subst e1
  have e2 : r1 = r := Lay_unique _ _ _ _ a2 h0
  subst e2
  have hmod := Lay_mod _ _ _ a2
  obtain ⟨c, mid1, hc⟩ := List.exists_cons_of_ne_nil hne
  have hc1 := pM c (by rw [hc]; exact List.mem_cons_self _ _)
  have hp : PACK (r1 - q1) 0 = r1 - q1 := PACK_eq _ _ hmod.1 (by decide)
  rw [hp]
  obtain ⟨g1, g2, g3⟩ := two_puts s.mem a b (r1 - q1) (by omega) (by omega)
  apply Part_retag hX h [(q1, r1 - q1, 0)] _ q1 r1 a1 a2
  · refine ⟨rfl, ?_, hmod.1, ?_, ?_⟩
    · show 8 ≤ r1 - q1
      omega
    · show 0 ≤ 1
      omega
    · show q1 + (r1 - q1) = r1
      omega
  · intro c0 hc0
    have hc2 : ¬ (q1 - 4 ≤ c0 ∧ c0 < r1 - 4) := hc0
    apply g3 <;> omega
  · intro y hy
    rw [List.mem_singleton.1 hy]
    refine ⟨⟨?_, ?_⟩, by show 16 ≤ r1 - q1; omega⟩
    · show GET _ (q1 - 4) = r1 - q1 + 0
      rcases hab with ⟨e1, e2⟩ | ⟨e1, e2⟩
      · rw [← e1]; exact g1
      · rw [← e2]; exact g2
    · show GET _ (q1 + (r1 - q1) - 8) = r1 - q1 + 0
      rw [show q1 + (r1 - q1) - 8 = r1 - 8 by omega]
      rcases hab with ⟨e1, e2⟩ | ⟨e1, e2⟩
      · rw [← e2]; exact g2
      · rw [← e1]; exact g1

/-- The end of `coalesce`: the rover test does nothing and the merged block is inserted. -/
theorem Part_finish {X : Generic.Index} {I : State → Set (Nat × Nat) → Prop} {P lo : Nat}
    (hX : IndexSpec X I (lo + 8) (lo + P)) {s : State} {L R : List Blk} {y : Blk}
    (h : Part I P lo s L [y] R) (hy : y.2.2 = 0)
    (hl : ∀ w, w ∈ L.getLast? → w.2.2 ≠ 0) (hr : ∀ n, n ∈ R.head? → n.2.2 ≠ 0) :
    Inv I P lo (X.ins (X.snap s y.1) y.1) (L ++ y :: R) ∧
      (X.ins (X.snap s y.1) y.1).mem_brk = s.mem_brk ∧
      (X.ins (X.snap s y.1) y.1).mem_max_addr = s.mem_max_addr := by
  obtain ⟨q, r, a1, a2, a3, a4, a5, a6, a7, a8, a9, pL, pM, pR⟩ := Part_pos h
  have hn := (Part_next (show Part I P lo s L ([] ++ [y]) R from h)).1
  have hy1 := pM y (List.mem_cons_self _ _)
  have hs : X.snap s y.1 = s := by
    apply hX.snap s (Frees (L ++ R)) y.1 h.idx
    intro f hf
    rw [hn]
    rcases (Frees_append _ _ _).1 hf with h1 | h1
    · have := pL _ h1
      simp only at this
      omega
    · have := pR _ h1
      simp only at this
      omega
  rw [hs]
  exact Part_ins hX h hy hl hr

theorem getD_alloc_ne (pre : List Blk) (c : Blk) (hc : c.2.2 ≠ 0)
    (hl : ∀ w, w ∈ pre.getLast? → w.2.2 ≠ 0) : (pre.getLast?.getD c).2.2 ≠ 0 := by
  cases hg : pre.getLast? with
  | none => exact hc
  | some w => exact hl w (by simp [hg])

theorem next_alloc_ne {I : State → Set (Nat × Nat) → Prop} {P lo : Nat} {s : State}
    {L mid R : List Blk} {x : Blk} (h : Part I P lo s L (mid ++ [x]) R)
    (hr : ∀ n, n ∈ R.head? → n.2.2 ≠ 0) :
    GET_ALLOC s.mem (HDRP (NEXT_BLKP s.mem x.1)) ≠ 0 := by
  obtain ⟨_, h1, h2⟩ := Part_next h
  cases R with
  | nil => rw [h1 rfl]; decide
  | cons n R1 => rw [(h2 n R1 rfl).2]; exact hr n (by simp)

/-- Case 1 of `coalesce`: both neighbours allocated. -/
theorem coalesce_AA {X : Generic.Index} {I : State → Set (Nat × Nat) → Prop} {P lo : Nat}
    (hX : IndexSpec X I (lo + 8) (lo + P)) {s : State} {pre post : List Blk} {x : Blk}
    (h : Part I P lo s pre [x] post) (hx : x.2.2 = 0)
    (hl : ∀ w, w ∈ pre.getLast? → w.2.2 ≠ 0) (hr : ∀ n, n ∈ post.head? → n.2.2 ≠ 0) :
    Inv I P lo (Generic.coalesce X s x.1).1 (pre ++ x :: post) ∧
      (Generic.coalesce X s x.1).2 = x.1 ∧
      (Generic.coalesce X s x.1).1.mem_brk = s.mem_brk ∧
      (Generic.coalesce X s x.1).1.mem_max_addr = s.mem_max_addr := by
  have hp := (Part_prev h).2.1
  have h1 : GET_ALLOC s.mem (FTRP s.mem (PREV_BLKP s.mem x.1)) ≠ 0 := by
    rw [hp]
    exact getD_alloc_ne pre _ (Nat.succ_ne_zero 0) hl
  have h2 := next_alloc_ne (show Part I P lo s pre ([] ++ [x]) post from h) hr
  rw [coalesce_eq_AA X s x.1 h1 h2]
  obtain ⟨i1, i2, i3⟩ := Part_ins hX h hx hl hr
  exact ⟨i1, rfl, i2, i3⟩

/-- The addresses and the size computed in case 2 of `coalesce`. -/
theorem geo_AF {m0 m : Mem} {x n : Blk} {r : Nat} (tx0 : Tag m0 x) (tx : Tag m x)
    (tn : Tag m n) (x8 : x.2.1 % 8 = 0) (xa : x.2.2 ≤ 1) (xs : 16 ≤ x.2.1)
    (n8 : n.2.1 % 8 = 0) (na : n.2.2 ≤ 1) (ns : 16 ≤ n.2.1) (x4 : 4 ≤ x.1)
    (d1 : n.1 = x.1 + x.2.1) (d6 : x.1 + x.2.1 + n.2.1 = r) (hr : r < 4294967296) :
    PACK (add32 (GET_SIZE m0 (HDRP x.1)) (GET_SIZE m (HDRP (NEXT_BLKP m x.1)))) 0 = r - x.1 ∧
    HDRP x.1 = x.1 - 4 ∧
    FTRP (PUT m (x.1 - 4) (r - x.1)) x.1 = r - 8 ∧
    PACK (r - x.1) 0 = r - x.1 ∧ x.2.1 + n.2.1 = r - x.1 := by
  have hpk : PACK (r - x.1) 0 = r - x.1 := PACK_eq _ _ (by omega) (by decide)
  refine ⟨?_, HDRP_sub (by omega) (by omega), ?_, hpk, by omega⟩
  · have E0 : GET_SIZE m0 (HDRP x.1) = x.2.1 :=
      (tag_hdr tx0 x8 xa x4 (by omega)).1
    have E1a : NEXT_BLKP m x.1 = n.1 := by
      rw [tag_next tx x8 xa x4 (by omega)]
      omega
    have E1 : GET_SIZE m (HDRP n.1) = n.2.1 := (tag_hdr tn n8 na (by omega) (by omega)).1
    have E2 : add32 x.2.1 n.2.1 = r - x.1 := by
      rw [add32_eq (by omega)]
      omega
    rw [E0, E1a, E1, E2, hpk]
  · have F0 : GET (PUT m (x.1 - 4) (r - x.1)) (x.1 - 4) = (r - x.1) + 0 :=
      GET_PUT_same _ _ _ (by omega)
    rw [ftr_of_hdr F0 (by omega) (by decide) x4 (by omega) (by omega)]
    omega

/-- Case 2 of `coalesce`: the block after `x` is free, the block before is allocated. -/
theorem coalesce_AF {X : Generic.Index} {I : State → Set (Nat × Nat) → Prop} {P lo : Nat}
    (hX : IndexSpec X I (lo + 8) (lo + P)) {s : State} {pre post1 : List Blk} {x n : Blk}
    (h : Part I P lo s pre [x] (n :: post1)) (hn : n.2.2 = 0)
    (hl : ∀ w, w ∈ pre.getLast? → w.2.2 ≠ 0) :
    Inv I P lo (Generic.coalesce X s x.1).1 (pre ++ (x.1, x.2.1 + n.2.1, 0) :: post1) ∧
      (Generic.coalesce X s x.1).2 = x.1 ∧
      (Generic.coalesce X s x.1).1.mem_brk = s.mem_brk ∧
      (Generic.coalesce X s x.1).1.mem_max_addr = s.mem_max_addr := by
  have hp := (Part_prev h).2.1
  have h1 : GET_ALLOC s.mem (FTRP s.mem (PREV_BLKP s.mem x.1)) ≠ 0 := by
    rw [hp]
    exact getD_alloc_ne pre _ (Nat.succ_ne_zero 0) hl
  obtain ⟨n1, _, n3⟩ := Part_next (show Part I P lo s pre ([] ++ [x]) (n :: post1) from h)
  obtain ⟨n4, n5⟩ := n3 n post1 rfl
  have h2 : GET_ALLOC s.mem (HDRP (NEXT_BLKP s.mem x.1)) = 0 := by rw [n5]; exact hn
  have e0 : NEXT_BLKP s.mem x.1 = n.1 := by rw [n1, n4]
  obtain ⟨k1, kb, km⟩ := Part_esc_right hX h hn
  obtain ⟨q, r, a1, a2, a3, a4, a5, a6, a7, a8, a9, pL, pM, pR⟩ := Part_pos k1
  have a2b : Lay q (x :: n :: []) r := a2
  obtain ⟨c1, c2, c3, c4, d1, d2, d3, d4, d5⟩ := a2b
  subst c1
  obtain ⟨tx, _⟩ := Part_blk k1 x (by simp)
  obtain ⟨tn, _⟩ := Part_blk k1 n (by simp)
  obtain ⟨tx0, _⟩ := Part_blk h x (by simp)
  obtain ⟨hv, E3, E4, hpk, hsum⟩ := geo_AF tx0 tx tn c3 c4 (pM x (by simp)).2.2 d3 d4
    (pM n (by simp)).2.2 (by omega) d1 d5 (by omega)
  rw [coalesce_eq_AF_at X s x.1 h1 h2 e0 hv E3 E4, hsum]
  have pm := Part_merge hX k1 x.1 r a1 a2 (by simp) (x.1 - 4) (r - 8) (Or.inl ⟨rfl, rfl⟩)
  rw [hpk] at pm
  obtain ⟨f1, f2, f3⟩ := Part_finish hX pm rfl hl (NoAdj_head h.noadjR hn)
  exact ⟨f1, rfl, f2.trans kb, f3.trans km⟩

/-- The addresses and the size computed in case 3 of `coalesce`. -/
theorem geo_FA {m0 m : Mem} {w x : Blk} {r : Nat} (tx0 : Tag m0 x) (tx : Tag m x)
    (tw : Tag m w) (x8 : x.2.1 % 8 = 0) (xa : x.2.2 ≤ 1) (xs : 16 ≤ x.2.1)
    (w8 : w.2.1 % 8 = 0) (wa : w.2.2 ≤ 1) (ws : 16 ≤ w.2.1) (w4 : 4 ≤ w.1)
    (d1 : x.1 = w.1 + w.2.1) (d6 : w.1 + w.2.1 + x.2.1 = r) (hr : r < 4294967296) :
    PACK (add32 (GET_SIZE m0 (HDRP x.1)) (GET_SIZE m (HDRP (PREV_BLKP m x.1)))) 0 = r - w.1 ∧
    FTRP m x.1 = r - 8 ∧
    HDRP (PREV_BLKP (PUT m (r - 8) (r - w.1)) x.1) = w.1 - 4 ∧
    PREV_BLKP (PUT (PUT m (r - 8) (r - w.1)) (w.1 - 4) (r - w.1)) x.1 = w.1 ∧
    PACK (r - w.1) 0 = r - w.1 ∧ w.2.1 + x.2.1 = r - w.1 := by
  have hpk : PACK (r - w.1) 0 = r - w.1 := PACK_eq _ _ (by omega) (by decide)
  have F1 : GET m (x.1 - 8) = w.2.1 + w.2.2 := by
    rw [show x.1 - 8 = w.1 + w.2.1 - 8 by omega]
    exact tw.2
  refine ⟨?_, ?_, ?_, ?_, hpk, by omega⟩
  · have E0 : GET_SIZE m0 (HDRP x.1) = x.2.1 :=
      (tag_hdr tx0 x8 xa (by omega) (by omega)).1
    have E1a : PREV_BLKP m x.1 = w.1 := by
      rw [prev_of_ftr F1 w8 wa (by omega) (by omega) (by omega)]
      omega
    have E1 : GET_SIZE m (HDRP w.1) = w.2.1 := (tag_hdr tw w8 wa w4 (by omega)).1
    have E2 : add32 x.2.1 w.2.1 = r - w.1 := by
      rw [add32_eq (by omega)]
      omega
    rw [E0, E1a, E1, E2, hpk]
  · rw [tag_ftr tx x8 xa (by omega) (by omega) (by omega)]
    omega
  · have F2 : GET (PUT m (r - 8) (r - w.1)) (x.1 - 8) = w.2.1 + w.2.2 := by
      rw [GET_PUT_other _ _ _ _ (by omega)]
      exact F1
    have E4 : PREV_BLKP (PUT m (r - 8) (r - w.1)) x.1 = w.1 := by
      rw [prev_of_ftr F2 w8 wa (by omega) (by omega) (by omega)]
      omega
    rw [E4]
    exact HDRP_sub w4 (by omega)
  · have F3 : GET (PUT (PUT m (r - 8) (r - w.1)) (w.1 - 4) (r - w.1)) (x.1 - 8) =
        w.2.1 + w.2.2 := by
      rw [GET_PUT_other _ _ _ _ (by omega), GET_PUT_other _ _ _ _ (by omega)]
      exact F1
    rw [prev_of_ftr F3 w8 wa (by omega) (by omega) (by omega)]
    omega

/-- Case 3 of `coalesce`: the block before `x` is free, the block after is allocated. -/
theorem coalesce_FA {X : Generic.Index} {I : State → Set (Nat × Nat) → Prop} {P lo : Nat}
    (hX : IndexSpec X I (lo + 8) (lo + P)) {s : State} {L post : List Blk} {x w : Blk}
    (h : Part I P lo s (L ++ [w]) [x] post) (hw : w.2.2 = 0)
    (hr : ∀ n, n ∈ post.head? → n.2.2 ≠ 0) :
    Inv I P lo (Generic.coalesce X s x.1).1 (L ++ (w.1, w.2.1 + x.2.1, 0) :: post) ∧
      (Generic.coalesce X s x.1).2 = w.1 ∧
      (Generic.coalesce X s x.1).1.mem_brk = s.mem_brk ∧
      (Generic.coalesce X s x.1).1.mem_max_addr = s.mem_max_addr := by
  obtain ⟨p1, p2, p3⟩ := Part_prev h
  have hg : (L ++ [w]).getLast?.getD (lo + 8, P, 1) = w := by simp
  rw [hg] at p1 p2 p3
  have h1 : GET_ALLOC s.mem (FTRP s.mem (PREV_BLKP s.mem x.1)) = 0 := p2.trans hw
  have h2 := next_alloc_ne (show Part I P lo s (L ++ [w]) ([] ++ [x]) post from h) hr
  obtain ⟨k1, kb, km⟩ := Part_esc_left hX h hw
  obtain ⟨q, r, a1, a2, a3, a4, a5, a6, a7, a8, a9, pL, pM, pR⟩ := Part_pos k1
  have a2b : Lay q (w :: x :: []) r := a2
  obtain ⟨c1, c2, c3, c4, d1, d2, d3, d4, d5⟩ := a2b
  subst c1
  obtain ⟨tx, _⟩ := Part_blk k1 x (by simp)
  obtain ⟨tw, _⟩ := Part_blk k1 w (by simp)
  obtain ⟨tx0, _⟩ := Part_blk h x (by simp)
  obtain ⟨hv, E3, E5, E6, hpk, hsum⟩ := geo_FA tx0 tx tw d3 d4 (pM x (by simp)).2.2 c3 c4
    (pM w (by simp)).2.2 (by omega) d1 d5 (by omega)
  rw [coalesce_eq_FA_at X s x.1 h1 h2 p1 hv E3 E5 E6, hsum]
  have pm := Part_merge hX k1 w.1 r a1 a2 (by simp) (r - 8) (w.1 - 4) (Or.inr ⟨rfl, rfl⟩)
  rw [hpk] at pm
  obtain ⟨f1, f2, f3⟩ := Part_finish hX pm rfl (NoAdj_last h.noadjL hw) hr
  exact ⟨f1, rfl, f2.trans kb, f3.trans km⟩

/-- The addresses and the size computed in case 4 of `coalesce`. -/
theorem geo_FF {m0 m : Mem} {w x n : Blk} {r : Nat} (tx0 : Tag m0 x) (tx : Tag m x)
    (tw : Tag m w) (tn : Tag m n) (x8 : x.2.1 % 8 = 0) (xa : x.2.2 ≤ 1) (xs : 16 ≤ x.2.1)
    (w8 : w.2.1 % 8 = 0) (wa : w.2.2 ≤ 1) (ws : 16 ≤ w.2.1) (w4 : 4 ≤ w.1)
    (n8 : n.2.1 % 8 = 0) (na : n.2.2 ≤ 1) (ns : 16 ≤ n.2.1)
    (d1 : x.1 = w.1 + w.2.1) (g1 : n.1 = w.1 + w.2.1 + x.2.1)
    (d6 : w.1 + w.2.1 + x.2.1 + n.2.1 = r) (hr : r < 4294967296) :
    PACK (add32 (GET_SIZE m0 (HDRP x.1))
      (add32 (GET_SIZE m (HDRP (PREV_BLKP m x.1)))
        (GET_SIZE m (FTRP m (NEXT_BLKP m x.1))))) 0 = r - w.1 ∧
    HDRP (PREV_BLKP m x.1) = w.1 - 4 ∧
    FTRP (PUT m (w.1 - 4) (r - w.1)) (NEXT_BLKP (PUT m (w.1 - 4) (r - w.1)) x.1) = r - 8 ∧
    PREV_BLKP (PUT (PUT m (w.1 - 4) (r - w.1)) (r - 8) (r - w.1)) x.1 = w.1 ∧
    PACK (r - w.1) 0 = r - w.1 ∧ w.2.1 + x.2.1 + n.2.1 = r - w.1 := by
  have hpk : PACK (r - w.1) 0 = r - w.1 := PACK_eq _ _ (by omega) (by decide)
  have F1 : GET m (x.1 - 8) = w.2.1 + w.2.2 := by
    rw [show x.1 - 8 = w.1 + w.2.1 - 8 by omega]
    exact tw.2
  have E1a : PREV_BLKP m x.1 = w.1 := by
    rw [prev_of_ftr F1 w8 wa (by omega) (by omega) (by omega)]
    omega
  refine ⟨?_, ?_, ?_, ?_, hpk, by omega⟩
  · have E0 : GET_SIZE m0 (HDRP x.1) = x.2.1 :=
      (tag_hdr tx0 x8 xa (by omega) (by omega)).1
    have E1 : GET_SIZE m (HDRP w.1) = w.2.1 := (tag_hdr tw w8 wa w4 (by omega)).1
    have E1b : NEXT_BLKP m x.1 = n.1 := by
      rw [tag_next tx x8 xa (by omega) (by omega)]
      omega
    have E1c : FTRP m n.1 = n.1 + n.2.1 - 8 :=
      tag_ftr tn n8 na (by omega) (by omega) (by omega)
    have E1d : GET_SIZE m (n.1 + n.2.1 - 8) = n.2.1 := GET_SIZE_of_tag tn.2 n8 na
    have E2 : add32 x.2.1 (add32 w.2.1 n.2.1) = r - w.1 := by
      rw [add32_eq (a := w.2.1) (by omega), add32_eq (by omega)]
      omega
    rw [E0, E1a, E1, E1b, E1c, E1d, E2, hpk]
  · rw [E1a]
    exact HDRP_sub w4 (by omega)
  · have F2 : GET (PUT m (w.1 - 4) (r - w.1)) (x.1 - 4) = x.2.1 + x.2.2 := by
      rw [GET_PUT_other _ _ _ _ (by omega)]
      exact tx.1
    have E4 : NEXT_BLKP (PUT m (w.1 - 4) (r - w.1)) x.1 = n.1 := by
      rw [next_of_hdr F2 x8 xa (by omega) (by omega)]
      omega
    have F3 : GET (PUT m (w.1 - 4) (r - w.1)) (n.1 - 4) = n.2.1 + n.2.2 := by
      rw [GET_PUT_other _ _ _ _ (by omega)]
      exact tn.1
    rw [E4, ftr_of_hdr F3 n8 na (by omega) (by omega) (by omega)]
    omega
  · have F4 : GET (PUT (PUT m (w.1 - 4) (r - w.1)) (r - 8) (r - w.1)) (x.1 - 8) =
        w.2.1 + w.2.2 := by
      rw [GET_PUT_other _ _ _ _ (by omega), GET_PUT_other _ _ _ _ (by omega)]
      exact F1
    rw [prev_of_ftr F4 w8 wa (by omega) (by omega) (by omega)]
    omega

/-- Case 4 of `coalesce`: both neighbours of `x` are free. -/
theorem coalesce_FF {X : Generic.Index} {I : State → Set (Nat × Nat) → Prop} {P lo : Nat}
    (hX : IndexSpec X I (lo + 8) (lo + P)) {s : State} {L post1 : List Blk} {x w n : Blk}
    (h : Part I P lo s (L ++ [w]) [x] (n :: post1)) (hw : w.2.2 = 0) (hn : n.2.2 = 0) :
    Inv I P lo (Generic.coalesce X s x.1).1
        (L ++ (w.1, w.2.1 + x.2.1 + n.2.1, 0) :: post1) ∧
      (Generic.coalesce X s x.1).2 = w.1 ∧
      (Generic.coalesce X s x.1).1.mem_brk = s.mem_brk ∧
      (Generic.coalesce X s x.1).1.mem_max_addr = s.mem_max_addr := by
  obtain ⟨p1, p2, p3⟩ := Part_prev h
  have hg : (L ++ [w]).getLast?.getD (lo + 8, P, 1) = w := by simp
  rw [hg] at p1 p2 p3
  have h1 : GET_ALLOC s.mem (FTRP s.mem (PREV_BLKP s.mem x.1)) = 0 := p2.trans hw
  obtain ⟨n1, _, n3⟩ := Part_next (show Part I P lo s (L ++ [w]) ([] ++ [x]) (n :: post1) from h)
  obtain ⟨n4, n5⟩ := n3 n post1 rfl
  have h2 : GET_ALLOC s.mem (HDRP (NEXT_BLKP s.mem x.1)) = 0 := by rw [n5]; exact hn
  have e0 : NEXT_BLKP s.mem x.1 = n.1 := by rw [n1, n4]
  obtain ⟨k1, kb, km⟩ := Part_esc_right hX h hn
  obtain ⟨p4, _, _⟩ := Part_prev (show Part I P lo (X.esc s n.1) (L ++ [w]) (x :: [n]) post1 from k1)
  rw [hg] at p4
  obtain ⟨k2, kb2, km2⟩ := Part_esc_left hX k1 hw
  obtain ⟨q, r, a1, a2, a3, a4, a5, a6, a7, a8, a9, pL, pM, pR⟩ := Part_pos k2
  have a2b : Lay q (w :: x :: n :: []) r := a2
  obtain ⟨c1, c2, c3, c4, d1, d2, d3, d4, g1, g2, g3, g4, g5⟩ := a2b
  subst c1
  obtain ⟨tx, _⟩ := Part_blk k2 x (by simp)
  obtain ⟨tw, _⟩ := Part_blk k2 w (by simp)
  obtain ⟨tn, _⟩ := Part_blk k2 n (by simp)
  obtain ⟨tx0, _⟩ := Part_blk h x (by simp)
  obtain ⟨hv, E3, E5, E6, hpk, hsum⟩ := geo_FF tx0 tx tw tn d3 d4 (pM x (by simp)).2.2 c3 c4
    (pM w (by simp)).2.2 (by omega) g3 g4 (pM n (by simp)).2.2 d1 g1 g5 (by omega)
  rw [coalesce_eq_FF_at X s x.1 h1 h2 e0 p4 hv E3 E5 E6, hsum]
  have pm := Part_merge hX k2 w.1 r a1 a2 (by simp) (w.1 - 4) (r - 8) (Or.inl ⟨rfl, rfl⟩)
  rw [hpk] at pm
  obtain ⟨f1, f2, f3⟩ := Part_finish hX pm rfl (NoAdj_last h.noadjL hw)
    (NoAdj_head h.noadjR hn)
  exact ⟨f1, rfl, (f2.trans kb2).trans kb, (f3.trans km2).trans km⟩

/-! ## The heap map after `coalesce` -/

theorem merge_left_A (pre : List Blk) (x : Blk) (hl : ∀ w, w ∈ pre.getLast? → w.2.2 ≠ 0) :
    merge_left pre x = (pre, x) := by
  unfold merge_left
  cases hg : pre.getLast? with
  | none => rfl
  | some w => exact if_neg (hl w (by simp [hg]))

theorem merge_left_F (L : List Blk) (w x : Blk) (hw : w.2.2 = 0) :
    merge_left (L ++ [w]) x = (L, (w.1, w.2.1 + x.2.1, 0)) := by
  unfold merge_left
  simp [hw]

theorem merge_right_A (y : Blk) (post : List Blk) (hr : ∀ n, n ∈ post.head? → n.2.2 ≠ 0) :
    merge_right y post = (y, post) := by
  unfold merge_right
  cases post with
  | nil => rfl
  | cons n post1 => exact if_neg (hr n (by simp))

theorem merge_right_F (y n : Blk) (post1 : List Blk) (hn : n.2.2 = 0) :
    merge_right y (n :: post1) = ((y.1, y.2.1 + n.2.1, 0), post1) := by
  unfold merge_right
  exact if_pos hn

theorem last_cases (pre : List Blk) :
    (∀ w, w ∈ pre.getLast? → w.2.2 ≠ 0) ∨ ∃ L w, pre = L ++ [w] ∧ w.2.2 = 0 := by
  rcases List.eq_nil_or_concat pre with h | ⟨L, w, h0⟩
  · left
    intro w hw
    rw [h] at hw
    simp at hw
  · have h : pre = L ++ [w] := by rw [h0, List.concat_eq_append]
    by_cases hw : w.2.2 = 0
    · right
      exact ⟨L, w, h, hw⟩
    · left
      intro v hv
      rw [h] at hv
      simp at hv
      rw [← hv]
      exact hw

theorem head_cases (post : List Blk) :
    (∀ n, n ∈ post.head? → n.2.2 ≠ 0) ∨ ∃ n post1, post = n :: post1 ∧ n.2.2 = 0 := by
  cases post with
  | nil =>
    left
    intro n hn
    simp at hn
  | cons n post1 =>
    by_cases hn : n.2.2 = 0
    · right
      exact ⟨n, post1, rfl, hn⟩
    · left
      intro v hv
      simp at hv
      rw [← hv]
      exact hn

/-- The address of the merged block: that of `x` when the block before `x` is allocated (or
is the prologue), and that of the block before `x` when it is free. -/
theorem coalesce_map_addr (pre : List Blk) (x : Blk) (post : List Blk) :
    ((∀ w, w ∈ pre.getLast? → w.2.2 ≠ 0) → (coalesce_map pre x post).2.1.1 = x.1) ∧
    (∀ w, pre.getLast? = some w → w.2.2 = 0 → (coalesce_map pre x post).2.1.1 = w.1) := by
  have hr : ∀ y : Blk, (merge_right y post).1.1 = y.1 := by
    intro y
    rcases head_cases post with h | ⟨n, post1, rfl, hn⟩
    · rw [merge_right_A y post h]
    · rw [merge_right_F y n post1 hn]
  unfold coalesce_map
  constructor
  · intro hl
    show (merge_right (merge_left pre x).2 post).1.1 = x.1
    rw [hr, merge_left_A pre x hl]
  · intro w hw hw0
    show (merge_right (merge_left pre x).2 post).1.1 = w.1
    rw [hr]
    unfold merge_left
    rw [hw]
    simp [hw0]

/-- The function `coalesce` on a heap in which the block `x` is tagged free and not yet in the
free index: the result is a well-formed heap with the map `coalesce_map`, the returned
pointer is the merged block, and the break does not move. -/
theorem coalesce_inv {X : Generic.Index} {I : State → Set (Nat × Nat) → Prop} {P lo : Nat}
    (hX : IndexSpec X I (lo + 8) (lo + P)) {s : State} {pre post : List Blk} {x : Blk}
    (h : PreCo I P lo s pre x post) :
    Inv I P lo (Generic.coalesce X s x.1).1
        ((coalesce_map pre x post).1 ++
          (coalesce_map pre x post).2.1 :: (coalesce_map pre x post).2.2) ∧
      (Generic.coalesce X s x.1).2 = (coalesce_map pre x post).2.1.1 ∧
      (Generic.coalesce X s x.1).1.mem_brk = s.mem_brk ∧
      (Generic.coalesce X s x.1).1.mem_max_addr = s.mem_max_addr := by
  obtain ⟨hp, hx⟩ := h
  unfold coalesce_map
  rcases last_cases pre with hl | ⟨L, w, rfl, hw⟩
  · rw [merge_left_A pre x hl]
    rcases head_cases post with hr | ⟨n, post1, rfl, hn⟩
    · rw [merge_right_A x post hr]
      exact coalesce_AA hX hp hx hl hr
    · rw [merge_right_F x n post1 hn]
      exact coalesce_AF hX hp hn hl
  · rw [merge_left_F L w x hw]
    rcases head_cases post with hr | ⟨n, post1, rfl, hn⟩
    · rw [merge_right_A _ post hr]
      exact coalesce_FA hX hp hw hr
    · rw [merge_right_F _ n post1 hn]
      exact coalesce_FF hX hp hw hn

theorem explicit_coalesce_eq (s : State) (bp : Nat) :
    Explicit.coalesce s bp = Generic.coalesce Explicit.index s bp := rfl

theorem segregate_coalesce_eq (s : State) (bp : Nat) :
    Segregate.coalesce s bp = Generic.coalesce Segregate.index s bp := by
  unfold Segregate.coalesce Generic.coalesce
  simp only [Segregate.index]
  split
  · rfl
  · rfl

/-- A heap under operation lies below `2^32`, so the ten roots of the segregated index do. -/
theorem Part_lo {I : State → Set (Nat × Nat) → Prop} {P lo : Nat} {s : State}
    {L mid R : List Blk} (h : Part I P lo s L mid R) : lo + P < 4294967296 := by
  obtain ⟨q, r, a1, a2, a3, a4, a5, a6, a7, a8, a9, _⟩ := Part_pos h
  omega

/-- C27: in the explicit and in the segregated variant, on a consistent heap in which the
block `x` between the blocks `pre` and the blocks `post` carries the tags `(size, 0)` and is
not in the free index, `coalesce(x)` leaves a consistent heap whose map is
`coalesce_map pre x post` (the block `x` merged with its free immediate neighbours, every
other block with its old tags), whose free index holds exactly the free blocks of that map,
and it returns the address of the merged block. -/
theorem coalesce_spec (lo lo2 : Nat) (s t : State) (pre post pre2 post2 : List Blk)
    (x y : Blk) (hs : PreCo Explicit.Idx 8 lo s pre x post)
    (ht : PreCo (Segregate.Idx lo2) 48 lo2 t pre2 y post2) :
    (Inv Explicit.Idx 8 lo (Explicit.coalesce s x.1).1
        ((coalesce_map pre x post).1 ++
          (coalesce_map pre x post).2.1 :: (coalesce_map pre x post).2.2) ∧
      (Explicit.coalesce s x.1).2 = (coalesce_map pre x post).2.1.1) ∧
    (Inv (Segregate.Idx lo2) 48 lo2 (Segregate.coalesce t y.1).1
        ((coalesce_map pre2 y post2).1 ++
          (coalesce_map pre2 y post2).2.1 :: (coalesce_map pre2 y post2).2.2) ∧
      (Segregate.coalesce t y.1).2 = (coalesce_map pre2 y post2).2.1.1) := by
  constructor
  · rw [explicit_coalesce_eq]
    have h := coalesce_inv (explicit_index_spec (lo + 8) (lo + 8)) hs
    exact ⟨h.1, h.2.1⟩
  · rw [segregate_coalesce_eq]
    have h := coalesce_inv (segregate_index_spec lo2 (Part_lo ht.1)) ht
    exact ⟨h.1, h.2.1⟩

theorem explicit_tagged_PreCo :
    PreCo Explicit.Idx 8 4096 Explicit.tagged_state [] (4112, 24, 0) [(4136, 4088, 0)] := by
  have hbrk : Explicit.tagged_state.mem_brk = 8224 := by decide!
  have hmax : Explicit.tagged_state.mem_max_addr = 1048576 := by decide!
  refine ⟨⟨?_, ?_, ?_, ?_, List.chain'_nil, List.chain'_singleton _, ?_, ?_, ?_⟩, rfl⟩
  · rw [hbrk]
    exact ⟨rfl, by decide, by decide, by decide, rfl, by decide, by decide, by decide,
      rfl, by decide, by decide, by decide, rfl⟩
  · intro b hb
    simp only [List.nil_append, List.singleton_append, List.mem_cons, List.mem_singleton,
      List.not_mem_nil, or_false] at hb
    rcases hb with h | h | h
    · rw [h]; exact ⟨by decide!, by decide!⟩
    · rw [h]; exact ⟨by decide!, by decide!⟩
    · rw [h]; exact ⟨by decide!, by decide!⟩
  · rw [hbrk]; decide!
  · intro b hb
    simp only [List.nil_append, List.singleton_append, List.mem_cons, List.mem_singleton,
      List.not_mem_nil, or_false] at hb
    rcases hb with h | h
    · rw [h]; decide
    · rw [h]; decide
  · refine ⟨[4136], ⟨by decide, by decide, by decide!, by decide!⟩, ?_, ?_, ?_⟩
    · intro x
      constructor
      · intro hx
        rw [List.mem_singleton.1 hx]
        exact ⟨4088, List.mem_singleton.2 rfl⟩
      · rintro ⟨sz, hsz⟩
        have h1 : (x, sz, 0) = ((4136, 4088, 0) : Blk) := List.mem_singleton.1 hsz
        rw [(Prod.mk.inj h1).1]
        exact List.mem_singleton.2 rfl
    · intro h
      cases h
    · intro _
      exact ⟨by decide!, by decide!⟩
  · rw [hbrk, hmax]; decide
  · rw [hmax]; decide

theorem segregate_tagged_PreCo :
    PreCo (Segregate.Idx 4096) 48 4096 Segregate.tagged_state [(4152, 3984, 0)]
      (8136, 112, 0) [] := by
  have hbrk : Segregate.tagged_state.mem_brk = 8248 := by decide!
  have hmax : Segregate.tagged_state.mem_max_addr = 1048576 := by decide!
  refine ⟨⟨?_, ?_, ?_, ?_, List.chain'_singleton _, List.chain'_nil, ?_, ?_, ?_⟩, rfl⟩
  · rw [hbrk]
    exact ⟨rfl, by decide, by decide, by decide, rfl, by decide, by decide, by decide,
      rfl, by decide, by decide, by decide, rfl⟩
  · intro b hb
    simp only [List.append_nil, List.singleton_append, List.mem_cons, List.mem_singleton,
      List.not_mem_nil, or_false] at hb
    rcases hb with h | h | h
    · rw [h]; exact ⟨by decide!, by decide!⟩
    · rw [h]; exact ⟨by decide!, by decide!⟩
    · rw [h]; exact ⟨by decide!, by decide!⟩
  · rw [hbrk]; decide!
  · intro b hb
    simp only [List.append_nil, List.singleton_append, List.mem_cons, List.mem_singleton,
      List.not_mem_nil, or_false] at hb
    rcases hb with h | h
    · rw [h]; decide
    · rw [h]; decide
  · refine ⟨by decide!, Segregate.tagged_buckets, ?_⟩
    intro k hk
    have hmem : ∀ x, x ∈ Segregate.tagged_buckets k ↔
        ∃ sz, (x, sz) ∈ Frees ([((4152, 3984, 0) : Blk)] ++ []) ∧ Segregate.getRank sz = k := by
      intro x
      have hr : Segregate.getRank 3984 = 8 := by decide
      unfold Segregate.tagged_buckets
      constructor
      · intro hx
        by_cases h8 : k = 8
        · rw [if_pos h8] at hx
          rw [List.mem_singleton.1 hx, h8]
          exact ⟨3984, List.mem_singleton.2 rfl, hr⟩
        · rw [if_neg h8] at hx
          cases hx
      · rintro ⟨sz, hsz, hrk⟩
        have h1 : (x, sz, 0) = ((4152, 3984, 0) : Blk) := List.mem_singleton.1 hsz
        obtain ⟨e1, e2⟩ := Prod.mk.inj h1
        rw [(Prod.mk.inj e2).1, hr] at hrk
        rw [if_pos hrk.symm, e1]
        exact List.mem_singleton.2 rfl
    refine ⟨?_, ?_, hmem⟩
    · unfold Segregate.tagged_buckets
      split <;> simp
    · interval_cases k
      · exact (by decide! : Segregate.GET_RANK Segregate.tagged_state 0 = 0)
      · exact (by decide! : Segregate.GET_RANK Segregate.tagged_state 1 = 0)
      · exact (by decide! : Segregate.GET_RANK Segregate.tagged_state 2 = 0)
      · exact (by decide! : Segregate.GET_RANK Segregate.tagged_state 3 = 0)
      · exact (by decide! : Segregate.GET_RANK Segregate.tagged_state 4 = 0)
      · exact (by decide! : Segregate.GET_RANK Segregate.tagged_state 5 = 0)
      · exact (by decide! : Segregate.GET_RANK Segregate.tagged_state 6 = 0)
      · exact (by decide! : Segregate.GET_RANK Segregate.tagged_state 7 = 0)
      · exact ⟨(by decide! : Segregate.GET_RANK Segregate.tagged_state 8 = 4152), by decide,
          (by decide! : NEXT Segregate.tagged_state.mem 4152 = 0)⟩
      · exact (by decide! : Segregate.GET_RANK Segregate.tagged_state 9 = 0)
  · rw [hbrk, hmax]; decide
  · rw [hmax]; decide

/-- Witness of `coalesce_spec`: the heaps in which `mm_free` calls `coalesce` after
`mm_init; a = mm_malloc(16)` (explicit) and after `mm_init; p = mm_malloc(100)`
(segregated). -/
theorem coalesce_spec_witness :
    PreCo Explicit.Idx 8 4096 Explicit.tagged_state [] (4112, 24, 0) [(4136, 4088, 0)] ∧
    PreCo (Segregate.Idx 4096) 48 4096 Segregate.tagged_state [(4152, 3984, 0)]
      (8136, 112, 0) [] ∧
    (Inv Explicit.Idx 8 4096 (Explicit.coalesce Explicit.tagged_state 4112).1
        [(4112, 4112, 0)] ∧
      (Explicit.coalesce Explicit.tagged_state 4112).2 = 4112) ∧
    (Inv (Segregate.Idx 4096) 48 4096 (Segregate.coalesce Segregate.tagged_state 8136).1
        [(4152, 4096, 0)] ∧
      (Segregate.coalesce Segregate.tagged_state 8136).2 = 4152) :=
  ⟨explicit_tagged_PreCo, segregate_tagged_PreCo,
    coalesce_spec 4096 4096 Explicit.tagged_state Segregate.tagged_state [] [(4136, 4088, 0)]
      [(4152, 3984, 0)] [] (4112, 24, 0) (8136, 112, 0) explicit_tagged_PreCo
      segregate_tagged_PreCo⟩

set_option maxHeartbeats 4000000 in
/-- C32, evaluated at the failing input `mm_init; a = mm_malloc(24); b = mm_malloc(24);
c = mm_malloc(64); mm_free(b); q = mm_realloc(a, 100)`: before the last call the block of `a`
has 32 bytes, its left neighbour is allocated and its right neighbour is free with 32 bytes;
the adjusted size is 112, so 80 more bytes are needed and `size(right) - (asize - csize)` is
`-48` as an integer, not `>= 16`.  The 32-bit difference is 4294967248, the test passes, and
`mm_realloc` returns `q = a` with a block of 112 bytes: the word at `c + 40`, inside the live
payload of `c`, is 0 before the call and 113 after it. -/
theorem realloc_grow_guard_wraps :
    (Explicit.run_guard.map fun r =>
      (r.2.2.1, r.2.2.2.1, r.2.2.2.2, GET_SIZE r.1.mem (HDRP r.2.2.1),
        GET_ALLOC r.1.mem (HDRP (PREV_BLKP r.1.mem r.2.2.1)),
        GET_ALLOC r.1.mem (HDRP (NEXT_BLKP r.1.mem r.2.2.1))))
      = some (4112, 4176, 4112, 32, 1, 0) ∧
    (Explicit.run_guard.map fun r =>
      (GET_SIZE r.1.mem (HDRP (NEXT_BLKP r.1.mem r.2.2.1)),
        sub32 (GET_SIZE r.1.mem (HDRP (NEXT_BLKP r.1.mem r.2.2.1)))
          (sub32 (adjust 100) (GET_SIZE r.1.mem (HDRP r.2.2.1))),
        GET r.1.mem (r.2.2.2.1 + 40), GET r.2.1.mem (r.2.2.2.1 + 40),
        GET r.2.1.mem (HDRP r.2.2.2.2)))
      = some (32, 4294967248, 0, 113, 113) ∧
    (Segregate.run_guard.map fun r =>
      (r.2.2.1, r.2.2.2.1, r.2.2.2.2, GET_SIZE r.1.mem (HDRP r.2.2.1),
        GET_ALLOC r.1.mem (HDRP (PREV_BLKP r.1.mem r.2.2.1)),
        GET_ALLOC r.1.mem (HDRP (NEXT_BLKP r.1.mem r.2.2.1))))
      = some (4152, 4216, 4152, 32, 1, 0) ∧
    (Segregate.run_guard.map fun r =>
      (GET_SIZE r.1.mem (HDRP (NEXT_BLKP r.1.mem r.2.2.1)),
        sub32 (GET_SIZE r.1.mem (HDRP (NEXT_BLKP r.1.mem r.2.2.1)))
          (sub32 (adjust 100) (GET_SIZE r.1.mem (HDRP r.2.2.1))),
        GET r.1.mem (r.2.2.2.1 + 40), GET r.2.1.mem (r.2.2.2.1 + 40),
        GET r.2.1.mem (HDRP r.2.2.2.2)))
      = some (32, 4294967248, 0, 113, 113) ∧
    adjust 100 = 112 ∧ ¬ ((32 : Int) - (112 - 32) ≥ 16) := by
  refine ⟨by decide!, by decide!, by decide!, by decide!, by decide, by decide⟩

set_option maxHeartbeats 4000000 in
/-- C33, evaluated at the failing input `mm_init; p = mm_malloc(8); q = mm_realloc(p, 24)` of
`mm-implicit.c`: the block of `p = 4112` has 16 bytes, the adjusted size is 32, and the next
block is free with 4096 bytes, which is at least `(32 - 16) + 16`.  The block is not expanded
in place: `mm_realloc` returns `q = 4128`, a new block of 32 bytes, and the block of `p` is
freed (its header holds `PACK(16, 0)` after the call). -/
theorem implicit_realloc_does_not_grow_in_place :
    (Implicit.run_grow.map fun r =>
      (r.2.2.1, r.2.2.2, GET_SIZE r.1.mem (HDRP r.2.2.1),
        GET_ALLOC r.1.mem (HDRP (NEXT_BLKP r.1.mem r.2.2.1)),
        GET_SIZE r.1.mem (HDRP (NEXT_BLKP r.1.mem r.2.2.1))))
      = some (4112, 4128, 16, 0, 4096) ∧
    (Implicit.run_grow.map fun r => (GET r.2.1.mem (HDRP r.2.2.1), GET r.2.1.mem (HDRP r.2.2.2)))
      = some (16, 33) ∧
    (Implicit.run_grow.bind fun r => heap_walk r.2.1.mem r.2.1.mem_brk 100 4112)
      = some [(4112, 16, 0), (4128, 32, 1), (4160, 4064, 0)] ∧
    adjust 24 = 32 := by
  refine ⟨by decide!, by decide!, by decide!, by decide⟩

set_option maxHeartbeats 4000000 in
/-- C34, evaluated at the failing input `mm_init; a = mm_malloc(24); b = mm_malloc(8);
q = mm_realloc(a, 40)`: both neighbours of `a` are allocated, so `mm_realloc` takes the
fallback path.  The new block at `q` has 56 bytes, the adjusted size of the adjusted size 48,
whereas `mm_malloc(40)` from the same state returns the same address with a block of 48
bytes. -/
theorem realloc_fallback_adjusts_twice :
    (Explicit.run_fallback.map fun r =>
      (r.2.2.1, r.2.2.2.1, r.2.2.2.2, GET_SIZE r.1.mem (HDRP r.2.2.2.1),
        GET_SIZE r.2.1.mem (HDRP r.2.2.2.2)))
      = some (4112, 4160, 4160, 56, 48) ∧
    (Segregate.run_fallback.map fun r =>
      (r.2.2.1, r.2.2.2.1, r.2.2.2.2, GET_SIZE r.1.mem (HDRP r.2.2.2.1),
        GET_SIZE r.2.1.mem (HDRP r.2.2.2.2)))
      = some (4152, 4200, 4200, 56, 48) ∧
    adjust 40 = 48 ∧ adjust 48 = 56 := by
  refine ⟨by decide!, by decide!, by decide, by decide⟩

/-! ## First fit over the bucket lists (C31) -/

theorem getRank_mono {a b : Nat} (h : a ≤ b) : Segregate.getRank a ≤ Segregate.getRank b := by
  have ha := getRank_class a
  have hb := getRank_class b
  omega

theorem first_fit_nil (m : Mem) (asize : Nat) : first_fit m asize [] = 0 := rfl

theorem first_fit_cons (m : Mem) (asize x : Nat) (l : List Nat) :
    first_fit m asize (x :: l) =
      if asize ≤ GET_SIZE m (HDRP x) then x else first_fit m asize l := by
  unfold first_fit
  rw [List.find?_cons]
  by_cases h : asize ≤ GET_SIZE m (HDRP x)
  · rw [if_pos h]
    simp [h]
  · rw [if_neg h]
    simp [h]

/-- The result of a first-fit scan is null or a member that fits, and it is null only when no
non-null member fits. -/
theorem first_fit_spec (m : Mem) (asize : Nat) (l : List Nat) :
    (first_fit m asize l = 0 ∨
      (first_fit m asize l ∈ l ∧ asize ≤ GET_SIZE m (HDRP (first_fit m asize l)))) ∧
    ((∀ x, x ∈ l → x ≠ 0) → first_fit m asize l = 0 →
      ∀ x, x ∈ l → GET_SIZE m (HDRP x) < asize) := by
  induction l with
  | nil =>
    refine ⟨Or.inl rfl, ?_⟩
    intro _ _ x hx
    cases hx
  | cons y l ih =>
    rw [first_fit_cons]
    by_cases h : asize ≤ GET_SIZE m (HDRP y)
    · rw [if_pos h]
      refine ⟨Or.inr ⟨List.mem_cons_self _ _, h⟩, ?_⟩
      intro hnz h0
      exact absurd h0 (hnz y (List.mem_cons_self _ _))
    · rw [if_neg h]
      constructor
      · rcases ih.1 with h1 | h1
        · left; exact h1
        · right; exact ⟨List.mem_cons_of_mem _ h1.1, h1.2⟩
      · intro hnz h0 x hx
        rcases List.mem_cons.1 hx with h1 | h1
        · rw [h1]; omega
        · exact ih.2 (fun z hz => hnz z (List.mem_cons_of_mem _ hz)) h0 x h1

theorem first_fit_append (m : Mem) (asize : Nat) (l1 l2 : List Nat) :
    first_fit m asize (l1 ++ l2) =
      if first_fit m asize l1 ≠ 0 ∨ ¬ (∀ x, x ∈ l1 → GET_SIZE m (HDRP x) < asize)
      then first_fit m asize l1 else first_fit m asize l2 := by
  induction l1 with
  | nil =>
    rw [List.nil_append, first_fit_nil, if_neg]
    rintro (h | h)
    · exact h rfl
    · apply h
      intro x hx
      cases hx
  | cons y l ih =>
    rw [List.cons_append, first_fit_cons, first_fit_cons]
    by_cases h : asize ≤ GET_SIZE m (HDRP y)
    · rw [if_pos h, if_pos h, if_pos]
      right
      intro hc
      have := hc y (List.mem_cons_self _ _)
      omega
    · rw [if_neg h, if_neg h, ih]
      have e : (∀ x, x ∈ y :: l → GET_SIZE m (HDRP x) < asize) ↔
          (∀ x, x ∈ l → GET_SIZE m (HDRP x) < asize) := by
        constructor
        · intro hc x hx
          exact hc x (List.mem_cons_of_mem _ hx)
        · intro hc x hx
          rcases List.mem_cons.1 hx with h1 | h1
          · rw [h1]; omega
          · exact hc x h1
      simp only [e]

/-- The inner loop of `find_fit` over a null-terminated list returns the first member that
fits, or null; a fuel of one step per member and one more suffices. -/
theorem find_in_list_spec (m : Mem) (asize : Nat) (l : List Nat) :
    ∀ (fuel r : Nat), IsList m r l → l.length < fuel →
      Segregate.find_in_list m asize fuel r = some (first_fit m asize l) := by
  induction l with
  | nil =>
    intro fuel r h hf
    have h0 : r = 0 := h
    obtain ⟨f, rfl⟩ : ∃ f, fuel = f + 1 := ⟨fuel - 1, by simp at hf; omega⟩
    unfold Segregate.find_in_list
    rw [if_pos h0, first_fit_nil]
  | cons x l ih =>
    intro fuel r h hf
    obtain ⟨h1, h2, h3⟩ := h
    obtain ⟨f, rfl⟩ : ∃ f, fuel = f + 1 := ⟨fuel - 1, by simp at hf; omega⟩
    unfold Segregate.find_in_list
    rw [if_neg (by rw [h1]; exact h2), first_fit_cons, h1]
    by_cases h : asize ≤ GET_SIZE m (HDRP x)
    · rw [if_pos h, if_pos h]
    · rw [if_neg h, if_neg h]
      exact ih f _ h3 (by simp at hf; omega)

theorem IsList_nonzero {m : Mem} {r : Nat} {l : List Nat} (h : IsList m r l) :
    ∀ x, x ∈ l → x ≠ 0 := by
  induction l generalizing r with
  | nil => intro x hx; cases hx
  | cons y l ih =>
    intro x hx
    rcases List.mem_cons.1 hx with h1 | h1
    · rw [h1]; exact h.2.1
    · exact ih h.2.2 x h1

/-- The outer loop of `find_fit` scans the bucket lists `rank`, …, `rank + n - 1` in order and
returns the first member that fits, or null. -/
theorem find_from_rank_spec (fuel : Nat) (s : State) (asize : Nat) (L : Nat → List Nat) :
    ∀ (n rank : Nat),
      (∀ k, rank ≤ k → k < rank + n →
        IsList s.mem (Segregate.GET_RANK s k) (L k) ∧ (L k).length < fuel) →
      Segregate.find_from_rank fuel s asize n rank =
        some (first_fit s.mem asize (bucket_members L rank n)) := by
  intro n
  induction n with
  | zero =>
    intro rank _
    rfl
  | succ n ih =>
    intro rank h
    obtain ⟨h1, h2⟩ := h rank (Nat.le_refl _) (by omega)
    unfold Segregate.find_from_rank
    rw [find_in_list_spec s.mem asize (L rank) fuel _ h1 h2]
    show (if first_fit s.mem asize (L rank) ≠ 0 then some (first_fit s.mem asize (L rank))
      else Segregate.find_from_rank fuel s asize n (rank + 1)) =
        some (first_fit s.mem asize (L rank ++ bucket_members L (rank + 1) n))
    rw [first_fit_append, ih (rank + 1) (fun k hk1 hk2 => h k (by omega) (by omega))]
    have hs := first_fit_spec s.mem asize (L rank)
    by_cases hz : first_fit s.mem asize (L rank) ≠ 0
    · rw [if_pos hz, if_pos (Or.inl hz)]
    · rw [if_neg hz, if_neg]
      rintro (hc | hc)
      · exact hz hc
      · exact hc (hs.2 (IsList_nonzero h1) (not_not.1 hz))

theorem mem_bucket_members (L : Nat → List Nat) (x : Nat) :
    ∀ (n k : Nat), x ∈ bucket_members L k n ↔ ∃ j, k ≤ j ∧ j < k + n ∧ x ∈ L j := by
  intro n
  induction n with
  | zero =>
    intro k
    constructor
    · intro h
      cases h
    · rintro ⟨j, h1, h2, _⟩
      omega
  | succ n ih =>
    intro k
    show x ∈ L k ++ bucket_members L (k + 1) n ↔ _
    rw [List.mem_append, ih]
    constructor
    · rintro (h | ⟨j, h1, h2, h3⟩)
      · exact ⟨k, Nat.le_refl _, by omega, h⟩
      · exact ⟨j, by omega, by omega, h3⟩
    · rintro ⟨j, h1, h2, h3⟩
      by_cases hj : j = k
      · left; rw [← hj]; exact h3
      · right; exact ⟨j, by omega, by omega, h3⟩

/-- C31: in the segregated variant, on a heap whose ten bucket lists `L 0`, …, `L 9` are
null-terminated and hold blocks of their own rank, `find_fit(asize)` returns (with a fuel of
one step per member of the longest list and one more) the first member of size at least
`asize` met when scanning the lists `getRank asize`, …, `9` in order, each from its root, and
null when there is none; the result is null if and only if no member of any bucket has size
at least `asize`, and a non-null result is a bucket member of size at least `asize`. -/
theorem segregate_find_fit_spec (s : State) (asize fuel : Nat) (L : Nat → List Nat)
    (hl : ∀ k, k < 10 → IsList s.mem (Segregate.GET_RANK s k) (L k))
    (hf : ∀ k, k < 10 → (L k).length < fuel)
    (hr : ∀ k, k < 10 → ∀ x, x ∈ L k → Segregate.getRank (GET_SIZE s.mem (HDRP x)) = k) :
    Segregate.find_fit fuel s asize = some (first_fit s.mem asize
      (bucket_members L (Segregate.getRank asize) (10 - Segregate.getRank asize))) ∧
    (first_fit s.mem asize
        (bucket_members L (Segregate.getRank asize) (10 - Segregate.getRank asize)) = 0 ↔
      ∀ k, k < 10 → ∀ x, x ∈ L k → GET_SIZE s.mem (HDRP x) < asize) ∧
    (first_fit s.mem asize
        (bucket_members L (Segregate.getRank asize) (10 - Segregate.getRank asize)) ≠ 0 →
      (∃ k, k < 10 ∧ first_fit s.mem asize
        (bucket_members L (Segregate.getRank asize) (10 - Segregate.getRank asize)) ∈ L k) ∧
      asize ≤ GET_SIZE s.mem (HDRP (first_fit s.mem asize
        (bucket_members L (Segregate.getRank asize) (10 - Segregate.getRank asize))))) := by
  have hg := getRank_lt asize
  have hR : Segregate.RANKSIZE = 10 := rfl
  have hnz : ∀ x, x ∈ bucket_members L (Segregate.getRank asize)
      (10 - Segregate.getRank asize) → x ≠ 0 := by
    intro x hx
    obtain ⟨j, h1, h2, h3⟩ := (mem_bucket_members L x _ _).1 hx
    exact IsList_nonzero (hl j (by omega)) x h3
  have hs := first_fit_spec s.mem asize
    (bucket_members L (Segregate.getRank asize) (10 - Segregate.getRank asize))
  refine ⟨?_, ⟨?_, ?_⟩, ?_⟩
  · unfold Segregate.find_fit
    rw [hR]
    exact find_from_rank_spec fuel s asize L _ _
      (fun k hk1 hk2 => ⟨hl k (by omega), hf k (by omega)⟩)
  · intro h0 k hk x hx
    by_cases hk2 : Segregate.getRank asize ≤ k
    · exact hs.2 hnz h0 x ((mem_bucket_members L x _ _).2 ⟨k, hk2, by omega, hx⟩)
    · by_contra hc
      have h1 := getRank_mono (Nat.le_of_not_lt hc)
      rw [hr k hk x hx] at h1
      omega
  · intro hall
    rcases hs.1 with h1 | ⟨h1, h2⟩
    · exact h1
    · obtain ⟨j, j1, j2, j3⟩ := (mem_bucket_members L _ _ _).1 h1
      have := hall j (by omega) _ j3
      omega
  · intro hne
    rcases hs.1 with h1 | ⟨h1, h2⟩
    · exact absurd h1 hne
    · obtain ⟨j, j1, j2, j3⟩ := (mem_bucket_members L _ _ _).1 h1
      exact ⟨⟨j, by omega, j3⟩, h2⟩
theorem demo_buckets_IsList : ∀ k, k < 10 →
    IsList Segregate.demo_state.mem (Segregate.GET_RANK Segregate.demo_state k)
      (Segregate.demo_buckets k) := by
  intro k hk
  interval_cases k
  · exact (by decide! : Segregate.GET_RANK Segregate.demo_state 0 = 0)
  · exact (by decide! : Segregate.GET_RANK Segregate.demo_state 1 = 0)
  · exact (by decide! : Segregate.GET_RANK Segregate.demo_state 2 = 0)
  · exact (by decide! : Segregate.GET_RANK Segregate.demo_state 3 = 0)
  · exact (by decide! : Segregate.GET_RANK Segregate.demo_state 4 = 0)
  · exact (by decide! : Segregate.GET_RANK Segregate.demo_state 5 = 0)
  · exact (by decide! : Segregate.GET_RANK Segregate.demo_state 6 = 0)
  · exact (by decide! : Segregate.GET_RANK Segregate.demo_state 7 = 0)
  · exact ⟨(by decide! : Segregate.GET_RANK Segregate.demo_state 8 = 4168), by decide,
      (by decide! : NEXT Segregate.demo_state.mem 4168 = 0)⟩
  · exact (by decide! : Segregate.GET_RANK Segregate.demo_state 9 = 0)

theorem demo_buckets_rank : ∀ k, k < 10 → ∀ x, x ∈ Segregate.demo_buckets k →
    Segregate.getRank (GET_SIZE Segregate.demo_state.mem (HDRP x)) = k := by
  intro k _ x hx
  unfold Segregate.demo_buckets at hx
  by_cases h8 : k = 8
  · rw [if_pos h8] at hx
    rw [List.mem_singleton.1 hx, h8]
    decide!
  · rw [if_neg h8] at hx
    cases hx

/-- Witness of `segregate_find_fit_spec`: after `mm_init; mm_malloc(8)` the free block 4168 of
4080 bytes is the only bucket member, in list 8; `find_fit(24)` starts at list 0 and returns
it. -/
theorem segregate_find_fit_spec_witness :
    (∀ k, k < 10 → IsList Segregate.demo_state.mem
      (Segregate.GET_RANK Segregate.demo_state k) (Segregate.demo_buckets k)) ∧
    Segregate.find_fit 2 Segregate.demo_state 24 = some 4168 ∧
    Segregate.find_fit 2 Segregate.demo_state 24 = some (first_fit Segregate.demo_state.mem 24
      (bucket_members Segregate.demo_buckets (Segregate.getRank 24)
        (10 - Segregate.getRank 24))) :=
  ⟨demo_buckets_IsList, by decide!,
    (segregate_find_fit_spec Segregate.demo_state 24 2 Segregate.demo_buckets
      demo_buckets_IsList
      (fun k _ => by unfold Segregate.demo_buckets; split <;> decide)
      demo_buckets_rank).1⟩

/-! ## The function `place` on a well-formed heap (C28) -/

theorem NoAdj_right {L R : List Blk} (h : NoAdj (L ++ R)) : NoAdj R :=
  (List.chain'_append.1 h).2.1

/-- The neighbours of a free block of a well-formed heap map are not free. -/
theorem NoAdj_mid {L R : List Blk} {x : Blk} (h : NoAdj (L ++ x :: R)) (hx : x.2.2 = 0) :
    (∀ w, w ∈ L.getLast? → w.2.2 ≠ 0) ∧ (∀ n, n ∈ R.head? → n.2.2 ≠ 0) := by
  constructor
  · intro w hw hc
    exact (List.chain'_append.1 h).2.2 w hw x (by simp) ⟨hc, hx⟩
  · exact NoAdj_head (NoAdj_right h) hx

theorem Frees_skip (L R : List Blk) (a : Blk) (ha : a.2.2 ≠ 0) :
    Frees (L ++ a :: R) = Frees (L ++ R) := by
  ext f
  rw [Frees_append, Frees_append, Frees_cons]
  constructor
  · rintro (h | h | h)
    · left; exact h
    · exfalso
      apply ha
      rw [← h]
    · right; exact h
  · rintro (h | h)
    · left; exact h
    · right; right; exact h

theorem Inv_Part {I : State → Set (Nat × Nat) → Prop} {P lo : Nat} {s : State}
    {L R : List Blk} (h : Inv I P lo s (L ++ R)) : Part I P lo s L [] R :=
  ⟨h.lay, h.tags, h.epi, h.min16, NoAdj_left h.noadj, NoAdj_right h.noadj, h.idx, h.brk_le,
    h.max_lt⟩

theorem Part_Inv {I : State → Set (Nat × Nat) → Prop} {P lo : Nat} {s : State}
    {L R : List Blk} (h : Part I P lo s L [] R)
    (hb : ∀ w, w ∈ L.getLast? → ∀ n, n ∈ R.head? → ¬ (w.2.2 = 0 ∧ n.2.2 = 0)) :
    Inv I P lo s (L ++ R) :=
  ⟨h.lay, h.tags, h.epi, h.min16, NoAdj_append h.noadjL h.noadjR hb, h.idx, h.brk_le,
    h.max_lt⟩

/-- An allocated block at the end of the blocks under operation can be counted with the blocks
after them. -/
theorem Part_absorb_right {I : State → Set (Nat × Nat) → Prop} {P lo : Nat} {s : State}
    {L mid R : List Blk} {a : Blk} (h : Part I P lo s L (mid ++ [a]) R) (ha : a.2.2 ≠ 0) :
    Part I P lo s L mid (a :: R) := by
  have hl : L ++ (mid ++ [a] ++ R) = L ++ (mid ++ a :: R) := by simp
  refine ⟨?_, ?_, h.epi, ?_, h.noadjL, NoAdj_cons h.noadjR (fun h0 => absurd h0 ha), ?_,
    h.brk_le, h.max_lt⟩
  · rw [← hl]; exact h.lay
  · rw [← hl]; exact h.tags
  · rw [← hl]; exact h.min16
  · rw [Frees_skip L R a ha]; exact h.idx

/-- An allocated block at the start of the blocks under operation can be counted with the
blocks before them. -/
theorem Part_absorb_left {I : State → Set (Nat × Nat) → Prop} {P lo : Nat} {s : State}
    {L mid R : List Blk} {a : Blk} (h : Part I P lo s L (a :: mid) R) (ha : a.2.2 ≠ 0) :
    Part I P lo s (L ++ [a]) mid R := by
  have hl : L ++ [a] ++ (mid ++ R) = L ++ (a :: mid ++ R) := by simp
  have hf : Frees (L ++ [a] ++ R) = Frees (L ++ R) := by
    rw [List.append_assoc]
    exact Frees_skip L R a ha
  refine ⟨?_, ?_, h.epi, ?_, ?_, h.noadjR, ?_, h.brk_le, h.max_lt⟩
  · rw [hl]; exact h.lay
  · rw [hl]; exact h.tags
  · rw [hl]; exact h.min16
  · apply NoAdj_append h.noadjL (List.chain'_singleton _)
    intro w _ n hn hc
    simp at hn
    rw [← hn] at hc
    exact ha hc.2
  · rw [hf]; exact h.idx

/-- The four tag writes that split a span of `s1 + s2` bytes at the block pointer `q` into a
block of `s1` bytes and a block of `s2` bytes: the addresses the code computes, the tags
written, and the bytes left alone. -/
theorem geo_split (m : Mem) (q s1 s2 al1 al2 : Nat) (q4 : 4 ≤ q) (h1 : 8 ≤ s1) (h2 : 8 ≤ s2)
    (m1 : s1 % 8 = 0) (m2 : s2 % 8 = 0) (a1 : al1 ≤ 1) (a2 : al2 ≤ 1)
    (hlt : q + s1 + s2 < 4294967296) :
    FTRP (PUT m (q - 4) (s1 + al1)) q = q + s1 - 8 ∧
    HDRP (NEXT_BLKP (PUT (PUT m (q - 4) (s1 + al1)) (q + s1 - 8) (s1 + al1)) q) = q + s1 - 4 ∧
    FTRP (PUT (PUT (PUT m (q - 4) (s1 + al1)) (q + s1 - 8) (s1 + al1)) (q + s1 - 4) (s2 + al2))
      (NEXT_BLKP (PUT (PUT (PUT m (q - 4) (s1 + al1)) (q + s1 - 8) (s1 + al1)) (q + s1 - 4)
        (s2 + al2)) q) = q + s1 + s2 - 8 ∧
    NEXT_BLKP (PUT (PUT (PUT (PUT m (q - 4) (s1 + al1)) (q + s1 - 8) (s1 + al1)) (q + s1 - 4)
      (s2 + al2)) (q + s1 + s2 - 8) (s2 + al2)) q = q + s1 ∧
    Tag (PUT (PUT (PUT (PUT m (q - 4) (s1 + al1)) (q + s1 - 8) (s1 + al1)) (q + s1 - 4)
      (s2 + al2)) (q + s1 + s2 - 8) (s2 + al2)) (q, s1, al1) ∧
    Tag (PUT (PUT (PUT (PUT m (q - 4) (s1 + al1)) (q + s1 - 8) (s1 + al1)) (q + s1 - 4)
      (s2 + al2)) (q + s1 + s2 - 8) (s2 + al2)) (q + s1, s2, al2) ∧
    Frame (fun a => q - 4 ≤ a ∧ a < q + s1 + s2 - 4) m
      (PUT (PUT (PUT (PUT m (q - 4) (s1 + al1)) (q + s1 - 8) (s1 + al1)) (q + s1 - 4)
        (s2 + al2)) (q + s1 + s2 - 8) (s2 + al2)) := by
  have v1 : s1 + al1 < 4294967296 := by omega
  have v2 : s2 + al2 < 4294967296 := by omega
  have A1 : GET (PUT m (q - 4) (s1 + al1)) (q - 4) = s1 + al1 := GET_PUT_same _ _ _ v1
  have A2 : GET (PUT (PUT m (q - 4) (s1 + al1)) (q + s1 - 8) (s1 + al1)) (q - 4) = s1 + al1 := by
    rw [GET_PUT_other _ _ _ _ (by omega)]
    exact A1
  have A3 : GET (PUT (PUT (PUT m (q - 4) (s1 + al1)) (q + s1 - 8) (s1 + al1)) (q + s1 - 4)
      (s2 + al2)) (q - 4) = s1 + al1 := by
    rw [GET_PUT_other _ _ _ _ (by omega)]
    exact A2
  have A4 : GET (PUT (PUT (PUT (PUT m (q - 4) (s1 + al1)) (q + s1 - 8) (s1 + al1)) (q + s1 - 4)
      (s2 + al2)) (q + s1 + s2 - 8) (s2 + al2)) (q - 4) = s1 + al1 := by
    rw [GET_PUT_other _ _ _ _ (by omega)]
    exact A3
  have B3 : GET (PUT (PUT (PUT m (q - 4) (s1 + al1)) (q + s1 - 8) (s1 + al1)) (q + s1 - 4)
      (s2 + al2)) (q + s1 - 4) = s2 + al2 := GET_PUT_same _ _ _ v2
  have N2 : NEXT_BLKP (PUT (PUT m (q - 4) (s1 + al1)) (q + s1 - 8) (s1 + al1)) q = q + s1 :=
    next_of_hdr A2 m1 a1 q4 (by omega)
  have N3 : NEXT_BLKP (PUT (PUT (PUT m (q - 4) (s1 + al1)) (q + s1 - 8) (s1 + al1)) (q + s1 - 4)
      (s2 + al2)) q = q + s1 := next_of_hdr A3 m1 a1 q4 (by omega)
  refine ⟨?_, ?_, ?_, next_of_hdr A4 m1 a1 q4 (by omega), ⟨A4, ?_⟩, ⟨?_, ?_⟩, ?_⟩
  · exact ftr_of_hdr A1 m1 a1 q4 h1 (by omega)
  · rw [N2]
    exact HDRP_sub (by omega) (by omega)
  · rw [N3]
    have B3b : GET (PUT (PUT (PUT m (q - 4) (s1 + al1)) (q + s1 - 8) (s1 + al1)) (q + s1 - 4)
        (s2 + al2)) (q + s1 - 4) = s2 + al2 := B3
    rw [ftr_of_hdr B3b m2 a2 (by omega) h2 (by omega)]
  · show GET _ (q + s1 - 8) = s1 + al1
    rw [GET_PUT_other _ _ _ _ (by omega), GET_PUT_other _ _ _ _ (by omega)]
    exact GET_PUT_same _ _ _ v1
  · show GET _ (q + s1 - 4) = s2 + al2
    rw [GET_PUT_other _ _ _ _ (by omega)]
    exact B3
  · show GET _ (q + s1 + s2 - 8) = s2 + al2
    exact GET_PUT_same _ _ _ v2
  · intro c hc
    have hc2 : ¬ (q - 4 ≤ c ∧ c < q + s1 + s2 - 4) := hc
    rw [PUT_other _ _ _ _ (by omega), PUT_other _ _ _ _ (by omega),
      PUT_other _ _ _ _ (by omega), PUT_other _ _ _ _ (by omega)]

/-- The two tag writes that retag a block of `c` bytes at the block pointer `q`. -/
theorem geo_whole (m : Mem) (q c al : Nat) (q4 : 4 ≤ q) (h1 : 8 ≤ c) (m1 : c % 8 = 0)
    (a1 : al ≤ 1) (hlt : q + c < 4294967296) :
    FTRP (PUT m (q - 4) (c + al)) q = q + c - 8 ∧
    Tag (PUT (PUT m (q - 4) (c + al)) (q + c - 8) (c + al)) (q, c, al) ∧
    Frame (fun a => q - 4 ≤ a ∧ a < q + c - 4) m
      (PUT (PUT m (q - 4) (c + al)) (q + c - 8) (c + al)) := by
  have v1 : c + al < 4294967296 := by omega
  have A1 : GET (PUT m (q - 4) (c + al)) (q - 4) = c + al := GET_PUT_same _ _ _ v1
  refine ⟨ftr_of_hdr A1 m1 a1 q4 h1 hlt, ⟨?_, ?_⟩, ?_⟩
  · show GET _ (q - 4) = c + al
    rw [GET_PUT_other _ _ _ _ (by omega)]
    exact A1
  · show GET _ (q + c - 8) = c + al
    exact GET_PUT_same _ _ _ v1
  · intro d hd
    have hd2 : ¬ (q - 4 ≤ d ∧ d < q + c - 4) := hd
    rw [PUT_other _ _ _ _ (by omega), PUT_other _ _ _ _ (by omega)]

/-- The first case of `place` (the whole block is used) with the computed values named. -/
theorem place_eq_whole (X : Generic.Index) (s : State) (bp asize : Nat) {c v a b : Nat}
    (hc : GET_SIZE (X.esc s bp).mem (HDRP bp) = c) (hle : sub32 c asize ≤ 2 * DSIZE)
    (hv : PACK c 1 = v) (ha : HDRP bp = a) (hb : FTRP (PUT (X.esc s bp).mem a v) bp = b) :
    Generic.place X s bp asize =
      { X.esc s bp with mem := PUT (PUT (X.esc s bp).mem a v) b v } := by
  subst hb ha hv hc
  unfold Generic.place
  dsimp only
  rw [if_pos hle]

/-- The second case of `place` (the allocated block is put at the tail) with the computed
values named. -/
theorem place_eq_tail (X : Generic.Index) (s : State) (bp asize : Nat)
    {c v1 v2 a b e d : Nat}
    (hc : GET_SIZE (X.esc s bp).mem (HDRP bp) = c) (hgt : ¬ sub32 c asize ≤ 2 * DSIZE)
    (hcut : asize ≥ X.cut) (hv1 : PACK (sub32 c asize) 0 = v1) (hv2 : PACK asize 1 = v2)
    (ha : HDRP bp = a) (hb : FTRP (PUT (X.esc s bp).mem a v1) bp = b)
    (he : HDRP (NEXT_BLKP (PUT (PUT (X.esc s bp).mem a v1) b v1) bp) = e)
    (hd : FTRP (PUT (PUT (PUT (X.esc s bp).mem a v1) b v1) e v2)
      (NEXT_BLKP (PUT (PUT (PUT (X.esc s bp).mem a v1) b v1) e v2) bp) = d) :
    Generic.place X s bp asize =
      X.ins { X.esc s bp with
        mem := PUT (PUT (PUT (PUT (X.esc s bp).mem a v1) b v1) e v2) d v2 } bp := by
  subst hd he hb ha hv2 hv1 hc
  unfold Generic.place
  dsimp only
  rw [if_neg hgt, if_pos hcut]

/-- The third case of `place` (the allocated block is put at the head) with the computed
values named. -/
theorem place_eq_head (X : Generic.Index) (s : State) (bp asize : Nat)
    {c v1 v2 a b e d n : Nat}
    (hc : GET_SIZE (X.esc s bp).mem (HDRP bp) = c) (hgt : ¬ sub32 c asize ≤ 2 * DSIZE)
    (hcut : ¬ asize ≥ X.cut) (hv1 : PACK asize 1 = v1) (hv2 : PACK (sub32 c asize) 0 = v2)
    (ha : HDRP bp = a) (hb : FTRP (PUT (X.esc s bp).mem a v1) bp = b)
    (he : HDRP (NEXT_BLKP (PUT (PUT (X.esc s bp).mem a v1) b v1) bp) = e)
    (hd : FTRP (PUT (PUT (PUT (X.esc s bp).mem a v1) b v1) e v2)
      (NEXT_BLKP (PUT (PUT (PUT (X.esc s bp).mem a v1) b v1) e v2) bp) = d)
    (hn : NEXT_BLKP (PUT (PUT (PUT (PUT (X.esc s bp).mem a v1) b v1) e v2) d v2) bp = n) :
    Generic.place X s bp asize =
      X.ins { X.esc s bp with
        mem := PUT (PUT (PUT (PUT (X.esc s bp).mem a v1) b v1) e v2) d v2 } n := by
  subst hn hd he hb ha hv2 hv1 hc
  unfold Generic.place
  dsimp only
  rw [if_neg hgt, if_neg hcut]

theorem place_map_whole (cut : Nat) (x : Blk) (asize : Nat) (h : x.2.1 - asize ≤ 16) :
    place_map cut x asize = [(x.1, x.2.1, 1)] := by
  unfold place_map
  rw [if_pos h]

theorem place_map_tail (cut : Nat) (x : Blk) (asize : Nat) (h : ¬ x.2.1 - asize ≤ 16)
    (hc : asize ≥ cut) :
    place_map cut x asize = [(x.1, x.2.1 - asize, 0), (x.1 + (x.2.1 - asize), asize, 1)] := by
  unfold place_map
  rw [if_neg h, if_pos hc]

theorem place_map_head (cut : Nat) (x : Blk) (asize : Nat) (h : ¬ x.2.1 - asize ≤ 16)
    (hc : ¬ asize ≥ cut) :
    place_map cut x asize = [(x.1, asize, 1), (x.1 + asize, x.2.1 - asize, 0)] := by
  unfold place_map
  rw [if_neg h, if_neg hc]

/-- The numbers `place` computes for the free block `x` after its removal from the index. -/
theorem place_numbers {m : Mem} {x : Blk} {asize : Nat} (tx : Tag m x) (x8 : x.2.1 % 8 = 0)
    (xa : x.2.2 ≤ 1) (x4 : 4 ≤ x.1) (hlt : x.1 + x.2.1 < 4294967296) (h8 : asize % 8 = 0)
    (hle : asize ≤ x.2.1) :
    GET_SIZE m (HDRP x.1) = x.2.1 ∧ sub32 x.2.1 asize = x.2.1 - asize ∧
    HDRP x.1 = x.1 - 4 ∧ PACK x.2.1 1 = x.2.1 + 1 ∧ PACK asize 1 = asize + 1 ∧
    PACK (x.2.1 - asize) 0 = (x.2.1 - asize) + 0 := by
  refine ⟨(tag_hdr tx x8 xa x4 (by omega)).1, sub32_eq hle (by omega),
    HDRP_sub x4 (by omega), PACK_eq _ _ x8 (by decide), PACK_eq _ _ h8 (by decide),
    PACK_eq _ _ (by omega) (by decide)⟩

/-- The function `place` on a well-formed heap: the free block `x`, a member of the free
index, is replaced by the blocks `place_map cut x asize`; the result is a well-formed heap
and the break does not move. -/
theorem place_inv {X : Generic.Index} {I : State → Set (Nat × Nat) → Prop} {P lo : Nat}
    (hX : IndexSpec X I (lo + 8) (lo + P)) {s : State} {L R : List Blk} {x : Blk}
    (h : Inv I P lo s (L ++ x :: R)) (hx : x.2.2 = 0) {asize : Nat} (h8 : asize % 8 = 0)
    (h16 : 16 ≤ asize) (hle : asize ≤ x.2.1) :
    Inv I P lo (Generic.place X s x.1 asize) (L ++ (place_map X.cut x asize ++ R)) ∧
      (Generic.place X s x.1 asize).mem_brk = s.mem_brk ∧
      (Generic.place X s x.1 asize).mem_max_addr = s.mem_max_addr := by
  obtain ⟨hl, hr⟩ := NoAdj_mid h.noadj hx
  obtain ⟨k1, kb, km⟩ := Part_esc_right hX (Inv_Part h) hx
  obtain ⟨q, r, a1, a2, a3, a4, a5, a6, a7, a8, a9, pL, pM, pR⟩ := Part_pos k1
  have a2b : Lay q (x :: []) r := a2
  obtain ⟨c1, c2, c3, c4, c5⟩ := a2b
  subst c1
  have c6 : x.1 + x.2.1 = r := c5
  subst c6
  obtain ⟨tx, _⟩ := Part_blk k1 x (by simp)
  have x16 : 16 ≤ x.2.1 := (pM x (by simp)).2.2
  have x4 : 4 ≤ x.1 := by omega
  have xlt : x.1 + x.2.1 < 4294967296 := by omega
  obtain ⟨n1, n2, n3, n4, n5, n6⟩ := place_numbers tx c3 c4 x4 xlt h8 hle
  have one : (1 : Nat) ≠ 0 := Nat.succ_ne_zero 0
  by_cases hrem : x.2.1 - asize ≤ 16
  · obtain ⟨g1, g2, g3⟩ := geo_whole (X.esc s x.1).mem x.1 x.2.1 1 x4 c2 c3 (Nat.le_refl 1) xlt
    rw [place_map_whole _ x asize hrem,
      place_eq_whole X s x.1 asize n1 (by rw [n2]; exact hrem) n4 n3 g1]
    have pr := Part_retag hX k1 [(x.1, x.2.1, 1)] _ x.1 (x.1 + x.2.1) a1 a2
      ⟨rfl, c2, c3, Nat.le_refl 1, rfl⟩ g3
      (by intro b hb; rw [List.mem_singleton.1 hb]; exact ⟨g2, x16⟩)
    have pa := Part_absorb_right
      (show Part I P lo _ L ([] ++ [(x.1, x.2.1, 1)]) R from pr) one
    refine ⟨Part_Inv pa ?_, kb, km⟩
    intro w _ n hn hc
    simp at hn
    rw [← hn] at hc
    exact one hc.2
  · have r8 : 8 ≤ x.2.1 - asize := by omega
    have r16 : 16 ≤ x.2.1 - asize := by omega
    have rm : (x.2.1 - asize) % 8 = 0 := by omega
    have a8b : 8 ≤ asize := by omega
    have hgt : ¬ sub32 x.2.1 asize ≤ 2 * DSIZE := by rw [n2]; exact hrem
    have hv0 : PACK (sub32 x.2.1 asize) 0 = (x.2.1 - asize) + 0 := by rw [n2]; exact n6
    by_cases hcut : asize ≥ X.cut
    · have e : x.1 + (x.2.1 - asize) + asize = x.1 + x.2.1 := by omega
      have elt : x.1 + (x.2.1 - asize) + asize < 4294967296 := by omega
      clear a4 a5 a6 a9 xlt x16 r8 hle hrem
      obtain ⟨g1, g2, g3, g4, g5, g6, g7⟩ := geo_split (X.esc s x.1).mem x.1 (x.2.1 - asize)
        asize 0 1 x4 (Nat.le_trans (by decide) r16) a8b rm h8 (Nat.zero_le 1) (Nat.le_refl 1)
        elt
      rw [place_map_tail _ x asize (by rw [← n2]; exact hgt) hcut,
        place_eq_tail X s x.1 asize n1 hgt hcut hv0 n5 n3 g1 g2 g3]
      have g8 : Frame (fun a => x.1 - 4 ≤ a ∧ a < x.1 + x.2.1 - 4) (X.esc s x.1).mem _ :=
        Frame_mono g7 (fun a ha => by
          show x.1 - 4 ≤ a ∧ a < x.1 + x.2.1 - 4
          rw [← e]
          exact ha)
      have pr := Part_retag hX k1
        [(x.1, x.2.1 - asize, 0), (x.1 + (x.2.1 - asize), asize, 1)] _ x.1 (x.1 + x.2.1) a1 a2
        ⟨rfl, Nat.le_trans (by decide) r16, rm, Nat.zero_le 1, rfl, a8b, h8, Nat.le_refl 1, e⟩
        g8
        (by
          intro b hb
          rcases List.mem_cons.1 hb with hb1 | hb1
          · rw [hb1]; exact ⟨g5, r16⟩
          · rw [List.mem_singleton.1 hb1]; exact ⟨g6, h16⟩)
      have pa := Part_absorb_right
        (show Part I P lo _ L ([(x.1, x.2.1 - asize, 0)] ++
          [(x.1 + (x.2.1 - asize), asize, 1)]) R from pr) one
      obtain ⟨f1, f2, f3⟩ := Part_ins hX pa rfl hl
        (by intro n hn hc; simp at hn; rw [← hn] at hc; exact one hc)
      exact ⟨f1, f2.trans kb, f3.trans km⟩
    · have e : x.1 + asize + (x.2.1 - asize) = x.1 + x.2.1 := by omega
      have elt : x.1 + asize + (x.2.1 - asize) < 4294967296 := by omega
      clear a4 a5 a6 a9 xlt x16 r8 hle hrem
      obtain ⟨g1, g2, g3, g4, g5, g6, g7⟩ := geo_split (X.esc s x.1).mem x.1 asize
        (x.2.1 - asize) 1 0 x4 a8b (Nat.le_trans (by decide) r16) h8 rm (Nat.le_refl 1)
        (Nat.zero_le 1) elt
      rw [place_map_head _ x asize (by rw [← n2]; exact hgt) hcut,
        place_eq_head X s x.1 asize n1 hgt hcut n5 hv0 n3 g1 g2 g3 g4]
      have g8 : Frame (fun a => x.1 - 4 ≤ a ∧ a < x.1 + x.2.1 - 4) (X.esc s x.1).mem _ :=
        Frame_mono g7 (fun a ha => by
          show x.1 - 4 ≤ a ∧ a < x.1 + x.2.1 - 4
          rw [← e]
          exact ha)
      have pr := Part_retag hX k1
        [(x.1, asize, 1), (x.1 + asize, x.2.1 - asize, 0)] _ x.1 (x.1 + x.2.1) a1 a2
        ⟨rfl, a8b, h8, Nat.le_refl 1, rfl, Nat.le_trans (by decide) r16, rm, Nat.zero_le 1, e⟩
        g8
        (by
          intro b hb
          rcases List.mem_cons.1 hb with hb1 | hb1
          · rw [hb1]; exact ⟨g5, h16⟩
          · rw [List.mem_singleton.1 hb1]; exact ⟨g6, r16⟩)
      have pa := Part_absorb_left pr one
      obtain ⟨f1, f2, f3⟩ := Part_ins hX pa rfl
        (by intro w hw hc; simp at hw; rw [← hw] at hc; exact one hc) hr
      have el : L ++ [(x.1, asize, 1)] ++ (x.1 + asize, x.2.1 - asize, 0) :: R =
          L ++ ([(x.1, asize, 1), (x.1 + asize, x.2.1 - asize, 0)] ++ R) := by simp
      rw [el] at f1
      exact ⟨f1, f2.trans kb, f3.trans km⟩

theorem explicit_place_eq (s : State) (bp a : Nat) :
    Explicit.place s bp a = Generic.place Explicit.index s bp a := rfl

theorem place_map_sum (cut : Nat) (x : Blk) (asize : Nat) (hle : asize ≤ x.2.1) :
    ((place_map cut x asize).map (fun b => b.2.1)).sum = x.2.1 ∧
    ∀ b, b ∈ place_map cut x asize → b.2.2 = 1 → asize ≤ b.2.1 ∧ b.2.1 ≤ asize + 16 := by
  by_cases h : x.2.1 - asize ≤ 16
  · rw [place_map_whole cut x asize h]
    refine ⟨by simp, ?_⟩
    intro b hb _
    rw [List.mem_singleton.1 hb]
    show asize ≤ x.2.1 ∧ x.2.1 ≤ asize + 16
    omega
  · by_cases hc : asize ≥ cut
    · rw [place_map_tail cut x asize h hc]
      refine ⟨by simp; omega, ?_⟩
      intro b hb hb1
      rcases List.mem_cons.1 hb with h1 | h1
      · rw [h1] at hb1
        cases hb1
      · rw [List.mem_singleton.1 h1]
        show asize ≤ asize ∧ asize ≤ asize + 16
        omega
    · rw [place_map_head cut x asize h hc]
      refine ⟨by simp; omega, ?_⟩
      intro b hb hb1
      rcases List.mem_cons.1 hb with h1 | h1
      · rw [h1]
        show asize ≤ asize ∧ asize ≤ asize + 16
        omega
      · rw [List.mem_singleton.1 h1] at hb1
        cases hb1

/-- C28: in the explicit variant, on a consistent heap with the free block `x` (a list member
of `csize = x.2.1` bytes) between the blocks `L` and `R`, and for `asize` a multiple of 8 with
`16 <= asize <= csize`, `place(x, asize)` leaves a consistent heap in which `x` is replaced
by the blocks `place_map 100 x asize` and whose free list holds exactly the free blocks of
the new map: the whole block allocated when `csize - asize <= 16`; a free block of
`csize - asize` bytes at `x` followed by an allocated block of `asize` bytes when the
remainder exceeds 16 and `asize >= 100`; an allocated block of `asize` bytes at `x` followed
by a free block of `csize - asize` bytes otherwise.  The parts cover exactly `csize` bytes
and the allocated part exceeds `asize` by at most 16 bytes. -/
theorem explicit_place_spec (lo : Nat) (s : State) (L R : List Blk) (x : Blk) (asize : Nat)
    (h : Inv Explicit.Idx 8 lo s (L ++ x :: R)) (hx : x.2.2 = 0) (h8 : asize % 8 = 0)
    (h16 : 16 ≤ asize) (hle : asize ≤ x.2.1) :
    Inv Explicit.Idx 8 lo (Explicit.place s x.1 asize) (L ++ (place_map 100 x asize ++ R)) ∧
    place_map 100 x asize =
      (if x.2.1 - asize ≤ 16 then [(x.1, x.2.1, 1)]
       else if asize ≥ 100 then
         [(x.1, x.2.1 - asize, 0), (x.1 + (x.2.1 - asize), asize, 1)]
       else [(x.1, asize, 1), (x.1 + asize, x.2.1 - asize, 0)]) ∧
    ((place_map 100 x asize).map (fun b => b.2.1)).sum = x.2.1 ∧
    (∀ b, b ∈ place_map 100 x asize → b.2.2 = 1 → asize ≤ b.2.1 ∧ b.2.1 ≤ asize + 16) := by
  have hp := place_inv (explicit_index_spec (lo + 8) (lo + 8)) h hx h8 h16 hle
  have hs := place_map_sum 100 x asize hle
  rw [explicit_place_eq]
  exact ⟨hp.1, rfl, hs.1, hs.2⟩

theorem explicit_fresh_Inv :
    Inv Explicit.Idx 8 4096 Explicit.fresh_state ([] ++ [(4112, 4112, 0)]) := by
  have hbrk : Explicit.fresh_state.mem_brk = 8224 := by decide!
  have hmax : Explicit.fresh_state.mem_max_addr = 1048576 := by decide!
  refine ⟨?_, ?_, ?_, ?_, List.chain'_singleton _, ?_, ?_, ?_⟩
  · rw [hbrk]
    exact ⟨rfl, by decide, by decide, by decide, rfl, by decide, by decide, by decide, rfl⟩
  · intro b hb
    simp only [List.nil_append, List.mem_cons, List.mem_singleton, List.not_mem_nil,
      or_false] at hb
    rcases hb with h | h
    · rw [h]; exact ⟨by decide!, by decide!⟩
    · rw [h]; exact ⟨by decide!, by decide!⟩
  · rw [hbrk]; decide!
  · intro b hb
    simp only [List.nil_append, List.mem_singleton] at hb
    rw [hb]; decide
  · refine ⟨[4112], ⟨by decide, by decide, by decide!, by decide!⟩, ?_, ?_, ?_⟩
    · intro x
      constructor
      · intro hx
        rw [List.mem_singleton.1 hx]
        exact ⟨4112, List.mem_singleton.2 rfl⟩
      · rintro ⟨sz, hsz⟩
        have h1 : (x, sz, 0) = ((4112, 4112, 0) : Blk) := List.mem_singleton.1 hsz
        rw [(Prod.mk.inj h1).1]
        exact List.mem_singleton.2 rfl
    · intro h
      cases h
    · intro _
      exact ⟨by decide!, by decide!⟩
  · rw [hbrk, hmax]; decide
  · rw [hmax]; decide

/-- Witness of `explicit_place_spec`: `place(4112, 24)` on the heap after `mm_init`, whose only
block is the free block of 4112 bytes at 4112. -/
theorem explicit_place_spec_witness :
    Inv Explicit.Idx 8 4096 Explicit.fresh_state ([] ++ [(4112, 4112, 0)]) ∧
    Inv Explicit.Idx 8 4096 (Explicit.place Explicit.fresh_state 4112 24)
      [(4112, 24, 1), (4136, 4088, 0)] :=
  ⟨explicit_fresh_Inv,
    (explicit_place_spec 4096 Explicit.fresh_state [] [] (4112, 4112, 0) 24 explicit_fresh_Inv
      rfl (by decide) (by decide) (by decide)).1⟩

/-! ## The function `extend_heap` on a well-formed heap (C35) -/

/-- The number of bytes asked of the provider is a multiple of 8, also when the 32-bit
product wraps. -/
theorem ext_bytes_mod (words : Nat) : ext_bytes words % 8 = 0 ∧ ext_bytes words < 4294967296 := by
  unfold ext_bytes mul32 add32 W32 WSIZE
  split <;> omega

/-- Without 32-bit overflow the number of bytes asked of the provider is the least multiple
of 8 that is at least `4 * words`. -/
theorem ext_bytes_least (words : Nat) (h : words ≤ 1073741822) :
    ext_bytes words % 8 = 0 ∧ 4 * words ≤ ext_bytes words ∧ ext_bytes words < 4 * words + 8 := by
  unfold ext_bytes mul32 add32 W32 WSIZE
  split <;> omega

/-- The three tag writes of `extend_heap` for a new block of `n` bytes at the old break `bp`:
the addresses the code computes, the tags written and the bytes left alone. -/
theorem geo_extend (m : Mem) (bp n : Nat) (b4 : 4 ≤ bp) (n8 : 8 ≤ n) (nm : n % 8 = 0)
    (hlt : bp + n < 4294967296) :
    HDRP bp = bp - 4 ∧ PACK n 0 = n + 0 ∧ PACK 0 1 = 0 + 1 ∧
    FTRP (PUT m (bp - 4) (n + 0)) bp = bp + n - 8 ∧
    HDRP (NEXT_BLKP (PUT (PUT m (bp - 4) (n + 0)) (bp + n - 8) (n + 0)) bp) = bp + n - 4 ∧
    Tag (PUT (PUT (PUT m (bp - 4) (n + 0)) (bp + n - 8) (n + 0)) (bp + n - 4) (0 + 1))
      (bp, n, 0) ∧
    GET (PUT (PUT (PUT m (bp - 4) (n + 0)) (bp + n - 8) (n + 0)) (bp + n - 4) (0 + 1))
      (bp + n - 4) = 1 ∧
    Frame (fun a => bp - 4 ≤ a)  m
      (PUT (PUT (PUT m (bp - 4) (n + 0)) (bp + n - 8) (n + 0)) (bp + n - 4) (0 + 1)) := by
  have v1 : n + 0 < 4294967296 := by omega
  have A1 : GET (PUT m (bp - 4) (n + 0)) (bp - 4) = n + 0 := GET_PUT_same _ _ _ v1
  have A2 : GET (PUT (PUT m (bp - 4) (n + 0)) (bp + n - 8) (n + 0)) (bp - 4) = n + 0 := by
    rw [GET_PUT_other _ _ _ _ (by omega)]
    exact A1
  refine ⟨HDRP_sub b4 (by omega), PACK_eq _ _ nm (by decide), by decide,
    ftr_of_hdr A1 nm (by decide) b4 n8 hlt, ?_, ⟨?_, ?_⟩, GET_PUT_same _ _ _ (by decide), ?_⟩
  · rw [next_of_hdr A2 nm (by decide) b4 hlt]
    exact HDRP_sub (by omega) hlt
  · show GET _ (bp - 4) = n + 0
    rw [GET_PUT_other _ _ _ _ (by omega)]
    exact A2
  · show GET _ (bp + n - 8) = n + 0
    rw [GET_PUT_other _ _ _ _ (by omega)]
    exact GET_PUT_same _ _ _ v1
  · intro c hc
    have hc2 : ¬ (bp - 4 ≤ c) := hc
    rw [PUT_other _ _ _ _ (by omega), PUT_other _ _ _ _ (by omega),
      PUT_other _ _ _ _ (by omega)]

/-- A well-formed heap whose break has moved up by `n` bytes and in which the old epilogue
header and the new bytes hold a free block of `n` bytes and a new epilogue header, is a heap
in which `coalesce` may be called on the new block. -/
theorem Inv_extend {X : Generic.Index} {I : State → Set (Nat × Nat) → Prop} {P lo : Nat}
    (hX : IndexSpec X I (lo + 8) (lo + P)) {s : State} {bs : List Blk}
    (h : Inv I P lo s bs) (n : Nat) (n16 : 16 ≤ n) (nm : n % 8 = 0)
    (hle : s.mem_brk + n ≤ s.mem_max_addr) (m1 : Mem)
    (hfr : Frame (fun a => s.mem_brk - 4 ≤ a) s.mem m1)
    (ht : Tag m1 (s.mem_brk, n, 0)) (he : GET m1 (s.mem_brk + n - 4) = 1) :
    PreCo I P lo { s with mem := m1, mem_brk := s.mem_brk + n } bs (s.mem_brk, n, 0) [] := by
  have hP : Part I P lo s bs [] [] := Inv_Part (by rw [List.append_nil]; exact h)
  obtain ⟨q, r, a1, a2, a3, a4, a5, a6, a7, a8, a9, pL, pM, pR⟩ := Part_pos hP
  have e1 : q = r := a2
  have e2 : r = s.mem_brk := a3
  subst e1
  subst e2
  have hsub : ∀ f, f ∈ Frees (bs ++ []) → f ∈ Frees (bs ++ ([] ++ [])) := by
    intro f hf
    simpa using hf
  have own : ∀ a, Own (lo + 8) (lo + P) (Frees (bs ++ [])) a → ¬ (s.mem_brk - 4 ≤ a) := by
    intro a ha
    rcases ha with ha | ⟨f, hf, ha⟩
    · omega
    · rcases (Frees_append _ _ _).1 hf with h1 | h1
      · have := pL _ h1
        simp only at this
        omega
      · cases h1
  refine ⟨⟨?_, ?_, he, ?_, hP.noadjL, List.chain'_nil, ?_, hle, h.max_lt⟩, rfl⟩
  · have : Lay (lo + 8) (((lo + 8, P, 1) :: bs) ++ ([(s.mem_brk, n, 0)] ++ []))
        (s.mem_brk + n) :=
      (Lay_append _ _ _ _).2 ⟨s.mem_brk, a1,
        ⟨rfl, Nat.le_trans (by decide) n16, nm, Nat.zero_le 1, rfl⟩⟩
    exact this
  · intro b hb
    rcases List.mem_cons.1 hb with h1 | h1
    · apply Tag_congr (h.tags b (by rw [h1]; exact List.mem_cons_self _ _))
      · apply Frame_GET hfr
        intro a c1 c2
        rw [h1] at c1 c2
        simp only at c1 c2
        omega
      · apply Frame_GET hfr
        intro a c1 c2
        rw [h1] at c1 c2
        simp only at c1 c2
        omega
    · rcases List.mem_append.1 h1 with h2 | h2
      · have := pL b h2
        apply Tag_congr (h.tags b (List.mem_cons_of_mem _ h2))
        · apply Frame_GET hfr
          intro a c1 c2
          omega
        · apply Frame_GET hfr
          intro a c1 c2
          omega
      · simp only [List.append_nil, List.mem_singleton] at h2
        rw [h2]
        exact ht
  · intro b hb
    rcases List.mem_append.1 hb with h2 | h2
    · exact h.min16 b h2
    · simp only [List.append_nil, List.mem_singleton] at h2
      rw [h2]
      exact n16
  · exact hX.frame s _ _ hP.idx (SepF_mono (Part_SepF hP) hsub) rfl rfl
      (fun a ha => hfr a (own a ha))

/-- The state in which `extend_heap(words)` calls `coalesce` on the new block, and the
addresses and tag words the code computes on the way. -/
theorem extend_pre {X : Generic.Index} {I : State → Set (Nat × Nat) → Prop} {P lo : Nat}
    (hX : IndexSpec X I (lo + 8) (lo + P)) {s : State} {bs : List Blk}
    (h : Inv I P lo s bs) (n : Nat) (n16 : 16 ≤ n) (nm : n % 8 = 0)
    (hs : ¬ s.mem_brk + n > s.mem_max_addr) :
    ∃ a v b e v2, HDRP s.mem_brk = a ∧ PACK n 0 = v ∧ FTRP (PUT s.mem a v) s.mem_brk = b ∧
      HDRP (NEXT_BLKP (PUT (PUT s.mem a v) b v) s.mem_brk) = e ∧ PACK 0 1 = v2 ∧
      PreCo I P lo { s with mem := PUT (PUT (PUT s.mem a v) b v) e v2,
                            mem_brk := s.mem_brk + n } bs (s.mem_brk, n, 0) [] := by
  have hle : s.mem_brk + n ≤ s.mem_max_addr := Nat.le_of_not_lt hs
  have hmax := h.max_lt
  have hlay := Lay_le _ _ _ h.lay
  have hb4 : 4 ≤ s.mem_brk := by omega
  have hlt : s.mem_brk + n < 4294967296 := by omega
  have n8 : 8 ≤ n := by omega
  clear hlay hmax hs
  obtain ⟨g1, g2, g3, g4, g5, g6, g7, g8⟩ := geo_extend s.mem s.mem_brk n hb4 n8 nm hlt
  exact ⟨_, _, _, _, _, g1, g2, g4, g5, g3, Inv_extend hX h n n16 nm hle _ g8 g6 g7⟩

/-- The function `extend_heap` of `mm-explicit.c` when the provider grants the extension, with
the computed values named. -/
theorem explicit_extend_heap_at (s : State) (w : Nat)
    (hs : ¬ s.mem_brk + ext_bytes w > s.mem_max_addr) {a v b e v2 : Nat}
    (ha : HDRP s.mem_brk = a) (hv : PACK (ext_bytes w) 0 = v)
    (hb : FTRP (PUT s.mem a v) s.mem_brk = b)
    (he : HDRP (NEXT_BLKP (PUT (PUT s.mem a v) b v) s.mem_brk) = e) (hv2 : PACK 0 1 = v2) :
    Explicit.extend_heap s w =
      some (Explicit.coalesce { s with mem := PUT (PUT (PUT s.mem a v) b v) e v2,
                                       mem_brk := s.mem_brk + ext_bytes w } s.mem_brk) := by
  subst hv2 he hb hv ha
  have hm := mem_sbrk_some s (ext_bytes w) hs
  unfold ext_bytes at hm
  unfold Explicit.extend_heap ext_bytes
  dsimp only
  rw [hm]

/-- The function `extend_heap` of `mm-segregate.c` when the provider grants the extension,
with the computed values named. -/
theorem segregate_extend_heap_at (s : State) (w : Nat)
    (hs : ¬ s.mem_brk + ext_bytes w > s.mem_max_addr) {a v b e v2 : Nat}
    (ha : HDRP s.mem_brk = a) (hv : PACK (ext_bytes w) 0 = v)
    (hb : FTRP (PUT s.mem a v) s.mem_brk = b)
    (he : HDRP (NEXT_BLKP (PUT (PUT s.mem a v) b v) s.mem_brk) = e) (hv2 : PACK 0 1 = v2) :
    Segregate.extend_heap s w =
      some (Segregate.coalesce { s with mem := PUT (PUT (PUT s.mem a v) b v) e v2,
                                        mem_brk := s.mem_brk + ext_bytes w } s.mem_brk) := by
  subst hv2 he hb hv ha
  have hm := mem_sbrk_some s (ext_bytes w) hs
  unfold ext_bytes at hm
  unfold Segregate.extend_heap ext_bytes
  dsimp only
  rw [hm]

/-- The function `extend_heap` of `mm-explicit.c` on a well-formed heap. -/
theorem explicit_extend_heap_inv {lo : Nat} {s : State} {bs : List Blk}
    (h : Inv Explicit.Idx 8 lo s bs) (w : Nat) (h16 : 16 ≤ ext_bytes w)
    (hs : ¬ s.mem_brk + ext_bytes w > s.mem_max_addr) :
    ∃ r, Explicit.extend_heap s w = some r ∧
      Inv Explicit.Idx 8 lo r.1 (extend_map bs s.mem_brk (ext_bytes w)) ∧
      r.2 = (coalesce_map bs (s.mem_brk, ext_bytes w, 0) []).2.1.1 ∧
      r.1.mem_brk = s.mem_brk + ext_bytes w ∧ r.1.mem_max_addr = s.mem_max_addr := by
  have hX := explicit_index_spec (lo + 8) (lo + 8)
  obtain ⟨a, v, b, e, v2, ha, hv, hb, he, hv2, hpre⟩ :=
    extend_pre hX h (ext_bytes w) h16 (ext_bytes_mod w).1 hs
  have hc := coalesce_inv hX hpre
  refine ⟨_, explicit_extend_heap_at s w hs ha hv hb he hv2, ?_⟩
  rw [explicit_coalesce_eq]
  exact ⟨hc.1, hc.2.1, hc.2.2.1, hc.2.2.2⟩

/-- The function `extend_heap` of `mm-segregate.c` on a well-formed heap. -/
theorem segregate_extend_heap_inv {lo : Nat} {s : State} {bs : List Blk}
    (h : Inv (Segregate.Idx lo) 48 lo s bs) (w : Nat) (h16 : 16 ≤ ext_bytes w)
    (hs : ¬ s.mem_brk + ext_bytes w > s.mem_max_addr) :
    ∃ r, Segregate.extend_heap s w = some r ∧
      Inv (Segregate.Idx lo) 48 lo r.1 (extend_map bs s.mem_brk (ext_bytes w)) ∧
      r.2 = (coalesce_map bs (s.mem_brk, ext_bytes w, 0) []).2.1.1 ∧
      r.1.mem_brk = s.mem_brk + ext_bytes w ∧ r.1.mem_max_addr = s.mem_max_addr := by
  have hlo : lo + 48 < 4294967296 := by
    have h1 : lo + 8 + 48 ≤ s.mem_brk := Lay_le _ _ _ h.lay.2.2.2.2
    have h2 := h.brk_le
    have h3 := h.max_lt
    omega
  have hX := segregate_index_spec lo hlo
  obtain ⟨a, v, b, e, v2, ha, hv, hb, he, hv2, hpre⟩ :=
    extend_pre hX h (ext_bytes w) h16 (ext_bytes_mod w).1 hs
  have hc := coalesce_inv hX hpre
  refine ⟨_, segregate_extend_heap_at s w hs ha hv hb he hv2, ?_⟩
  rw [segregate_coalesce_eq]
  exact ⟨hc.1, hc.2.1, hc.2.2.1, hc.2.2.2⟩

set_option maxHeartbeats 4000000 in
/-- C35 as stated fails for a word count whose byte count overflows 32 bits, and for a word
count below 3.  For `words = 2^30` the code asks the provider for `(2^30 * 4) mod 2^32 = 0`
bytes, not for the least multiple of 8 that is at least `4 * words`: on the heap after
`mm_init` of `mm-explicit.c` the call succeeds without moving the break (8224), and it
overwrites the footer of the last block (the word at 8216, 4112 before the call) with 0.
For `words = 1` on the heap after `mm_init; mm_malloc(4100)`, whose only block is allocated,
the new block has 8 bytes and its two link words are its footer and the new epilogue header:
after the call the last word of the heap holds the link 8224, not `PACK(0, 1)`. -/
theorem extend_heap_fails_outside_bounds :
    ext_bytes 1073741824 = 0 ∧ ¬ (4 * 1073741824 ≤ ext_bytes 1073741824) ∧
    Explicit.fresh_state.mem_brk = 8224 ∧ GET Explicit.fresh_state.mem 8216 = 4112 ∧
    (Explicit.extend_heap Explicit.fresh_state 1073741824).map
      (fun r => (r.1.mem_brk, GET r.1.mem 8216)) = some (8224, 0) ∧
    ((Explicit.mm_malloc Explicit.fresh_state 4100).bind fun r =>
      (Explicit.extend_heap r.1 1).map fun r1 =>
        (heap_walk r.1.mem r.1.mem_brk 100 4112, r1.1.mem_brk,
          GET r1.1.mem (r1.1.mem_brk - 4)))
      = some (some [(4112, 4112, 1)], 8232, 8224) := by
  refine ⟨by decide, by decide, by decide!, by decide!, by decide!, by decide!⟩

/-- C35, amended: in the explicit and in the segregated variant, for a consistent heap with
the blocks `bs` and every word count with `3 <= words <= 2^30 - 2`, `extend_heap(words)`
asks the provider for `ext_bytes words` bytes, the least multiple of 8 that is at least
`4 * words`; it returns `NULL` exactly when the provider refuses (the new break would pass
the limit), and otherwise the break has moved up by that many bytes and the heap is
consistent with the map `extend_map`: the blocks `bs` followed by a new free block of that
size at the old break (whose header is the old epilogue word) and the new epilogue header,
the new block being merged with the last block of `bs` when that block is free; the returned
pointer is the address of the new (or merged) block. -/
theorem extend_heap_spec (lo lo2 : Nat) (s t : State) (bs bs2 : List Blk) (w : Nat)
    (hs : Inv Explicit.Idx 8 lo s bs) (ht : Inv (Segregate.Idx lo2) 48 lo2 t bs2)
    (h3 : 3 ≤ w) (hw : w ≤ 1073741822) :
    (ext_bytes w % 8 = 0 ∧ 4 * w ≤ ext_bytes w ∧ ext_bytes w < 4 * w + 8) ∧
    (Explicit.extend_heap s w = none ↔ s.mem_brk + ext_bytes w > s.mem_max_addr) ∧
    (¬ s.mem_brk + ext_bytes w > s.mem_max_addr →
      ∃ r, Explicit.extend_heap s w = some r ∧
        Inv Explicit.Idx 8 lo r.1 (extend_map bs s.mem_brk (ext_bytes w)) ∧
        r.2 = (coalesce_map bs (s.mem_brk, ext_bytes w, 0) []).2.1.1 ∧
        r.1.mem_brk = s.mem_brk + ext_bytes w) ∧
    (Segregate.extend_heap t w = none ↔ t.mem_brk + ext_bytes w > t.mem_max_addr) ∧
    (¬ t.mem_brk + ext_bytes w > t.mem_max_addr →
      ∃ r, Segregate.extend_heap t w = some r ∧
        Inv (Segregate.Idx lo2) 48 lo2 r.1 (extend_map bs2 t.mem_brk (ext_bytes w)) ∧
        r.2 = (coalesce_map bs2 (t.mem_brk, ext_bytes w, 0) []).2.1.1 ∧
        r.1.mem_brk = t.mem_brk + ext_bytes w) := by
  have hl := ext_bytes_least w hw
  have h16 : 16 ≤ ext_bytes w := by omega
  refine ⟨hl, ?_, ?_, ?_, ?_⟩
  · rw [explicit_extend_heap_none_iff, mem_sbrk_none_iff]
  · intro hroom
    obtain ⟨r, h1, h2, h3, h4, _⟩ := explicit_extend_heap_inv hs w h16 hroom
    exact ⟨r, h1, h2, h3, h4⟩
  · rw [segregate_extend_heap_none_iff, mem_sbrk_none_iff]
  · intro hroom
    obtain ⟨r, h1, h2, h3, h4, _⟩ := segregate_extend_heap_inv ht w h16 hroom
    exact ⟨r, h1, h2, h3, h4⟩

theorem segregate_fresh_Inv :
    Inv (Segregate.Idx 4096) 48 4096 Segregate.fresh_state ([] ++ [(4152, 4096, 0)]) := by
  have hbrk : Segregate.fresh_state.mem_brk = 8248 := by decide!
  have hmax : Segregate.fresh_state.mem_max_addr = 1048576 := by decide!
  refine ⟨?_, ?_, ?_, ?_, List.chain'_singleton _, ?_, ?_, ?_⟩
  · rw [hbrk]
    exact ⟨rfl, by decide, by decide, by decide, rfl, by decide, by decide, by decide, rfl⟩
  · intro b hb
    simp only [List.nil_append, List.mem_cons, List.mem_singleton, List.not_mem_nil,
      or_false] at hb
    rcases hb with h | h
    · rw [h]; exact ⟨by decide!, by decide!⟩
    · rw [h]; exact ⟨by decide!, by decide!⟩
  · rw [hbrk]; decide!
  · intro b hb
    simp only [List.nil_append, List.mem_singleton] at hb
    rw [hb]; decide
  · refine ⟨by decide!, Segregate.fresh_buckets, ?_⟩
    intro k hk
    have hmem : ∀ x, x ∈ Segregate.fresh_buckets k ↔
        ∃ sz, (x, sz) ∈ Frees ([] ++ [((4152, 4096, 0) : Blk)]) ∧
          Segregate.getRank sz = k := by
      intro x
      have hr : Segregate.getRank 4096 = 8 := by decide
      unfold Segregate.fresh_buckets
      constructor
      · intro hx
        by_cases h8 : k = 8
        · rw [if_pos h8] at hx
          rw [List.mem_singleton.1 hx, h8]
          exact ⟨4096, List.mem_singleton.2 rfl, hr⟩
        · rw [if_neg h8] at hx
          cases hx
      · rintro ⟨sz, hsz, hrk⟩
        have h1 : (x, sz, 0) = ((4152, 4096, 0) : Blk) := List.mem_singleton.1 hsz
        obtain ⟨e1, e2⟩ := Prod.mk.inj h1
        rw [(Prod.mk.inj e2).1, hr] at hrk
        rw [if_pos hrk.symm, e1]
        exact List.mem_singleton.2 rfl
    refine ⟨?_, ?_, hmem⟩
    · unfold Segregate.fresh_buckets
      split <;> simp
    · interval_cases k
      · exact (by decide! : Segregate.GET_RANK Segregate.fresh_state 0 = 0)
      · exact (by decide! : Segregate.GET_RANK Segregate.fresh_state 1 = 0)
      · exact (by decide! : Segregate.GET_RANK Segregate.fresh_state 2 = 0)
      · exact (by decide! : Segregate.GET_RANK Segregate.fresh_state 3 = 0)
      · exact (by decide! : Segregate.GET_RANK Segregate.fresh_state 4 = 0)
      · exact (by decide! : Segregate.GET_RANK Segregate.fresh_state 5 = 0)
      · exact (by decide! : Segregate.GET_RANK Segregate.fresh_state 6 = 0)
      · exact (by decide! : Segregate.GET_RANK Segregate.fresh_state 7 = 0)
      · exact ⟨(by decide! : Segregate.GET_RANK Segregate.fresh_state 8 = 4152), by decide,
          (by decide! : NEXT Segregate.fresh_state.mem 4152 = 0)⟩
      · exact (by decide! : Segregate.GET_RANK Segregate.fresh_state 9 = 0)
  · rw [hbrk, hmax]; decide
  · rw [hmax]; decide

/-- Witness of `extend_heap_spec`: `extend_heap(1024)` on the heaps after `mm_init` of the two
variants, whose only block is free; the provider has room, so the call succeeds. -/
theorem extend_heap_spec_witness :
    Inv Explicit.Idx 8 4096 Explicit.fresh_state ([] ++ [(4112, 4112, 0)]) ∧
    Inv (Segregate.Idx 4096) 48 4096 Segregate.fresh_state ([] ++ [(4152, 4096, 0)]) ∧
    ext_bytes 1024 = 4096 ∧
    ∃ r, Explicit.extend_heap Explicit.fresh_state 1024 = some r ∧
      Inv Explicit.Idx 8 4096 r.1 (extend_map ([] ++ [(4112, 4112, 0)])
        Explicit.fresh_state.mem_brk (ext_bytes 1024)) ∧
      r.2 = (coalesce_map ([] ++ [(4112, 4112, 0)])
        (Explicit.fresh_state.mem_brk, ext_bytes 1024, 0) []).2.1.1 ∧
      r.1.mem_brk = Explicit.fresh_state.mem_brk + ext_bytes 1024 :=
  ⟨explicit_fresh_Inv, segregate_fresh_Inv, by decide,
    (extend_heap_spec 4096 4096 Explicit.fresh_state Segregate.fresh_state _ _ 1024
      explicit_fresh_Inv segregate_fresh_Inv (by decide) (by decide)).2.2.1 (by decide!)⟩

end Malloclab
